import Mathlib

/-!
# Texture: the shared-buffer arena (`src/Data`)

A shallow embedding of the atom chain of `src/Data/Atom.{hpp,cpp}`, of the
allocation primitives of `src/Data/Allocation.cpp`, and of the typed handles of
`src/Data/Reference-Host.hpp` and `src/Data/Vector-Host.hpp`.

* The buffer is a finite sequence of bytes.  A pointer into the buffer is the
  byte offset from the buffer's first byte; `base` is the numeric address of that
  first byte and only matters for the pointer alignment tests.
* `uint32_t` values are natural numbers below `2 ^ 32`, stored little-endian;
  arithmetic on them is reduced modulo `2 ^ 32` exactly where the source computes
  in `uint32_t`.  Pointer arithmetic and `size_t` arithmetic are 64 bit wide and
  are taken not to wrap.
* A load or store that is not wholly inside the buffer is undefined behaviour in
  the source; the embedding reports it as `Outcome.fault`.
* `assert` is compiled out (release build); the asserted conditions appear as
  hypotheses of the theorems.
* A type `Type_` enters through `sizeof(Type_)`, a value of the type is the list
  of its bytes, and an iterator is the offset of an element, `none` for `nullptr`.
  A `Reference` or `VectorRef` object is kept apart from the buffer.
* `std::move` and `std::fill_n` on pointers to elements of a trivially copyable type
  are block operations on the bytes; `std::move` acts as `memmove` does.
* A sequence of calls of the allocation functions is a list of `Call`; what the
  source keeps true of a vector handle between calls is `Vector.consistent`.
-/

namespace data

/-! ## Memory -/

/-- The bytes of the buffer, first byte first. -/
abbrev Buffer := List (Fin 256)

/-- What running a piece of the source can end in. -/
inductive Outcome (α : Type) where
  /-- Normal return. -/
  | ok (a : α)
  /-- The source executed `throw false`; `buf` is the buffer at that moment. -/
  | thrown (buf : Buffer)
  /-- A load or store outside the buffer. -/
  | fault
  /-- The iteration budget of a loop was used up. -/
  | diverge
  deriving DecidableEq

namespace Outcome

/-- Sequencing: everything but a normal return is passed on unchanged. -/
def bind {α β : Type} (x : Outcome α) (f : α → Outcome β) : Outcome β :=
  match x with
  | ok a => f a
  | thrown b => thrown b
  | fault => fault
  | diverge => diverge

instance : Monad Outcome where
  pure := ok
  bind := bind

end Outcome

/-- The value of the byte at offset `o` (`0` outside the buffer). -/
def byte (buf : Buffer) (o : Nat) : Nat := (buf.getD o 0).val

/-- The little-endian 32 bit word whose first byte is at offset `o`. -/
def word (buf : Buffer) (o : Nat) : Nat :=
  byte buf o + 256 * byte buf (o + 1) + 65536 * byte buf (o + 2) + 16777216 * byte buf (o + 3)

/-- A `uint32_t` load at offset `o`. -/
def load32 (buf : Buffer) (o : Nat) : Outcome Nat :=
  if o + 4 ≤ buf.length then .ok (word buf o) else .fault

/-- The byte number `k` of the 32 bit value `v`. -/
def byte_of (v k : Nat) : Fin 256 := ⟨v / 256 ^ k % 256, Nat.mod_lt _ (by decide)⟩

/-- The buffer with the little-endian bytes of `v` at offsets `o .. o + 3`. -/
def put32 (buf : Buffer) (o v : Nat) : Buffer :=
  (((buf.set o (byte_of v 0)).set (o + 1) (byte_of v 1)).set (o + 2) (byte_of v 2)).set (o + 3)
    (byte_of v 3)

/-- A `uint32_t` store at offset `o`. -/
def store32 (buf : Buffer) (o v : Nat) : Outcome Buffer :=
  if o + 4 ≤ buf.length then .ok (put32 buf o v) else .fault

/-- The buffer with `n` bytes `0` from offset `o` on. -/
def zero_fill (buf : Buffer) (o n : Nat) : Buffer :=
  buf.take o ++ List.replicate n 0 ++ buf.drop (o + n)

/-- The call `std::memset(p, 0, n)` with `p` at offset `o`. -/
def memset_zero (buf : Buffer) (o n : Nat) : Outcome Buffer :=
  if o + n ≤ buf.length then .ok (zero_fill buf o n) else .fault

/-- Subtraction in `uint32_t`. -/
def sub32 (a b : Nat) : Nat := (a + 2 ^ 32 - b % 2 ^ 32) % 2 ^ 32

/-- Addition in `uint32_t`. -/
def add32 (a b : Nat) : Nat := (a + b) % 2 ^ 32

/-! ## `Layout-Host.hpp` -/

/-- The function `is_aligned(uint32_t)`, also used for `is_aligned(const Type_*)` on the numeric
address: `0 == (x & 0x0f)`. -/
def is_aligned (size_or_offset : Nat) : Bool := (size_or_offset &&& 0x0f) == 0

/-- The function `aligned_size(uint32_t)`: `(actual_size + 0x0f) & ~0x0f` in `uint32_t`. -/
def aligned_size (actual_size : Nat) : Nat := ((actual_size + 0x0f) % 2 ^ 32) &&& 0xfffffff0

/-! ## `Atom.hpp` -/

namespace AtomID

/-- The tag `'data'`. -/
def data : Nat := 0x64617461
/-- The tag `'vctr'`. -/
def vector : Nat := 0x76637472
/-- The tag `'refr'`. -/
def reference : Nat := 0x72656672
/-- The tag `'free'`. -/
def free : Nat := 0x66726565
/-- The tag `'end '`. -/
def end_ : Nat := 0x656e6420

end AtomID

/-- The constant `atom_header_length = sizeof(Atom)`. -/
def atom_header_length : Nat := 16

/-- The constant `min_contents_length = 2 * sizeof(Atom)`. -/
def min_contents_length : Nat := 32

namespace Atom

/-- Load of `atom->length`. -/
def length (buf : Buffer) (atom : Nat) : Outcome Nat := load32 buf atom
/-- Load of `atom->identifier`. -/
def identifier (buf : Buffer) (atom : Nat) : Outcome Nat := load32 buf (atom + 4)
/-- Load of `atom->previous`. -/
def previous (buf : Buffer) (atom : Nat) : Outcome Nat := load32 buf (atom + 8)
/-- Load of `atom->reserved`. -/
def reserved (buf : Buffer) (atom : Nat) : Outcome Nat := load32 buf (atom + 12)

/-- Store to `atom->length`. -/
def set_length (buf : Buffer) (atom v : Nat) : Outcome Buffer := store32 buf atom v
/-- Store to `atom->identifier`. -/
def set_identifier (buf : Buffer) (atom v : Nat) : Outcome Buffer := store32 buf (atom + 4) v
/-- Store to `atom->previous`. -/
def set_previous (buf : Buffer) (atom v : Nat) : Outcome Buffer := store32 buf (atom + 8) v
/-- Store to `atom->reserved`. -/
def set_reserved (buf : Buffer) (atom v : Nat) : Outcome Buffer := store32 buf (atom + 12) v

/-- The assignment `*atom = { length, identifier, previous, 0 }` of a whole header. -/
def assign (buf : Buffer) (atom len id prev : Nat) : Outcome Buffer := do
  let buf ← set_length buf atom len
  let buf ← set_identifier buf atom id
  let buf ← set_previous buf atom prev
  set_reserved buf atom 0

end Atom

/-! ## `Atom.cpp`: validation -/

/-- The function `valid_data`; `base` is the address of the buffer, `data` the offset of the
atom. -/
def valid_data (base : Nat) (buf : Buffer) (data : Nat) : Outcome Bool := do
  if !is_aligned (base + data) then pure false else
  let id ← Atom.identifier buf data
  if AtomID.data ≠ id then pure false else
  let len ← Atom.length buf data
  if !is_aligned len then pure false else
  if len < atom_header_length then pure false else
  let prev ← Atom.previous buf data
  if 0 ≠ prev then pure false else
  pure true

/-- The function `valid_end`. -/
def valid_end (base : Nat) (buf : Buffer) (end_ : Nat) : Outcome Bool := do
  if !is_aligned (base + end_) then pure false else
  let id ← Atom.identifier buf end_
  if AtomID.end_ ≠ id then pure false else
  let len ← Atom.length buf end_
  if atom_header_length ≠ len then pure false else
  let prev ← Atom.previous buf end_
  if !is_aligned prev then pure false else
  pure true

/-- The function `valid_alignment_and_length`. -/
def valid_alignment_and_length (base contents_length : Nat) : Bool :=
  if !is_aligned base || !is_aligned contents_length || contents_length < min_contents_length
  then false else true

/-- The `for` loop of `validate_layout`, from its condition on, followed by the final
`curr != end` test.  `fuel` bounds the number of iterations. -/
def validate_loop (buf : Buffer) (end_ : Nat) :
    Nat → Nat → Nat → Nat → Outcome Bool
  | 0, _, _, _ => .diverge
  | fuel + 1, end_distance, curr, prev =>
    if 0 < end_distance then do
      let len ← Atom.length buf curr
      if !is_aligned len || end_distance < len then pure false else
      let id ← Atom.identifier buf curr
      if id = AtomID.vector ∨ id = AtomID.reference then
        -- no zero-length allocation atoms
        if atom_header_length = len then pure false else
        let plen ← Atom.length buf prev
        let cprev ← Atom.previous buf curr
        if plen ≠ cprev then pure false else
        validate_loop buf end_ fuel (sub32 end_distance len) (curr + len) curr
      else if id = AtomID.free then do
        -- no sequential free atoms
        let pid ← Atom.identifier buf prev
        if AtomID.free = pid then pure false else
        let plen ← Atom.length buf prev
        let cprev ← Atom.previous buf curr
        if plen ≠ cprev then pure false else
        validate_loop buf end_ fuel (sub32 end_distance len) (curr + len) curr
      else
        pure false
    else
      pure (curr == end_)

/-- The function `validate_layout`; `base` is the address `contents`, `buf` the bytes there. -/
def validate_layout (base : Nat) (buf : Buffer) (contents_length : Nat) : Outcome Bool := do
  if !valid_alignment_and_length base contents_length then pure false else
  let data := 0
  let vd ← valid_data base buf data
  if !vd then pure false else
  let end_ := data + sub32 contents_length atom_header_length
  let eid ← Atom.identifier buf end_
  if AtomID.end_ ≠ eid then pure false else
  let elen ← Atom.length buf end_
  if !(atom_header_length == elen) then pure false else
  let dlen ← Atom.length buf data
  let end_distance := sub32 (sub32 contents_length dlen) elen
  validate_loop buf end_ (end_distance + 2) end_distance (data + dlen) data

/-! ## `Atom.cpp`: formatting -/

/-- The function `format`; the result is the offset of the data atom and the buffer after the
call. -/
def format (base : Nat) (buf : Buffer) (buffer_length data_contents_size : Nat) :
    Outcome (Nat × Buffer) :=
  let aligned_data_contents_size := aligned_size data_contents_size
  if !is_aligned base || !is_aligned buffer_length
      || buffer_length < aligned_data_contents_size + 2 * 16 then
    .thrown buf
  else do
    let data := 0
    let buf ← Atom.assign buf data (add32 atom_header_length aligned_data_contents_size)
      AtomID.data 0
    let buf ← if 0 < aligned_data_contents_size then
        memset_zero buf (data + 16) aligned_data_contents_size
      else pure buf
    let end_offset := sub32 buffer_length atom_header_length
    let end_ := data + end_offset
    let dlen ← Atom.length buf data
    if dlen < end_offset then do
      let free := data + dlen
      let buf ← Atom.assign buf free (sub32 (sub32 buffer_length dlen) atom_header_length)
        AtomID.free dlen
      let flen ← Atom.length buf free
      let buf ← Atom.assign buf end_ atom_header_length AtomID.end_ flen
      pure (data, buf)
    else do
      let buf ← Atom.assign buf end_ atom_header_length AtomID.end_ dlen
      pure (data, buf)


/-! ## `Allocation.cpp` -/

/-- The bytes `src .. src + n - 1` copied to `dst .. dst + n - 1`. -/
def copy_bytes (buf : Buffer) (dst src n : Nat) : Buffer :=
  buf.take dst ++ (buf.drop src).take n ++ buf.drop (dst + n)

/-- The call `std::memcpy(dst, src, n)`; overlapping ranges are undefined behaviour. -/
def memcpy (buf : Buffer) (dst src n : Nat) : Outcome Buffer :=
  if dst + n ≤ buf.length ∧ src + n ≤ buf.length ∧ (n = 0 ∨ dst + n ≤ src ∨ src + n ≤ dst) then
    .ok (copy_bytes buf dst src n)
  else .fault

namespace detail

/-- The function `detail::contents_size`. -/
def contents_size (buf : Buffer) (atom : Nat) : Outcome Nat := do
  let len ← Atom.length buf atom
  pure (sub32 len atom_header_length)

/-- The function `detail::get_allocation_length`. -/
def get_allocation_length (requested_contents_size : Nat) : Nat :=
  add32 atom_header_length (aligned_size requested_contents_size)

/-- The function `detail::divide`; the result is the offset of the tail and the buffer after
the call. -/
def divide (buf : Buffer) (atom slice_length identifier : Nat) : Outcome (Nat × Buffer) := do
  let tail := atom + slice_length
  let buf ← Atom.set_identifier buf tail identifier
  let len ← Atom.length buf atom
  let buf ← Atom.set_length buf tail (sub32 len slice_length)
  let buf ← Atom.set_previous buf tail slice_length
  let buf ← Atom.set_reserved buf tail 0
  -- link the next atom backwards to the tail
  let tlen ← Atom.length buf tail
  let buf ← Atom.set_previous buf (tail + tlen) tlen
  -- detach the tail
  let buf ← Atom.set_length buf atom slice_length
  pure (tail, buf)

/-- The function `detail::merge_next`. -/
def merge_next (buf : Buffer) (atom : Nat) : Outcome Buffer := do
  let len ← Atom.length buf atom
  let nlen ← Atom.length buf (atom + len)
  let buf ← Atom.set_length buf atom (add32 len nlen)
  let len ← Atom.length buf atom
  Atom.set_previous buf (atom + len) len

/-- The `for` loop of `detail::reserve_new` from its condition on, with the `throw` that
follows it; `atom` is the loop variable and `fuel` bounds the number of iterations. -/
def reserve_new_loop (allocation_length identifier : Nat) :
    Nat → Buffer → Nat → Outcome (Nat × Buffer)
  | 0, _, _ => .diverge
  | fuel + 1, buf, atom => do
    let id ← Atom.identifier buf atom
    if id = AtomID.end_ then .thrown buf else
    let len ← Atom.length buf atom
    if AtomID.free ≠ id ∨ len < allocation_length then
      reserve_new_loop allocation_length identifier fuel buf (atom + len)
    else do
      let buf ← if allocation_length < len then do
          let r ← divide buf atom allocation_length AtomID.free
          pure r.2
        else pure buf
      let buf ← Atom.set_identifier buf atom identifier
      pure (atom, buf)

/-- The function `detail::reserve_new`.  Every iteration that does not return moves `atom`
forward, or stays on an atom of length `0` for ever; `buf.length + 1` iterations are enough
for every run that ends. -/
def reserve_new (buf : Buffer) (data allocation_length identifier : Nat) :
    Outcome (Nat × Buffer) := do
  let dlen ← Atom.length buf data
  reserve_new_loop allocation_length identifier (buf.length + 1) buf (data + dlen)

/-- The function `detail::reserve(data, requested_contents_size, identifier)`. -/
def reserve (buf : Buffer) (data requested_contents_size identifier : Nat) :
    Outcome (Nat × Buffer) :=
  reserve_new buf data (get_allocation_length requested_contents_size) identifier

/-- The function `detail::free`; the result is the offset of the free atom and the buffer
after the call. -/
def free (buf : Buffer) (dealloc : Nat) : Outcome (Nat × Buffer) := do
  let buf ← Atom.set_identifier buf dealloc AtomID.free
  -- coalesce with the following region
  let len ← Atom.length buf dealloc
  let nid ← Atom.identifier buf (dealloc + len)
  let buf ← if AtomID.free = nid then merge_next buf dealloc else pure buf
  -- coalesce with the preceding region
  let p ← Atom.previous buf dealloc
  if dealloc < p then .fault else
  let prev := dealloc - p
  let pid ← Atom.identifier buf prev
  if AtomID.free = pid then do
    let buf ← merge_next buf prev
    pure (prev, buf)
  else
    pure (dealloc, buf)

/-- The function `detail::reserve(data, curr_alloc, requested_contents_size)`, the resize of
an existing allocation. -/
def reserve_resize (buf : Buffer) (data curr_alloc requested_contents_size : Nat) :
    Outcome (Nat × Buffer) := do
  let allocation_length := get_allocation_length requested_contents_size
  let clen ← Atom.length buf curr_alloc
  if allocation_length = clen then
    pure (curr_alloc, buf)
  else if allocation_length < clen then do
    -- smaller allocation: free the tail
    let r ← divide buf curr_alloc allocation_length AtomID.free
    let free := r.1
    let buf := r.2
    let flen ← Atom.length buf free
    let nid ← Atom.identifier buf (free + flen)
    let buf ← if AtomID.free = nid then merge_next buf free else pure buf
    pure (curr_alloc, buf)
  else do
    -- larger allocation: first try to extend into the following region
    let extend_length := sub32 allocation_length clen
    let extend := curr_alloc + clen
    let eid ← Atom.identifier buf extend
    let fits ← if eid ≠ AtomID.end_ ∧ AtomID.free = eid then do
        let elen ← Atom.length buf extend
        pure (decide (extend_length ≤ elen))
      else pure false
    if fits then do
      let elen ← Atom.length buf extend
      let buf ← if extend_length ≤ elen then do
          let r ← divide buf extend extend_length AtomID.free
          pure r.2
        else pure buf
      -- acquire the free region
      let buf ← merge_next buf curr_alloc
      pure (curr_alloc, buf)
    else do
      -- new full allocation, copy, free the previous allocation
      let cid ← Atom.identifier buf curr_alloc
      let r ← reserve_new buf data allocation_length cid
      let new_alloc := r.1
      let buf := r.2
      let n ← contents_size buf curr_alloc
      let buf ← memcpy buf (new_alloc + 16) (curr_alloc + 16) n
      let r ← free buf curr_alloc
      pure (new_alloc, r.2)

end detail

/-! ## Reading a buffer -/

/-- The buffer with the header `{ len, id, prev, 0 }` at offset `atom`. -/
def put_atom (buf : Buffer) (atom len id prev : Nat) : Buffer :=
  put32 (put32 (put32 (put32 buf atom len) (atom + 4) id) (atom + 8) prev) (atom + 12) 0

/-- The offsets of the atoms reached from `atom` by following the `length` fields, the walk
stopping at the first atom that leaves no room for a header between itself and the end of the
buffer.  `fuel` bounds the number of atoms. -/
def chain (buf : Buffer) (contents_length : Nat) : Nat → Nat → List Nat
  | 0, _ => []
  | fuel + 1, atom =>
    if atom + 16 < contents_length then
      atom :: chain buf contents_length fuel (atom + word buf atom)
    else [atom]

/-- The offsets of the atoms of the buffer, in the order in which `detail::next` visits them
from the first byte of the buffer on. -/
def atoms (buf : Buffer) (contents_length : Nat) : List Nat :=
  chain buf contents_length contents_length 0

/-- What `validate_layout` checks between an atom `a` and the atom `b` after it. -/
def link (buf : Buffer) (e a b : Nat) : Prop :=
  b = a + word buf a ∧ ¬ (word buf (a + 4) = AtomID.free ∧ word buf (b + 4) = AtomID.free) ∧
    (b ≠ e → word buf (b + 8) = word buf a)

/-- What `validate_layout` checks on an atom between the data atom and the end atom. -/
def mid (buf : Buffer) (a : Nat) : Prop :=
  a + 12 ≤ buf.length ∧
  (word buf (a + 4) = AtomID.vector ∨ word buf (a + 4) = AtomID.reference ∨
    word buf (a + 4) = AtomID.free) ∧
  16 ≤ word buf a ∧ word buf a % 16 = 0 ∧
  (word buf (a + 4) = AtomID.vector ∨ word buf (a + 4) = AtomID.reference → word buf a ≠ 16)

/-! ## Sample buffers -/

/-- A 96 byte buffer holding a data atom, a vector atom of length 32, a reference atom of
length 32 and the end atom. -/
def sample_layout : Buffer :=
  put_atom (put_atom (put_atom (put_atom (List.replicate 96 0) 0 16 AtomID.data 0)
    16 32 AtomID.vector 16) 48 32 AtomID.reference 32) 80 16 AtomID.end_ 32

/-- A 32 byte buffer holding a data atom of length 16 and an end atom whose `previous` field
is 48. -/
def sample_end_link : Buffer :=
  put_atom (put_atom (List.replicate 32 0) 0 16 AtomID.data 0) 16 16 AtomID.end_ 48

/-- A 32 byte buffer whose data atom declares the length 32, the whole buffer; the 16 bytes
before the end of the buffer read as an end atom. -/
def sample_long_data : Buffer :=
  put_atom (put_atom (List.replicate 32 0) 0 32 AtomID.data 0) 16 16 AtomID.end_ 0

/-- A 48 byte buffer whose data atom declares the length 64; the 16 bytes before the end of
the buffer read as an end atom. -/
def sample_longer_data : Buffer :=
  put_atom (put_atom (List.replicate 48 0) 0 64 AtomID.data 0) 32 16 AtomID.end_ 0

/-- A 96 byte buffer holding a data atom, a free atom of length 64 and the end atom: what
`format` leaves in a buffer of 96 bytes for data contents of size 0. -/
def sample_free_layout : Buffer :=
  put_atom (put_atom (put_atom (List.replicate 96 0) 0 16 AtomID.data 0)
    16 64 AtomID.free 16) 80 16 AtomID.end_ 64

/-- A 96 byte buffer holding a data atom, a vector atom of length 64 and the end atom. -/
def sample_long_vector : Buffer :=
  put_atom (put_atom (put_atom (List.replicate 96 0) 0 16 AtomID.data 0)
    16 64 AtomID.vector 16) 80 16 AtomID.end_ 64

/-- A 160 byte buffer holding a data atom, a vector atom of length 32, a reference atom of
length 32, a free atom of length 64 and the end atom. -/
def sample_relocate : Buffer :=
  put_atom (put_atom (put_atom (put_atom (put_atom (List.replicate 160 0) 0 16 AtomID.data 0)
    16 32 AtomID.vector 16) 48 32 AtomID.reference 32) 80 64 AtomID.free 32)
    144 16 AtomID.end_ 64

/-! ## Layouts as lists of atoms -/

/-- The sum of the lengths of a list of atoms, each given as `(length, identifier)`. -/
def msum (M : List (Nat × Nat)) : Nat := (M.map Prod.fst).sum

/-- The atoms `(length, identifier)` of `M` lie one after the other in the buffer from offset
`off` on, the first with `previous = pl` and every other one with the length of the atom
before it as `previous`, each with its header inside the buffer. -/
def Tiled (buf : Buffer) : Nat → Nat → List (Nat × Nat) → Prop
  | _, _, [] => True
  | off, pl, x :: rest =>
    off + 12 ≤ buf.length ∧ word buf off = x.1 ∧ word buf (off + 4) = x.2 ∧
      word buf (off + 8) = pl ∧ Tiled buf (off + x.1) x.1 rest

/-- The offsets of atoms of the lengths in `M` that lie one after the other from `off` on. -/
def offsets : Nat → List (Nat × Nat) → List Nat
  | _, [] => []
  | off, x :: rest => off :: offsets (off + x.1) rest

/-- What `validate_layout` asks of the length and the identifier of an atom between the data
atom and the end atom. -/
def tagged (x : Nat × Nat) : Prop :=
  (x.2 = AtomID.vector ∨ x.2 = AtomID.reference ∨ x.2 = AtomID.free) ∧ 16 ≤ x.1 ∧
    x.1 % 16 = 0 ∧ (x.2 = AtomID.vector ∨ x.2 = AtomID.reference → x.1 ≠ 16)

/-- Not both free. -/
def apart (x y : Nat × Nat) : Prop := ¬ (x.2 = AtomID.free ∧ y.2 = AtomID.free)

/-- What `validate_layout` asks of the atoms between the data atom and the end atom. -/
def ValidM (M : List (Nat × Nat)) : Prop := (∀ x ∈ M, tagged x) ∧ List.Chain' apart M

/-- The buffer of `N` bytes holds a data atom of length `D`, then the atoms `M`, then the end
atom. -/
def Layout (buf : Buffer) (N D : Nat) (M : List (Nat × Nat)) : Prop :=
  buf.length = N ∧ N < 2 ^ 32 ∧ N % 16 = 0 ∧ 16 ≤ D ∧ D % 16 = 0 ∧
  word buf 0 = D ∧ word buf 4 = AtomID.data ∧ word buf 8 = 0 ∧
  word buf (N - 16) = 16 ∧ word buf (N - 16 + 4) = AtomID.end_ ∧
  Tiled buf D D M ∧ D + msum M + 16 = N

/-- The length of the last atom of `M`, or `pl` when there is none: the `previous` of an atom
that follows `M`. -/
def last_len (pl : Nat) : List (Nat × Nat) → Nat
  | [] => pl
  | x :: rest => last_len x.1 rest

/-- The `previous` field of the end atom holds the length of the atom before it.  This is
not part of `Layout`: `validate_layout` does not look at the field. -/
def Linked (buf : Buffer) (N D : Nat) (M : List (Nat × Nat)) : Prop :=
  word buf (N - 16 + 8) = last_len D M

/-- What is left of a free atom of length `L` after `A` bytes have been taken. -/
def remainder (A L : Nat) : List (Nat × Nat) :=
  if A < L then [(L - A, AtomID.free)] else []

/-- The length of the first atom of the list if that atom is free (otherwise `0`), and the list
without it. -/
def free_after : List (Nat × Nat) → Nat × List (Nat × Nat)
  | [] => (0, [])
  | x :: rest => if x.2 = AtomID.free then (x.1, rest) else (0, x :: rest)

/-- The length of the last atom of the list if that atom is free (otherwise `0`), and the list
without it. -/
def free_before (M : List (Nat × Nat)) : Nat × List (Nat × Nat) :=
  ((free_after M.reverse).1, (free_after M.reverse).2.reverse)

/-! ## `Layout-Host.hpp`, `Atom.hpp`: sizes and offsets of typed contents -/

/-- The function `aligned_size<Type_>()` for a type with `sizeof(Type_) = size_of`:
`(sizeof(Type_) + 0x0f) & ~0x0f` in `size_t`, cast to `uint32_t`.  (For a type aligned to 16
bytes the source returns `sizeof(Type_)`, then a multiple of 16: the same value.) -/
def aligned_size_of (size_of : Nat) : Nat :=
  (((size_of + 0x0f) % 2 ^ 64) &&& 0xfffffffffffffff0) % 2 ^ 32

namespace detail

/-- The function `detail::distance(root, data)`: the difference of two addresses with
`root ≤ data`, cast to `uint32_t`. -/
def distance (root data : Nat) : Nat := (data - root) % 2 ^ 32

/-- The function `detail::offset_by(base, offset)`. -/
def offset_by (base offset : Nat) : Nat := base + offset

/-- The function `detail::contents<Type_>(atom)`: the address after the header. -/
def contents (atom : Nat) : Nat := atom + atom_header_length

/-- The function `detail::contents_offset(base, atom)`. -/
def contents_offset (base atom : Nat) : Nat := add32 (distance base atom) atom_header_length

end detail

/-- The bytes `o .. o + n - 1` of the buffer: the load of an object of `n` bytes. -/
def load_bytes (buf : Buffer) (o n : Nat) : Outcome (List (Fin 256)) :=
  if o + n ≤ buf.length then .ok ((buf.drop o).take n) else .fault

/-- The buffer with the bytes `bs` from offset `o` on. -/
def put_bytes (buf : Buffer) (o : Nat) (bs : List (Fin 256)) : Buffer :=
  buf.take o ++ bs ++ buf.drop (o + bs.length)

/-- The store of an object with the bytes `bs` at offset `o`. -/
def store_bytes (buf : Buffer) (o : Nat) (bs : List (Fin 256)) : Outcome Buffer :=
  if o + bs.length ≤ buf.length then .ok (put_bytes buf o bs) else .fault

/-- The call `std::move(first, last, d_first)` on pointers to trivially copyable objects, the
three iterators given as offsets.  For such a range the library moves the bytes as one block,
as `memmove` does: the bytes that the range holds before the call are at `d_first`
afterwards, also when `d_first` lies in `[first, last)`. -/
def std_move (buf : Buffer) (first last d_first : Nat) : Outcome Buffer :=
  if last < first then .fault
  else if last ≤ buf.length ∧ d_first + (last - first) ≤ buf.length then
    .ok (copy_bytes buf d_first first (last - first))
  else .fault

/-- The call `std::fill_n(first, count, value)`. -/
def fill_n (buf : Buffer) (first count : Nat) (value : List (Fin 256)) : Outcome Buffer :=
  store_bytes buf first (List.replicate count value).flatten

/-! ## `Reference-Host.hpp` -/

/-- The struct `Reference<Type_>`.  The object is kept apart from the buffer: a store to
`ref.offset` changes no byte of the buffer. -/
structure Reference where
  /-- The field `offset`. -/
  offset : Nat
  deriving DecidableEq

/-- The function `is_null(const Reference<Type_>&)`. -/
def Reference.is_null (ref : Reference) : Bool := 0 == ref.offset

namespace detail

/-- The function `detail::allocation_header(const Reference<Type_>&, Atom*)` for a type with
`sizeof(Type_) = size_of`. -/
def allocation_header (size_of : Nat) (buf : Buffer) (ref : Reference) (data : Nat) :
    Outcome Nat :=
  if !is_aligned ref.offset || ref.offset < 2 * atom_header_length then .thrown buf
  else do
    let allocation_offset := sub32 ref.offset atom_header_length
    let allocation := offset_by data allocation_offset
    let id ← Atom.identifier buf allocation
    if AtomID.reference ≠ id then .thrown buf else do
    let len ← Atom.length buf allocation
    if len < atom_header_length + size_of then .thrown buf
    else pure allocation

end detail

/-- The function `allocate(Reference<Type_>&, Atom*)`; the result is the address of the
contents, the reference after the call and the buffer after the call. -/
def allocate (size_of : Nat) (buf : Buffer) (ref : Reference) (data : Nat) :
    Outcome ((Nat × Reference) × Buffer) := do
  let r ← detail.reserve buf data (aligned_size_of size_of) AtomID.reference
  let refr := r.1
  let contents := detail.contents refr
  pure ((contents, { ref with offset := detail.distance data contents }), r.2)

/-- The function `free(Reference<Type_>&, Atom*)`; the result is the reference and the buffer
after the call.  The function is `noexcept`: the `throw` of `allocation_header` ends the
program. -/
def free (size_of : Nat) (buf : Buffer) (ref : Reference) (data : Nat) :
    Outcome (Reference × Buffer) :=
  if !ref.is_null then do
    let refr ← detail.allocation_header size_of buf ref data
    let r ← detail.free buf refr
    pure ({ ref with offset := 0 }, r.2)
  else pure (ref, buf)

/-! ## `Vector-Host.hpp` -/

/-- The struct `VectorRef<Type_>`.  The object is kept apart from the buffer, as for
`Reference`. -/
structure VectorRef where
  /-- The field `offset`. -/
  offset : Nat
  /-- The field `count`. -/
  count : Nat
  deriving DecidableEq

namespace VectorRef

/-- The function `empty(const VectorRef<Type_>&)`. -/
def empty (ref : VectorRef) : Bool := 0 == ref.count

/-- The function `is_null(const VectorRef<Type_>&)`. -/
def is_null (ref : VectorRef) : Bool := 0 == ref.offset

end VectorRef

namespace detail

/-- The function `detail::allocation_header(const VectorRef<Type_>&, Atom*)` for a type with
`sizeof(Type_) = size_of`. -/
def allocation_header_vector (size_of : Nat) (buf : Buffer) (ref : VectorRef) (data : Nat) :
    Outcome Nat :=
  if !is_aligned ref.offset || ref.offset < 2 * atom_header_length then .thrown buf
  else do
    let allocation_offset := sub32 ref.offset atom_header_length
    let allocation := offset_by data allocation_offset
    let id ← Atom.identifier buf allocation
    if AtomID.vector ≠ id then .thrown buf else do
    let len ← Atom.length buf allocation
    if len < atom_header_length + ref.count * size_of then .thrown buf
    else pure allocation

end detail

/-- The class `Vector<Type_>`: the members `m_ref`, `m_data` and `m_vctr`, the last one
`none` for `nullptr`.  An iterator is the offset of an element, `none` for `nullptr`. -/
structure Vector where
  /-- The member `m_ref`. -/
  m_ref : VectorRef
  /-- The member `m_data`. -/
  m_data : Nat
  /-- The member `m_vctr`. -/
  m_vctr : Option Nat
  deriving DecidableEq

namespace Vector

/-- The constructor `Vector(vector_ref&, Atom*)`. -/
def make (size_of : Nat) (buf : Buffer) (ref : VectorRef) (data : Nat) : Outcome Vector :=
  if !ref.is_null then do
    let vctr ← detail.allocation_header_vector size_of buf ref data
    pure { m_ref := ref, m_data := data, m_vctr := some vctr }
  else if !ref.empty then .thrown buf
  else pure { m_ref := ref, m_data := data, m_vctr := none }

/-- The member function `size`. -/
def size (vec : Vector) : Nat := vec.m_ref.count

/-- The member function `ssize`: the size cast to `int32_t`. -/
def ssize (vec : Vector) : Int :=
  if vec.size < 2 ^ 31 then (vec.size : Int) else (vec.size : Int) - 2 ^ 32

/-- The member function `empty`. -/
def empty (vec : Vector) : Bool := vec.m_ref.empty

/-- The member function `capacity`. -/
def capacity (size_of : Nat) (buf : Buffer) (vec : Vector) : Outcome Nat :=
  match vec.m_vctr with
  | some vctr => do
    let n ← detail.contents_size buf vctr
    pure (n / size_of)
  | none => pure 0

/-- The member function `data`, and `cdata`. -/
def data (vec : Vector) : Option Nat := vec.m_vctr.map detail.contents

/-- The iterator `begin() + index`, and `cbegin() + index`. -/
def iter (size_of : Nat) (vec : Vector) (index : Int) : Option Nat :=
  match vec.data with
  | some d => some (Int.toNat ((d : Int) + index * (size_of : Int)))
  | none => none

/-- The member function `end`, and `cend`: `begin() + size()`. -/
def end_ (size_of : Nat) (vec : Vector) : Option Nat := vec.iter size_of (vec.size : Int)

/-- The load of the element `data()[index]`, as `at(index)` returns it. -/
def at_ (size_of : Nat) (buf : Buffer) (vec : Vector) (index : Nat) :
    Outcome (List (Fin 256)) :=
  match vec.data with
  | some d => load_bytes buf (d + index * size_of) size_of
  | none => .fault

/-- The member function `reserve`; the result is the vector and the buffer after the
call. -/
def reserve (size_of : Nat) (buf : Buffer) (vec : Vector) (capacity : Nat) :
    Outcome (Vector × Buffer) := do
  let cap ← vec.capacity size_of buf
  if capacity ≤ cap then pure (vec, buf) else do
    let contents_size := (size_of * capacity) % 2 ^ 32
    let r ← match vec.m_vctr with
      | none => detail.reserve buf vec.m_data contents_size AtomID.vector
      | some vctr => detail.reserve_resize buf vec.m_data vctr contents_size
    pure ({ vec with
      m_vctr := some r.1
      m_ref := { vec.m_ref with offset := detail.contents_offset vec.m_data r.1 } }, r.2)

/-- The member function `shrink_to_fit`, the two `assert(false)` of its branches left out. -/
def shrink_to_fit (size_of : Nat) (buf : Buffer) (vec : Vector) : Outcome (Vector × Buffer) :=
  match vec.empty, vec.m_vctr with
  | true, some vctr => do
    let r ← detail.free buf vctr
    pure ({ vec with m_vctr := none, m_ref := { vec.m_ref with offset := 0 } }, r.2)
  | _, _ => do
    let cap ← vec.capacity size_of buf
    if vec.size < cap then
      let contents_size := (size_of * vec.m_ref.count) % 2 ^ 32
      match vec.m_vctr with
      | some vctr => do
        let r ← detail.reserve_resize buf vec.m_data vctr contents_size
        pure ({ vec with
          m_vctr := some r.1
          m_ref := { vec.m_ref with offset := detail.contents_offset vec.m_data r.1 } }, r.2)
      | none => .fault
    else pure (vec, buf)

/-- The member function `erase(begin_pos, end_pos)`; the result is the returned iterator, the
vector and the buffer after the call. -/
def erase_range (size_of : Nat) (buf : Buffer) (vec : Vector) (begin_pos end_pos : Option Nat) :
    Outcome ((Option Nat × Vector) × Buffer) :=
  let destIt := begin_pos
  if begin_pos = end_pos then pure ((destIt, vec), buf)
  else
    match begin_pos, end_pos, vec.end_ size_of with
    | some b, some e, some last => do
      let erase_count := ((e - b) / size_of) % 2 ^ 32
      let buf ← if e < last then std_move buf e last b else pure buf
      pure ((destIt,
        { vec with m_ref := { vec.m_ref with count := sub32 vec.m_ref.count erase_count } }),
        buf)
    | _, _, _ => .fault

/-- The member function `erase(pos)`. -/
def erase (size_of : Nat) (buf : Buffer) (vec : Vector) (pos : Option Nat) :
    Outcome ((Option Nat × Vector) × Buffer) :=
  if pos = vec.end_ size_of then pure ((pos, vec), buf)
  else erase_range size_of buf vec pos (pos.map (fun p => p + size_of))

/-- The member function `push_back`; `value` holds the bytes of the element. -/
def push_back (size_of : Nat) (buf : Buffer) (vec : Vector) (value : List (Fin 256)) :
    Outcome (Vector × Buffer) := do
  let cap ← vec.capacity size_of buf
  let r ← if cap < add32 vec.size 1 then
      vec.reserve size_of buf ((add32 vec.size 4) &&& 0xfffffffc)
    else pure (vec, buf)
  let vec := r.1
  let buf := r.2
  match vec.data with
  | some d => do
    let buf ← store_bytes buf (d + vec.m_ref.count * size_of) value
    pure ({ vec with m_ref := { vec.m_ref with count := add32 vec.m_ref.count 1 } }, buf)
  | none => .fault

/-- The member function `prepare_insert`; the result is the returned iterator, the vector and
the buffer after the call. -/
def prepare_insert (size_of : Nat) (buf : Buffer) (vec : Vector) (pos : Option Nat)
    (insert_count : Nat) : Outcome ((Option Nat × Vector) × Buffer) := do
  let insert_offset : Int ← match vec.data, pos with
    | some b, some p => pure (((p : Int) - (b : Int)) / (size_of : Int))
    | none, none => pure 0
    | _, _ => .fault
  let new_count := add32 vec.size insert_count
  let cap ← vec.capacity size_of buf
  let r ← if cap < new_count then vec.reserve size_of buf new_count else pure (vec, buf)
  let vec := r.1
  let buf := r.2
  let destIt := vec.iter size_of insert_offset
  let buf ← if insert_offset < vec.ssize then
      match destIt, vec.end_ size_of with
      | some d, some last => std_move buf d last (d + insert_count * size_of)
      | _, _ => .fault
    else pure buf
  pure ((destIt, { vec with m_ref := { vec.m_ref with count := new_count } }), buf)

/-- The member function `insert(pos, count, value)`; the result is the returned iterator, the
vector and the buffer after the call. -/
def insert (size_of : Nat) (buf : Buffer) (vec : Vector) (pos : Option Nat) (count : Nat)
    (value : List (Fin 256)) : Outcome ((Option Nat × Vector) × Buffer) :=
  if 0 = count then pure ((pos, vec), buf)
  else do
    let r ← vec.prepare_insert size_of buf pos count
    let destIt := r.1.1
    match destIt with
    | some d => do
      let buf ← fill_n r.2 d count value
      pure ((destIt, r.1.2), buf)
    | none => .fault


/-- The member function `clear`. -/
def clear (vec : Vector) : Vector := { vec with m_ref := { vec.m_ref with count := 0 } }

/-- The member function `pop_back`. -/
def pop_back (vec : Vector) : Vector :=
  { vec with m_ref := { vec.m_ref with count := sub32 vec.m_ref.count 1 } }

/-- The member function `assign(begin, end)` for a range outside the buffer that holds the
elements `values`; the result is the vector and the buffer after the call. -/
def assign (size_of : Nat) (buf : Buffer) (vec : Vector) (values : List (List (Fin 256))) :
    Outcome (Vector × Buffer) :=
  if 0 < values.length then do
    let new_count := values.length % 2 ^ 32
    let cap ← vec.capacity size_of buf
    let r ← if cap < new_count then vec.reserve size_of buf new_count else pure (vec, buf)
    let vec := r.1
    let buf := r.2
    match vec.data with
    | some d => do
      let buf ← store_bytes buf d values.flatten
      pure ({ vec with m_ref := { vec.m_ref with count := new_count } }, buf)
    | none => .fault
  else pure (vec.clear, buf)

/-- The invariant of a vector handle: the size is at most the capacity, the offset of the
reference is the contents offset of the backing atom, or 0 without one, and the constructor
on the same `VectorRef` and data atom returns the same handle. -/
def consistent (size_of : Nat) (buf : Buffer) (vec : Vector) : Prop :=
  (∃ cap, vec.capacity size_of buf = .ok cap ∧ vec.size ≤ cap) ∧
  vec.m_ref.offset = (match vec.m_vctr with
    | some o => detail.contents_offset vec.m_data o
    | none => 0) ∧
  Vector.make size_of buf vec.m_ref vec.m_data = .ok vec

end Vector

/-- The four bytes of a `uint32_t` value. -/
def bytes32 (v : Nat) : List (Fin 256) := [byte_of v 0, byte_of v 1, byte_of v 2, byte_of v 3]

/-- A 96 byte buffer holding a data atom, a vector atom of length 32 whose contents are the
`uint32_t` values 1, 2, 3 and four bytes 0, a free atom of length 32 and the end atom. -/
def sample_vector3 : Buffer :=
  put32 (put32 (put32 (put_atom (put_atom (put_atom (put_atom (List.replicate 96 0)
    0 16 AtomID.data 0) 16 32 AtomID.vector 16) 48 32 AtomID.free 32) 80 16 AtomID.end_ 32)
    32 1) 36 2) 40 3

/-- The `Vector<uint32_t>` with 3 elements bound to the vector atom of `sample_vector3`. -/
def sample_vec3 : Vector :=
  { m_ref := { offset := 32, count := 3 }, m_data := 0, m_vctr := some 16 }

/-- The `Vector<uint32_t>` with 4 elements bound to the vector atom of `sample_vector3`. -/
def sample_vec4 : Vector :=
  { m_ref := { offset := 32, count := 4 }, m_data := 0, m_vctr := some 16 }

/-- The `Vector<uint32_t>` with 1 element bound to the vector atom of `sample_long_vector`. -/
def sample_vec1 : Vector :=
  { m_ref := { offset := 32, count := 1 }, m_data := 0, m_vctr := some 16 }

/-- The vector that the constructor makes of a null `VectorRef` without elements. -/
def null_vector : Vector :=
  { m_ref := { offset := 0, count := 0 }, m_data := 0, m_vctr := none }

/-- Consecutive calls of `push_back` on the same vector, one for each value of the list, in
the order of the list. -/
def Vector.push_back_each (size_of : Nat) :
    List (List (Fin 256)) → Vector → Buffer → Outcome (Vector × Buffer)
  | [], vec, buf => pure (vec, buf)
  | value :: rest, vec, buf => do
    let r ← vec.push_back size_of buf value
    Vector.push_back_each size_of rest r.1 r.2

/-! ## What a computation ends with -/

/-- A result that the computation returns satisfies `P`, and a buffer that it throws with
satisfies `T`. -/
def Ends {α : Type} (x : Outcome α) (P : α → Prop) (T : Buffer → Prop) : Prop :=
  (∀ a, x = .ok a → P a) ∧ ∀ b, x = .thrown b → T b

/-- The buffer `b` has the length of `buf` and the bytes of `buf` below the offset `k`. -/
def SameBelow (k : Nat) (buf b : Buffer) : Prop :=
  b.length = buf.length ∧ ∀ j, j < k → byte b j = byte buf j

/-- The vector is bound to the data atom at offset 0 and is either null and empty, or backed
by a vector atom of the buffer that is long enough for its elements: what the constructor
checks, and that the backing allocation is an atom of the layout. -/
def Bound (size_of : Nat) (buf : Buffer) (N : Nat) (vec : Vector) : Prop :=
  vec.m_data = 0 ∧
    ((vec.m_vctr = none ∧ vec.m_ref.offset = 0 ∧ vec.m_ref.count = 0) ∨
      ∃ v, vec.m_vctr = some v ∧ vec.m_ref.offset = v + 16 ∧ v ∈ atoms buf N ∧
        word buf (v + 4) = AtomID.vector ∧ 16 + vec.m_ref.count * size_of ≤ word buf v)

/-! ## Definitions for walks, call sequences and vector handles -/

/-- The `for` loop of `validate_layout` alone, from its condition on.  The result is the list
of the atoms `curr` that the iterations have visited, and the atom `curr` at which the
condition has ended the loop, `none` when the body has returned `false`.  `fuel` bounds
the number of iterations. -/
def validate_walk (buf : Buffer) : Nat → Nat → Nat → Nat → Outcome (List Nat × Option Nat)
  | 0, _, _, _ => .diverge
  | fuel + 1, end_distance, curr, prev =>
    if 0 < end_distance then do
      let len ← Atom.length buf curr
      if !is_aligned len || end_distance < len then pure ([curr], none) else
      let id ← Atom.identifier buf curr
      if id = AtomID.vector ∨ id = AtomID.reference then
        if atom_header_length = len then pure ([curr], none) else
        let plen ← Atom.length buf prev
        let cprev ← Atom.previous buf curr
        if plen ≠ cprev then pure ([curr], none) else do
        let r ← validate_walk buf fuel (sub32 end_distance len) (curr + len) curr
        pure (curr :: r.1, r.2)
      else if id = AtomID.free then do
        let pid ← Atom.identifier buf prev
        if AtomID.free = pid then pure ([curr], none) else
        let plen ← Atom.length buf prev
        let cprev ← Atom.previous buf curr
        if plen ≠ cprev then pure ([curr], none) else do
        let r ← validate_walk buf fuel (sub32 end_distance len) (curr + len) curr
        pure (curr :: r.1, r.2)
      else
        pure ([curr], none)
    else
      pure ([], some curr)

/-- What an iteration of the loop of `validate_layout` asks of the atom `curr` to go on. -/
def passes (buf : Buffer) (d curr prev : Nat) : Prop :=
  word buf curr % 16 = 0 ∧ word buf curr ≤ d ∧
    (((word buf (curr + 4) = AtomID.vector ∨ word buf (curr + 4) = AtomID.reference) ∧
        word buf curr ≠ 16) ∨
      (word buf (curr + 4) = AtomID.free ∧ word buf (prev + 4) ≠ AtomID.free)) ∧
    word buf (curr + 8) = word buf prev

/-- A 128 byte buffer holding a data atom, a vector atom of length 32, a free atom of length
32, a reference atom of length 32 and the end atom. -/
def sample_exact_fit : Buffer :=
  put_atom (put_atom (put_atom (put_atom (put_atom (List.replicate 128 0) 0 16 AtomID.data 0)
    16 32 AtomID.vector 16) 48 32 AtomID.free 32) 80 32 AtomID.reference 32)
    112 16 AtomID.end_ 32

/-- The offsets of the atoms of `M` that are not free, when `M` lies from `off` on. -/
def allocated : Nat → List (Nat × Nat) → List Nat
  | _, [] => []
  | off, x :: rest =>
    if x.2 = AtomID.free then allocated (off + x.1) rest
    else off :: allocated (off + x.1) rest

/-- Consecutive calls of `detail::reserve(data, requested_contents_size, identifier)`, one for
each pair `(requested_contents_size, identifier)` of the list; the result is the list of the
atoms that the calls have returned and the buffer after the last call. -/
def reserve_each : List (Nat × Nat) → Buffer → Outcome (List Nat × Buffer)
  | [], buf => pure ([], buf)
  | q :: rest, buf => do
    let r ← detail.reserve buf 0 q.1 q.2
    let rs ← reserve_each rest r.2
    pure (r.1 :: rs.1, rs.2)

/-- Consecutive calls of `detail::free`, one for each atom of the list. -/
def free_each : List Nat → Buffer → Outcome Buffer
  | [], buf => pure buf
  | d :: rest, buf => do
    let r ← detail.free buf d
    free_each rest r.2

/-- A call of one of the three allocation functions, with the data atom at offset 0. -/
inductive Call where
  /-- The call `detail::reserve(data, requested_contents_size, identifier)`. -/
  | reserve (requested_contents_size identifier : Nat)
  /-- The call `detail::reserve(data, curr_alloc, requested_contents_size)`. -/
  | resize (curr_alloc requested_contents_size : Nat)
  /-- The call `detail::free(dealloc)`. -/
  | free (dealloc : Nat)

/-- The buffer after the call. -/
def Call.run (buf : Buffer) : Call → Outcome Buffer
  | .reserve n id => detail.reserve buf 0 n id >>= fun r => pure r.2
  | .resize v n => detail.reserve_resize buf 0 v n >>= fun r => pure r.2
  | .free d => detail.free buf d >>= fun r => pure r.2

/-- What is asked of a call on the buffer `buf` of `N` bytes: what the assertions of the
function ask (the identifier `vector` or `reference` for a new allocation, a vector atom for a
resize, a vector or reference atom for `detail::free`), a requested size between 1 and
`0xFFFFFFE0`, and for a resize, that it is not one that grows the atom by exactly the length of
a free atom after it. -/
def Call.allowed (buf : Buffer) (N : Nat) : Call → Prop
  | .reserve n id => 1 ≤ n ∧ n ≤ 0xFFFFFFE0 ∧ (id = AtomID.vector ∨ id = AtomID.reference)
  | .resize v n => v ∈ atoms buf N ∧ word buf (v + 4) = AtomID.vector ∧ 1 ≤ n ∧
      n ≤ 0xFFFFFFE0 ∧
      ¬ (word buf (v + word buf v + 4) = AtomID.free ∧
        word buf v < detail.get_allocation_length n ∧
        detail.get_allocation_length n - word buf v = word buf (v + word buf v))
  | .free d => d ∈ atoms buf N ∧
      (word buf (d + 4) = AtomID.vector ∨ word buf (d + 4) = AtomID.reference)

/-- The calls of the list, made one after the other from the buffer `buf` on, are all allowed
and all return, and leave the buffer `buf2`. -/
def Calls (N : Nat) : List Call → Buffer → Buffer → Prop
  | [], buf, buf2 => buf2 = buf
  | c :: rest, buf, buf2 => c.allowed buf N ∧ ∃ b, c.run buf = .ok b ∧ Calls N rest b buf2

/-- How a layout and the `previous` of its end atom stand to an earlier layout and its end
atom: the end atom is linked to a last atom that has grown, or both are as before. -/
def EndLink (buf buf2 : Buffer) (N D : Nat) (M M2 : List (Nat × Nat)) : Prop :=
  (word buf2 (N - 16 + 8) = last_len D M2 ∧ last_len D M < last_len D M2) ∨
    (word buf2 (N - 16 + 8) = word buf (N - 16 + 8) ∧ last_len D M2 = last_len D M)

/-- The atoms after `detail::free` of an atom of length `L` that lies between the atoms `M1`
and the atoms `M2`. -/
def merged (M1 : List (Nat × Nat)) (L : Nat) (M2 : List (Nat × Nat)) : List (Nat × Nat) :=
  (free_before M1).2 ++
    ((free_before M1).1 + (L + (free_after M2).1), AtomID.free) :: (free_after M2).2

/-- The vector is bound to the data atom at offset 0 and to a header at offset `v` that is
tagged `vector`, lies in the buffer with its contents, and has room for `n` elements. -/
def Backed (size_of : Nat) (buf : Buffer) (vec : Vector) (v n : Nat) : Prop :=
  vec.m_data = 0 ∧ vec.m_vctr = some v ∧ vec.m_ref.offset = v + 16 ∧ v % 16 = 0 ∧ 16 ≤ v ∧
    v + word buf v ≤ buf.length ∧ buf.length < 2 ^ 32 ∧ word buf (v + 4) = AtomID.vector ∧
    16 + n * size_of ≤ word buf v

/-- A 240 byte buffer holding a data atom, a free atom of length 48, a reference atom of
length 32, a free atom of length 128 and the end atom. -/
def sample_two_free : Buffer :=
  put_atom (put_atom (put_atom (put_atom (put_atom (List.replicate 240 0) 0 16 AtomID.data 0)
    16 48 AtomID.free 16) 64 32 AtomID.reference 48) 96 128 AtomID.free 32)
    224 16 AtomID.end_ 128

/-! ## Basic facts -/

namespace Outcome

@[simp] theorem ok_bind {α β : Type} (a : α) (f : α → Outcome β) : (Outcome.ok a >>= f) = f a := rfl
@[simp] theorem thrown_bind {α β : Type} (b : Buffer) (f : α → Outcome β) :
    ((Outcome.thrown b : Outcome α) >>= f) = Outcome.thrown b := rfl
@[simp] theorem fault_bind {α β : Type} (f : α → Outcome β) :
    ((Outcome.fault : Outcome α) >>= f) = Outcome.fault := rfl
@[simp] theorem diverge_bind {α β : Type} (f : α → Outcome β) :
    ((Outcome.diverge : Outcome α) >>= f) = Outcome.diverge := rfl
@[simp] theorem pure_eq {α : Type} (a : α) : (pure a : Outcome α) = Outcome.ok a := rfl

end Outcome

theorem is_aligned_iff (x : Nat) : is_aligned x = true ↔ x % 16 = 0 := by
  have h := Nat.and_pow_two_sub_one_eq_mod x 4
  simp only [is_aligned, beq_iff_eq]
  norm_num at h
  rw [h]

theorem land_mask (y : Nat) (hy : y < 2 ^ 32) : y &&& 0xfffffff0 = y / 16 * 16 := by
  have h1 : (y &&& 0xfffffff0) / 2 / 2 / 2 / 2 = y / 16 := by
    simp only [Nat.and_div_two]
    have h := Nat.and_pow_two_sub_one_eq_mod (y / 2 / 2 / 2 / 2) 28
    have e : (0xfffffff0 : Nat) / 2 / 2 / 2 / 2 = 2 ^ 28 - 1 := by decide
    rw [e, h]
    omega
  have h2 : (y &&& 0xfffffff0) % 16 = 0 := by
    have h := Nat.and_pow_two_sub_one_eq_mod (y &&& 0xfffffff0) 4
    norm_num at h
    rw [← h, Nat.and_assoc]
    have e : (0xfffffff0 : Nat) &&& 15 = 0 := by decide
    rw [e]
    simp
  omega

theorem aligned_size_eq (x : Nat) : aligned_size x = (x + 15) % 2 ^ 32 / 16 * 16 := by
  unfold aligned_size
  exact land_mask _ (Nat.mod_lt _ (by decide))

theorem byte_lt (buf : Buffer) (o : Nat) : byte buf o < 256 := (buf.getD o 0).isLt

theorem word_lt (buf : Buffer) (o : Nat) : word buf o < 2 ^ 32 := by
  have h0 := byte_lt buf o
  have h1 := byte_lt buf (o + 1)
  have h2 := byte_lt buf (o + 2)
  have h3 := byte_lt buf (o + 3)
  unfold word
  omega

theorem byte_set (buf : Buffer) (i j : Nat) (b : Fin 256) :
    byte (buf.set i b) j = if i = j ∧ i < buf.length then b.val else byte buf j := by
  unfold byte
  rw [List.getD_eq_getElem?_getD, List.getD_eq_getElem?_getD, List.getElem?_set]
  by_cases h : i = j
  · by_cases h2 : i < buf.length
    · subst h
      simp [h2]
    · subst h
      have : buf[i]? = none := by simp; omega
      simp [h2, this]
  · simp [h]

theorem length_put32 (buf : Buffer) (o v : Nat) : (put32 buf o v).length = buf.length := by
  simp [put32]

theorem byte_put32 (buf : Buffer) (o v j : Nat) (h : o + 4 ≤ buf.length) :
    byte (put32 buf o v) j =
      if j = o then v % 256 else if j = o + 1 then v / 256 % 256
      else if j = o + 2 then v / 65536 % 256 else if j = o + 3 then v / 16777216 % 256
      else byte buf j := by
  simp only [put32, byte_set, List.length_set, byte_of]
  split_ifs <;> first | rfl | omega

theorem word_put32_same (buf : Buffer) (o v : Nat) (h : o + 4 ≤ buf.length) :
    word (put32 buf o v) o = v % 2 ^ 32 := by
  simp only [word, byte_put32 _ _ _ _ h]
  simp
  omega

theorem word_put32_of_disjoint (buf : Buffer) (o v p : Nat) (h : o + 4 ≤ buf.length)
    (hd : p + 4 ≤ o ∨ o + 4 ≤ p) : word (put32 buf o v) p = word buf p := by
  simp only [word, byte_put32 _ _ _ _ h]
  have e0 : ¬ p = o := by omega
  have e1 : ¬ p = o + 1 := by omega
  have e2 : ¬ p = o + 2 := by omega
  have e3 : ¬ p = o + 3 := by omega
  have f0 : ¬ p + 1 = o := by omega
  have f1 : ¬ p + 1 = o + 1 := by omega
  have f2 : ¬ p + 1 = o + 2 := by omega
  have f3 : ¬ p + 1 = o + 3 := by omega
  have g0 : ¬ p + 2 = o := by omega
  have g1 : ¬ p + 2 = o + 1 := by omega
  have g2 : ¬ p + 2 = o + 2 := by omega
  have g3 : ¬ p + 2 = o + 3 := by omega
  have k0 : ¬ p + 3 = o := by omega
  have k1 : ¬ p + 3 = o + 1 := by omega
  have k2 : ¬ p + 3 = o + 2 := by omega
  have k3 : ¬ p + 3 = o + 3 := by omega
  simp only [e0, e1, e2, e3, f0, f1, f2, f3, g0, g1, g2, g3, k0, k1, k2, k3, if_false]


theorem load32_ok (buf : Buffer) (o : Nat) (h : o + 4 ≤ buf.length) :
    load32 buf o = .ok (word buf o) := by
  simp [load32, h]

theorem load32_eq_ok (buf : Buffer) (o v : Nat) :
    load32 buf o = .ok v ↔ o + 4 ≤ buf.length ∧ word buf o = v := by
  unfold load32
  split_ifs with h
  · simp [h]
  · simp [h]

theorem store32_ok (buf : Buffer) (o v : Nat) (h : o + 4 ≤ buf.length) :
    store32 buf o v = .ok (put32 buf o v) := by
  simp [store32, h]

theorem byte_put32_of_outside (buf : Buffer) (o v j : Nat) (h : o + 4 ≤ buf.length)
    (hj : j < o ∨ o + 4 ≤ j) : byte (put32 buf o v) j = byte buf j := by
  rw [byte_put32 _ _ _ _ h]
  have e0 : ¬ j = o := by omega
  have e1 : ¬ j = o + 1 := by omega
  have e2 : ¬ j = o + 2 := by omega
  have e3 : ¬ j = o + 3 := by omega
  simp only [e0, e1, e2, e3, if_false]

theorem length_put_atom (buf : Buffer) (a l i p : Nat) :
    (put_atom buf a l i p).length = buf.length := by
  simp [put_atom, length_put32]

theorem assign_ok (buf : Buffer) (a l i p : Nat) (h : a + 16 ≤ buf.length) :
    Atom.assign buf a l i p = .ok (put_atom buf a l i p) := by
  unfold Atom.assign Atom.set_length Atom.set_identifier Atom.set_previous Atom.set_reserved
  rw [store32_ok _ _ _ (by omega)]
  simp only [Outcome.ok_bind]
  rw [store32_ok _ _ _ (by rw [length_put32]; omega)]
  simp only [Outcome.ok_bind]
  rw [store32_ok _ _ _ (by rw [length_put32, length_put32]; omega)]
  simp only [Outcome.ok_bind]
  rw [store32_ok _ _ _ (by rw [length_put32, length_put32, length_put32]; omega)]
  rfl

theorem word_put_atom_of_disjoint (buf : Buffer) (a l i p q : Nat) (h : a + 16 ≤ buf.length)
    (hd : q + 4 ≤ a ∨ a + 16 ≤ q) : word (put_atom buf a l i p) q = word buf q := by
  unfold put_atom
  rw [word_put32_of_disjoint _ _ _ _ (by simp only [length_put32]; omega) (by omega),
    word_put32_of_disjoint _ _ _ _ (by simp only [length_put32]; omega) (by omega),
    word_put32_of_disjoint _ _ _ _ (by simp only [length_put32]; omega) (by omega),
    word_put32_of_disjoint _ _ _ _ (by omega) (by omega)]

theorem byte_put_atom_of_outside (buf : Buffer) (a l i p j : Nat) (h : a + 16 ≤ buf.length)
    (hj : j < a ∨ a + 16 ≤ j) : byte (put_atom buf a l i p) j = byte buf j := by
  unfold put_atom
  rw [byte_put32_of_outside _ _ _ _ (by simp only [length_put32]; omega) (by omega),
    byte_put32_of_outside _ _ _ _ (by simp only [length_put32]; omega) (by omega),
    byte_put32_of_outside _ _ _ _ (by simp only [length_put32]; omega) (by omega),
    byte_put32_of_outside _ _ _ _ (by omega) (by omega)]

theorem word_put_atom_length (buf : Buffer) (a l i p : Nat) (h : a + 16 ≤ buf.length) :
    word (put_atom buf a l i p) a = l % 2 ^ 32 := by
  unfold put_atom
  rw [word_put32_of_disjoint _ _ _ _ (by simp only [length_put32]; omega) (by omega),
    word_put32_of_disjoint _ _ _ _ (by simp only [length_put32]; omega) (by omega),
    word_put32_of_disjoint _ _ _ _ (by simp only [length_put32]; omega) (by omega),
    word_put32_same _ _ _ (by omega)]

theorem word_put_atom_identifier (buf : Buffer) (a l i p : Nat) (h : a + 16 ≤ buf.length) :
    word (put_atom buf a l i p) (a + 4) = i % 2 ^ 32 := by
  unfold put_atom
  rw [word_put32_of_disjoint _ _ _ _ (by simp only [length_put32]; omega) (by omega),
    word_put32_of_disjoint _ _ _ _ (by simp only [length_put32]; omega) (by omega),
    word_put32_same _ _ _ (by simp only [length_put32]; omega)]

theorem word_put_atom_previous (buf : Buffer) (a l i p : Nat) (h : a + 16 ≤ buf.length) :
    word (put_atom buf a l i p) (a + 8) = p % 2 ^ 32 := by
  unfold put_atom
  rw [word_put32_of_disjoint _ _ _ _ (by simp only [length_put32]; omega) (by omega),
    word_put32_same _ _ _ (by simp only [length_put32]; omega)]

theorem word_put_atom_reserved (buf : Buffer) (a l i p : Nat) (h : a + 16 ≤ buf.length) :
    word (put_atom buf a l i p) (a + 12) = 0 := by
  unfold put_atom
  rw [word_put32_same _ _ _ (by simp only [length_put32]; omega)]
  rfl

theorem length_zero_fill (buf : Buffer) (o n : Nat) (h : o + n ≤ buf.length) :
    (zero_fill buf o n).length = buf.length := by
  simp [zero_fill]
  omega

theorem byte_zero_fill (buf : Buffer) (o n j : Nat) (h : o + n ≤ buf.length) :
    byte (zero_fill buf o n) j = if o ≤ j ∧ j < o + n then 0 else byte buf j := by
  unfold byte zero_fill
  rw [List.getD_eq_getElem?_getD, List.getD_eq_getElem?_getD]
  by_cases h1 : j < o
  · have e : ¬ (o ≤ j ∧ j < o + n) := by omega
    rw [if_neg e, List.append_assoc, List.getElem?_append_left (by simp; omega),
      List.getElem?_take_of_lt h1]
  · by_cases h2 : j < o + n
    · have e : o ≤ j ∧ j < o + n := by omega
      rw [if_pos e, List.getElem?_append_left (by simp; omega),
        List.getElem?_append_right (by simp; omega)]
      simp
    · have e : ¬ (o ≤ j ∧ j < o + n) := by omega
      rw [if_neg e, List.getElem?_append_right (by simp; omega)]
      simp
      have e2 : min o buf.length = o := by omega
      rw [e2]
      have e3 : o + n + (j - (o + n)) = j := by omega
      rw [e3]

theorem word_zero_fill_of_disjoint (buf : Buffer) (o n q : Nat) (h : o + n ≤ buf.length)
    (hd : q + 4 ≤ o ∨ o + n ≤ q) : word (zero_fill buf o n) q = word buf q := by
  unfold word
  rw [byte_zero_fill _ _ _ _ h, byte_zero_fill _ _ _ _ h, byte_zero_fill _ _ _ _ h,
    byte_zero_fill _ _ _ _ h]
  have e0 : ¬ (o ≤ q ∧ q < o + n) := by omega
  have e1 : ¬ (o ≤ q + 1 ∧ q + 1 < o + n) := by omega
  have e2 : ¬ (o ≤ q + 2 ∧ q + 2 < o + n) := by omega
  have e3 : ¬ (o ≤ q + 3 ∧ q + 3 < o + n) := by omega
  simp only [e0, e1, e2, e3, if_false]


theorem format_cond (base N S : Nat) :
    (!is_aligned base || !is_aligned N || decide (N < aligned_size S + 2 * 16)) = true ↔
      ¬ (base % 16 = 0 ∧ N % 16 = 0 ∧ aligned_size S + 32 ≤ N) := by
  have h1 := is_aligned_iff base
  have h2 := is_aligned_iff N
  cases hb : is_aligned base <;> cases hn : is_aligned N <;> simp [hb, hn] at h1 h2 ⊢ <;> omega

theorem aligned_size_mod (S : Nat) : aligned_size S % 16 = 0 := by
  rw [aligned_size_eq]; omega

theorem aligned_size_lt (S : Nat) : aligned_size S < 2 ^ 32 := by
  rw [aligned_size_eq]; omega

theorem sub32_eq (a b : Nat) (h : b ≤ a) (ha : a < 2 ^ 32) : sub32 a b = a - b := by
  unfold sub32
  have : b % 2 ^ 32 = b := Nat.mod_eq_of_lt (by omega)
  rw [this]
  omega

theorem add32_eq (a b : Nat) (h : a + b < 2 ^ 32) : add32 a b = a + b := by
  unfold add32
  exact Nat.mod_eq_of_lt h

theorem zero_fill_zero (buf : Buffer) (o : Nat) : zero_fill buf o 0 = buf := by
  simp [zero_fill]

/-- The part of `format` after the data atom has been written and its contents cleared. -/
theorem format_tail (N A : Nat) (y : Buffer) (hlen : y.length = N) (hN : N < 2 ^ 32)
    (hal : N % 16 = 0) (hA : A % 16 = 0) (hsz : A + 32 ≤ N) (hd : word y 0 = 16 + A) :
    ∃ buf2,
      (do
        let dlen ← Atom.length y 0
        if dlen < sub32 N atom_header_length then do
          let buf ← Atom.assign y (0 + dlen) (sub32 (sub32 N dlen) atom_header_length)
            AtomID.free dlen
          let flen ← Atom.length buf (0 + dlen)
          let buf ← Atom.assign buf (0 + sub32 N atom_header_length) atom_header_length
            AtomID.end_ flen
          pure (0, buf)
        else do
          let buf ← Atom.assign y (0 + sub32 N atom_header_length) atom_header_length
            AtomID.end_ dlen
          pure (0, buf)) = Outcome.ok (0, buf2) ∧
      buf2.length = N ∧
      (∀ i, i < 16 + A → byte buf2 i = byte y i) ∧
      (∀ q, q + 4 ≤ 16 + A → word buf2 q = word y q) ∧
      word buf2 (N - 16) = 16 ∧ word buf2 (N - 16 + 4) = AtomID.end_ ∧
      word buf2 (N - 16 + 8) =
        N - 16 - (16 + A) + (if A + 32 = N then 16 + A else 0) ∧
      (A + 32 < N →
        word buf2 (16 + A) = N - (16 + A) - 16 ∧
        word buf2 (16 + A + 4) = AtomID.free ∧
        word buf2 (16 + A + 8) = 16 + A) := by
  have e1 : sub32 N atom_header_length = N - 16 := sub32_eq _ _ (by unfold atom_header_length; omega) hN
  have e2 : sub32 (sub32 N (16 + A)) atom_header_length = N - (16 + A) - 16 := by
    rw [sub32_eq _ _ (by omega) hN, sub32_eq _ _ (by unfold atom_header_length; omega) (by omega)]
    rfl
  simp only [Atom.length, load32_ok y 0 (by omega), Outcome.ok_bind, hd, e1, e2, Nat.zero_add]
  by_cases hf : A + 32 < N
  · have c : 16 + A < N - 16 := by omega
    rw [if_pos c, assign_ok _ _ _ _ _ (by omega)]
    simp only [Outcome.ok_bind]
    rw [load32_ok _ _ (by rw [length_put_atom]; omega)]
    simp only [Outcome.ok_bind]
    have hfl : word (put_atom y (16 + A) (N - (16 + A) - 16) AtomID.free (16 + A)) (16 + A) =
        N - (16 + A) - 16 := by
      rw [word_put_atom_length _ _ _ _ _ (by omega)]
      exact Nat.mod_eq_of_lt (by omega)
    rw [hfl, assign_ok _ _ _ _ _ (by rw [length_put_atom]; omega)]
    refine ⟨_, rfl, ?_, ?_, ?_, ?_, ?_, ?_, ?_⟩
    · simp [length_put_atom, hlen]
    · intro i hi
      rw [byte_put_atom_of_outside _ _ _ _ _ _ (by rw [length_put_atom]; omega) (by omega),
        byte_put_atom_of_outside _ _ _ _ _ _ (by omega) (by omega)]
    · intro q hq
      rw [word_put_atom_of_disjoint _ _ _ _ _ _ (by rw [length_put_atom]; omega) (by omega),
        word_put_atom_of_disjoint _ _ _ _ _ _ (by omega) (by omega)]
    · rw [word_put_atom_length _ _ _ _ _ (by rw [length_put_atom]; omega)]
      rfl
    · rw [word_put_atom_identifier _ _ _ _ _ (by rw [length_put_atom]; omega)]
      rfl
    · rw [word_put_atom_previous _ _ _ _ _ (by rw [length_put_atom]; omega)]
      have : ¬ A + 32 = N := by omega
      simp only [this, if_false]
      omega
    · intro _
      refine ⟨?_, ?_, ?_⟩
      · rw [word_put_atom_of_disjoint _ (N - 16) _ _ _ (16 + A)
          (by rw [length_put_atom]; omega) (by omega), hfl]
      · rw [word_put_atom_of_disjoint _ (N - 16) _ _ _ (16 + A + 4)
          (by rw [length_put_atom]; omega) (by omega),
          word_put_atom_identifier _ _ _ _ _ (by omega)]
        rfl
      · rw [word_put_atom_of_disjoint _ (N - 16) _ _ _ (16 + A + 8)
          (by rw [length_put_atom]; omega) (by omega),
          word_put_atom_previous _ _ _ _ _ (by omega)]
        exact Nat.mod_eq_of_lt (by omega)
  · have c : ¬ 16 + A < N - 16 := by omega
    have hN2 : A + 32 = N := by omega
    rw [if_neg c, assign_ok _ _ _ _ _ (by omega)]
    refine ⟨_, rfl, ?_, ?_, ?_, ?_, ?_, ?_, ?_⟩
    · simp [length_put_atom, hlen]
    · intro i hi
      rw [byte_put_atom_of_outside _ _ _ _ _ _ (by omega) (by omega)]
    · intro q hq
      rw [word_put_atom_of_disjoint _ _ _ _ _ _ (by omega) (by omega)]
    · rw [word_put_atom_length _ _ _ _ _ (by omega)]
      rfl
    · rw [word_put_atom_identifier _ _ _ _ _ (by omega)]
      rfl
    · rw [word_put_atom_previous _ _ _ _ _ (by omega)]
      simp only [hN2, if_true]
      omega
    · intro h
      omega


theorem format_spec (base N S : Nat) (buf : Buffer) (hlen : buf.length = N) (hN : N < 2 ^ 32)
    (hbase : base % 16 = 0) (hal : N % 16 = 0) (hsz : aligned_size S + 32 ≤ N) :
    ∃ buf2, format base buf N S = .ok (0, buf2) ∧ buf2.length = N ∧
      word buf2 0 = 16 + aligned_size S ∧ word buf2 4 = AtomID.data ∧ word buf2 8 = 0 ∧
      word buf2 12 = 0 ∧
      (∀ i, 16 ≤ i → i < 16 + aligned_size S → byte buf2 i = 0) ∧
      word buf2 (N - 16) = 16 ∧ word buf2 (N - 16 + 4) = AtomID.end_ ∧
      word buf2 (N - 16 + 8) =
        N - 16 - (16 + aligned_size S) + (if aligned_size S + 32 = N then 16 + aligned_size S else 0) ∧
      (aligned_size S + 32 < N →
        word buf2 (16 + aligned_size S) = N - (16 + aligned_size S) - 16 ∧
        word buf2 (16 + aligned_size S + 4) = AtomID.free ∧
        word buf2 (16 + aligned_size S + 8) = 16 + aligned_size S) := by
  have hA := aligned_size_mod S
  have hA2 := aligned_size_lt S
  have hc : ¬ ((!is_aligned base || !is_aligned N || decide (N < aligned_size S + 2 * 16)) = true) := by
    rw [format_cond]; simp; omega
  unfold format
  simp only [hc]
  generalize aligned_size S = A at *
  have ea : add32 atom_header_length A = 16 + A := add32_eq _ _ (by unfold atom_header_length; omega)
  rw [if_neg (by simp), assign_ok _ _ _ _ _ (by omega), ea]
  simp only [Outcome.ok_bind]
  have w0 : word (put_atom buf 0 (16 + A) AtomID.data 0) 0 = 16 + A := by
    rw [word_put_atom_length _ _ _ _ _ (by omega)]
    exact Nat.mod_eq_of_lt (by omega)
  have w4 : word (put_atom buf 0 (16 + A) AtomID.data 0) 4 = AtomID.data := by
    have := word_put_atom_identifier buf 0 (16 + A) AtomID.data 0 (by omega)
    simpa using this
  have w8 : word (put_atom buf 0 (16 + A) AtomID.data 0) 8 = 0 := by
    have := word_put_atom_previous buf 0 (16 + A) AtomID.data 0 (by omega)
    simpa using this
  have w12 : word (put_atom buf 0 (16 + A) AtomID.data 0) 12 = 0 := by
    have := word_put_atom_reserved buf 0 (16 + A) AtomID.data 0 (by omega)
    simpa using this
  by_cases hpos : 0 < A
  · rw [if_pos hpos]
    have hm : memset_zero (put_atom buf 0 (16 + A) AtomID.data 0) (0 + 16) A =
        .ok (zero_fill (put_atom buf 0 (16 + A) AtomID.data 0) 16 A) := by
      unfold memset_zero
      rw [if_pos (by rw [length_put_atom]; omega)]
    rw [hm]
    simp only [Outcome.ok_bind]
    have hl : 16 + A ≤ (put_atom buf 0 (16 + A) AtomID.data 0).length := by
      rw [length_put_atom]; omega
    obtain ⟨buf2, h, h1, h2, h3, h4, h5, h6, h7⟩ := format_tail N A
      (zero_fill (put_atom buf 0 (16 + A) AtomID.data 0) 16 A)
      (by rw [length_zero_fill _ _ _ hl, length_put_atom]; exact hlen) hN hal hA hsz
      (by rw [word_zero_fill_of_disjoint _ _ _ _ hl (by omega)]; exact w0)
    refine ⟨buf2, h, h1, ?_, ?_, ?_, ?_, ?_, h4, h5, h6, h7⟩
    · rw [h3 0 (by omega), word_zero_fill_of_disjoint _ _ _ _ hl (by omega)]; exact w0
    · rw [h3 4 (by omega), word_zero_fill_of_disjoint _ _ _ _ hl (by omega)]; exact w4
    · rw [h3 8 (by omega), word_zero_fill_of_disjoint _ _ _ _ hl (by omega)]; exact w8
    · rw [h3 12 (by omega), word_zero_fill_of_disjoint _ _ _ _ hl (by omega)]; exact w12
    · intro i hi1 hi2
      rw [h2 i hi2, byte_zero_fill _ _ _ _ hl, if_pos (by omega)]
  · rw [if_neg hpos]
    simp only [Outcome.pure_eq, Outcome.ok_bind]
    obtain ⟨buf2, h, h1, h2, h3, h4, h5, h6, h7⟩ := format_tail N A
      (put_atom buf 0 (16 + A) AtomID.data 0)
      (by rw [length_put_atom]; exact hlen) hN hal hA hsz w0
    refine ⟨buf2, h, h1, ?_, ?_, ?_, ?_, ?_, h4, h5, h6, h7⟩
    · rw [h3 0 (by omega)]; exact w0
    · rw [h3 4 (by omega)]; exact w4
    · rw [h3 8 (by omega)]; exact w8
    · rw [h3 12 (by omega)]; exact w12
    · intro i hi1 hi2
      omega


theorem valid_alignment_and_length_iff (base N : Nat) :
    valid_alignment_and_length base N = true ↔ base % 16 = 0 ∧ N % 16 = 0 ∧ 32 ≤ N := by
  have h1 := is_aligned_iff base
  have h2 := is_aligned_iff N
  unfold valid_alignment_and_length min_contents_length
  cases hb : is_aligned base <;> cases hn : is_aligned N <;> simp [hb, hn] at h1 h2 ⊢ <;> omega

theorem is_aligned_of_mod {x : Nat} (h : x % 16 = 0) : is_aligned x = true :=
  (is_aligned_iff x).2 h

theorem validate_loop_zero_distance (buf : Buffer) (e fuel curr prev : Nat) :
    validate_loop buf e (fuel + 1) 0 curr prev = .ok (curr == e) := by
  rw [validate_loop]
  rfl

theorem validate_layout_format_aux (base N A : Nat) (buf2 : Buffer) (hlen : buf2.length = N)
    (hN : N < 2 ^ 32) (hbase : base % 16 = 0) (hal : N % 16 = 0) (hA : A % 16 = 0)
    (hsz : A + 32 ≤ N)
    (w0 : word buf2 0 = 16 + A) (w4 : word buf2 4 = AtomID.data) (w8 : word buf2 8 = 0)
    (e0 : word buf2 (N - 16) = 16) (e4 : word buf2 (N - 16 + 4) = AtomID.end_)
    (hfree : A + 32 < N →
        word buf2 (16 + A) = N - (16 + A) - 16 ∧
        word buf2 (16 + A + 4) = AtomID.free ∧
        word buf2 (16 + A + 8) = 16 + A) :
    validate_layout base buf2 N = .ok true := by
  have hv : valid_alignment_and_length base N = true :=
    (valid_alignment_and_length_iff base N).2 ⟨hbase, hal, by omega⟩
  have hvd : valid_data base buf2 0 = .ok true := by
    unfold valid_data Atom.identifier Atom.length Atom.previous
    rw [load32_ok _ _ (by omega), load32_ok _ _ (by omega), load32_ok _ _ (by omega)]
    simp only [Nat.zero_add, Nat.add_zero, Outcome.ok_bind]
    rw [w0, w4, w8]
    have h16 : ¬ (16 + A < atom_header_length) := by unfold atom_header_length; omega
    simp only [h16, if_false, Bool.not_true, Bool.false_eq_true, ne_eq, not_true_eq_false,
      Outcome.pure_eq, is_aligned_of_mod hbase,
      is_aligned_of_mod (show (16 + A) % 16 = 0 by omega)]
  have e1 : sub32 N atom_header_length = N - 16 :=
    sub32_eq _ _ (by unfold atom_header_length; omega) hN
  have e2 : sub32 (sub32 N (16 + A)) 16 = N - (16 + A) - 16 := by
    rw [sub32_eq _ _ (by omega) hN, sub32_eq _ _ (by omega) (by omega)]
  unfold validate_layout
  simp only [hv, hvd, Outcome.ok_bind, e1, Atom.identifier, Atom.length, Nat.zero_add]
  rw [load32_ok _ _ (by omega), load32_ok _ _ (by omega), load32_ok _ _ (by omega)]
  simp only [Outcome.ok_bind]
  rw [e0, e4, w0, e2]
  simp only [atom_header_length, Bool.not_true, Bool.false_eq_true, if_false, ne_eq,
    not_true_eq_false, beq_self_eq_true]
  by_cases hf : A + 32 < N
  · obtain ⟨f0, f4, f8⟩ := hfree hf
    have hd : N - (16 + A) - 16 + 2 = (N - (16 + A) - 16 + 1) + 1 := rfl
    rw [hd, validate_loop, if_pos (by omega)]
    simp only [Atom.identifier, Atom.length, Atom.previous]
    rw [load32_ok _ _ (by omega), load32_ok _ _ (by omega), load32_ok _ _ (by omega),
      load32_ok _ _ (by omega), load32_ok _ _ (by omega)]
    simp only [Outcome.ok_bind, Nat.zero_add]
    rw [f0, f4, f8, w0, w4]
    have e3 : sub32 (N - (16 + A) - 16) (N - (16 + A) - 16) = 0 := by
      rw [sub32_eq _ _ (le_refl _) (by omega)]; omega
    rw [e3, validate_loop_zero_distance]
    have e4 : 16 + A + (N - (16 + A) - 16) = N - 16 := by omega
    have n1 : ¬ (AtomID.free = AtomID.vector ∨ AtomID.free = AtomID.reference) := by decide
    have n2 : ¬ (AtomID.free = AtomID.data) := by decide
    simp only [e4, n1, n2, if_false, if_true, lt_self_iff_false, decide_False, Bool.or_false,
      is_aligned_of_mod (show (N - (16 + A) - 16) % 16 = 0 by omega), Bool.not_true,
      Bool.false_eq_true, ne_eq, not_true_eq_false, Outcome.pure_eq, beq_self_eq_true]
  · have hd : N - (16 + A) - 16 = 0 := by omega
    rw [hd, validate_loop_zero_distance]
    have e4 : 16 + A = N - 16 := by omega
    simp only [e4, beq_self_eq_true]

theorem bind_eq_ok {α β : Type} (x : Outcome α) (f : α → Outcome β) (r : β) :
    (x >>= f) = .ok r ↔ ∃ a, x = .ok a ∧ f a = .ok r := by
  cases x with
  | ok a => simp
  | thrown b => simp
  | fault => simp
  | diverge => simp

theorem load32_bind_eq_ok {β : Type} (buf : Buffer) (o : Nat) (f : Nat → Outcome β) (r : β) :
    (load32 buf o >>= f) = .ok r ↔ o + 4 ≤ buf.length ∧ f (word buf o) = .ok r := by
  rw [bind_eq_ok]
  constructor
  · rintro ⟨a, h1, h2⟩
    rw [load32_eq_ok] at h1
    obtain ⟨h3, h4⟩ := h1
    subst h4
    exact ⟨h3, h2⟩
  · rintro ⟨h1, h2⟩
    exact ⟨_, load32_ok _ _ h1, h2⟩

/-- One iteration of the loop of `validate_layout` that goes on to the next one. -/
theorem validate_loop_step (buf : Buffer) (e fuel d curr prev : Nat) (hd : 0 < d)
    (h : validate_loop buf e (fuel + 1) d curr prev = .ok true) :
    word buf curr % 16 = 0 ∧ word buf curr ≤ d ∧ curr + 12 ≤ buf.length ∧
    (((word buf (curr + 4) = AtomID.vector ∨ word buf (curr + 4) = AtomID.reference) ∧
        word buf curr ≠ 16) ∨
      (word buf (curr + 4) = AtomID.free ∧ word buf (prev + 4) ≠ AtomID.free)) ∧
    word buf (curr + 8) = word buf prev ∧
    validate_loop buf e fuel (sub32 d (word buf curr)) (curr + word buf curr) curr = .ok true := by
  rw [validate_loop, if_pos hd] at h
  simp only [Atom.length, Atom.identifier, Atom.previous] at h
  rw [load32_bind_eq_ok] at h
  obtain ⟨b1, h⟩ := h
  by_cases c1 : (!is_aligned (word buf curr) || decide (d < word buf curr)) = true
  · rw [if_pos c1] at h
    cases h
  rw [if_neg c1, load32_bind_eq_ok] at h
  obtain ⟨b2, h⟩ := h
  have c1a : word buf curr % 16 = 0 := by
    rw [← is_aligned_iff]
    cases hh : is_aligned (word buf curr)
    · simp [hh] at c1
    · rfl
  have c1b : word buf curr ≤ d := by
    by_contra hh
    apply c1
    simp only [Bool.or_eq_true, decide_eq_true_eq]
    right
    omega
  refine ⟨c1a, c1b, ?_⟩
  by_cases c2 : word buf (curr + 4) = AtomID.vector ∨ word buf (curr + 4) = AtomID.reference
  · rw [if_pos c2] at h
    by_cases c3 : atom_header_length = word buf curr
    · rw [if_pos c3] at h
      cases h
    rw [if_neg c3, load32_bind_eq_ok] at h
    obtain ⟨b3, h⟩ := h
    rw [load32_bind_eq_ok] at h
    obtain ⟨b4, h⟩ := h
    by_cases c4 : word buf prev ≠ word buf (curr + 8)
    · rw [if_pos c4] at h
      cases h
    rw [if_neg c4] at h
    refine ⟨by omega, Or.inl ⟨c2, fun hh => c3 hh.symm⟩, ?_, h⟩
    exact (not_not.1 c4).symm
  · rw [if_neg c2] at h
    by_cases c5 : word buf (curr + 4) = AtomID.free
    · rw [if_pos c5, load32_bind_eq_ok] at h
      obtain ⟨b3, h⟩ := h
      by_cases c6 : AtomID.free = word buf (prev + 4)
      · rw [if_pos c6] at h
        cases h
      rw [if_neg c6, load32_bind_eq_ok] at h
      obtain ⟨b4, h⟩ := h
      rw [load32_bind_eq_ok] at h
      obtain ⟨b5, h⟩ := h
      by_cases c4 : word buf prev ≠ word buf (curr + 8)
      · rw [if_pos c4] at h
        cases h
      rw [if_neg c4] at h
      refine ⟨by omega, Or.inr ⟨c5, fun hh => c6 hh.symm⟩, ?_, h⟩
      exact (not_not.1 c4).symm
    · rw [if_neg c5] at h
      cases h

theorem chain_succ (buf : Buffer) (N k a : Nat) (h : a + 16 < N) :
    chain buf N (k + 1) a = a :: chain buf N k (a + word buf a) := by
  rw [chain, if_pos h]

theorem chain_last (buf : Buffer) (N k a : Nat) (h : ¬ a + 16 < N) :
    chain buf N (k + 1) a = [a] := by
  rw [chain, if_neg h]

theorem validate_loop_chain (buf : Buffer) (e : Nat) (he : word buf (e + 4) = AtomID.end_) :
    ∀ fuel d curr prev, validate_loop buf e fuel d curr prev = .ok true → d < 2 ^ 32 →
      word buf prev ≠ 0 → curr = prev + word buf prev →
      curr + d = e ∧
      ∀ k, d < k →
        List.Chain (link buf e) prev (chain buf (e + 16) k curr) ∧
        (chain buf (e + 16) k curr).getLast? = some e ∧
        ∀ a ∈ chain buf (e + 16) k curr, a ≠ e → mid buf a ∧ a + word buf a ≤ e := by
  intro fuel
  induction fuel with
  | zero =>
    intro d curr prev h
    rw [validate_loop] at h
    cases h
  | succ fuel ih =>
    intro d curr prev h hd hp hc
    by_cases h0 : 0 < d
    · obtain ⟨a1, a2, b1, a3, a4, hrec⟩ := validate_loop_step buf e fuel d curr prev h0 h
      have hid : word buf (curr + 4) ≠ AtomID.end_ := by
        rcases a3 with ⟨h1 | h1, _⟩ | ⟨h1, _⟩ <;> rw [h1] <;> decide
      -- an atom of length `0` is met a second time and rejected
      have hlen : word buf curr ≠ 0 := by
        intro hz
        rw [hz, sub32_eq _ _ (Nat.zero_le _) hd] at hrec
        simp only [Nat.sub_zero, Nat.add_zero] at hrec
        cases fuel with
        | zero => rw [validate_loop] at hrec; cases hrec
        | succ f =>
          obtain ⟨_, _, _, c3, c4, _⟩ := validate_loop_step buf e f d curr curr h0 hrec
          rcases c3 with ⟨_, _⟩ | ⟨c5, c6⟩
          · rw [hz] at c4
            rw [a4] at c4
            exact hp c4
          · exact c6 c5
      have hlen16 : 16 ≤ word buf curr := by omega
      rw [sub32_eq _ _ a2 hd] at hrec
      obtain ⟨i1, i2⟩ := ih (d - word buf curr) (curr + word buf curr) curr hrec (by omega) hlen rfl
      refine ⟨by omega, ?_⟩
      intro k hk
      cases k with
      | zero => omega
      | succ k =>
        obtain ⟨j1, j2, j3⟩ := i2 k (by omega)
        rw [chain_succ _ _ _ _ (by omega)]
        refine ⟨?_, ?_, ?_⟩
        · refine List.Chain.cons ⟨hc, ?_, fun _ => a4⟩ j1
          rintro ⟨f1, f2⟩
          rcases a3 with ⟨h1 | h1, _⟩ | ⟨_, h1⟩
          · rw [h1] at f2; revert f2; decide
          · rw [h1] at f2; revert f2; decide
          · exact h1 f1
        · cases hl : chain buf (e + 16) k (curr + word buf curr) with
          | nil => rw [hl] at j2; cases j2
          | cons x xs => rw [hl] at j2; rw [List.getLast?_cons_cons]; exact j2
        · intro a ha hne
          rcases List.mem_cons.1 ha with rfl | ha
          · refine ⟨⟨b1, ?_, hlen16, a1, ?_⟩, by omega⟩
            · rcases a3 with ⟨h1 | h1, _⟩ | ⟨h1, _⟩
              · exact Or.inl h1
              · exact Or.inr (Or.inl h1)
              · exact Or.inr (Or.inr h1)
            · intro hv
              rcases a3 with ⟨_, h2⟩ | ⟨h1, _⟩
              · exact h2
              · rcases hv with hv | hv
                · rw [h1] at hv; exact absurd hv (by decide)
                · rw [h1] at hv; exact absurd hv (by decide)
          · exact j3 a ha hne
    · have hd0 : d = 0 := by omega
      subst hd0
      rw [validate_loop_zero_distance] at h
      have hce : curr = e := by simpa using h
      subst hce
      refine ⟨rfl, ?_⟩
      intro k hk
      cases k with
      | zero => omega
      | succ k =>
        rw [chain_last _ _ _ _ (by omega)]
        refine ⟨?_, rfl, ?_⟩
        · refine List.Chain.cons ⟨hc, ?_, fun hh => absurd rfl hh⟩ List.Chain.nil
          rintro ⟨_, f2⟩
          rw [he] at f2
          revert f2
          decide
        · intro a ha hne
          simp at ha
          exact absurd ha hne



theorem valid_data_eq_ok_true (base : Nat) (buf : Buffer) (a : Nat)
    (h : valid_data base buf a = .ok true) :
    (base + a) % 16 = 0 ∧ a + 12 ≤ buf.length ∧ word buf (a + 4) = AtomID.data ∧
      word buf a % 16 = 0 ∧ 16 ≤ word buf a ∧ word buf (a + 8) = 0 := by
  unfold valid_data at h
  by_cases c0 : (!is_aligned (base + a)) = true
  · rw [if_pos c0] at h; cases h
  rw [if_neg c0] at h
  simp only [Atom.identifier, Atom.length, Atom.previous] at h
  rw [load32_bind_eq_ok] at h
  obtain ⟨b1, h⟩ := h
  by_cases c1 : AtomID.data ≠ word buf (a + 4)
  · rw [if_pos c1] at h; cases h
  rw [if_neg c1, load32_bind_eq_ok] at h
  obtain ⟨b2, h⟩ := h
  by_cases c2 : (!is_aligned (word buf a)) = true
  · rw [if_pos c2] at h; cases h
  rw [if_neg c2] at h
  by_cases c3 : word buf a < atom_header_length
  · rw [if_pos c3] at h; cases h
  rw [if_neg c3, load32_bind_eq_ok] at h
  obtain ⟨b3, h⟩ := h
  by_cases c4 : 0 ≠ word buf (a + 8)
  · rw [if_pos c4] at h; cases h
  simp only [Bool.not_eq_true', Bool.not_eq_false] at c0 c2
  rw [is_aligned_iff] at c0 c2
  unfold atom_header_length at c3
  exact ⟨c0, by omega, (not_not.1 c1).symm, c2, by omega, (not_not.1 c4).symm⟩

theorem validate_layout_elim (base N : Nat) (buf : Buffer) (hN : N < 2 ^ 32)
    (h : validate_layout base buf N = .ok true) :
    base % 16 = 0 ∧ N % 16 = 0 ∧ 32 ≤ N ∧ 12 ≤ buf.length ∧ N - 8 ≤ buf.length ∧
    word buf 4 = AtomID.data ∧ word buf 0 % 16 = 0 ∧ 16 ≤ word buf 0 ∧ word buf 8 = 0 ∧
    word buf (N - 16 + 4) = AtomID.end_ ∧ word buf (N - 16) = 16 ∧
    validate_loop buf (N - 16) (sub32 (sub32 N (word buf 0)) 16 + 2)
      (sub32 (sub32 N (word buf 0)) 16) (word buf 0) 0 = .ok true := by
  unfold validate_layout at h
  by_cases c0 : (!valid_alignment_and_length base N) = true
  · rw [if_pos c0] at h; cases h
  rw [if_neg c0] at h
  simp only [Bool.not_eq_true', Bool.not_eq_false] at c0
  obtain ⟨v1, v2, v3⟩ := (valid_alignment_and_length_iff base N).1 c0
  simp only [] at h
  rw [bind_eq_ok] at h
  obtain ⟨vd, hvd, h⟩ := h
  cases vd with
  | false => simp only [Bool.not_false, if_true] at h; cases h
  | true =>
    obtain ⟨_, d1, d2, d3, d4, d5⟩ := valid_data_eq_ok_true base buf 0 hvd
    simp only [Bool.not_true, Bool.false_eq_true, if_false, Atom.identifier, Atom.length,
      Nat.zero_add] at h
    rw [sub32_eq _ _ (by unfold atom_header_length; omega) hN, load32_bind_eq_ok] at h
    obtain ⟨b1, h⟩ := h
    by_cases c1 : AtomID.end_ ≠ word buf (N - atom_header_length + 4)
    · rw [if_pos c1] at h; cases h
    rw [if_neg c1, load32_bind_eq_ok] at h
    obtain ⟨b2, h⟩ := h
    by_cases c2 : (!(atom_header_length == word buf (N - atom_header_length))) = true
    · rw [if_pos c2] at h; cases h
    rw [if_neg c2, load32_bind_eq_ok] at h
    obtain ⟨b3, h⟩ := h
    simp only [Bool.not_eq_true', Bool.not_eq_false, beq_iff_eq] at c2
    unfold atom_header_length at c1 c2 h b1
    rw [← c2] at h
    simp only [Nat.zero_add] at d1 d2 d5
    exact ⟨v1, v2, v3, d1, by omega, d2, d3, d4, d5, (not_not.1 c1).symm, c2.symm, h⟩



theorem sub32_lt (a b : Nat) : sub32 a b < 2 ^ 32 := Nat.mod_lt _ (by decide)

theorem validate_layout_structure (base N : Nat) (buf : Buffer) (hN : N < 2 ^ 32)
    (h : validate_layout base buf N = .ok true) :
    word buf 0 + 16 ≤ N ∧ atoms buf N = 0 :: chain buf N (N - 1) (word buf 0) ∧
    List.Chain (link buf (N - 16)) 0 (chain buf N (N - 1) (word buf 0)) ∧
    (chain buf N (N - 1) (word buf 0)).getLast? = some (N - 16) ∧
    ∀ a ∈ chain buf N (N - 1) (word buf 0), a ≠ N - 16 →
      mid buf a ∧ a + word buf a ≤ N - 16 := by
  obtain ⟨v1, v2, v3, b1, b2, d1, d2, d3, d4, e1, e2, hl⟩ := validate_layout_elim base N buf hN h
  obtain ⟨i1, i2⟩ := validate_loop_chain buf (N - 16) e1 _ _ _ _ hl (sub32_lt _ _) (by omega)
    (by omega)
  have hNe : N - 16 + 16 = N := by omega
  rw [hNe] at i2
  obtain ⟨j1, j2, j3⟩ := i2 (N - 1) (by omega)
  refine ⟨by omega, ?_, j1, j2, j3⟩
  unfold atoms
  have hN1 : N = (N - 1) + 1 := by omega
  conv_lhs => rw [hN1]
  rw [chain_succ _ _ _ _ (by omega)]
  simp only [Nat.zero_add]
  rw [← hN1]

/-- In a chain every element but the last one has a successor. -/
theorem exists_next_of_chain {R : Nat → Nat → Prop} :
    ∀ (l : List Nat) (p e : Nat), List.Chain R p l → (p :: l).getLast? = some e →
      ∀ a ∈ p :: l, a ≠ e → ∃ b ∈ l, R a b := by
  intro l
  induction l with
  | nil =>
    intro p e _ hl a ha hne
    simp at hl ha
    omega
  | cons x xs ih =>
    intro p e hc hl a ha hne
    rw [List.chain_cons] at hc
    rcases List.mem_cons.1 ha with rfl | ha
    · exact ⟨x, List.mem_cons_self _ _, hc.1⟩
    · rw [List.getLast?_cons_cons] at hl
      obtain ⟨b, hb, hr⟩ := ih x e hc.2 hl a ha hne
      exact ⟨b, List.mem_cons_of_mem _ hb, hr⟩

/-- The facts about one atom of an accepted layout that is not the end atom. -/
theorem atom_of_valid_layout (base N : Nat) (buf : Buffer) (hN : N < 2 ^ 32)
    (h : validate_layout base buf N = .ok true) (a : Nat) (ha : a ∈ atoms buf N)
    (hne : a ≠ N - 16) :
    16 ≤ word buf a ∧ word buf a % 16 = 0 ∧ a + word buf a ≤ N - 16 ∧
    a + word buf a ∈ atoms buf N ∧
    (a + word buf a ≠ N - 16 → word buf (a + word buf a + 8) = word buf a) := by
  obtain ⟨s1, s2, s3, s4, s5⟩ := validate_layout_structure base N buf hN h
  obtain ⟨v1, v2, v3, b1, b2, d1, d2, d3, d4, e1, e2, hl⟩ := validate_layout_elim base N buf hN h
  rw [s2] at ha ⊢
  have hlast : (0 :: chain buf N (N - 1) (word buf 0)).getLast? = some (N - 16) := by
    cases hc : chain buf N (N - 1) (word buf 0) with
    | nil => rw [hc] at s4; cases s4
    | cons x xs => rw [hc] at s4; rw [List.getLast?_cons_cons]; exact s4
  obtain ⟨b, hb, hr1, hr2, hr3⟩ := exists_next_of_chain _ _ _ s3 hlast a ha hne
  subst hr1
  have hm : 16 ≤ word buf a ∧ word buf a % 16 = 0 ∧ a + word buf a ≤ N - 16 := by
    rcases List.mem_cons.1 ha with rfl | ha
    · exact ⟨d3, d2, by omega⟩
    · obtain ⟨⟨_, _, m1, m2, _⟩, m3⟩ := s5 a ha hne
      exact ⟨m1, m2, m3⟩
  exact ⟨hm.1, hm.2.1, hm.2.2, List.mem_cons_of_mem _ hb, hr3⟩



theorem byte_put32_outside (buf : Buffer) (o v j : Nat) (hj : j < o ∨ o + 4 ≤ j) :
    byte (put32 buf o v) j = byte buf j := by
  simp only [put32, byte_set]
  have e0 : ¬ o = j := by omega
  have e1 : ¬ o + 1 = j := by omega
  have e2 : ¬ o + 2 = j := by omega
  have e3 : ¬ o + 3 = j := by omega
  simp only [e0, e1, e2, e3, false_and, if_false]

theorem word_put32_disjoint (buf : Buffer) (o v p : Nat) (hd : p + 4 ≤ o ∨ o + 4 ≤ p) :
    word (put32 buf o v) p = word buf p := by
  unfold word
  rw [byte_put32_outside _ _ _ _ (by omega), byte_put32_outside _ _ _ _ (by omega),
    byte_put32_outside _ _ _ _ (by omega), byte_put32_outside _ _ _ _ (by omega)]

theorem divide_spec (buf : Buffer) (o s id L : Nat) (hL : word buf o = L) (hs1 : 16 ≤ s)
    (hs2 : s + 16 ≤ L) (hb : o + L + 12 ≤ buf.length) (hid : id < 2 ^ 32) :
    ∃ buf2, detail.divide buf o s id = .ok (o + s, buf2) ∧ buf2.length = buf.length ∧
      word buf2 o = s ∧ word buf2 (o + s) = L - s ∧ word buf2 (o + s + 4) = id ∧
      word buf2 (o + s + 8) = s ∧ word buf2 (o + s + 12) = 0 ∧
      word buf2 (o + L + 8) = L - s ∧
      ∀ j, (j < o ∨ o + 4 ≤ j) → (j < o + s ∨ o + s + 16 ≤ j) →
        (j < o + L + 8 ∨ o + L + 12 ≤ j) → byte buf2 j = byte buf j := by
  have hL32 : L < 2 ^ 32 := by rw [← hL]; exact word_lt _ _
  unfold detail.divide Atom.set_identifier Atom.set_length Atom.set_previous Atom.set_reserved
    Atom.length
  dsimp only
  rw [store32_ok _ _ _ (by omega)]
  simp only [Outcome.ok_bind]
  rw [load32_ok _ _ (by simp only [length_put32]; omega)]
  simp only [Outcome.ok_bind]
  rw [word_put32_disjoint _ _ _ _ (by omega), hL, sub32_eq _ _ (by omega) hL32,
    store32_ok _ _ _ (by simp only [length_put32]; omega)]
  simp only [Outcome.ok_bind]
  rw [store32_ok _ _ _ (by simp only [length_put32]; omega)]
  simp only [Outcome.ok_bind]
  rw [store32_ok _ _ _ (by simp only [length_put32]; omega)]
  simp only [Outcome.ok_bind]
  rw [load32_ok _ _ (by simp only [length_put32]; omega)]
  simp only [Outcome.ok_bind]
  have ht : word (put32 (put32 (put32 (put32 buf (o + s + 4) id) (o + s) (L - s)) (o + s + 8) s)
      (o + s + 12) 0) (o + s) = L - s := by
    rw [word_put32_disjoint _ _ _ _ (by omega), word_put32_disjoint _ _ _ _ (by omega),
      word_put32_same _ _ _ (by simp only [length_put32]; omega)]
    exact Nat.mod_eq_of_lt (by omega)
  rw [ht]
  have hf : o + s + (L - s) + 8 = o + L + 8 := by omega
  rw [hf, store32_ok _ _ _ (by simp only [length_put32]; omega)]
  simp only [Outcome.ok_bind]
  rw [store32_ok _ _ _ (by simp only [length_put32]; omega)]
  refine ⟨_, rfl, ?_, ?_, ?_, ?_, ?_, ?_, ?_, ?_⟩
  · simp only [length_put32]
  · rw [word_put32_same _ _ _ (by simp only [length_put32]; omega)]
    exact Nat.mod_eq_of_lt (by omega)
  · rw [word_put32_disjoint _ _ _ _ (by omega), word_put32_disjoint _ _ _ _ (by omega)]
    exact ht
  · rw [word_put32_disjoint _ _ _ _ (by omega), word_put32_disjoint _ _ _ _ (by omega),
      word_put32_disjoint _ _ _ _ (by omega), word_put32_disjoint _ _ _ _ (by omega),
      word_put32_disjoint _ _ _ _ (by omega),
      word_put32_same _ _ _ (by omega)]
    exact Nat.mod_eq_of_lt hid
  · rw [word_put32_disjoint _ _ _ _ (by omega), word_put32_disjoint _ _ _ _ (by omega),
      word_put32_disjoint _ _ _ _ (by omega),
      word_put32_same _ _ _ (by simp only [length_put32]; omega)]
    exact Nat.mod_eq_of_lt (by omega)
  · rw [word_put32_disjoint _ _ _ _ (by omega), word_put32_disjoint _ _ _ _ (by omega),
      word_put32_same _ _ _ (by simp only [length_put32]; omega)]
    rfl
  · rw [word_put32_disjoint _ _ _ _ (by omega),
      word_put32_same _ _ _ (by simp only [length_put32]; omega)]
    exact Nat.mod_eq_of_lt (by omega)
  · intro j h1 h2 h3
    rw [byte_put32_outside _ _ _ _ (by omega), byte_put32_outside _ _ _ _ (by omega),
      byte_put32_outside _ _ _ _ (by omega), byte_put32_outside _ _ _ _ (by omega),
      byte_put32_outside _ _ _ _ (by omega), byte_put32_outside _ _ _ _ (by omega)]



theorem word_eq_of_bytes (b1 b2 : Buffer) (p : Nat)
    (h : ∀ j, p ≤ j → j < p + 4 → byte b2 j = byte b1 j) : word b2 p = word b1 p := by
  unfold word
  rw [h p (by omega) (by omega), h (p + 1) (by omega) (by omega),
    h (p + 2) (by omega) (by omega), h (p + 3) (by omega) (by omega)]

theorem merge_next_spec (buf : Buffer) (o LA LB : Nat) (hA : word buf o = LA)
    (hB : word buf (o + LA) = LB) (hb : o + LA + LB + 12 ≤ buf.length)
    (h32 : LA + LB < 2 ^ 32) :
    ∃ buf2, detail.merge_next buf o = .ok buf2 ∧ buf2.length = buf.length ∧
      word buf2 o = LA + LB ∧ word buf2 (o + LA + LB + 8) = LA + LB ∧
      ∀ j, (j < o ∨ o + 4 ≤ j) → (j < o + LA + LB + 8 ∨ o + LA + LB + 12 ≤ j) →
        byte buf2 j = byte buf j := by
  unfold detail.merge_next Atom.set_length Atom.set_previous Atom.length
  rw [load32_ok _ _ (by omega)]
  simp only [Outcome.ok_bind]
  rw [hA, load32_ok _ _ (by omega)]
  simp only [Outcome.ok_bind]
  rw [hB, add32_eq _ _ h32, store32_ok _ _ _ (by omega)]
  simp only [Outcome.ok_bind]
  rw [load32_ok _ _ (by simp only [length_put32]; omega)]
  simp only [Outcome.ok_bind]
  have hw : word (put32 buf o (LA + LB)) o = LA + LB := by
    rw [word_put32_same _ _ _ (by omega)]
    exact Nat.mod_eq_of_lt h32
  rw [hw]
  have ho : o + (LA + LB) + 8 = o + LA + LB + 8 := by omega
  rw [ho, store32_ok _ _ _ (by simp only [length_put32]; omega)]
  refine ⟨_, rfl, ?_, ?_, ?_, ?_⟩
  · simp only [length_put32]
  · rw [word_put32_disjoint _ _ _ _ (by omega)]
    exact hw
  · rw [word_put32_same _ _ _ (by simp only [length_put32]; omega)]
    exact Nat.mod_eq_of_lt h32
  · intro j h1 h2
    rw [byte_put32_outside _ _ _ _ (by omega), byte_put32_outside _ _ _ _ (by omega)]


theorem load32_cases (buf : Buffer) (o : Nat) :
    load32 buf o = .fault ∨ (o + 4 ≤ buf.length ∧ load32 buf o = .ok (word buf o)) := by
  unfold load32
  by_cases h : o + 4 ≤ buf.length
  · right; exact ⟨h, by rw [if_pos h]⟩
  · left; rw [if_neg h]

/-- One iteration of the loop of `validate_layout`: it faults, or returns `false`, or goes on
to the next iteration. -/
theorem validate_loop_cases (buf : Buffer) (e fuel d curr prev : Nat) (hd : 0 < d) :
    validate_loop buf e (fuel + 1) d curr prev = .fault ∨
    validate_loop buf e (fuel + 1) d curr prev = .ok false ∨
    (word buf curr % 16 = 0 ∧ word buf curr ≤ d ∧
      (((word buf (curr + 4) = AtomID.vector ∨ word buf (curr + 4) = AtomID.reference)) ∨
        (word buf (curr + 4) = AtomID.free ∧ word buf (prev + 4) ≠ AtomID.free)) ∧
      word buf (curr + 8) = word buf prev ∧
      validate_loop buf e (fuel + 1) d curr prev =
        validate_loop buf e fuel (sub32 d (word buf curr)) (curr + word buf curr) curr) := by
  rw [validate_loop, if_pos hd]
  simp only [Atom.length, Atom.identifier, Atom.previous]
  rcases load32_cases buf curr with h1 | ⟨_, h1⟩
  · left; rw [h1]; rfl
  rw [h1]
  simp only [Outcome.ok_bind]
  by_cases c1 : (!is_aligned (word buf curr) || decide (d < word buf curr)) = true
  · right; left; rw [if_pos c1]; rfl
  rw [if_neg c1]
  have c1a : word buf curr % 16 = 0 := by
    rw [← is_aligned_iff]
    cases hh : is_aligned (word buf curr)
    · simp [hh] at c1
    · rfl
  have c1b : word buf curr ≤ d := by
    by_contra hh
    apply c1
    simp only [Bool.or_eq_true, decide_eq_true_eq]
    right
    omega
  rcases load32_cases buf (curr + 4) with h2 | ⟨_, h2⟩
  · left; rw [h2]; rfl
  rw [h2]
  simp only [Outcome.ok_bind]
  by_cases c2 : word buf (curr + 4) = AtomID.vector ∨ word buf (curr + 4) = AtomID.reference
  · rw [if_pos c2]
    by_cases c3 : atom_header_length = word buf curr
    · right; left; rw [if_pos c3]; rfl
    rw [if_neg c3]
    rcases load32_cases buf prev with h3 | ⟨_, h3⟩
    · left; rw [h3]; rfl
    rw [h3]
    simp only [Outcome.ok_bind]
    rcases load32_cases buf (curr + 8) with h4 | ⟨_, h4⟩
    · left; rw [h4]; rfl
    rw [h4]
    simp only [Outcome.ok_bind]
    by_cases c4 : word buf prev ≠ word buf (curr + 8)
    · right; left; rw [if_pos c4]; rfl
    rw [if_neg c4]
    right; right
    exact ⟨c1a, c1b, Or.inl c2, (not_not.1 c4).symm, rfl⟩
  · rw [if_neg c2]
    by_cases c5 : word buf (curr + 4) = AtomID.free
    · rw [if_pos c5]
      rcases load32_cases buf (prev + 4) with h3 | ⟨_, h3⟩
      · left; rw [h3]; rfl
      rw [h3]
      simp only [Outcome.ok_bind]
      by_cases c6 : AtomID.free = word buf (prev + 4)
      · right; left; rw [if_pos c6]; rfl
      rw [if_neg c6]
      rcases load32_cases buf prev with h4 | ⟨_, h4⟩
      · left; rw [h4]; rfl
      rw [h4]
      simp only [Outcome.ok_bind]
      rcases load32_cases buf (curr + 8) with h5 | ⟨_, h5⟩
      · left; rw [h5]; rfl
      rw [h5]
      simp only [Outcome.ok_bind]
      by_cases c4 : word buf prev ≠ word buf (curr + 8)
      · right; left; rw [if_pos c4]; rfl
      rw [if_neg c4]
      right; right
      exact ⟨c1a, c1b, Or.inr ⟨c5, fun hh => c6 hh.symm⟩, (not_not.1 c4).symm, rfl⟩
    · right; left; rw [if_neg c5]; rfl

/-- The iteration budget of the loop of `validate_layout` is never used up: an iteration that
does not return moves on by at least 16 bytes, or has met an atom of length 0, which the
next iteration rejects. -/
theorem validate_loop_ends (buf : Buffer) (e : Nat) :
    ∀ fuel d curr prev, d + 1 < fuel → d < 2 ^ 32 → word buf prev ≠ 0 →
      validate_loop buf e fuel d curr prev = .fault ∨
        ∃ b, validate_loop buf e fuel d curr prev = .ok b := by
  intro fuel
  induction fuel with
  | zero => intro d curr prev h; omega
  | succ fuel ih =>
    intro d curr prev hf hd hp
    by_cases h0 : 0 < d
    · rcases validate_loop_cases buf e fuel d curr prev h0 with h | h | ⟨a1, a2, a3, a4, h⟩
      · exact Or.inl h
      · exact Or.inr ⟨false, h⟩
      · rw [h, sub32_eq _ _ a2 hd]
        by_cases hz : word buf curr = 0
        · rw [hz]
          simp only [Nat.sub_zero, Nat.add_zero]
          cases fuel with
          | zero => omega
          | succ f =>
            rcases validate_loop_cases buf e f d curr curr h0 with h | h | ⟨_, _, c3, c4, _⟩
            · exact Or.inl h
            · exact Or.inr ⟨false, h⟩
            · exfalso
              rcases c3 with c3 | ⟨c5, c6⟩
              · rw [hz, a4] at c4
                exact hp c4
              · exact c6 c5
        · exact ih _ _ _ (by omega) (by omega) hz
    · have hd0 : d = 0 := by omega
      subst hd0
      right
      exact ⟨_, validate_loop_zero_distance buf e fuel curr prev⟩

theorem valid_data_ends (base : Nat) (buf : Buffer) (a : Nat) :
    valid_data base buf a = .fault ∨ ∃ b, valid_data base buf a = .ok b := by
  unfold valid_data Atom.identifier Atom.length Atom.previous
  by_cases c0 : (!is_aligned (base + a)) = true
  · right; exact ⟨false, by rw [if_pos c0]; rfl⟩
  rw [if_neg c0]
  rcases load32_cases buf (a + 4) with h1 | ⟨_, h1⟩
  · left; rw [h1]; rfl
  rw [h1]
  simp only [Outcome.ok_bind]
  by_cases c1 : AtomID.data ≠ word buf (a + 4)
  · right; exact ⟨false, by rw [if_pos c1]; rfl⟩
  rw [if_neg c1]
  rcases load32_cases buf a with h2 | ⟨_, h2⟩
  · left; rw [h2]; rfl
  rw [h2]
  simp only [Outcome.ok_bind]
  by_cases c2 : (!is_aligned (word buf a)) = true
  · right; exact ⟨false, by rw [if_pos c2]; rfl⟩
  rw [if_neg c2]
  by_cases c3 : word buf a < atom_header_length
  · right; exact ⟨false, by rw [if_pos c3]; rfl⟩
  rw [if_neg c3]
  rcases load32_cases buf (a + 8) with h3 | ⟨_, h3⟩
  · left; rw [h3]; rfl
  rw [h3]
  simp only [Outcome.ok_bind]
  by_cases c4 : 0 ≠ word buf (a + 8)
  · right; exact ⟨false, by rw [if_pos c4]; rfl⟩
  · right; exact ⟨true, by rw [if_neg c4]; rfl⟩

/-- The function `validate_layout` always comes to an end: it returns a boolean or has loaded
from outside the buffer. -/
theorem validate_layout_ends (base N : Nat) (buf : Buffer) :
    validate_layout base buf N = .fault ∨ ∃ b, validate_layout base buf N = .ok b := by
  unfold validate_layout
  by_cases c0 : (!valid_alignment_and_length base N) = true
  · right; exact ⟨false, by rw [if_pos c0]; rfl⟩
  rw [if_neg c0]
  dsimp only
  rcases valid_data_ends base buf 0 with hv | ⟨vd, hv⟩
  · left; rw [hv]; rfl
  cases vd with
  | false => right; exact ⟨false, by rw [hv]; rfl⟩
  | true =>
    obtain ⟨_, _, _, _, d4, _⟩ := valid_data_eq_ok_true base buf 0 hv
    rw [hv]
    simp only [Outcome.ok_bind, Bool.not_true, Bool.false_eq_true, if_false, Atom.identifier,
      Atom.length]
    rcases load32_cases buf (0 + sub32 N atom_header_length + 4) with h1 | ⟨_, h1⟩
    · left; rw [h1]; rfl
    rw [h1]
    simp only [Outcome.ok_bind]
    by_cases c1 : AtomID.end_ ≠ word buf (0 + sub32 N atom_header_length + 4)
    · right; exact ⟨false, by rw [if_pos c1]; rfl⟩
    rw [if_neg c1]
    rcases load32_cases buf (0 + sub32 N atom_header_length) with h2 | ⟨_, h2⟩
    · left; rw [h2]; rfl
    rw [h2]
    simp only [Outcome.ok_bind]
    by_cases c2 : (!(atom_header_length == word buf (0 + sub32 N atom_header_length))) = true
    · right; exact ⟨false, by rw [if_pos c2]; rfl⟩
    rw [if_neg c2]
    rcases load32_cases buf 0 with h3 | ⟨_, h3⟩
    · left; rw [h3]; rfl
    rw [h3]
    simp only [Outcome.ok_bind]
    exact validate_loop_ends buf _ _ _ _ _ (by omega) (sub32_lt _ _) (by omega)



/-- The atoms of a buffer that holds a data atom of length `D`, perhaps one more atom, and
the end atom. -/
theorem atoms_of_format (N D : Nat) (buf : Buffer) (hN : 32 ≤ N)
    (hD2 : D + 16 ≤ N) (w0 : word buf 0 = D)
    (hf : D + 16 < N → word buf D = N - D - 16) :
    atoms buf N = if D + 16 < N then [0, D, N - 16] else [0, N - 16] := by
  have key : ∀ f, chain buf N (f + 3) 0 = if D + 16 < N then [0, D, N - 16] else [0, N - 16] := by
    intro f
    rw [chain_succ _ _ _ _ (by omega), Nat.zero_add, w0]
    by_cases h : D + 16 < N
    · rw [if_pos h, chain_succ _ _ _ _ h, hf h, chain_last _ _ _ _ (by omega)]
      have : D + (N - D - 16) = N - 16 := by omega
      rw [this]
    · rw [if_neg h, chain_last _ _ _ _ h]
      have : D = N - 16 := by omega
      rw [this]
  unfold atoms
  have hN3 : N - 3 + 3 = N := by omega
  have h := key (N - 3)
  rw [hN3] at h
  exact h

/-! ## The claims -/

/-- C1: on a 16-byte-aligned buffer of `N` bytes, `N` a multiple of 16 with
`N ≥ aligned_size S + 32`, `format` returns normally and `validate_layout` then returns
`true` on the formatted buffer. -/
theorem validate_layout_after_format (base N S : Nat) (buf : Buffer) (hlen : buf.length = N)
    (hN : N < 2 ^ 32) (hbase : base % 16 = 0) (hal : N % 16 = 0)
    (hsz : aligned_size S + 32 ≤ N) :
    ∃ buf2, format base buf N S = .ok (0, buf2) ∧ validate_layout base buf2 N = .ok true := by
  obtain ⟨buf2, h, h1, w0, w4, w8, _, _, e0, e4, _, hf⟩ :=
    format_spec base N S buf hlen hN hbase hal hsz
  exact ⟨buf2, h, validate_layout_format_aux base N (aligned_size S) buf2 h1 hN hbase hal
    (aligned_size_mod S) hsz w0 w4 w8 e0 e4 hf⟩

theorem validate_layout_after_format_witness :
    (List.replicate 64 (0 : Fin 256)).length = 64 ∧ 64 < 2 ^ 32 ∧ 0 % 16 = 0 ∧ 64 % 16 = 0 ∧
      aligned_size 17 + 32 ≤ 64 ∧
      ∃ buf2, format 0 (List.replicate 64 0) 64 17 = .ok (0, buf2) ∧
        validate_layout 0 buf2 64 = .ok true :=
  ⟨by decide, by decide, by decide, by decide, by decide,
    validate_layout_after_format 0 64 17 (List.replicate 64 0) (by decide) (by decide)
      (by decide) (by decide) (by decide)⟩

/-- C3: for an accepted input `format` writes the data atom
`{16 + aligned_size S, data, 0, 0}` at offset 0 with all its content bytes zero; when
`N > aligned_size S + 32` the free atom `{N - data.length - 16, free, data.length}` right
after it and the end atom `{16, end, free.length}` at offset `N - 16`; when
`N = aligned_size S + 32` the end atom `{16, end, data.length}` right after the data atom and
no free atom.  These are all the atoms of the buffer. -/
theorem format_writes (base N S : Nat) (buf : Buffer) (hlen : buf.length = N)
    (hN : N < 2 ^ 32) (hbase : base % 16 = 0) (hal : N % 16 = 0)
    (hsz : aligned_size S + 32 ≤ N) :
    ∃ buf2, format base buf N S = .ok (0, buf2) ∧
      Atom.length buf2 0 = .ok (16 + aligned_size S) ∧
      Atom.identifier buf2 0 = .ok AtomID.data ∧
      Atom.previous buf2 0 = .ok 0 ∧ Atom.reserved buf2 0 = .ok 0 ∧
      (∀ i, 16 ≤ i → i < 16 + aligned_size S → byte buf2 i = 0) ∧
      (aligned_size S + 32 < N →
        Atom.length buf2 (16 + aligned_size S) = .ok (N - (16 + aligned_size S) - 16) ∧
        Atom.identifier buf2 (16 + aligned_size S) = .ok AtomID.free ∧
        Atom.previous buf2 (16 + aligned_size S) = .ok (16 + aligned_size S) ∧
        Atom.length buf2 (N - 16) = .ok 16 ∧
        Atom.identifier buf2 (N - 16) = .ok AtomID.end_ ∧
        Atom.previous buf2 (N - 16) = .ok (N - (16 + aligned_size S) - 16) ∧
        atoms buf2 N = [0, 16 + aligned_size S, N - 16]) ∧
      (N = aligned_size S + 32 →
        Atom.length buf2 (16 + aligned_size S) = .ok 16 ∧
        Atom.identifier buf2 (16 + aligned_size S) = .ok AtomID.end_ ∧
        Atom.previous buf2 (16 + aligned_size S) = .ok (16 + aligned_size S) ∧
        atoms buf2 N = [0, 16 + aligned_size S]) := by
  obtain ⟨buf2, h, h1, w0, w4, w8, w12, hz, e0, e4, e8, hf⟩ :=
    format_spec base N S buf hlen hN hbase hal hsz
  have hat := atoms_of_format N (16 + aligned_size S) buf2 (by omega) (by omega) w0
    (fun hh => (hf (by omega)).1)
  refine ⟨buf2, h, ?_, ?_, ?_, ?_, hz, ?_, ?_⟩
  · unfold Atom.length; rw [load32_ok _ _ (by omega), w0]
  · unfold Atom.identifier; rw [load32_ok _ _ (by omega), w4]
  · unfold Atom.previous; rw [load32_ok _ _ (by omega), w8]
  · unfold Atom.reserved; rw [load32_ok _ _ (by omega), w12]
  · intro hlt
    obtain ⟨f0, f4, f8⟩ := hf hlt
    have hne : ¬ aligned_size S + 32 = N := by omega
    rw [if_neg hne] at e8
    rw [if_pos (by omega)] at hat
    unfold Atom.length Atom.identifier Atom.previous
    rw [load32_ok _ _ (by omega), load32_ok _ _ (by omega), load32_ok _ _ (by omega),
      load32_ok _ _ (by omega), load32_ok _ _ (by omega), load32_ok _ _ (by omega),
      f0, f4, f8, e0, e4, e8]
    refine ⟨rfl, rfl, rfl, rfl, rfl, ?_, hat⟩
    congr 1
    omega
  · intro heq
    rw [if_pos heq.symm] at e8
    rw [if_neg (by omega)] at hat
    have hoff : 16 + aligned_size S = N - 16 := by omega
    unfold Atom.length Atom.identifier Atom.previous
    rw [hoff, load32_ok _ _ (by omega), load32_ok _ _ (by omega), load32_ok _ _ (by omega),
      e0, e4, e8]
    refine ⟨rfl, rfl, ?_, hat⟩
    congr 1
    omega

theorem format_writes_witness :
    (List.replicate 96 (0 : Fin 256)).length = 96 ∧ 96 < 2 ^ 32 ∧ 0 % 16 = 0 ∧ 96 % 16 = 0 ∧
      aligned_size 17 + 32 ≤ 96 ∧
      ∃ buf2, format 0 (List.replicate 96 0) 96 17 = .ok (0, buf2) ∧
        Atom.length buf2 0 = .ok (16 + aligned_size 17) ∧
        Atom.identifier buf2 0 = .ok AtomID.data ∧
        Atom.previous buf2 0 = .ok 0 ∧ Atom.reserved buf2 0 = .ok 0 ∧
        (∀ i, 16 ≤ i → i < 16 + aligned_size 17 → byte buf2 i = 0) ∧
        (aligned_size 17 + 32 < 96 →
          Atom.length buf2 (16 + aligned_size 17) = .ok (96 - (16 + aligned_size 17) - 16) ∧
          Atom.identifier buf2 (16 + aligned_size 17) = .ok AtomID.free ∧
          Atom.previous buf2 (16 + aligned_size 17) = .ok (16 + aligned_size 17) ∧
          Atom.length buf2 (96 - 16) = .ok 16 ∧
          Atom.identifier buf2 (96 - 16) = .ok AtomID.end_ ∧
          Atom.previous buf2 (96 - 16) = .ok (96 - (16 + aligned_size 17) - 16) ∧
          atoms buf2 96 = [0, 16 + aligned_size 17, 96 - 16]) ∧
        (96 = aligned_size 17 + 32 →
          Atom.length buf2 (16 + aligned_size 17) = .ok 16 ∧
          Atom.identifier buf2 (16 + aligned_size 17) = .ok AtomID.end_ ∧
          Atom.previous buf2 (16 + aligned_size 17) = .ok (16 + aligned_size 17) ∧
          atoms buf2 96 = [0, 16 + aligned_size 17]) :=
  ⟨by decide, by decide, by decide, by decide, by decide,
    format_writes 0 96 17 (List.replicate 96 0) (by decide) (by decide) (by decide)
      (by decide) (by decide)⟩

/-- C4: `format` throws exactly when the buffer address is not 16-byte aligned, or
`buffer_length` is not a multiple of 16, or `buffer_length < aligned_size S + 32`; the buffer
at the throw is the buffer it was given, and in every other case `format` returns normally. -/
theorem format_throws_iff (base N S : Nat) (buf : Buffer) (hlen : buf.length = N)
    (hN : N < 2 ^ 32) :
    (¬ (base % 16 = 0 ∧ N % 16 = 0 ∧ aligned_size S + 32 ≤ N) →
      format base buf N S = .thrown buf) ∧
    (base % 16 = 0 ∧ N % 16 = 0 ∧ aligned_size S + 32 ≤ N →
      ∃ buf2, format base buf N S = .ok (0, buf2)) := by
  constructor
  · intro hc
    unfold format
    rw [← format_cond] at hc
    dsimp only
    rw [if_pos hc]
  · rintro ⟨h1, h2, h3⟩
    obtain ⟨buf2, h, _⟩ := format_spec base N S buf hlen hN h1 h2 h3
    exact ⟨buf2, h⟩

theorem format_throws_iff_witness :
    (List.replicate 32 (0 : Fin 256)).length = 32 ∧ 32 < 2 ^ 32 ∧
      ¬ (0 % 16 = 0 ∧ 32 % 16 = 0 ∧ aligned_size 17 + 32 ≤ 32) ∧
      format 0 (List.replicate 32 0) 32 17 = .thrown (List.replicate 32 0) ∧
      (List.replicate 64 (0 : Fin 256)).length = 64 ∧ 64 < 2 ^ 32 ∧
      (0 % 16 = 0 ∧ 64 % 16 = 0 ∧ aligned_size 17 + 32 ≤ 64) ∧
      ∃ buf2, format 0 (List.replicate 64 0) 64 17 = .ok (0, buf2) :=
  ⟨by decide, by decide, by decide,
    (format_throws_iff 0 32 17 (List.replicate 32 0) (by decide) (by decide)).1 (by decide),
    by decide, by decide, by decide,
    (format_throws_iff 0 64 17 (List.replicate 64 0) (by decide) (by decide)).2 (by decide)⟩

/-- Lengths of abutting atoms add up to the distance from the first to the end of the
last. -/
theorem sum_of_abutting (len : Nat → Nat) :
    ∀ (l : List Nat) (p t : Nat), List.Chain (fun a b => b = a + len a) p l →
      (p :: l).getLast? = some t → p + ((p :: l).map len).sum = t + len t := by
  intro l
  induction l with
  | nil =>
    intro p t _ hl
    simp at hl
    subst hl
    simp
  | cons x xs ih =>
    intro p t hc hl
    rw [List.chain_cons] at hc
    rw [List.getLast?_cons_cons] at hl
    have := ih x t hc.2 hl
    simp only [List.map_cons, List.sum_cons] at this ⊢
    omega

/-- C5: when `validate_layout` returns `true`, the atoms reached from offset 0 by following the
`length` fields (the word at the atom's offset) start with a data atom whose `previous` is 0
and finish with an end atom of length 16 at offset `N - 16`, abut one another with positive
lengths that add up to `N`, and between the first and the last every atom is tagged vector,
reference or free (the word at offset 4 of the atom), has a length that is a multiple of 16,
is not a vector or reference of length 16, and no two successive atoms are both free. -/
theorem validate_layout_tiles (base N : Nat) (buf : Buffer) (hN : N < 2 ^ 32)
    (h : validate_layout base buf N = .ok true) :
    (atoms buf N).head? = some 0 ∧ (atoms buf N).getLast? = some (N - 16) ∧
    Atom.identifier buf 0 = .ok AtomID.data ∧ Atom.previous buf 0 = .ok 0 ∧
    Atom.identifier buf (N - 16) = .ok AtomID.end_ ∧ Atom.length buf (N - 16) = .ok 16 ∧
    List.Chain' (fun a b => b = a + word buf a) (atoms buf N) ∧
    (∀ a ∈ atoms buf N, 0 < word buf a) ∧
    ((atoms buf N).map (word buf)).sum = N ∧
    (∀ a ∈ atoms buf N, a ≠ 0 → a ≠ N - 16 →
      (word buf (a + 4) = AtomID.vector ∨ word buf (a + 4) = AtomID.reference ∨
        word buf (a + 4) = AtomID.free) ∧
      word buf a % 16 = 0 ∧
      (word buf (a + 4) = AtomID.vector ∨ word buf (a + 4) = AtomID.reference →
        word buf a ≠ 16)) ∧
    List.Chain' (fun a b => ¬ (word buf (a + 4) = AtomID.free ∧ word buf (b + 4) = AtomID.free))
      (atoms buf N) := by
  obtain ⟨s1, s2, s3, s4, s5⟩ := validate_layout_structure base N buf hN h
  obtain ⟨v1, v2, v3, b1, b2, d1, d2, d3, d4, e1, e2, hl⟩ := validate_layout_elim base N buf hN h
  have hlast : (0 :: chain buf N (N - 1) (word buf 0)).getLast? = some (N - 16) := by
    cases hc : chain buf N (N - 1) (word buf 0) with
    | nil => rw [hc] at s4; cases s4
    | cons x xs => rw [hc] at s4; rw [List.getLast?_cons_cons]; exact s4
  have habut : List.Chain (fun a b => b = a + word buf a) 0 (chain buf N (N - 1) (word buf 0)) :=
    List.Chain.imp (fun a b hab => hab.1) s3
  rw [s2]
  refine ⟨rfl, hlast, ?_, ?_, ?_, ?_, habut, ?_, ?_, ?_, ?_⟩
  · unfold Atom.identifier; rw [load32_ok _ _ (by omega)]; simp only [Nat.zero_add, d1]
  · unfold Atom.previous; rw [load32_ok _ _ (by omega)]; simp only [Nat.zero_add, d4]
  · unfold Atom.identifier; rw [load32_ok _ _ (by omega), e1]
  · unfold Atom.length; rw [load32_ok _ _ (by omega), e2]
  · intro a ha
    by_cases hae : a = N - 16
    · rw [hae, e2]; decide
    · rcases List.mem_cons.1 ha with rfl | ha
      · omega
      · have := (s5 a ha hae).1.2.2.1
        omega
  · have := sum_of_abutting (word buf) _ 0 (N - 16) habut hlast
    rw [e2] at this
    omega
  · intro a ha h0 hae
    rcases List.mem_cons.1 ha with rfl | ha
    · exact absurd rfl h0
    · obtain ⟨⟨_, m1, _, m3, m4⟩, _⟩ := s5 a ha hae
      exact ⟨m1, m3, m4⟩
  · exact List.Chain.imp (fun a b hab => hab.2.1) s3

theorem validate_layout_tiles_witness :
    96 < 2 ^ 32 ∧ validate_layout 0 sample_layout 96 = .ok true ∧
    (atoms sample_layout 96).head? = some 0 ∧
    (atoms sample_layout 96).getLast? = some (96 - 16) ∧
    Atom.identifier sample_layout 0 = .ok AtomID.data ∧
    Atom.previous sample_layout 0 = .ok 0 ∧
    Atom.identifier sample_layout (96 - 16) = .ok AtomID.end_ ∧
    Atom.length sample_layout (96 - 16) = .ok 16 ∧
    List.Chain' (fun a b => b = a + word sample_layout a) (atoms sample_layout 96) ∧
    (∀ a ∈ atoms sample_layout 96, 0 < word sample_layout a) ∧
    ((atoms sample_layout 96).map (word sample_layout)).sum = 96 ∧
    (∀ a ∈ atoms sample_layout 96, a ≠ 0 → a ≠ 96 - 16 →
      (word sample_layout (a + 4) = AtomID.vector ∨
        word sample_layout (a + 4) = AtomID.reference ∨
        word sample_layout (a + 4) = AtomID.free) ∧
      word sample_layout a % 16 = 0 ∧
      (word sample_layout (a + 4) = AtomID.vector ∨
        word sample_layout (a + 4) = AtomID.reference → word sample_layout a ≠ 16)) ∧
    List.Chain' (fun a b => ¬ (word sample_layout (a + 4) = AtomID.free ∧
      word sample_layout (b + 4) = AtomID.free)) (atoms sample_layout 96) :=
  ⟨by decide, by decide, validate_layout_tiles 0 96 sample_layout (by decide) (by decide)⟩



theorem load32_congr (b1 b2 : Buffer) (p : Nat) (hl : b2.length = b1.length)
    (h : ∀ j, p ≤ j → j < p + 4 → byte b2 j = byte b1 j) : load32 b2 p = load32 b1 p := by
  unfold load32
  rw [hl, word_eq_of_bytes b1 b2 p h]

/-- C9: for an atom at offset `o` of an accepted layout, of length `L` (the word at `o`), and a
multiple `s` of 16 with `16 ≤ s < L`, `divide` returns the offset `o + s`; afterwards the atom
at `o` has length `s` and its identifier and `previous` as before, the atom at `o + s` is
`{L - s, id, s, 0}`, the atom at `o + L` has `previous = L - s`, and every byte outside the
`length` field at `o`, the header at `o + s` and the `previous` field at `o + L` is as
before. -/
theorem divide_splits (base N : Nat) (buf : Buffer) (o s id : Nat) (hlen : buf.length = N)
    (hN : N < 2 ^ 32) (hv : validate_layout base buf N = .ok true) (ho : o ∈ atoms buf N)
    (hs16 : s % 16 = 0) (hs1 : 16 ≤ s) (hs2 : s < word buf o) (hid : id < 2 ^ 32) :
    ∃ buf2, detail.divide buf o s id = .ok (o + s, buf2) ∧ buf2.length = N ∧
      Atom.length buf2 o = .ok s ∧
      Atom.identifier buf2 o = Atom.identifier buf o ∧
      Atom.previous buf2 o = Atom.previous buf o ∧
      Atom.length buf2 (o + s) = .ok (word buf o - s) ∧
      Atom.identifier buf2 (o + s) = .ok id ∧
      Atom.previous buf2 (o + s) = .ok s ∧
      Atom.reserved buf2 (o + s) = .ok 0 ∧
      Atom.previous buf2 (o + word buf o) = .ok (word buf o - s) ∧
      ∀ j, (j < o ∨ o + 4 ≤ j) → (j < o + s ∨ o + s + 16 ≤ j) →
        (j < o + word buf o + 8 ∨ o + word buf o + 12 ≤ j) → byte buf2 j = byte buf j := by
  obtain ⟨_, _, v3, _, _, _, _, _, _, _, e2, _⟩ := validate_layout_elim base N buf hN hv
  have hne : o ≠ N - 16 := by
    intro he
    rw [he, e2] at hs2
    omega
  obtain ⟨a1, a2, a3, _, _⟩ := atom_of_valid_layout base N buf hN hv o ho hne
  obtain ⟨buf2, h, hl, w1, w2, w3, w4, w5, w6, hfr⟩ :=
    divide_spec buf o s id (word buf o) rfl hs1 (by omega) (by omega) hid
  refine ⟨buf2, h, by omega, ?_, ?_, ?_, ?_, ?_, ?_, ?_, ?_, hfr⟩
  · unfold Atom.length; rw [load32_ok _ _ (by omega), w1]
  · unfold Atom.identifier
    exact load32_congr _ _ _ hl (fun j h1 h2 => hfr j (by omega) (by omega) (by omega))
  · unfold Atom.previous
    exact load32_congr _ _ _ hl (fun j h1 h2 => hfr j (by omega) (by omega) (by omega))
  · unfold Atom.length; rw [load32_ok _ _ (by omega), w2]
  · unfold Atom.identifier; rw [load32_ok _ _ (by omega), w3]
  · unfold Atom.previous; rw [load32_ok _ _ (by omega), w4]
  · unfold Atom.reserved; rw [load32_ok _ _ (by omega), w5]
  · unfold Atom.previous; rw [load32_ok _ _ (by omega), w6]

theorem divide_splits_witness :
    sample_layout.length = 96 ∧ 96 < 2 ^ 32 ∧ validate_layout 0 sample_layout 96 = .ok true ∧
    16 ∈ atoms sample_layout 96 ∧ 16 % 16 = 0 ∧ 16 ≤ 16 ∧ 16 < word sample_layout 16 ∧
    AtomID.free < 2 ^ 32 ∧
    ∃ buf2, detail.divide sample_layout 16 16 AtomID.free = .ok (16 + 16, buf2) ∧
      buf2.length = 96 ∧
      Atom.length buf2 16 = .ok 16 ∧
      Atom.identifier buf2 16 = Atom.identifier sample_layout 16 ∧
      Atom.previous buf2 16 = Atom.previous sample_layout 16 ∧
      Atom.length buf2 (16 + 16) = .ok (word sample_layout 16 - 16) ∧
      Atom.identifier buf2 (16 + 16) = .ok AtomID.free ∧
      Atom.previous buf2 (16 + 16) = .ok 16 ∧
      Atom.reserved buf2 (16 + 16) = .ok 0 ∧
      Atom.previous buf2 (16 + word sample_layout 16) = .ok (word sample_layout 16 - 16) ∧
      ∀ j, (j < 16 ∨ 16 + 4 ≤ j) → (j < 16 + 16 ∨ 16 + 16 + 16 ≤ j) →
        (j < 16 + word sample_layout 16 + 8 ∨ 16 + word sample_layout 16 + 12 ≤ j) →
        byte buf2 j = byte sample_layout j :=
  ⟨by decide, by decide, by decide, by decide, by decide, by decide, by decide, by decide,
    divide_splits 0 96 sample_layout 16 16 AtomID.free (by decide) (by decide) (by decide)
      (by decide) (by decide) (by decide) (by decide) (by decide)⟩

/-- After `divide` of an atom of an accepted layout, `merge_next` on the same atom gives it its
length back and sets the `previous` of the atom after it to that length; this is the value
the field had before when the `previous` link of that atom was right, which `validate_layout`
has checked unless that atom is the end atom. -/
theorem divide_merge_next (base N : Nat) (buf : Buffer) (o s id : Nat) (hlen : buf.length = N)
    (hN : N < 2 ^ 32) (hv : validate_layout base buf N = .ok true) (ho : o ∈ atoms buf N)
    (hs16 : s % 16 = 0) (hs1 : 16 ≤ s) (hs2 : s < word buf o) (hid : id < 2 ^ 32)
    (hend : o + word buf o = N - 16 → word buf (N - 16 + 8) = word buf o) :
    ∃ buf1 buf2, detail.divide buf o s id = .ok (o + s, buf1) ∧
      detail.merge_next buf1 o = .ok buf2 ∧
      Atom.length buf2 o = Atom.length buf o ∧
      Atom.identifier buf2 o = Atom.identifier buf o ∧
      Atom.previous buf2 o = Atom.previous buf o ∧
      Atom.previous buf2 (o + word buf o) = Atom.previous buf (o + word buf o) := by
  obtain ⟨_, _, v3, _, _, _, _, _, _, _, e2, _⟩ := validate_layout_elim base N buf hN hv
  have hne : o ≠ N - 16 := by
    intro he
    rw [he, e2] at hs2
    omega
  obtain ⟨a1, a2, a3, _, a5⟩ := atom_of_valid_layout base N buf hN hv o ho hne
  have hL32 := word_lt buf o
  obtain ⟨buf1, h, hl, w1, w2, w3, w4, w5, w6, hfr⟩ :=
    divide_spec buf o s id (word buf o) rfl hs1 (by omega) (by omega) hid
  have hsum : s + (word buf o - s) = word buf o := by omega
  obtain ⟨buf2, h2, hl2, x1, x2, hfr2⟩ :=
    merge_next_spec buf1 o s (word buf o - s) w1 w2 (by omega) (by omega)
  rw [hsum] at x1
  have hoff : o + s + (word buf o - s) + 8 = o + word buf o + 8 := by omega
  rw [hoff, hsum] at x2
  have hprev : word buf (o + word buf o + 8) = word buf o := by
    by_cases hc : o + word buf o = N - 16
    · rw [hc]; exact hend hc
    · exact a5 hc
  refine ⟨buf1, buf2, h, h2, ?_, ?_, ?_, ?_⟩
  · unfold Atom.length
    rw [load32_ok _ _ (by omega), load32_ok _ _ (by omega), x1]
  · unfold Atom.identifier
    exact load32_congr _ _ _ (by omega) (fun j h1 h2 => by
      rw [hfr2 j (by omega) (by omega), hfr j (by omega) (by omega) (by omega)])
  · unfold Atom.previous
    exact load32_congr _ _ _ (by omega) (fun j h1 h2 => by
      rw [hfr2 j (by omega) (by omega), hfr j (by omega) (by omega) (by omega)])
  · unfold Atom.previous
    rw [load32_ok _ _ (by omega), load32_ok _ _ (by omega), x2, hprev]

/-- C10: for an atom at offset `o` of an accepted layout that is followed by an atom other than
the end atom, `merge_next` gives it the sum of the two lengths, leaves its identifier and
`previous` as they are and sets the `previous` of the atom after the absorbed one to the new
length; and `merge_next` right after `divide` of that atom gives the atom its length back
and the atom after it its `previous`. -/
theorem merge_next_absorbs (base N : Nat) (buf : Buffer) (o : Nat) (hlen : buf.length = N)
    (hN : N < 2 ^ 32) (hv : validate_layout base buf N = .ok true) (ho : o ∈ atoms buf N)
    (hA : o ≠ N - 16) (hB : o + word buf o ≠ N - 16) :
    (∃ buf2, detail.merge_next buf o = .ok buf2 ∧
      Atom.length buf2 o = .ok (word buf o + word buf (o + word buf o)) ∧
      Atom.identifier buf2 o = Atom.identifier buf o ∧
      Atom.previous buf2 o = Atom.previous buf o ∧
      Atom.previous buf2 (o + word buf o + word buf (o + word buf o)) =
        .ok (word buf o + word buf (o + word buf o))) ∧
    ∀ s id, s % 16 = 0 → 16 ≤ s → s < word buf o → id < 2 ^ 32 →
      ∃ buf1 buf2, detail.divide buf o s id = .ok (o + s, buf1) ∧
        detail.merge_next buf1 o = .ok buf2 ∧
        Atom.length buf2 o = Atom.length buf o ∧
        Atom.identifier buf2 o = Atom.identifier buf o ∧
        Atom.previous buf2 o = Atom.previous buf o ∧
        Atom.previous buf2 (o + word buf o) = Atom.previous buf (o + word buf o) := by
  constructor
  · obtain ⟨a1, a2, a3, a4, _⟩ := atom_of_valid_layout base N buf hN hv o ho hA
    obtain ⟨c1, c2, c3, _, _⟩ := atom_of_valid_layout base N buf hN hv _ a4 hB
    obtain ⟨buf2, h2, hl2, x1, x2, hfr2⟩ :=
      merge_next_spec buf o (word buf o) (word buf (o + word buf o)) rfl rfl (by omega)
        (by omega)
    refine ⟨buf2, h2, ?_, ?_, ?_, ?_⟩
    · unfold Atom.length; rw [load32_ok _ _ (by omega), x1]
    · unfold Atom.identifier
      exact load32_congr _ _ _ hl2 (fun j h1 h2 => hfr2 j (by omega) (by omega))
    · unfold Atom.previous
      exact load32_congr _ _ _ hl2 (fun j h1 h2 => hfr2 j (by omega) (by omega))
    · unfold Atom.previous; rw [load32_ok _ _ (by omega), x2]
  · intro s id hs16 hs1 hs2 hid
    exact divide_merge_next base N buf o s id hlen hN hv ho hs16 hs1 hs2 hid
      (fun hc => absurd hc hB)

theorem merge_next_absorbs_witness :
    sample_layout.length = 96 ∧ 96 < 2 ^ 32 ∧ validate_layout 0 sample_layout 96 = .ok true ∧
    16 ∈ atoms sample_layout 96 ∧ 16 ≠ 96 - 16 ∧ 16 + word sample_layout 16 ≠ 96 - 16 ∧
    (∃ buf2, detail.merge_next sample_layout 16 = .ok buf2 ∧
      Atom.length buf2 16 =
        .ok (word sample_layout 16 + word sample_layout (16 + word sample_layout 16)) ∧
      Atom.identifier buf2 16 = Atom.identifier sample_layout 16 ∧
      Atom.previous buf2 16 = Atom.previous sample_layout 16 ∧
      Atom.previous buf2 (16 + word sample_layout 16 +
          word sample_layout (16 + word sample_layout 16)) =
        .ok (word sample_layout 16 + word sample_layout (16 + word sample_layout 16))) ∧
    16 % 16 = 0 ∧ 16 ≤ 16 ∧ 16 < word sample_layout 16 ∧ AtomID.free < 2 ^ 32 ∧
    ∃ buf1 buf2, detail.divide sample_layout 16 16 AtomID.free = .ok (16 + 16, buf1) ∧
      detail.merge_next buf1 16 = .ok buf2 ∧
      Atom.length buf2 16 = Atom.length sample_layout 16 ∧
      Atom.identifier buf2 16 = Atom.identifier sample_layout 16 ∧
      Atom.previous buf2 16 = Atom.previous sample_layout 16 ∧
      Atom.previous buf2 (16 + word sample_layout 16) =
        Atom.previous sample_layout (16 + word sample_layout 16) :=
  ⟨by decide, by decide, by decide, by decide, by decide, by decide,
    (merge_next_absorbs 0 96 sample_layout 16 (by decide) (by decide) (by decide) (by decide)
      (by decide) (by decide)).1,
    by decide, by decide, by decide, by decide,
    (merge_next_absorbs 0 96 sample_layout 16 (by decide) (by decide) (by decide) (by decide)
      (by decide) (by decide)).2 16 AtomID.free (by decide) (by decide) (by decide)
      (by decide)⟩

/-- C2 (the code departs from it): a 96 byte buffer is formatted, a vector with 16 content
bytes is reserved (the atom at offset 16, length 32, followed by a free atom of length 32)
and `validate_layout` returns `true`; the vector is then resized to 48 content bytes, which
needs exactly the 32 bytes of the free atom.  The resize returns normally, and afterwards
`validate_layout` returns `false`: the header at offset 80, the end atom before the call, is
now tagged free with length 0. -/
theorem exact_fit_grow_breaks_layout :
    ((do
      let f ← format 0 (List.replicate 96 0) 96 0
      let a ← detail.reserve f.2 0 16 AtomID.vector
      let v1 ← validate_layout 0 a.2 96
      let d ← valid_data 0 a.2 0
      let id ← Atom.identifier a.2 a.1
      let len ← Atom.length a.2 a.1
      let flen ← Atom.length a.2 (a.1 + len)
      let g ← detail.reserve_resize a.2 0 a.1 48
      let v2 ← validate_layout 0 g.2 96
      let elen ← Atom.length g.2 80
      let eid ← Atom.identifier g.2 80
      pure [a.1, v1.toNat, d.toNat, id, len, flen, g.1, v2.toNat, elen, eid]) :
        Outcome (List Nat)) =
      .ok [16, 1, 1, AtomID.vector, 32, 32, 16, 0, 0, AtomID.free] := by
  decide

/-- C6 (the code departs from it): on the 32 byte buffer `sample_end_link`, a data atom of
length 16 followed by the end atom, `validate_layout` returns `true` although the `previous`
field of the end atom is 48 and not 16, the length of the atom before it. -/
theorem validate_layout_skips_end_previous :
    validate_layout 0 sample_end_link 32 = .ok true ∧ atoms sample_end_link 32 = [0, 16] ∧
      Atom.length sample_end_link 0 = .ok 16 ∧ Atom.previous sample_end_link 16 = .ok 48 := by
  decide

/-- C7 (the code departs from it): on the 32 byte buffer `sample_long_data`, whose data atom
declares the length 32 (more than `32 - 16`), `validate_layout` does not return `false`: the
distance to the end atom wraps around to `0xfffffff0` and the loop loads the `length` field
at offset 32, outside the buffer. -/
theorem validate_layout_long_data :
    sample_long_data.length = 32 ∧ Atom.identifier sample_long_data 0 = .ok AtomID.data ∧
      Atom.length sample_long_data 0 = .ok 32 ∧
      sub32 (sub32 32 32) 16 = 0xfffffff0 ∧ Atom.length sample_long_data 32 = .fault ∧
      validate_layout 0 sample_long_data 32 = .fault := by
  decide

/-- C8 (the code departs from it): on the 48 byte buffer `sample_longer_data`, whose data atom
declares the length 64, `validate_layout` does not return a boolean: the walk starts at
offset 64, outside the buffer. -/
theorem validate_layout_not_total :
    sample_longer_data.length = 48 ∧ Atom.length sample_longer_data 0 = .ok 64 ∧
      validate_layout 0 sample_longer_data 48 = .fault := by
  decide

/-! ## Layouts as lists of atoms: facts -/

theorem msum_nil : msum [] = 0 := rfl

theorem msum_cons (x : Nat × Nat) (M : List (Nat × Nat)) : msum (x :: M) = x.1 + msum M := by
  simp [msum]

theorem msum_append (M1 M2 : List (Nat × Nat)) : msum (M1 ++ M2) = msum M1 + msum M2 := by
  simp [msum]

theorem validate_loop_repr (buf : Buffer) (e : Nat) :
    ∀ fuel d curr prev, validate_loop buf e fuel d curr prev = .ok true → d < 2 ^ 32 →
      word buf prev ≠ 0 →
      ∃ M, Tiled buf curr (word buf prev) M ∧ (∀ x ∈ M, tagged x) ∧
        List.Chain apart (word buf prev, word buf (prev + 4)) M ∧ curr + msum M = e := by
  intro fuel
  induction fuel with
  | zero =>
    intro d curr prev h
    rw [validate_loop] at h
    cases h
  | succ fuel ih =>
    intro d curr prev h hd hp
    by_cases h0 : 0 < d
    · obtain ⟨a1, a2, b1, a3, a4, hrec⟩ := validate_loop_step buf e fuel d curr prev h0 h
      have hlen : word buf curr ≠ 0 := by
        intro hz
        rw [hz, sub32_eq _ _ (Nat.zero_le _) hd] at hrec
        simp only [Nat.sub_zero, Nat.add_zero] at hrec
        cases fuel with
        | zero => rw [validate_loop] at hrec; cases hrec
        | succ f =>
          obtain ⟨_, _, _, c3, c4, _⟩ := validate_loop_step buf e f d curr curr h0 hrec
          rcases c3 with ⟨_, _⟩ | ⟨c5, c6⟩
          · rw [hz] at c4
            rw [a4] at c4
            exact hp c4
          · exact c6 c5
      rw [sub32_eq _ _ a2 hd] at hrec
      obtain ⟨M, m1, m2, m3, m4⟩ := ih _ _ _ hrec (by omega) hlen
      refine ⟨(word buf curr, word buf (curr + 4)) :: M, ⟨b1, rfl, rfl, a4, m1⟩, ?_, ?_, ?_⟩
      · intro x hx
        rcases List.mem_cons.1 hx with rfl | hx
        · refine ⟨?_, by omega, a1, ?_⟩
          · rcases a3 with ⟨h1 | h1, _⟩ | ⟨h1, _⟩
            · exact Or.inl h1
            · exact Or.inr (Or.inl h1)
            · exact Or.inr (Or.inr h1)
          · intro hv
            rcases a3 with ⟨_, h2⟩ | ⟨h1, _⟩
            · exact h2
            · dsimp only at hv
              rcases hv with hv | hv
              · rw [h1] at hv; exact absurd hv (by decide)
              · rw [h1] at hv; exact absurd hv (by decide)
        · exact m2 x hx
      · refine List.Chain.cons ?_ m3
        rintro ⟨f1, f2⟩
        dsimp only at f1 f2
        rcases a3 with ⟨h1 | h1, _⟩ | ⟨_, h1⟩
        · rw [h1] at f2; exact absurd f2 (by decide)
        · rw [h1] at f2; exact absurd f2 (by decide)
        · exact h1 f1
      · rw [msum_cons]
        dsimp only
        omega
    · have hd0 : d = 0 := by omega
      subst hd0
      rw [validate_loop_zero_distance] at h
      have hce : curr = e := by simpa using h
      exact ⟨[], trivial, fun x hx => absurd hx (List.not_mem_nil x), List.Chain.nil, by
        rw [msum_nil]; omega⟩

theorem layout_of_validate (base N : Nat) (buf : Buffer) (hlen : buf.length = N)
    (hN : N < 2 ^ 32) (h : validate_layout base buf N = .ok true) :
    base % 16 = 0 ∧ ∃ M, Layout buf N (word buf 0) M ∧ ValidM M := by
  obtain ⟨v1, v2, v3, b1, b2, d1, d2, d3, d4, e1, e2, hl⟩ := validate_layout_elim base N buf hN h
  obtain ⟨M, m1, m2, m3, m4⟩ := validate_loop_repr buf (N - 16) _ _ _ _ hl (sub32_lt _ _)
    (by omega)
  refine ⟨v1, M, ⟨hlen, hN, v2, d3, d2, rfl, d1, d4, e2, e1, m1, by omega⟩, m2, ?_⟩
  cases M with
  | nil => exact List.chain'_nil
  | cons x xs =>
    rw [List.chain_cons] at m3
    exact m3.2

theorem validate_loop_complete (buf : Buffer) (e : Nat) :
    ∀ (M : List (Nat × Nat)) (curr prev fuel d : Nat), Tiled buf curr (word buf prev) M →
      (∀ x ∈ M, tagged x) → List.Chain apart (word buf prev, word buf (prev + 4)) M →
      prev + 8 ≤ buf.length → d = msum M → curr + d = e → d < 2 ^ 32 → M.length < fuel →
      validate_loop buf e fuel d curr prev = .ok true := by
  intro M
  induction M with
  | nil =>
    intro curr prev fuel d _ _ _ _ hd he _ hf
    rw [msum_nil] at hd
    subst hd
    obtain ⟨f, rfl⟩ : ∃ f, fuel = f + 1 := ⟨fuel - 1, by simp at hf; omega⟩
    rw [validate_loop_zero_distance]
    have : curr = e := by omega
    rw [this]
    simp
  | cons x rest ih =>
    intro curr prev fuel d hr ht hc hp hd he hd32 hf
    obtain ⟨r1, r2, r3, r4, r5⟩ := hr
    obtain ⟨t1, t2, t3, t4⟩ := ht x (List.mem_cons_self _ _)
    rw [List.chain_cons] at hc
    obtain ⟨c1, c2⟩ := hc
    rw [msum_cons] at hd
    obtain ⟨f, rfl⟩ : ∃ f, fuel = f + 1 := ⟨fuel - 1, by simp at hf; omega⟩
    have hrec := ih (curr + x.1) curr f (d - x.1) (by rw [r2]; exact r5)
      (fun y hy => ht y (List.mem_cons_of_mem _ hy)) (by rw [r2, r3]; exact c2) (by omega)
      (by omega) (by omega) (by omega) (by simp at hf; omega)
    rw [validate_loop, if_pos (by omega)]
    simp only [Atom.length, Atom.identifier, Atom.previous]
    rw [load32_ok _ _ (by omega)]
    simp only [Outcome.ok_bind]
    rw [r2]
    have k1 : ¬ ((!is_aligned x.1 || decide (d < x.1)) = true) := by
      rw [is_aligned_of_mod t3]
      simp only [Bool.not_true, Bool.false_or, decide_eq_true_eq]
      omega
    rw [if_neg k1, load32_ok _ _ (by omega)]
    simp only [Outcome.ok_bind]
    rw [r3, sub32_eq _ _ (by omega) hd32]
    by_cases hv : x.2 = AtomID.vector ∨ x.2 = AtomID.reference
    · rw [if_pos hv, if_neg (by unfold atom_header_length; exact fun h => t4 hv h.symm),
        load32_ok _ _ (by omega)]
      simp only [Outcome.ok_bind]
      rw [load32_ok _ _ (by omega)]
      simp only [Outcome.ok_bind]
      rw [r4, if_neg (by simp)]
      exact hrec
    · have hfree : x.2 = AtomID.free := by
        rcases t1 with h | h | h
        · exact absurd (Or.inl h) hv
        · exact absurd (Or.inr h) hv
        · exact h
      rw [if_neg hv, if_pos hfree, load32_ok _ _ (by omega)]
      simp only [Outcome.ok_bind]
      have k2 : ¬ AtomID.free = word buf (prev + 4) := by
        intro h
        exact c1 ⟨h.symm, hfree⟩
      rw [if_neg k2, load32_ok _ _ (by omega)]
      simp only [Outcome.ok_bind]
      rw [load32_ok _ _ (by omega)]
      simp only [Outcome.ok_bind]
      rw [r4, if_neg (by simp)]
      exact hrec

theorem validate_of_layout (base N D : Nat) (buf : Buffer) (M : List (Nat × Nat))
    (hbase : base % 16 = 0) (hl : Layout buf N D M) (hv : ValidM M) :
    validate_layout base buf N = .ok true := by
  obtain ⟨l1, l2, l3, l4, l5, l6, l7, l8, l9, l10, l11, l12⟩ := hl
  obtain ⟨v1, v2⟩ := hv
  have hva : valid_alignment_and_length base N = true :=
    (valid_alignment_and_length_iff base N).2 ⟨hbase, l3, by omega⟩
  have hvd : valid_data base buf 0 = .ok true := by
    unfold valid_data Atom.identifier Atom.length Atom.previous
    rw [load32_ok _ _ (by omega), load32_ok _ _ (by omega), load32_ok _ _ (by omega)]
    simp only [Nat.zero_add, Nat.add_zero, Outcome.ok_bind]
    rw [l6, l7, l8]
    have h16 : ¬ (D < atom_header_length) := by unfold atom_header_length; omega
    simp only [h16, if_false, Bool.not_true, Bool.false_eq_true, ne_eq, not_true_eq_false,
      Outcome.pure_eq, is_aligned_of_mod hbase, is_aligned_of_mod l5]
  have e1 : sub32 N atom_header_length = N - 16 :=
    sub32_eq _ _ (by unfold atom_header_length; omega) l2
  have e2 : sub32 (sub32 N D) 16 = N - D - 16 := by
    rw [sub32_eq _ _ (by omega) l2, sub32_eq _ _ (by omega) (by omega)]
  unfold validate_layout
  simp only [hva, hvd, Outcome.ok_bind, e1, Atom.identifier, Atom.length, Nat.zero_add]
  rw [load32_ok _ _ (by omega), load32_ok _ _ (by omega), load32_ok _ _ (by omega)]
  simp only [Outcome.ok_bind]
  rw [l9, l10, l6, e2]
  simp only [atom_header_length, Bool.not_true, Bool.false_eq_true, if_false, ne_eq,
    not_true_eq_false, beq_self_eq_true]
  refine validate_loop_complete buf (N - 16) M D 0 _ (N - D - 16) (by rw [l6]; exact l11) v1 ?_
    (by omega) (by omega) (by omega) (by omega) ?_
  · rw [l6]
    simp only [Nat.zero_add]
    rw [l7]
    cases M with
    | nil => exact List.Chain.nil
    | cons x xs =>
      refine List.Chain.cons ?_ v2
      rintro ⟨h, _⟩
      have h2 : AtomID.data = AtomID.free := h
      exact absurd h2 (by decide)
  · -- every atom is at least 16 bytes long
    have : ∀ (L : List (Nat × Nat)), (∀ x ∈ L, tagged x) → 16 * L.length ≤ msum L := by
      intro L
      induction L with
      | nil => intro _; simp [msum]
      | cons y ys ih =>
        intro h
        have h1 := (h y (List.mem_cons_self _ _)).2.1
        have h2 := ih (fun z hz => h z (List.mem_cons_of_mem _ hz))
        rw [msum_cons]
        simp only [List.length_cons]
        omega
    have := this M v1
    omega

theorem last_len_append_cons (pl : Nat) (M1 M2 : List (Nat × Nat)) (x : Nat × Nat) :
    last_len pl (M1 ++ x :: M2) = last_len x.1 M2 := by
  induction M1 generalizing pl with
  | nil => rfl
  | cons y ys ih => exact ih y.1

theorem repr_append (buf : Buffer) (M2 : List (Nat × Nat)) :
    ∀ (M1 : List (Nat × Nat)) (off pl : Nat), Tiled buf off pl (M1 ++ M2) ↔
      Tiled buf off pl M1 ∧ Tiled buf (off + msum M1) (last_len pl M1) M2 := by
  intro M1
  induction M1 with
  | nil =>
    intro off pl
    simp [Tiled, msum_nil, last_len]
  | cons x rest ih =>
    intro off pl
    simp only [List.cons_append, Tiled, msum_cons, last_len, List.append_eq]
    rw [ih (off + x.1) x.1, Nat.add_assoc]
    tauto

theorem repr_frame (buf buf2 : Buffer) (hl : buf2.length = buf.length) :
    ∀ (M : List (Nat × Nat)) (off pl : Nat), Tiled buf off pl M → (∀ x ∈ M, 12 ≤ x.1) →
      (∀ j, off ≤ j → j < off + msum M → byte buf2 j = byte buf j) → Tiled buf2 off pl M := by
  intro M
  induction M with
  | nil => intro _ _ _ _ _; trivial
  | cons x rest ih =>
    intro off pl hr hx hb
    obtain ⟨r1, r2, r3, r4, r5⟩ := hr
    have hx1 := hx x (List.mem_cons_self _ _)
    rw [msum_cons] at hb
    refine ⟨by omega, ?_, ?_, ?_, ?_⟩
    · rw [word_eq_of_bytes buf buf2 off (fun j h1 h2 => hb j (by omega) (by omega))]; exact r2
    · rw [word_eq_of_bytes buf buf2 (off + 4) (fun j h1 h2 => hb j (by omega) (by omega))]
      exact r3
    · rw [word_eq_of_bytes buf buf2 (off + 8) (fun j h1 h2 => hb j (by omega) (by omega))]
      exact r4
    · exact ih _ _ r5 (fun y hy => hx y (List.mem_cons_of_mem _ hy))
        (fun j h1 h2 => hb j (by omega) (by omega))

/-- The atoms `M` as they are after a change that leaves their bytes alone but for the
`previous` field of the first of them. -/
theorem repr_relink (buf buf2 : Buffer) (hl : buf2.length = buf.length)
    (M : List (Nat × Nat)) (off pl pl2 : Nat) (hr : Tiled buf off pl M)
    (hx : ∀ x ∈ M, 12 ≤ x.1) (hp : word buf2 (off + 8) = pl2)
    (hb : ∀ j, off ≤ j → j < off + msum M → (j < off + 8 ∨ off + 12 ≤ j) →
      byte buf2 j = byte buf j) : Tiled buf2 off pl2 M := by
  cases M with
  | nil => trivial
  | cons x rest =>
    obtain ⟨r1, r2, r3, r4, r5⟩ := hr
    have hx1 := hx x (List.mem_cons_self _ _)
    rw [msum_cons] at hb
    refine ⟨by omega, ?_, ?_, hp, ?_⟩
    · rw [word_eq_of_bytes buf buf2 off (fun j h1 h2 => hb j (by omega) (by omega)
        (by omega))]
      exact r2
    · rw [word_eq_of_bytes buf buf2 (off + 4) (fun j h1 h2 => hb j (by omega) (by omega)
        (by omega))]
      exact r3
    · exact repr_frame buf buf2 hl rest _ _ r5 (fun y hy => hx y (List.mem_cons_of_mem _ hy))
        (fun j h1 h2 => hb j (by omega) (by omega) (by omega))

theorem chain_of_repr (buf : Buffer) (e : Nat) :
    ∀ (M : List (Nat × Nat)) (off pl k : Nat), Tiled buf off pl M → (∀ x ∈ M, 16 ≤ x.1) →
      off + msum M = e → M.length < k → chain buf (e + 16) k off = offsets off M ++ [e] := by
  intro M
  induction M with
  | nil =>
    intro off pl k _ _ he hk
    rw [msum_nil] at he
    obtain ⟨f, rfl⟩ : ∃ f, k = f + 1 := ⟨k - 1, by simp at hk; omega⟩
    rw [chain_last _ _ _ _ (by omega)]
    simp only [offsets, List.nil_append]
    congr 1
  | cons x rest ih =>
    intro off pl k hr hx he hk
    obtain ⟨r1, r2, r3, r4, r5⟩ := hr
    have hx1 := hx x (List.mem_cons_self _ _)
    rw [msum_cons] at he
    obtain ⟨f, rfl⟩ : ∃ f, k = f + 1 := ⟨k - 1, by simp at hk; omega⟩
    have hmr : 0 ≤ msum rest := Nat.zero_le _
    rw [chain_succ _ _ _ _ (by omega), r2,
      ih (off + x.1) x.1 f r5 (fun y hy => hx y (List.mem_cons_of_mem _ hy)) (by omega)
        (by simp at hk; omega)]
    rfl

theorem sixteen_le_of_tagged {M : List (Nat × Nat)} (h : ∀ x ∈ M, tagged x) :
    ∀ x ∈ M, 16 ≤ x.1 := fun x hx => (h x hx).2.1

theorem length_le_msum : ∀ (L : List (Nat × Nat)), (∀ x ∈ L, 16 ≤ x.1) →
    16 * L.length ≤ msum L := by
  intro L
  induction L with
  | nil => intro _; simp [msum]
  | cons y ys ih =>
    intro h
    have h1 := h y (List.mem_cons_self _ _)
    have h2 := ih (fun z hz => h z (List.mem_cons_of_mem _ hz))
    rw [msum_cons]
    simp only [List.length_cons]
    omega

theorem atoms_of_layout (buf : Buffer) (N D : Nat) (M : List (Nat × Nat))
    (hl : Layout buf N D M) (h16 : ∀ x ∈ M, 16 ≤ x.1) :
    atoms buf N = 0 :: (offsets D M ++ [N - 16]) := by
  obtain ⟨l1, l2, l3, l4, l5, l6, l7, l8, l9, l10, l11, l12⟩ := hl
  have hlen := length_le_msum M h16
  unfold atoms
  obtain ⟨k, hk⟩ : ∃ k, N = k + 1 := ⟨N - 1, by omega⟩
  have h1 : chain buf N (k + 1) 0 = 0 :: chain buf N k (0 + word buf 0) :=
    chain_succ _ _ _ _ (by omega)
  have h2 := chain_of_repr buf (N - 16) M D D k l11 h16 (by omega) (by omega)
  have h3 : N - 16 + 16 = N := by omega
  rw [h3] at h2
  rw [Nat.zero_add, l6, h2] at h1
  rw [← hk] at h1
  exact h1

theorem mem_offsets (M : List (Nat × Nat)) :
    ∀ (off o : Nat), o ∈ offsets off M →
      ∃ M1 x M2, M = M1 ++ x :: M2 ∧ o = off + msum M1 := by
  induction M with
  | nil => intro off o h; simp [offsets] at h
  | cons y rest ih =>
    intro off o h
    simp only [offsets, List.mem_cons] at h
    rcases h with rfl | h
    · exact ⟨[], y, rest, rfl, by rw [msum_nil]; rfl⟩
    · obtain ⟨M1, x, M2, h1, h2⟩ := ih _ _ h
      exact ⟨y :: M1, x, M2, by rw [h1]; rfl, by rw [msum_cons, h2]; omega⟩

theorem offsets_append (M2 : List (Nat × Nat)) :
    ∀ (M1 : List (Nat × Nat)) (off : Nat),
      offsets off (M1 ++ M2) = offsets off M1 ++ offsets (off + msum M1) M2 := by
  intro M1
  induction M1 with
  | nil => intro off; simp [offsets, msum_nil]
  | cons x rest ih =>
    intro off
    simp only [List.cons_append, offsets, msum_cons, List.append_eq]
    rw [ih, Nat.add_assoc]

theorem msum_zero_or (M : List (Nat × Nat)) (h : ∀ y ∈ M, 16 ≤ y.1) :
    msum M = 0 ∨ 16 ≤ msum M := by
  cases M with
  | nil => left; rfl
  | cons x rest =>
    right
    have := h x (List.mem_cons_self _ _)
    rw [msum_cons]
    omega

/-- The facts a layout gives about one of its atoms, about the atoms before it and about those
after it. -/
theorem layout_split (buf : Buffer) (N D : Nat) (M1 M2 : List (Nat × Nat)) (x : Nat × Nat)
    (hl : Layout buf N D (M1 ++ x :: M2)) :
    Tiled buf D D M1 ∧ D + msum M1 + 12 ≤ buf.length ∧ word buf (D + msum M1) = x.1 ∧
      word buf (D + msum M1 + 4) = x.2 ∧ word buf (D + msum M1 + 8) = last_len D M1 ∧
      Tiled buf (D + msum M1 + x.1) x.1 M2 ∧ D + msum M1 + x.1 + msum M2 + 16 = N := by
  obtain ⟨l1, l2, l3, l4, l5, l6, l7, l8, l9, l10, l11, l12⟩ := hl
  rw [repr_append] at l11
  obtain ⟨r1, r2, r3, r4, r5, r6⟩ := l11
  rw [msum_append, msum_cons] at l12
  exact ⟨r1, r2, r3, r4, r5, r6, by omega⟩

theorem layout_retag (buf : Buffer) (N D : Nat) (M1 M2 : List (Nat × Nat)) (x : Nat × Nat)
    (hl : Layout buf N D (M1 ++ x :: M2)) (h16 : ∀ y ∈ M1 ++ x :: M2, 16 ≤ y.1) (id : Nat)
    (hid : id < 2 ^ 32) :
    Layout (put32 buf (D + msum M1 + 4) id) N D (M1 ++ (x.1, id) :: M2) := by
  obtain ⟨s1, s2, s3, s4, s5, s6, s7⟩ := layout_split buf N D M1 M2 x hl
  obtain ⟨l1, l2, l3, l4, l5, l6, l7, l8, l9, l10, l11, l12⟩ := hl
  have hx := h16 x (by simp)
  have hfr : ∀ j, (j < D + msum M1 + 4 ∨ D + msum M1 + 8 ≤ j) →
      byte (put32 buf (D + msum M1 + 4) id) j = byte buf j :=
    fun j hj => byte_put32_outside _ _ _ _ (by omega)
  have hw : ∀ q, (q + 4 ≤ D + msum M1 + 4 ∨ D + msum M1 + 8 ≤ q) →
      word (put32 buf (D + msum M1 + 4) id) q = word buf q :=
    fun q hq => word_put32_disjoint _ _ _ _ (by omega)
  refine ⟨by rw [length_put32]; exact l1, l2, l3, l4, l5, ?_, ?_, ?_, ?_, ?_, ?_, ?_⟩
  · rw [hw 0 (by omega)]; exact l6
  · rw [hw 4 (by omega)]; exact l7
  · rw [hw 8 (by omega)]; exact l8
  · rw [hw _ (by omega)]; exact l9
  · rw [hw _ (by omega)]; exact l10
  · rw [repr_append]
    refine ⟨?_, ?_, ?_, ?_, ?_, ?_⟩
    · exact repr_frame buf _ (length_put32 _ _ _) M1 D D s1
        (fun y hy => by have := h16 y (by simp [hy]); omega)
        (fun j h1 h2 => hfr j (by omega))
    · rw [length_put32]; exact s2
    · rw [hw _ (by omega)]; exact s3
    · rw [word_put32_same _ _ _ (by omega)]; exact Nat.mod_eq_of_lt hid
    · rw [hw _ (by omega)]; exact s5
    · exact repr_frame buf _ (length_put32 _ _ _) M2 _ _ s6
        (fun y hy => by have := h16 y (by simp [hy]); omega)
        (fun j h1 h2 => hfr j (by omega))
  · rw [msum_append, msum_cons] at l12 ⊢
    exact l12

theorem linked_retag (buf : Buffer) (N D : Nat) (M1 M2 : List (Nat × Nat)) (x : Nat × Nat)
    (hl : Layout buf N D (M1 ++ x :: M2)) (h16 : ∀ y ∈ M1 ++ x :: M2, 16 ≤ y.1) (id : Nat)
    (hk : Linked buf N D (M1 ++ x :: M2)) :
    Linked (put32 buf (D + msum M1 + 4) id) N D (M1 ++ (x.1, id) :: M2) := by
  obtain ⟨s1, s2, s3, s4, s5, s6, s7⟩ := layout_split buf N D M1 M2 x hl
  have hx := h16 x (by simp)
  unfold Linked at hk ⊢
  rw [last_len_append_cons] at hk ⊢
  rw [word_put32_disjoint _ _ _ _ (by omega)]
  exact hk

theorem layout_divide (buf : Buffer) (N D : Nat) (M1 M2 : List (Nat × Nat)) (x : Nat × Nat)
    (hl : Layout buf N D (M1 ++ x :: M2)) (h16 : ∀ y ∈ M1 ++ x :: M2, 16 ≤ y.1)
    (s t : Nat) (hs1 : 16 ≤ s) (hs2 : s + 16 ≤ x.1) (ht : t < 2 ^ 32) :
    ∃ buf2, detail.divide buf (D + msum M1) s t = .ok (D + msum M1 + s, buf2) ∧
      Layout buf2 N D (M1 ++ (s, x.2) :: (x.1 - s, t) :: M2) ∧
      (∀ j, (j < D + msum M1 ∨ D + msum M1 + 4 ≤ j) →
        (j < D + msum M1 + s ∨ D + msum M1 + s + 16 ≤ j) →
        (j < D + msum M1 + x.1 + 8 ∨ D + msum M1 + x.1 + 12 ≤ j) → byte buf2 j = byte buf j) ∧
      (Linked buf N D (M1 ++ x :: M2) →
        Linked buf2 N D (M1 ++ (s, x.2) :: (x.1 - s, t) :: M2)) := by
  obtain ⟨s1, s2, s3, s4, s5, s6, s7⟩ := layout_split buf N D M1 M2 x hl
  obtain ⟨l1, l2, l3, l4, l5, l6, l7, l8, l9, l10, l11, l12⟩ := hl
  have hm2 := msum_zero_or M2 (fun y hy => h16 y (by simp [hy]))
  obtain ⟨buf2, h, hlen, w1, w2, w3, w4, w5, w6, hfr⟩ :=
    divide_spec buf (D + msum M1) s t x.1 s3 hs1 hs2 (by omega) ht
  have hw : ∀ q, (q + 4 ≤ D + msum M1 ∨ D + msum M1 + 4 ≤ q) →
      (q + 4 ≤ D + msum M1 + s ∨ D + msum M1 + s + 16 ≤ q) →
      (q + 4 ≤ D + msum M1 + x.1 + 8 ∨ D + msum M1 + x.1 + 12 ≤ q) →
      word buf2 q = word buf q :=
    fun q h1 h2 h3 => word_eq_of_bytes buf buf2 q
      (fun j g1 g2 => hfr j (by omega) (by omega) (by omega))
  refine ⟨buf2, h, ⟨by omega, l2, l3, l4, l5, ?_, ?_, ?_, ?_, ?_, ?_, ?_⟩, hfr, ?_⟩
  rotate_right
  · intro hk
    unfold Linked at hk ⊢
    rw [last_len_append_cons] at hk ⊢
    cases M2 with
    | nil =>
      rw [msum_nil] at s7
      have e : N - 16 + 8 = D + msum M1 + x.1 + 8 := by omega
      rw [e]
      exact w6
    | cons y rest =>
      have hy := h16 y (by simp)
      rw [msum_cons] at s7
      rw [hw _ (by omega) (by omega) (by omega)]
      exact hk
  · rw [hw 0 (by omega) (by omega) (by omega)]; exact l6
  · rw [hw 4 (by omega) (by omega) (by omega)]; exact l7
  · rw [hw 8 (by omega) (by omega) (by omega)]; exact l8
  · rw [hw _ (by omega) (by omega) (by omega)]; exact l9
  · rw [hw _ (by omega) (by omega) (by omega)]; exact l10
  · rw [repr_append]
    refine ⟨?_, by omega, w1, ?_, ?_, by omega, ?_, w3, w4, ?_⟩
    · exact repr_frame buf _ hlen M1 D D s1
        (fun y hy => by have := h16 y (by simp [hy]); omega)
        (fun j h1 h2 => hfr j (by omega) (by omega) (by omega))
    · rw [hw _ (by omega) (by omega) (by omega)]; exact s4
    · rw [hw _ (by omega) (by omega) (by omega)]; exact s5
    · exact w2
    · have e : D + msum M1 + s + (x.1 - s) = D + msum M1 + x.1 := by omega
      dsimp only
      rw [e]
      exact repr_relink buf buf2 hlen M2 _ _ _ s6
        (fun y hy => by have := h16 y (by simp [hy]); omega) w6
        (fun j h1 h2 h3 => hfr j (by omega) (by omega) (by omega))
  · rw [msum_append, msum_cons] at l12
    rw [msum_append, msum_cons, msum_cons]
    dsimp only
    omega

theorem layout_merge (buf : Buffer) (N D : Nat) (M1 M2 : List (Nat × Nat)) (x y : Nat × Nat)
    (hl : Layout buf N D (M1 ++ x :: y :: M2)) (h16 : ∀ z ∈ M1 ++ x :: y :: M2, 16 ≤ z.1) :
    ∃ buf2, detail.merge_next buf (D + msum M1) = .ok buf2 ∧
      Layout buf2 N D (M1 ++ (x.1 + y.1, x.2) :: M2) ∧
      (∀ j, (j < D + msum M1 ∨ D + msum M1 + 4 ≤ j) →
        (j < D + msum M1 + x.1 + y.1 + 8 ∨ D + msum M1 + x.1 + y.1 + 12 ≤ j) →
        byte buf2 j = byte buf j) ∧
      (Linked buf N D (M1 ++ x :: y :: M2) → Linked buf2 N D (M1 ++ (x.1 + y.1, x.2) :: M2)) := by
  obtain ⟨s1, s2, s3, s4, s5, s6, s7⟩ := layout_split buf N D M1 (y :: M2) x hl
  obtain ⟨l1, l2, l3, l4, l5, l6, l7, l8, l9, l10, l11, l12⟩ := hl
  obtain ⟨t1, t2, t3, t4, t5⟩ := s6
  rw [msum_cons] at s7
  have hx := h16 x (by simp)
  have hy := h16 y (by simp)
  have hm2 := msum_zero_or M2 (fun z hz => h16 z (by simp [hz]))
  obtain ⟨buf2, h, hlen, w1, w2, hfr⟩ :=
    merge_next_spec buf (D + msum M1) x.1 y.1 s3 t2 (by omega) (by omega)
  have hw : ∀ q, (q + 4 ≤ D + msum M1 ∨ D + msum M1 + 4 ≤ q) →
      (q + 4 ≤ D + msum M1 + x.1 + y.1 + 8 ∨ D + msum M1 + x.1 + y.1 + 12 ≤ q) →
      word buf2 q = word buf q :=
    fun q h1 h2 => word_eq_of_bytes buf buf2 q (fun j g1 g2 => hfr j (by omega) (by omega))
  refine ⟨buf2, h, ⟨by omega, l2, l3, l4, l5, ?_, ?_, ?_, ?_, ?_, ?_, ?_⟩, hfr, ?_⟩
  rotate_right
  · intro hk
    unfold Linked at hk ⊢
    rw [last_len_append_cons] at hk ⊢
    cases M2 with
    | nil =>
      rw [msum_nil] at s7
      have e : N - 16 + 8 = D + msum M1 + x.1 + y.1 + 8 := by omega
      rw [e]
      exact w2
    | cons z rest =>
      have hz := h16 z (by simp)
      rw [msum_cons] at s7
      rw [hw _ (by omega) (by omega)]
      exact hk
  · rw [hw 0 (by omega) (by omega)]; exact l6
  · rw [hw 4 (by omega) (by omega)]; exact l7
  · rw [hw 8 (by omega) (by omega)]; exact l8
  · rw [hw _ (by omega) (by omega)]; exact l9
  · rw [hw _ (by omega) (by omega)]; exact l10
  · rw [repr_append]
    refine ⟨?_, by omega, w1, ?_, ?_, ?_⟩
    · exact repr_frame buf _ hlen M1 D D s1
        (fun z hz => by have := h16 z (by simp [hz]); omega)
        (fun j h1 h2 => hfr j (by omega) (by omega))
    · rw [hw _ (by omega) (by omega)]; exact s4
    · rw [hw _ (by omega) (by omega)]; exact s5
    · dsimp only
      have e : D + msum M1 + (x.1 + y.1) = D + msum M1 + x.1 + y.1 := by omega
      rw [e]
      exact repr_relink buf buf2 hlen M2 _ _ _ t5
        (fun z hz => by have := h16 z (by simp [hz]); omega) w2
        (fun j h1 h2 h3 => hfr j (by omega) (by omega))
  · rw [msum_append, msum_cons, msum_cons] at l12
    rw [msum_append, msum_cons]
    dsimp only
    omega

/-- The loop of `detail::reserve_new` passes over atoms that are not free or too short. -/
theorem reserve_new_loop_skip (A id : Nat) (buf : Buffer) (M2 : List (Nat × Nat)) :
    ∀ (M1 : List (Nat × Nat)) (off pl fuel : Nat), Tiled buf off pl (M1 ++ M2) →
      (∀ y ∈ M1, y.2 ≠ AtomID.end_ ∧ (AtomID.free ≠ y.2 ∨ y.1 < A)) →
      detail.reserve_new_loop A id (M1.length + fuel) buf off =
        detail.reserve_new_loop A id fuel buf (off + msum M1) := by
  intro M1
  induction M1 with
  | nil =>
    intro off pl fuel _ _
    simp [msum_nil]
  | cons x rest ih =>
    intro off pl fuel hr hy
    obtain ⟨r1, r2, r3, r4, r5⟩ := hr
    obtain ⟨y1, y2⟩ := hy x (List.mem_cons_self _ _)
    have e : (x :: rest).length + fuel = (rest.length + fuel) + 1 := by
      simp only [List.length_cons]; omega
    rw [e, detail.reserve_new_loop]
    simp only [Atom.identifier, Atom.length]
    rw [load32_ok _ _ (by omega)]
    simp only [Outcome.ok_bind]
    rw [r3, if_neg y1, load32_ok _ _ (by omega)]
    simp only [Outcome.ok_bind]
    rw [r2, if_pos y2, ih _ _ _ r5 (fun y hy2 => hy y (List.mem_cons_of_mem _ hy2)), msum_cons,
      Nat.add_assoc]

/-- The loop of `detail::reserve_new` throws at the end atom and leaves the buffer as it
is. -/
theorem reserve_new_loop_end (A id : Nat) (buf : Buffer) (fuel e : Nat)
    (hb : e + 8 ≤ buf.length) (he : word buf (e + 4) = AtomID.end_) :
    detail.reserve_new_loop A id (fuel + 1) buf e = .thrown buf := by
  rw [detail.reserve_new_loop]
  simp only [Atom.identifier]
  rw [load32_ok _ _ (by omega)]
  simp only [Outcome.ok_bind]
  rw [he, if_pos rfl]

/-- The loop of `detail::reserve_new` at a free atom that is long enough. -/
theorem reserve_new_loop_fit (A id : Nat) (buf : Buffer) (fuel o L : Nat)
    (hb : o + 8 ≤ buf.length) (hf : word buf (o + 4) = AtomID.free) (hL : word buf o = L)
    (hA : A ≤ L) :
    detail.reserve_new_loop A id (fuel + 1) buf o =
      (do
        let buf ← if A < L then do
            let r ← detail.divide buf o A AtomID.free
            pure r.2
          else pure buf
        let buf ← Atom.set_identifier buf o id
        pure (o, buf)) := by
  rw [detail.reserve_new_loop]
  simp only [Atom.identifier, Atom.length]
  rw [load32_ok _ _ (by omega)]
  simp only [Outcome.ok_bind]
  rw [hf, if_neg (by decide), load32_ok _ _ (by omega)]
  simp only [Outcome.ok_bind]
  rw [hL, if_neg (by simp; omega)]

theorem layout_reserve_new (buf : Buffer) (N D : Nat) (M1 M2 : List (Nat × Nat))
    (L A id : Nat) (hl : Layout buf N D (M1 ++ (L, AtomID.free) :: M2))
    (h16 : ∀ y ∈ M1 ++ (L, AtomID.free) :: M2, 16 ≤ y.1 ∧ y.1 % 16 = 0 ∧ y.2 ≠ AtomID.end_)
    (hskip : ∀ y ∈ M1, AtomID.free ≠ y.2 ∨ y.1 < A) (hA1 : 16 ≤ A) (hA2 : A % 16 = 0)
    (hfit : A ≤ L) (hid : id < 2 ^ 32) :
    ∃ buf2, detail.reserve_new buf 0 A id = .ok (D + msum M1, buf2) ∧
      Layout buf2 N D (M1 ++ (A, id) :: (remainder A L ++ M2)) ∧
      (∀ j, (j < D + msum M1 ∨ (D + msum M1 + 8 ≤ j ∧ j < D + msum M1 + 16) ∨
          (D + msum M1 + L ≤ j ∧ j < D + msum M1 + L + 8) ∨ D + msum M1 + L + 12 ≤ j) →
        byte buf2 j = byte buf j) ∧
      (Linked buf N D (M1 ++ (L, AtomID.free) :: M2) →
        Linked buf2 N D (M1 ++ (A, id) :: (remainder A L ++ M2))) := by
  obtain ⟨s1, s2, s3, s4, s5, s6, s7⟩ := layout_split buf N D M1 M2 _ hl
  have hl' := hl
  obtain ⟨l1, l2, l3, l4, l5, l6, l7, l8, l9, l10, l11, l12⟩ := hl
  have h16' : ∀ y ∈ M1 ++ (L, AtomID.free) :: M2, 16 ≤ y.1 := fun y hy => (h16 y hy).1
  have hL := h16 (L, AtomID.free) (by simp)
  have hlenM := length_le_msum M1 (fun y hy => h16' y (by simp [hy]))
  have hfuel : buf.length + 1 = M1.length + ((buf.length - M1.length) + 1) := by omega
  unfold detail.reserve_new Atom.length
  rw [load32_ok _ _ (by omega)]
  simp only [Outcome.ok_bind]
  rw [l6, Nat.zero_add, hfuel, reserve_new_loop_skip A id buf _ M1 D D _ l11
    (fun y hy => ⟨(h16 y (by simp [hy])).2.2, hskip y hy⟩),
    reserve_new_loop_fit A id buf _ _ L (by omega) s4 s3 hfit]
  by_cases hlt : A < L
  · obtain ⟨buf1, d1, d2, d3, d5⟩ := layout_divide buf N D M1 M2 _ hl' h16' A AtomID.free hA1
      (by dsimp only; omega) (by decide)
    have h16b : ∀ y ∈ M1 ++ (A, AtomID.free) :: (L - A, AtomID.free) :: M2, 16 ≤ y.1 := by
      intro y hy
      simp only [List.mem_append, List.mem_cons] at hy
      rcases hy with hy | rfl | rfl | hy
      · exact h16' y (by simp [hy])
      · exact hA1
      · dsimp only; omega
      · exact h16' y (by simp [hy])
    have d4 := layout_retag buf1 N D M1 ((L - A, AtomID.free) :: M2) _ d2 h16b id hid
    rw [if_pos hlt, d1]
    simp only [Outcome.ok_bind, Outcome.pure_eq]
    unfold Atom.set_identifier
    rw [store32_ok _ _ _ (by rw [d2.1]; omega)]
    refine ⟨_, rfl, ?_, ?_, ?_⟩
    · unfold remainder
      rw [if_pos hlt]
      exact d4
    · intro j hj
      rw [byte_put32_outside _ _ _ _ (by omega)]
      exact d3 j (by omega) (by omega) (by dsimp only; omega)
    · intro hk
      unfold remainder
      rw [if_pos hlt]
      exact linked_retag buf1 N D M1 ((L - A, AtomID.free) :: M2) _ d2 h16b id (d5 hk)
  · have hAL : A = L := by omega
    subst hAL
    have d4 := layout_retag buf N D M1 M2 _ hl' h16' id hid
    rw [if_neg hlt]
    simp only [Outcome.ok_bind, Outcome.pure_eq]
    unfold Atom.set_identifier
    rw [store32_ok _ _ _ (by omega)]
    refine ⟨_, rfl, ?_, ?_, ?_⟩
    · unfold remainder
      rw [if_neg hlt]
      exact d4
    · intro j hj
      rw [byte_put32_outside _ _ _ _ (by omega)]
    · intro hk
      unfold remainder
      rw [if_neg hlt]
      exact linked_retag buf N D M1 M2 _ hl' h16' id hk

theorem free_after_cons (x : Nat × Nat) (rest : List (Nat × Nat)) :
    free_after (x :: rest) = if x.2 = AtomID.free then (x.1, rest) else (0, x :: rest) := rfl

theorem nil_or_snoc (M : List (Nat × Nat)) : M = [] ∨ ∃ M0 p, M = M0 ++ [p] := by
  rcases List.eq_nil_or_concat M with h | ⟨M0, p, h⟩
  · exact Or.inl h
  · exact Or.inr ⟨M0, p, by rw [h, List.concat_eq_append]⟩

theorem free_ne_vector_reference {t : Nat} (h : t = AtomID.vector ∨ t = AtomID.reference) :
    t ≠ AtomID.free := by
  rcases h with rfl | rfl <;> decide

theorem chain_apart_mid (M1 M2 : List (Nat × Nat)) (x : Nat × Nat) :
    List.Chain' apart (M1 ++ x :: M2) ↔ List.Chain' apart M1 ∧ List.Chain' apart M2 ∧
      (∀ a ∈ M1.getLast?, apart a x) ∧ (∀ b ∈ M2.head?, apart x b) := by
  rw [List.chain'_append, List.chain'_cons']
  simp only [List.head?_cons, Option.mem_def, Option.some.injEq, forall_eq']
  tauto

theorem validM_mid (M1 M2 : List (Nat × Nat)) (x : Nat × Nat) :
    ValidM (M1 ++ x :: M2) ↔ ValidM M1 ∧ ValidM M2 ∧ tagged x ∧
      (∀ a ∈ M1.getLast?, apart a x) ∧ (∀ b ∈ M2.head?, apart x b) := by
  unfold ValidM
  rw [chain_apart_mid]
  simp only [List.mem_append, List.mem_cons]
  constructor
  · rintro ⟨h1, h2, h3, h4, h5⟩
    exact ⟨⟨fun y hy => h1 y (Or.inl hy), h2⟩, ⟨fun y hy => h1 y (Or.inr (Or.inr hy)), h3⟩,
      h1 x (Or.inr (Or.inl rfl)), h4, h5⟩
  · rintro ⟨⟨h1, h2⟩, ⟨h3, h4⟩, h5, h6, h7⟩
    refine ⟨?_, h2, h4, h6, h7⟩
    rintro y (hy | rfl | hy)
    · exact h1 y hy
    · exact h5
    · exact h3 y hy

theorem apart_of_ne_left {x y : Nat × Nat} (h : x.2 ≠ AtomID.free) : apart x y :=
  fun h2 => h h2.1

theorem apart_of_ne_right {x y : Nat × Nat} (h : y.2 ≠ AtomID.free) : apart x y :=
  fun h2 => h h2.2

theorem validM_reserve (M1 M2 : List (Nat × Nat)) (L A id : Nat)
    (hv : ValidM (M1 ++ (L, AtomID.free) :: M2))
    (hid : id = AtomID.vector ∨ id = AtomID.reference) (hA1 : 32 ≤ A) (hA2 : A % 16 = 0) :
    ValidM (M1 ++ (A, id) :: (remainder A L ++ M2)) := by
  rw [validM_mid] at hv ⊢
  obtain ⟨h1, h2, h3, h4, h5⟩ := hv
  have hidf : id ≠ AtomID.free := free_ne_vector_reference hid
  have ht : tagged (A, id) := by
    refine ⟨?_, by dsimp only; omega, hA2, fun _ => by dsimp only; omega⟩
    rcases hid with rfl | rfl
    · exact Or.inl rfl
    · exact Or.inr (Or.inl rfl)
  have hL := h3.2
  refine ⟨h1, ?_, ht, fun a _ => apart_of_ne_right hidf, fun b _ => apart_of_ne_left hidf⟩
  unfold remainder
  by_cases hlt : A < L
  · rw [if_pos hlt]
    have : ValidM ([] ++ (L - A, AtomID.free) :: M2) := by
      rw [validM_mid]
      refine ⟨⟨by simp, List.chain'_nil⟩, h2, ?_, by simp, ?_⟩
      · refine ⟨Or.inr (Or.inr rfl), ?_, ?_, fun h => ?_⟩
        · dsimp only at hL ⊢; omega
        · dsimp only at hL ⊢; omega
        · exact absurd rfl (free_ne_vector_reference h)
      · intro b hb hf
        exact h5 b hb ⟨rfl, hf.2⟩
    simpa using this
  · rw [if_neg hlt]
    simpa using h2

theorem free_after_msum (M : List (Nat × Nat)) :
    (free_after M).1 + msum (free_after M).2 = msum M := by
  cases M with
  | nil => rfl
  | cons x rest =>
    rw [free_after_cons]
    by_cases h : x.2 = AtomID.free
    · rw [if_pos h, msum_cons]
    · rw [if_neg h]; simp

theorem free_before_nil : free_before [] = (0, []) := rfl

theorem free_before_concat (M : List (Nat × Nat)) (x : Nat × Nat) :
    free_before (M ++ [x]) = if x.2 = AtomID.free then (x.1, M) else (0, M ++ [x]) := by
  unfold free_before
  rw [List.reverse_append]
  simp only [List.reverse_cons, List.reverse_nil, List.nil_append, List.singleton_append,
    free_after]
  by_cases h : x.2 = AtomID.free
  · simp [h]
  · simp [h]

theorem free_before_msum (M : List (Nat × Nat)) :
    msum (free_before M).2 + (free_before M).1 = msum M := by
  rcases nil_or_snoc M with rfl | ⟨M0, p, rfl⟩
  · rfl
  · rw [free_before_concat]
    by_cases h : p.2 = AtomID.free
    · rw [if_pos h, msum_append, msum_cons, msum_nil]
      dsimp only
      omega
    · rw [if_neg h]; simp

theorem validM_coalesce (M1 M2 : List (Nat × Nat)) (L : Nat) (h1 : ValidM M1)
    (h2 : ValidM M2) (hL1 : 16 ≤ L) (hL2 : L % 16 = 0) :
    ValidM ((free_before M1).2 ++
      ((free_before M1).1 + (L + (free_after M2).1), AtomID.free) :: (free_after M2).2) := by
  rw [validM_mid]
  -- the part after the atom
  have hafter : ValidM (free_after M2).2 ∧ (free_after M2).1 % 16 = 0 ∧
      ∀ b ∈ (free_after M2).2.head?, b.2 ≠ AtomID.free := by
    cases M2 with
    | nil => exact ⟨h2, rfl, by simp [free_after]⟩
    | cons y rest =>
      have h2' : ValidM ([] ++ y :: rest) := h2
      rw [validM_mid] at h2'
      obtain ⟨_, g2, g3, _, g5⟩ := h2'
      rw [free_after_cons]
      by_cases hy : y.2 = AtomID.free
      · rw [if_pos hy]
        refine ⟨g2, g3.2.2.1, fun b hb hf => g5 b hb ⟨hy, hf⟩⟩
      · rw [if_neg hy]
        refine ⟨h2, rfl, ?_⟩
        intro b hb
        simp only [List.head?_cons, Option.mem_def, Option.some.injEq] at hb
        rw [← hb]
        exact hy
  -- the part before the atom
  have hbefore : ValidM (free_before M1).2 ∧ (free_before M1).1 % 16 = 0 ∧
      ∀ a ∈ (free_before M1).2.getLast?, a.2 ≠ AtomID.free := by
    rcases nil_or_snoc M1 with rfl | ⟨M0, p, rfl⟩
    · exact ⟨h1, rfl, by simp [free_before_nil]⟩
    · have h1' : ValidM (M0 ++ p :: []) := h1
      rw [validM_mid] at h1'
      obtain ⟨g1, _, g3, g4, _⟩ := h1'
      rw [free_before_concat]
      by_cases hp : p.2 = AtomID.free
      · rw [if_pos hp]
        exact ⟨g1, g3.2.2.1, fun a ha hf => g4 a ha ⟨hf, hp⟩⟩
      · rw [if_neg hp]
        refine ⟨h1, rfl, ?_⟩
        intro a ha
        rw [List.getLast?_concat] at ha
        simp only [Option.mem_def, Option.some.injEq] at ha
        rw [← ha]
        exact hp
  obtain ⟨a1, a2, a3⟩ := hafter
  obtain ⟨b1, b2, b3⟩ := hbefore
  refine ⟨b1, a1, ?_, fun a ha => apart_of_ne_left (b3 a ha),
    fun b hb => apart_of_ne_right (a3 b hb)⟩
  refine ⟨Or.inr (Or.inr rfl), by dsimp only; omega, by dsimp only; omega, fun h => ?_⟩
  exact absurd rfl (free_ne_vector_reference h)

theorem validM_free (M1 M2 : List (Nat × Nat)) (L t : Nat)
    (hv : ValidM (M1 ++ (L, t) :: M2)) :
    ValidM ((free_before M1).2 ++
      ((free_before M1).1 + (L + (free_after M2).1), AtomID.free) :: (free_after M2).2) := by
  rw [validM_mid] at hv
  obtain ⟨h1, h2, h3, _, _⟩ := hv
  exact validM_coalesce M1 M2 L h1 h2 h3.2.1 h3.2.2.1

theorem validM_snoc (M1 : List (Nat × Nat)) (x y : Nat × Nat) (M2 : List (Nat × Nat))
    (hv : ValidM (M1 ++ x :: M2)) (hy : tagged y) (hf : y.2 ≠ AtomID.free) :
    ValidM (M1 ++ [y]) := by
  rw [validM_mid] at hv ⊢
  obtain ⟨h1, _, _, _, _⟩ := hv
  exact ⟨h1, ⟨by simp, List.chain'_nil⟩, hy, fun a _ => apart_of_ne_right hf, by simp⟩

theorem layout_follower (buf : Buffer) (N D : Nat) (M1 M2 : List (Nat × Nat)) (x : Nat × Nat)
    (hl : Layout buf N D (M1 ++ x :: M2)) (h16 : ∀ y ∈ M1 ++ x :: M2, 16 ≤ y.1) :
    D + msum M1 + x.1 + 16 ≤ N ∧
    (M2 = [] → D + msum M1 + x.1 = N - 16 ∧ word buf (D + msum M1 + x.1) = 16 ∧
      word buf (D + msum M1 + x.1 + 4) = AtomID.end_) ∧
    (∀ y rest, M2 = y :: rest → word buf (D + msum M1 + x.1) = y.1 ∧
      word buf (D + msum M1 + x.1 + 4) = y.2 ∧ word buf (D + msum M1 + x.1 + 8) = x.1) := by
  obtain ⟨s1, s2, s3, s4, s5, s6, s7⟩ := layout_split buf N D M1 M2 x hl
  obtain ⟨l1, l2, l3, l4, l5, l6, l7, l8, l9, l10, l11, l12⟩ := hl
  refine ⟨by omega, ?_, ?_⟩
  · rintro rfl
    rw [msum_nil] at s7
    have : D + msum M1 + x.1 = N - 16 := by omega
    rw [this]
    exact ⟨rfl, l9, l10⟩
  · rintro y rest rfl
    obtain ⟨r1, r2, r3, r4, r5⟩ := s6
    exact ⟨r2, r3, r4⟩

theorem layout_leader (buf : Buffer) (N D : Nat) (M1 M2 : List (Nat × Nat)) (x : Nat × Nat)
    (hl : Layout buf N D (M1 ++ x :: M2)) :
    (M1 = [] → word buf (D + msum M1 + 8) = D ∧ D + msum M1 - D = 0) ∧
    (∀ M0 p, M1 = M0 ++ [p] → word buf (D + msum M1 + 8) = p.1 ∧
      D + msum M1 - p.1 = D + msum M0 ∧ word buf (D + msum M0) = p.1 ∧
      word buf (D + msum M0 + 4) = p.2) := by
  refine ⟨?_, ?_⟩
  · rintro rfl
    obtain ⟨s1, s2, s3, s4, s5, s6, s7⟩ := layout_split buf N D [] M2 x hl
    rw [msum_nil]
    exact ⟨s5, by omega⟩
  · rintro M0 p rfl
    rw [List.append_assoc] at hl
    obtain ⟨s1, s2, s3, s4, s5, s6, s7⟩ := layout_split buf N D M0 (x :: M2) p hl
    obtain ⟨r1, r2, r3, r4, r5⟩ := s6
    rw [msum_append, msum_cons, msum_nil]
    refine ⟨?_, by omega, s3, s4⟩
    rw [← r4]
    congr 1
    omega

theorem coalesce_next (buf : Buffer) (N D : Nat) (M1 M2 : List (Nat × Nat)) (L t : Nat)
    (hl : Layout buf N D (M1 ++ (L, t) :: M2)) (h16 : ∀ y ∈ M1 ++ (L, t) :: M2, 16 ≤ y.1) :
    ∃ buf2, (if AtomID.free = word buf (D + msum M1 + L + 4)
        then detail.merge_next buf (D + msum M1) else pure buf) = .ok buf2 ∧
      Layout buf2 N D (M1 ++ (L + (free_after M2).1, t) :: (free_after M2).2) ∧
      (∀ j, (j < D + msum M1 ∨ D + msum M1 + 4 ≤ j) →
        (j < D + msum M1 + L + (free_after M2).1 + 8 ∨
          D + msum M1 + L + (free_after M2).1 + 12 ≤ j) → byte buf2 j = byte buf j) ∧
      (Linked buf N D (M1 ++ (L, t) :: M2) →
        Linked buf2 N D (M1 ++ (L + (free_after M2).1, t) :: (free_after M2).2)) := by
  obtain ⟨f1, f2, f3⟩ := layout_follower buf N D M1 M2 _ hl h16
  cases M2 with
  | nil =>
    obtain ⟨g1, g2, g3⟩ := f2 rfl
    dsimp only at g3
    rw [g3, if_neg (by decide)]
    exact ⟨buf, rfl, hl, fun _ _ _ => rfl, fun hk => hk⟩
  | cons y rest =>
    obtain ⟨g1, g2, g3⟩ := f3 y rest rfl
    dsimp only at g2
    rw [g2, free_after_cons]
    by_cases hy : y.2 = AtomID.free
    · rw [if_pos hy.symm, if_pos hy]
      obtain ⟨buf2, m1, m2, m3, m4⟩ := layout_merge buf N D M1 rest _ y hl h16
      exact ⟨buf2, m1, m2, m3, m4⟩
    · rw [if_neg (fun h => hy h.symm), if_neg hy]
      exact ⟨buf, rfl, hl, fun _ _ _ => rfl, fun hk => hk⟩

theorem coalesce_previous (buf : Buffer) (N D : Nat) (M1 M2 : List (Nat × Nat)) (L : Nat)
    (hl : Layout buf N D (M1 ++ (L, AtomID.free) :: M2))
    (h16 : ∀ y ∈ M1 ++ (L, AtomID.free) :: M2, 16 ≤ y.1) :
    ∃ buf2, (do
        let p ← Atom.previous buf (D + msum M1)
        if D + msum M1 < p then .fault else do
          let pid ← Atom.identifier buf (D + msum M1 - p)
          if AtomID.free = pid then do
            let b ← detail.merge_next buf (D + msum M1 - p)
            pure (D + msum M1 - p, b)
          else
            pure (D + msum M1, buf)) = Outcome.ok (D + msum (free_before M1).2, buf2) ∧
      Layout buf2 N D ((free_before M1).2 ++ ((free_before M1).1 + L, AtomID.free) :: M2) ∧
      (∀ j, (j < D + msum (free_before M1).2 ∨ D + msum (free_before M1).2 + 4 ≤ j) →
        (j < D + msum M1 + L + 8 ∨ D + msum M1 + L + 12 ≤ j) → byte buf2 j = byte buf j) ∧
      (Linked buf N D (M1 ++ (L, AtomID.free) :: M2) → Linked buf2 N D
        ((free_before M1).2 ++ ((free_before M1).1 + L, AtomID.free) :: M2)) ∧
      ((free_before M1).1 = 0 → buf2 = buf) := by
  obtain ⟨s1, s2, s3, s4, s5, s6, s7⟩ := layout_split buf N D M1 M2 _ hl
  obtain ⟨e1, e2⟩ := layout_leader buf N D M1 M2 _ hl
  have hl' := hl
  obtain ⟨l1, l2, l3, l4, l5, l6, l7, l8, l9, l10, l11, l12⟩ := hl
  unfold Atom.previous Atom.identifier
  rw [load32_ok _ _ (by omega)]
  simp only [Outcome.ok_bind]
  rcases nil_or_snoc M1 with rfl | ⟨M0, p, rfl⟩
  · obtain ⟨g1, g2⟩ := e1 rfl
    rw [g1, if_neg (by rw [msum_nil]; omega), g2, load32_ok _ _ (by omega)]
    simp only [Outcome.ok_bind]
    rw [Nat.zero_add, l7, if_neg (by decide), free_before_nil]
    refine ⟨buf, rfl, ?_, fun _ _ _ => rfl, ?_, fun _ => rfl⟩
    · simpa using hl'
    · intro hk
      simpa using hk
  · obtain ⟨g1, g2, g3, g4⟩ := e2 M0 p rfl
    have hp := h16 p (by simp)
    have hmm : msum (M0 ++ [p]) = msum M0 + p.1 := by
      rw [msum_append, msum_cons, msum_nil]; omega
    rw [g1, if_neg (by omega), g2, load32_ok _ _ (by omega)]
    simp only [Outcome.ok_bind]
    rw [g4, free_before_concat]
    by_cases hpf : p.2 = AtomID.free
    · rw [if_pos hpf.symm, if_pos hpf]
      rw [List.append_assoc] at hl' h16
      obtain ⟨buf2, m1, m2, m3, m4⟩ := layout_merge buf N D M0 M2 p (L, AtomID.free) hl' h16
      rw [m1]
      simp only [Outcome.ok_bind, Outcome.pure_eq]
      refine ⟨buf2, rfl, ?_, ?_, ?_, ?_⟩
      · rw [hpf] at m2
        exact m2
      · intro j hj1 hj2
        dsimp only at hj1 m3
        exact m3 j hj1 (by omega)
      · intro hk
        rw [List.append_assoc] at hk
        have := m4 hk
        rw [hpf] at this
        exact this
      · intro h0
        have h1 : p.1 = 0 := h0
        omega
    · rw [if_neg (fun h => hpf h.symm), if_neg hpf]
      refine ⟨buf, rfl, ?_, fun _ _ _ => rfl, ?_, fun _ => rfl⟩
      · dsimp only
        rw [Nat.zero_add]
        exact hl'
      · intro hk
        dsimp only
        rw [Nat.zero_add]
        exact hk

theorem layout_free (buf : Buffer) (N D : Nat) (M1 M2 : List (Nat × Nat)) (L t : Nat)
    (hl : Layout buf N D (M1 ++ (L, t) :: M2)) (h16 : ∀ y ∈ M1 ++ (L, t) :: M2, 16 ≤ y.1) :
    ∃ buf2, detail.free buf (D + msum M1) = .ok (D + msum (free_before M1).2, buf2) ∧
      Layout buf2 N D ((free_before M1).2 ++
        ((free_before M1).1 + (L + (free_after M2).1), AtomID.free) :: (free_after M2).2) ∧
      (∀ j, (j < D + msum (free_before M1).2 ∨ D + msum (free_before M1).2 + 4 ≤ j) →
        (j < D + msum M1 ∨ D + msum M1 + 8 ≤ j) →
        (j < D + msum M1 + L + (free_after M2).1 + 8 ∨
          D + msum M1 + L + (free_after M2).1 + 12 ≤ j) → byte buf2 j = byte buf j) ∧
      (Linked buf N D (M1 ++ (L, t) :: M2) → Linked buf2 N D ((free_before M1).2 ++
        ((free_before M1).1 + (L + (free_after M2).1), AtomID.free) :: (free_after M2).2)) := by
  obtain ⟨s1, s2, s3, s4, s5, s6, s7⟩ := layout_split buf N D M1 M2 _ hl
  have hl0 := layout_retag buf N D M1 M2 _ hl h16 AtomID.free (by decide)
  dsimp only at hl0
  have h16a : ∀ y ∈ M1 ++ (L, AtomID.free) :: M2, 16 ≤ y.1 := by
    intro y hy
    simp only [List.mem_append, List.mem_cons] at hy
    rcases hy with hy | rfl | hy
    · exact h16 y (by simp [hy])
    · exact h16 (L, t) (by simp)
    · exact h16 y (by simp [hy])
  obtain ⟨t1, t2, t3, t4, t5, t6, t7⟩ := layout_split _ N D M1 M2 _ hl0
  obtain ⟨f1, f2, f3⟩ := layout_follower _ N D M1 M2 _ hl0 h16a
  obtain ⟨buf1, c1, c2, c3, c4⟩ := coalesce_next _ N D M1 M2 L AtomID.free hl0 h16a
  have h16b : ∀ y ∈ M1 ++ (L + (free_after M2).1, AtomID.free) :: (free_after M2).2,
      16 ≤ y.1 := by
    intro y hy
    simp only [List.mem_append, List.mem_cons] at hy
    rcases hy with hy | rfl | hy
    · exact h16 y (by simp [hy])
    · have := h16 (L, t) (by simp)
      dsimp only at this ⊢
      omega
    · cases M2 with
      | nil => simp [free_after] at hy
      | cons z rest =>
        rw [free_after_cons] at hy
        by_cases hz : z.2 = AtomID.free
        · rw [if_pos hz] at hy
          exact h16 y (by simp [hy])
        · rw [if_neg hz] at hy
          exact h16 y (by simp only [List.mem_append, List.mem_cons]; right; right; simpa using hy)
  obtain ⟨buf2, p1, p2, p3, p4, _⟩ := coalesce_previous buf1 N D M1 _ _ c2 h16b
  have hlen0 : (put32 buf (D + msum M1 + 4) AtomID.free).length = buf.length := length_put32 _ _ _
  have hN := hl.1
  refine ⟨buf2, ?_, p2, ?_, fun hk => p4 (c4 (linked_retag buf N D M1 M2 _ hl h16 _ hk))⟩
  · unfold detail.free Atom.set_identifier
    rw [store32_ok _ _ _ (by omega)]
    simp only [Outcome.ok_bind]
    unfold Atom.length
    rw [load32_ok _ _ (by rw [hlen0]; omega)]
    simp only [Outcome.ok_bind]
    dsimp only at t3
    rw [t3]
    have hid : Atom.identifier (put32 buf (D + msum M1 + 4) AtomID.free) (D + msum M1 + L) =
        .ok (word (put32 buf (D + msum M1 + 4) AtomID.free) (D + msum M1 + L + 4)) := by
      unfold Atom.identifier
      exact load32_ok _ _ (by rw [hlen0]; dsimp only at f1; omega)
    rw [hid]
    simp only [Outcome.ok_bind]
    by_cases hc : AtomID.free = word (put32 buf (D + msum M1 + 4) AtomID.free)
        (D + msum M1 + L + 4)
    · rw [if_pos hc] at c1 ⊢
      rw [c1]
      simp only [Outcome.ok_bind, Outcome.pure_eq]
      exact p1
    · rw [if_neg hc] at c1 ⊢
      cases c1
      simp only [Outcome.ok_bind, Outcome.pure_eq]
      exact p1
  · intro j hj1 hj2 hj3
    rw [p3 j hj1 (by omega), c3 j (by omega) hj3]
    exact byte_put32_outside _ _ _ _ (by omega)

theorem length_copy_bytes (buf : Buffer) (dst src n : Nat) (h1 : dst + n ≤ buf.length)
    (h2 : src + n ≤ buf.length) : (copy_bytes buf dst src n).length = buf.length := by
  unfold copy_bytes
  simp only [List.length_append, List.length_take, List.length_drop]
  omega

theorem byte_copy_bytes (buf : Buffer) (dst src n j : Nat) (h1 : dst + n ≤ buf.length)
    (h2 : src + n ≤ buf.length) :
    byte (copy_bytes buf dst src n) j =
      if dst ≤ j ∧ j < dst + n then byte buf (src + (j - dst)) else byte buf j := by
  unfold byte copy_bytes
  rw [List.getD_eq_getElem?_getD, List.getD_eq_getElem?_getD, List.getD_eq_getElem?_getD]
  by_cases c1 : j < dst
  · have e : ¬ (dst ≤ j ∧ j < dst + n) := by omega
    rw [if_neg e, List.append_assoc, List.getElem?_append_left (by simp; omega),
      List.getElem?_take_of_lt c1]
  · by_cases c2 : j < dst + n
    · have e : dst ≤ j ∧ j < dst + n := by omega
      rw [if_pos e, List.getElem?_append_left (by simp; omega),
        List.getElem?_append_right (by simp; omega)]
      simp only [List.length_take]
      have e2 : min dst buf.length = dst := by omega
      rw [e2, List.getElem?_take_of_lt (by omega), List.getElem?_drop]
    · have e : ¬ (dst ≤ j ∧ j < dst + n) := by omega
      rw [if_neg e, List.getElem?_append_right (by simp; omega)]
      simp only [List.length_append, List.length_take, List.length_drop, List.getElem?_drop]
      have e2 : min dst buf.length = dst := by omega
      have e3 : min n (buf.length - src) = n := by omega
      rw [e2, e3]
      have e4 : dst + n + (j - (dst + n)) = j := by omega
      rw [e4]

theorem memcpy_spec (buf : Buffer) (dst src n : Nat) (h1 : dst + n ≤ buf.length)
    (h2 : src + n ≤ buf.length) (h3 : dst + n ≤ src ∨ src + n ≤ dst) :
    memcpy buf dst src n = .ok (copy_bytes buf dst src n) ∧
      (copy_bytes buf dst src n).length = buf.length ∧
      (∀ j, j < n → byte (copy_bytes buf dst src n) (dst + j) = byte buf (src + j)) ∧
      ∀ j, (j < dst ∨ dst + n ≤ j) → byte (copy_bytes buf dst src n) j = byte buf j := by
  refine ⟨?_, length_copy_bytes buf dst src n h1 h2, ?_, ?_⟩
  · unfold memcpy
    rw [if_pos ⟨h1, h2, Or.inr h3⟩]
  · intro j hj
    rw [byte_copy_bytes _ _ _ _ _ h1 h2, if_pos (by omega)]
    congr 1
    omega
  · intro j hj
    rw [byte_copy_bytes _ _ _ _ _ h1 h2, if_neg (by omega)]

theorem layout_content_frame (buf buf2 : Buffer) (N D : Nat) (M1 M2 : List (Nat × Nat))
    (x : Nat × Nat) (hl : Layout buf N D (M1 ++ x :: M2))
    (h16 : ∀ y ∈ M1 ++ x :: M2, 16 ≤ y.1) (hlen : buf2.length = buf.length)
    (hb : ∀ j, (j < D + msum M1 + 16 ∨ D + msum M1 + x.1 ≤ j) → byte buf2 j = byte buf j) :
    Layout buf2 N D (M1 ++ x :: M2) := by
  obtain ⟨s1, s2, s3, s4, s5, s6, s7⟩ := layout_split buf N D M1 M2 x hl
  obtain ⟨l1, l2, l3, l4, l5, l6, l7, l8, l9, l10, l11, l12⟩ := hl
  have hx := h16 x (by simp)
  have hm2 := msum_zero_or M2 (fun y hy => h16 y (by simp [hy]))
  have hw : ∀ q, (q + 4 ≤ D + msum M1 + 16 ∨ D + msum M1 + x.1 ≤ q) →
      word buf2 q = word buf q := by
    intro q hq
    exact word_eq_of_bytes _ _ _ (fun i hi1 hi2 => hb i (by omega))
  refine ⟨by omega, l2, l3, l4, l5, ?_, ?_, ?_, ?_, ?_, ?_, l12⟩
  · rw [hw 0 (by omega)]; exact l6
  · rw [hw 4 (by omega)]; exact l7
  · rw [hw 8 (by omega)]; exact l8
  · rw [hw (N - 16) (by omega)]; exact l9
  · rw [hw (N - 16 + 4) (by omega)]; exact l10
  · rw [repr_append]
    refine ⟨repr_frame buf buf2 hlen M1 D D s1 (fun y hy => ?_) (fun j _ hj => hb j (by omega)),
      by omega, ?_, ?_, ?_, ?_⟩
    · have := h16 y (by simp [hy]); omega
    · rw [hw _ (by omega)]; exact s3
    · rw [hw _ (by omega)]; exact s4
    · rw [hw _ (by omega)]; exact s5
    · exact repr_frame buf buf2 hlen M2 _ _ s6 (fun y hy => by
        have := h16 y (by simp [hy]); omega) (fun j hj _ => hb j (by omega))

theorem divide_total (buf : Buffer) (o s id L : Nat) (hL : word buf o = L) (hs : s ≤ L)
    (hb : o + L + 16 ≤ buf.length) :
    ∃ buf2, detail.divide buf o s id = .ok (o + s, buf2) ∧ buf2.length = buf.length := by
  have hL32 : L < 2 ^ 32 := by rw [← hL]; exact word_lt _ _
  unfold detail.divide Atom.set_identifier Atom.set_length Atom.set_previous Atom.set_reserved
    Atom.length
  dsimp only
  rw [store32_ok _ _ _ (by omega)]
  simp only [Outcome.ok_bind]
  rw [load32_ok _ _ (by simp only [length_put32]; omega)]
  simp only [Outcome.ok_bind]
  rw [word_put32_disjoint _ _ _ _ (by omega), hL, sub32_eq _ _ (by omega) hL32,
    store32_ok _ _ _ (by simp only [length_put32]; omega)]
  simp only [Outcome.ok_bind]
  rw [store32_ok _ _ _ (by simp only [length_put32]; omega)]
  simp only [Outcome.ok_bind]
  rw [store32_ok _ _ _ (by simp only [length_put32]; omega)]
  simp only [Outcome.ok_bind]
  rw [load32_ok _ _ (by simp only [length_put32]; omega)]
  simp only [Outcome.ok_bind]
  have ht : word (put32 (put32 (put32 (put32 buf (o + s + 4) id) (o + s) (L - s)) (o + s + 8) s)
      (o + s + 12) 0) (o + s) = L - s := by
    rw [word_put32_disjoint _ _ _ _ (by omega), word_put32_disjoint _ _ _ _ (by omega),
      word_put32_same _ _ _ (by simp only [length_put32]; omega)]
    exact Nat.mod_eq_of_lt (by omega)
  rw [ht]
  have hf : o + s + (L - s) + 8 = o + L + 8 := by omega
  rw [hf, store32_ok _ _ _ (by simp only [length_put32]; omega)]
  simp only [Outcome.ok_bind]
  rw [store32_ok _ _ _ (by simp only [length_put32]; omega)]
  exact ⟨_, rfl, by simp only [length_put32]⟩

theorem layout_reserve_new_none (buf : Buffer) (N D : Nat) (M : List (Nat × Nat)) (A id : Nat)
    (hl : Layout buf N D M) (h16 : ∀ y ∈ M, 16 ≤ y.1)
    (hno : ∀ y ∈ M, y.2 ≠ AtomID.end_ ∧ (AtomID.free ≠ y.2 ∨ y.1 < A)) :
    detail.reserve_new buf 0 A id = .thrown buf := by
  obtain ⟨l1, l2, l3, l4, l5, l6, l7, l8, l9, l10, l11, l12⟩ := hl
  have hlenM := length_le_msum M h16
  have hfuel : buf.length + 1 = M.length + ((buf.length - M.length) + 1) := by omega
  unfold detail.reserve_new Atom.length
  rw [load32_ok _ _ (by omega)]
  simp only [Outcome.ok_bind]
  have hr : Tiled buf D D (M ++ []) := by rw [List.append_nil]; exact l11
  rw [l6, Nat.zero_add, hfuel, reserve_new_loop_skip A id buf [] M D D _ hr hno]
  have he : D + msum M = N - 16 := by omega
  rw [he]
  exact reserve_new_loop_end A id buf _ _ (by omega) l10

theorem layout_reserve_new_total (buf : Buffer) (N D : Nat) (M1 M2 : List (Nat × Nat))
    (L A id : Nat) (hl : Layout buf N D (M1 ++ (L, AtomID.free) :: M2))
    (h16 : ∀ y ∈ M1 ++ (L, AtomID.free) :: M2, 16 ≤ y.1)
    (hskip : ∀ y ∈ M1, y.2 ≠ AtomID.end_ ∧ (AtomID.free ≠ y.2 ∨ y.1 < A)) (hfit : A ≤ L) :
    ∃ buf2, detail.reserve_new buf 0 A id = .ok (D + msum M1, buf2) := by
  obtain ⟨s1, s2, s3, s4, s5, s6, s7⟩ := layout_split buf N D M1 M2 _ hl
  obtain ⟨f1, _, _⟩ := layout_follower buf N D M1 M2 _ hl h16
  obtain ⟨l1, l2, l3, l4, l5, l6, l7, l8, l9, l10, l11, l12⟩ := hl
  have hlenM := length_le_msum M1 (fun y hy => h16 y (by simp [hy]))
  have hfuel : buf.length + 1 = M1.length + ((buf.length - M1.length) + 1) := by omega
  unfold detail.reserve_new Atom.length
  rw [load32_ok _ _ (by omega)]
  simp only [Outcome.ok_bind]
  rw [l6, Nat.zero_add, hfuel, reserve_new_loop_skip A id buf _ M1 D D _ l11 hskip,
    reserve_new_loop_fit A id buf _ _ L (by omega) s4 s3 hfit]
  dsimp only at f1
  obtain ⟨buf1, d1, d2⟩ := divide_total buf (D + msum M1) A AtomID.free L s3 hfit (by omega)
  by_cases hlt : A < L
  · rw [if_pos hlt, d1]
    simp only [Outcome.ok_bind, Outcome.pure_eq]
    unfold Atom.set_identifier
    rw [store32_ok _ _ _ (by omega)]
    exact ⟨_, rfl⟩
  · rw [if_neg hlt]
    simp only [Outcome.ok_bind, Outcome.pure_eq]
    unfold Atom.set_identifier
    rw [store32_ok _ _ _ (by omega)]
    exact ⟨_, rfl⟩

theorem first_fit (P : Nat × Nat → Prop) [DecidablePred P] :
    ∀ (M : List (Nat × Nat)), (∃ y ∈ M, P y) →
      ∃ M1 y M2, M = M1 ++ y :: M2 ∧ P y ∧ ∀ z ∈ M1, ¬ P z := by
  intro M
  induction M with
  | nil => rintro ⟨y, hy, _⟩; simp at hy
  | cons x rest ih =>
    rintro ⟨y, hy, hp⟩
    by_cases hx : P x
    · exact ⟨[], x, rest, rfl, hx, by simp⟩
    · simp only [List.mem_cons] at hy
      rcases hy with rfl | hy
      · exact absurd hp hx
      · obtain ⟨M1, z, M2, e, hz, hall⟩ := ih ⟨y, hy, hp⟩
        refine ⟨x :: M1, z, M2, by rw [e]; rfl, hz, ?_⟩
        intro w hw
        simp only [List.mem_cons] at hw
        rcases hw with rfl | hw
        · exact hx
        · exact hall w hw

theorem split_order (Ma Mb M1 M2 : List (Nat × Nat)) (x y : Nat × Nat)
    (h : Ma ++ x :: Mb = M1 ++ y :: M2) (hlt : msum Ma < msum M1) :
    ∃ Mc, M1 = Ma ++ x :: Mc ∧ Mb = Mc ++ y :: M2 := by
  rw [List.append_eq_append_iff] at h
  rcases h with ⟨a, h1, h2⟩ | ⟨c, h1, h2⟩
  · cases a with
    | nil =>
      rw [List.append_nil] at h1
      rw [h1] at hlt
      omega
    | cons z rest =>
      simp only [List.cons_append, List.cons.injEq] at h2
      obtain ⟨rfl, h3⟩ := h2
      exact ⟨rest, h1, h3⟩
  · rw [h1, msum_append] at hlt
    omega

theorem free_after_append (Mb R : List (Nat × Nat)) (x : Nat × Nat) (hx : x.2 ≠ AtomID.free) :
    free_after (Mb ++ x :: R) = ((free_after Mb).1, (free_after Mb).2 ++ x :: R) := by
  cases Mb with
  | nil =>
    rw [List.nil_append, free_after_cons, if_neg hx]
    rfl
  | cons y rest =>
    rw [List.cons_append, free_after_cons, free_after_cons]
    by_cases hy : y.2 = AtomID.free
    · rw [if_pos hy, if_pos hy]
    · rw [if_neg hy, if_neg hy]
      rfl

theorem free_before_append (R Ma : List (Nat × Nat)) (x : Nat × Nat) (hx : x.2 ≠ AtomID.free) :
    free_before (R ++ x :: Ma) = ((free_before Ma).1, R ++ x :: (free_before Ma).2) := by
  rcases nil_or_snoc Ma with rfl | ⟨M0, p, rfl⟩
  · rw [free_before_nil]
    have := free_before_concat R x
    rw [if_neg hx] at this
    rw [this]
  · have e : R ++ x :: (M0 ++ [p]) = (R ++ x :: M0) ++ [p] := by simp
    rw [e, free_before_concat, free_before_concat]
    by_cases hp : p.2 = AtomID.free
    · rw [if_pos hp, if_pos hp]
    · rw [if_neg hp, if_neg hp]
      simp

theorem tagged_ne_end {x : Nat × Nat} (h : tagged x) : x.2 ≠ AtomID.end_ := by
  rcases h.1 with h | h | h <;> rw [h] <;> decide

theorem tagged_ne_data {x : Nat × Nat} (h : tagged x) : x.2 ≠ AtomID.data := by
  rcases h.1 with h | h | h <;> rw [h] <;> decide

theorem atom_of_split (buf : Buffer) (N D : Nat) (M1 M2 : List (Nat × Nat)) (x : Nat × Nat)
    (hl : Layout buf N D (M1 ++ x :: M2)) (h16 : ∀ y ∈ M1 ++ x :: M2, 16 ≤ y.1) :
    D + msum M1 ∈ atoms buf N ∧ word buf (D + msum M1) = x.1 ∧
      word buf (D + msum M1 + 4) = x.2 := by
  obtain ⟨s1, s2, s3, s4, s5, s6, s7⟩ := layout_split buf N D M1 M2 x hl
  refine ⟨?_, s3, s4⟩
  rw [atoms_of_layout buf N D _ hl h16, offsets_append]
  simp [offsets]

theorem atom_split (buf : Buffer) (N D : Nat) (M : List (Nat × Nat)) (hl : Layout buf N D M)
    (h16 : ∀ y ∈ M, 16 ≤ y.1) (o : Nat) (ho : o ∈ atoms buf N)
    (h1 : word buf (o + 4) ≠ AtomID.data) (h2 : word buf (o + 4) ≠ AtomID.end_) :
    ∃ M1 M2, M = M1 ++ (word buf o, word buf (o + 4)) :: M2 ∧ o = D + msum M1 := by
  have hl' := hl
  obtain ⟨l1, l2, l3, l4, l5, l6, l7, l8, l9, l10, l11, l12⟩ := hl
  rw [atoms_of_layout buf N D M hl' h16] at ho
  simp only [List.mem_cons, List.mem_append, List.mem_singleton, List.not_mem_nil,
    or_false] at ho
  rcases ho with rfl | ho | rfl
  · exact absurd l7 h1
  · obtain ⟨M1, x, M2, e, ho2⟩ := mem_offsets M D o ho
    subst e
    obtain ⟨s1, s2, s3, s4, s5, s6, s7⟩ := layout_split buf N D M1 M2 x hl'
    refine ⟨M1, M2, ?_, ho2⟩
    rw [ho2, s3, s4]
  · exact absurd l10 h2

theorem nofit_iff (buf : Buffer) (N D : Nat) (M : List (Nat × Nat)) (hl : Layout buf N D M)
    (hv : ValidM M) (A : Nat) :
    (∀ p ∈ atoms buf N, word buf (p + 4) = AtomID.free → word buf p < A) ↔
      ∀ y ∈ M, y.2 ≠ AtomID.end_ ∧ (AtomID.free ≠ y.2 ∨ y.1 < A) := by
  have h16 := sixteen_le_of_tagged hv.1
  constructor
  · intro h y hy
    obtain ⟨M1, M2, e⟩ := List.append_of_mem hy
    subst e
    obtain ⟨a1, a2, a3⟩ := atom_of_split buf N D M1 M2 y hl h16
    refine ⟨tagged_ne_end (hv.1 y hy), ?_⟩
    by_cases hf : AtomID.free = y.2
    · right
      rw [← a2]
      exact h _ a1 (by rw [a3, hf])
    · exact Or.inl hf
  · intro h p hp hf
    obtain ⟨M1, M2, e, _⟩ := atom_split buf N D M hl h16 p hp (by rw [hf]; decide)
      (by rw [hf]; decide)
    have := (h (word buf p, word buf (p + 4)) (by rw [e]; simp)).2
    rcases this with h1 | h1
    · exact absurd hf.symm h1
    · exact h1

theorem fit_cases (M : List (Nat × Nat)) (hv : ValidM M) (A : Nat) :
    (∀ y ∈ M, y.2 ≠ AtomID.end_ ∧ (AtomID.free ≠ y.2 ∨ y.1 < A)) ∨
    ∃ M1 L M2, M = M1 ++ (L, AtomID.free) :: M2 ∧ A ≤ L ∧
      ∀ z ∈ M1, z.2 ≠ AtomID.end_ ∧ (AtomID.free ≠ z.2 ∨ z.1 < A) := by
  by_cases h : ∃ y ∈ M, y.2 = AtomID.free ∧ A ≤ y.1
  · right
    obtain ⟨M1, y, M2, e, ⟨hy1, hy2⟩, hall⟩ :=
      first_fit (fun y => y.2 = AtomID.free ∧ A ≤ y.1) M h
    refine ⟨M1, y.1, M2, by rw [e, ← hy1], hy2, ?_⟩
    intro z hz
    refine ⟨tagged_ne_end (hv.1 z (by rw [e]; simp [hz])), ?_⟩
    have := hall z hz
    by_cases hf : AtomID.free = z.2
    · right
      by_contra hc
      exact this ⟨hf.symm, by omega⟩
    · exact Or.inl hf
  · left
    intro y hy
    refine ⟨tagged_ne_end (hv.1 y hy), ?_⟩
    by_cases hf : AtomID.free = y.2
    · right
      by_contra hc
      exact h ⟨y, hy, hf.symm, by omega⟩
    · exact Or.inl hf

theorem lowest_of_split (buf : Buffer) (N D : Nat) (M1 M2 : List (Nat × Nat)) (x : Nat × Nat)
    (A : Nat) (hl : Layout buf N D (M1 ++ x :: M2)) (h16 : ∀ y ∈ M1 ++ x :: M2, 16 ≤ y.1)
    (hskip : ∀ z ∈ M1, z.2 ≠ AtomID.end_ ∧ (AtomID.free ≠ z.2 ∨ z.1 < A)) :
    ∀ p ∈ atoms buf N, word buf (p + 4) = AtomID.free → A ≤ word buf p → D + msum M1 ≤ p := by
  intro p hp hf hA
  by_contra hc
  obtain ⟨Mp1, Mp2, e, hp2⟩ := atom_split buf N D _ hl h16 p hp (by rw [hf]; decide)
    (by rw [hf]; decide)
  obtain ⟨Mc, e1, _⟩ := split_order Mp1 Mp2 M1 M2 _ x e.symm (by omega)
  have := (hskip (word buf p, word buf (p + 4)) (by rw [e1]; simp)).2
  rcases this with h1 | h1
  · exact h1 hf.symm
  · dsimp only at h1
    omega

theorem sixteen_le_reserve (M1 M2 : List (Nat × Nat)) (L A id : Nat)
    (h16 : ∀ y ∈ M1 ++ (L, AtomID.free) :: M2, 16 ≤ y.1) (hA1 : 16 ≤ A) (hA2 : A % 16 = 0)
    (hL : L % 16 = 0) : ∀ y ∈ M1 ++ (A, id) :: (remainder A L ++ M2), 16 ≤ y.1 := by
  intro y hy
  simp only [List.mem_append, List.mem_cons] at hy
  rcases hy with hy | rfl | hy | hy
  · exact h16 y (by simp [hy])
  · exact hA1
  · unfold remainder at hy
    by_cases hlt : A < L
    · rw [if_pos hlt] at hy
      simp only [List.mem_singleton] at hy
      rw [hy]
      dsimp only
      omega
    · rw [if_neg hlt] at hy
      simp at hy
  · exact h16 y (by simp [hy])

theorem get_allocation_length_eq (n : Nat) (h1 : 1 ≤ n) (h2 : n ≤ 0xFFFFFFE0) :
    detail.get_allocation_length n = 16 + aligned_size n ∧
      32 ≤ detail.get_allocation_length n ∧ detail.get_allocation_length n % 16 = 0 ∧
      n ≤ aligned_size n ∧ detail.get_allocation_length n < 2 ^ 32 := by
  have e := aligned_size_eq n
  have hm : (n + 15) % 2 ^ 32 = n + 15 := Nat.mod_eq_of_lt (by omega)
  rw [hm] at e
  have hg : detail.get_allocation_length n = 16 + aligned_size n := by
    unfold detail.get_allocation_length atom_header_length
    exact add32_eq _ _ (by omega)
  rw [hg]
  omega

theorem free_after_word (buf : Buffer) (N D : Nat) (M1 M2 : List (Nat × Nat)) (x : Nat × Nat)
    (hl : Layout buf N D (M1 ++ x :: M2)) (h16 : ∀ y ∈ M1 ++ x :: M2, 16 ≤ y.1) :
    (free_after M2).1 = if word buf (D + msum M1 + x.1 + 4) = AtomID.free
      then word buf (D + msum M1 + x.1) else 0 := by
  obtain ⟨f1, f2, f3⟩ := layout_follower buf N D M1 M2 x hl h16
  cases M2 with
  | nil =>
    obtain ⟨_, _, g3⟩ := f2 rfl
    rw [g3, if_neg (by decide)]
    rfl
  | cons y rest =>
    obtain ⟨g1, g2, _⟩ := f3 y rest rfl
    rw [g1, g2, free_after_cons]
    by_cases hy : y.2 = AtomID.free
    · rw [if_pos hy, if_pos hy]
    · rw [if_neg hy, if_neg hy]

theorem free_before_word (buf : Buffer) (N D : Nat) (M1 M2 : List (Nat × Nat)) (x : Nat × Nat)
    (hl : Layout buf N D (M1 ++ x :: M2)) :
    (free_before M1).1 =
      if word buf (D + msum M1 - word buf (D + msum M1 + 8) + 4) = AtomID.free
      then word buf (D + msum M1 - word buf (D + msum M1 + 8)) else 0 := by
  obtain ⟨e1, e2⟩ := layout_leader buf N D M1 M2 x hl
  rcases nil_or_snoc M1 with rfl | ⟨M0, p, rfl⟩
  · obtain ⟨g1, g2⟩ := e1 rfl
    rw [g1, g2, Nat.zero_add, hl.2.2.2.2.2.2.1, if_neg (by decide)]
    rfl
  · obtain ⟨g1, g2, g3, g4⟩ := e2 M0 p rfl
    rw [g1, g2, g3, g4, free_before_concat]
    by_cases hp : p.2 = AtomID.free
    · rw [if_pos hp, if_pos hp]
    · rw [if_neg hp, if_neg hp]

theorem free_neighbours (buf : Buffer) (N D : Nat) (M1 M2 : List (Nat × Nat)) (L : Nat)
    (hl : Layout buf N D (M1 ++ (L, AtomID.free) :: M2))
    (hv : ValidM (M1 ++ (L, AtomID.free) :: M2)) :
    (free_after M2).1 = 0 ∧ (free_before M1).1 = 0 ∧ (free_after M2).2 = M2 ∧
      (free_before M1).2 = M1 := by
  rw [validM_mid] at hv
  obtain ⟨h1, h2, h3, h4, h5⟩ := hv
  have ha : (free_after M2).1 = 0 ∧ (free_after M2).2 = M2 := by
    cases M2 with
    | nil => exact ⟨rfl, rfl⟩
    | cons y rest =>
      have hy : y.2 ≠ AtomID.free := fun hf => h5 y (by simp) ⟨rfl, hf⟩
      rw [free_after_cons, if_neg hy]
      exact ⟨rfl, rfl⟩
  have hb : (free_before M1).1 = 0 ∧ (free_before M1).2 = M1 := by
    rcases nil_or_snoc M1 with rfl | ⟨M0, p, rfl⟩
    · exact ⟨rfl, rfl⟩
    · have hp : p.2 ≠ AtomID.free :=
        fun hf => h4 p (by rw [List.getLast?_concat]; rfl) ⟨hf, rfl⟩
      rw [free_before_concat, if_neg hp]
      exact ⟨rfl, rfl⟩
  exact ⟨ha.1, hb.1, ha.2, hb.2⟩

theorem msum_snoc (M : List (Nat × Nat)) (x : Nat × Nat) : msum (M ++ [x]) = msum M + x.1 := by
  rw [msum_append, msum_cons, msum_nil]
  rfl

theorem layout_shrink (buf : Buffer) (N D : Nat) (M1 M2 : List (Nat × Nat)) (LV t n A : Nat)
    (hl : Layout buf N D (M1 ++ (LV, t) :: M2)) (h16 : ∀ y ∈ M1 ++ (LV, t) :: M2, 16 ≤ y.1)
    (hA : detail.get_allocation_length n = A) (hA1 : 16 ≤ A) (hA2 : A + 16 ≤ LV) :
    ∃ buf2, detail.reserve_resize buf 0 (D + msum M1) n = .ok (D + msum M1, buf2) ∧
      Layout buf2 N D (M1 ++ (A, t) :: (LV - A + (free_after M2).1, AtomID.free) ::
        (free_after M2).2) ∧
      ∀ j, (j < D + msum M1 ∨ (D + msum M1 + 4 ≤ j ∧ j < D + msum M1 + A)) →
        byte buf2 j = byte buf j := by
  obtain ⟨s1, s2, s3, s4, s5, s6, s7⟩ := layout_split buf N D M1 M2 _ hl
  obtain ⟨buf1, d1, d2, d3, _⟩ := layout_divide buf N D M1 M2 _ hl h16 A AtomID.free hA1
    (by dsimp only; omega) (by decide)
  dsimp only at d2 d3 s3
  have e : M1 ++ (A, t) :: (LV - A, AtomID.free) :: M2 =
      (M1 ++ [(A, t)]) ++ (LV - A, AtomID.free) :: M2 := by simp
  have h16b : ∀ y ∈ (M1 ++ [(A, t)]) ++ (LV - A, AtomID.free) :: M2, 16 ≤ y.1 := by
    intro y hy
    simp only [List.mem_append, List.mem_cons, List.mem_singleton, List.not_mem_nil,
      or_false] at hy
    rcases hy with (hy | rfl) | rfl | hy
    · exact h16 y (by simp [hy])
    · exact hA1
    · dsimp only; omega
    · exact h16 y (by simp [hy])
  rw [e] at d2
  obtain ⟨t1, t2, t3, t4, t5, t6, t7⟩ := layout_split buf1 N D _ M2 _ d2
  obtain ⟨f1, _, _⟩ := layout_follower buf1 N D _ M2 _ d2 h16b
  obtain ⟨buf2, c1, c2, c3, _⟩ := coalesce_next buf1 N D _ M2 _ _ d2 h16b
  rw [msum_snoc] at t2 t3 c1 c3 f1
  dsimp only at t2 t3 c1 c3 f1
  rw [← Nat.add_assoc] at t2 t3 c1 c3 f1
  have hlen1 := d2.1
  have hlen := hl.1
  refine ⟨buf2, ?_, ?_, ?_⟩
  · unfold detail.reserve_resize
    dsimp only
    rw [hA]
    unfold Atom.length
    rw [load32_ok _ _ (by omega)]
    simp only [Outcome.ok_bind]
    rw [s3, if_neg (by omega), if_pos (by omega), d1]
    simp only [Outcome.ok_bind]
    rw [load32_ok _ _ (by omega)]
    simp only [Outcome.ok_bind]
    rw [t3]
    have hid : Atom.identifier buf1 (D + msum M1 + A + (LV - A)) =
        .ok (word buf1 (D + msum M1 + A + (LV - A) + 4)) := by
      unfold Atom.identifier
      exact load32_ok _ _ (by omega)
    rw [hid]
    simp only [Outcome.ok_bind]
    by_cases hc : AtomID.free = word buf1 (D + msum M1 + A + (LV - A) + 4)
    · rw [if_pos hc] at c1 ⊢
      rw [c1]
      rfl
    · rw [if_neg hc] at c1 ⊢
      cases c1
      rfl
  · rw [List.append_assoc] at c2
    exact c2
  · intro j hj
    rw [c3 j (by omega) (by omega)]
    exact d3 j (by omega) (by omega) (by omega)

theorem follower_not_free (buf : Buffer) (N D : Nat) (M1 M2 : List (Nat × Nat)) (L : Nat)
    (hl : Layout buf N D (M1 ++ (L, AtomID.free) :: M2))
    (hv : ValidM (M1 ++ (L, AtomID.free) :: M2)) :
    word buf (D + msum M1 + L + 4) ≠ AtomID.free := by
  obtain ⟨f1, f2, f3⟩ := layout_follower buf N D M1 M2 _ hl (sixteen_le_of_tagged hv.1)
  rw [validM_mid] at hv
  obtain ⟨_, _, _, _, h5⟩ := hv
  cases M2 with
  | nil =>
    obtain ⟨_, _, g3⟩ := f2 rfl
    dsimp only at g3
    rw [g3]
    decide
  | cons y rest =>
    obtain ⟨_, g2, _⟩ := f3 y rest rfl
    dsimp only at g2
    rw [g2]
    exact fun hf => h5 y (by simp) ⟨rfl, hf⟩

theorem aligned_size_ge (n : Nat) (h1 : 1 ≤ n) (h2 : n ≤ 0xFFFFFFF0) :
    16 ≤ aligned_size n ∧ n ≤ aligned_size n ∧ aligned_size n % 16 = 0 := by
  have e := aligned_size_eq n
  have hm : (n + 15) % 2 ^ 32 = n + 15 := Nat.mod_eq_of_lt (by omega)
  rw [hm] at e
  omega

theorem split_cases (Ma Mb M1 M2 : List (Nat × Nat)) (x y : Nat × Nat)
    (h : Ma ++ x :: Mb = M1 ++ y :: M2) :
    (∃ Mc, M1 = Ma ++ x :: Mc ∧ Mb = Mc ++ y :: M2) ∨ (Ma = M1 ∧ x = y ∧ Mb = M2) ∨
      (∃ Mc, Ma = M1 ++ y :: Mc ∧ M2 = Mc ++ x :: Mb) := by
  rw [List.append_eq_append_iff] at h
  rcases h with ⟨a, h1, h2⟩ | ⟨c, h1, h2⟩
  · cases a with
    | nil =>
      rw [List.append_nil] at h1
      simp only [List.nil_append, List.cons.injEq] at h2
      exact Or.inr (Or.inl ⟨h1.symm, h2.1, h2.2⟩)
    | cons z rest =>
      simp only [List.cons_append, List.cons.injEq] at h2
      obtain ⟨rfl, h3⟩ := h2
      exact Or.inl ⟨rest, h1, h3⟩
  · cases c with
    | nil =>
      rw [List.append_nil] at h1
      simp only [List.nil_append, List.cons.injEq] at h2
      exact Or.inr (Or.inl ⟨h1, h2.1.symm, h2.2.symm⟩)
    | cons z rest =>
      simp only [List.cons_append, List.cons.injEq] at h2
      obtain ⟨rfl, h3⟩ := h2
      exact Or.inr (Or.inr ⟨rest, h1, h3⟩)

theorem msum_remainder (A L : Nat) (h : A ≤ L) : A + msum (remainder A L) = L := by
  unfold remainder
  by_cases hlt : A < L
  · rw [if_pos hlt, msum_cons, msum_nil]
    dsimp only
    omega
  · rw [if_neg hlt, msum_nil]
    omega

theorem get_allocation_length_mod (n : Nat) : detail.get_allocation_length n % 16 = 0 := by
  have h := aligned_size_mod n
  unfold detail.get_allocation_length add32 atom_header_length
  omega

theorem get_allocation_length_lt (n : Nat) : detail.get_allocation_length n < 2 ^ 32 := by
  unfold detail.get_allocation_length add32
  exact Nat.mod_lt _ (by decide)

/-- The copy of the contents of the atom at `v` into the atom at `o` leaves the layout as it
is. -/
theorem copy_contents (buf : Buffer) (N D : Nat) (P Q : List (Nat × Nat)) (A t v LV : Nat)
    (hl : Layout buf N D (P ++ (A, t) :: Q)) (h16 : ∀ y ∈ P ++ (A, t) :: Q, 16 ≤ y.1)
    (hv : word buf v = LV) (hLV1 : 16 ≤ LV) (hLV2 : LV ≤ A) (hvN : v + LV ≤ N)
    (hd : v + LV ≤ D + msum P ∨ D + msum P + A ≤ v) :
    ∃ buf2, detail.contents_size buf v = .ok (LV - 16) ∧
      memcpy buf (D + msum P + 16) (v + 16) (LV - 16) = .ok buf2 ∧
      Layout buf2 N D (P ++ (A, t) :: Q) ∧
      (∀ j, j < LV - 16 → byte buf2 (D + msum P + 16 + j) = byte buf (v + 16 + j)) ∧
      ∀ j, (j < D + msum P + 16 ∨ D + msum P + LV ≤ j) → byte buf2 j = byte buf j := by
  obtain ⟨f1, _, _⟩ := layout_follower buf N D P Q _ hl h16
  have hlen := hl.1
  have hN := hl.2.1
  dsimp only at f1
  obtain ⟨m1, m2, m3, m4⟩ := memcpy_spec buf (D + msum P + 16) (v + 16) (LV - 16) (by omega)
    (by omega) (by omega)
  refine ⟨_, ?_, m1, ?_, m3, fun j hj => m4 j (by omega)⟩
  · unfold detail.contents_size Atom.length atom_header_length
    have h4 : v + 4 ≤ buf.length := by omega
    rw [load32_ok _ _ h4, Outcome.ok_bind, Outcome.pure_eq, hv,
      sub32_eq _ _ hLV1 (by omega)]
  · exact layout_content_frame buf _ N D P Q _ hl h16 m2 (fun j hj => m4 j (by
      dsimp only at hj; omega))

/-- The resize of a vector that has to grow and whose follower is not a free atom that is long
enough runs the relocation: `reserve_new`, `memcpy`, `free`. -/
theorem resize_relocates_eq (buf : Buffer) (N D : Nat) (Ma Mb : List (Nat × Nat))
    (LV n : Nat) (hl : Layout buf N D (Ma ++ (LV, AtomID.vector) :: Mb))
    (h16 : ∀ y ∈ Ma ++ (LV, AtomID.vector) :: Mb, 16 ≤ y.1)
    (hgrow : LV < detail.get_allocation_length n)
    (hnf : ¬ (word buf (D + msum Ma + LV + 4) = AtomID.free ∧
      detail.get_allocation_length n - LV ≤ word buf (D + msum Ma + LV))) :
    detail.reserve_resize buf 0 (D + msum Ma) n = (do
      let r ← detail.reserve_new buf 0 (detail.get_allocation_length n) AtomID.vector
      let c ← detail.contents_size r.2 (D + msum Ma)
      let b ← memcpy r.2 (r.1 + 16) (D + msum Ma + 16) c
      let r2 ← detail.free b (D + msum Ma)
      pure (r.1, r2.2)) := by
  obtain ⟨s1, s2, s3, s4, s5, s6, s7⟩ := layout_split buf N D Ma Mb _ hl
  obtain ⟨f1, _, _⟩ := layout_follower buf N D Ma Mb _ hl h16
  have hlen := hl.1
  have hA := get_allocation_length_lt n
  dsimp only at s3 s4 f1
  unfold detail.reserve_resize
  dsimp only
  unfold Atom.length
  rw [load32_ok _ _ (by omega)]
  simp only [Outcome.ok_bind]
  rw [s3, if_neg (by omega), if_neg (by omega)]
  have hid : Atom.identifier buf (D + msum Ma + LV) =
      .ok (word buf (D + msum Ma + LV + 4)) := by
    unfold Atom.identifier
    exact load32_ok _ _ (by omega)
  have hid2 : Atom.identifier buf (D + msum Ma) = .ok AtomID.vector := by
    unfold Atom.identifier
    rw [load32_ok _ _ (by omega), s4]
  rw [hid]
  simp only [Outcome.ok_bind]
  rw [sub32_eq _ _ (by omega) hA]
  by_cases hf : word buf (D + msum Ma + LV + 4) = AtomID.free
  · have hc : word buf (D + msum Ma + LV + 4) ≠ AtomID.end_ ∧
        AtomID.free = word buf (D + msum Ma + LV + 4) := ⟨by rw [hf]; decide, hf.symm⟩
    rw [if_pos hc, load32_ok _ _ (by omega)]
    simp only [Outcome.ok_bind, Outcome.pure_eq]
    have hd : decide (detail.get_allocation_length n - LV ≤ word buf (D + msum Ma + LV)) =
        false := decide_eq_false (fun h => hnf ⟨hf, h⟩)
    rw [hd]
    simp only [Bool.false_eq_true, if_false]
    rw [hid2]
    rfl
  · have hc : ¬ (word buf (D + msum Ma + LV + 4) ≠ AtomID.end_ ∧
        AtomID.free = word buf (D + msum Ma + LV + 4)) := fun h => hf h.2.symm
    rw [if_neg hc]
    simp only [Outcome.ok_bind, Outcome.pure_eq, Bool.false_eq_true, if_false]
    rw [hid2]
    rfl

theorem vector_ne_free : AtomID.vector ≠ AtomID.free := by decide

theorem thirty_two_le_of_tagged {x : Nat × Nat} (h : tagged x)
    (hx : x.2 = AtomID.vector ∨ x.2 = AtomID.reference) : 32 ≤ x.1 := by
  have h1 := h.2.1
  have h2 := h.2.2.1
  have h3 := h.2.2.2 hx
  omega

theorem layout_relocate (buf : Buffer) (N D : Nat) (Ma Mb M1 M2 : List (Nat × Nat))
    (LV L n : Nat) (hl : Layout buf N D (Ma ++ (LV, AtomID.vector) :: Mb))
    (hvm : ValidM (Ma ++ (LV, AtomID.vector) :: Mb))
    (hM : Ma ++ (LV, AtomID.vector) :: Mb = M1 ++ (L, AtomID.free) :: M2)
    (hgrow : LV < detail.get_allocation_length n)
    (hnf : ¬ (word buf (D + msum Ma + LV + 4) = AtomID.free ∧
      detail.get_allocation_length n - LV ≤ word buf (D + msum Ma + LV)))
    (hfit : detail.get_allocation_length n ≤ L)
    (hskip : ∀ z ∈ M1, z.2 ≠ AtomID.end_ ∧
      (AtomID.free ≠ z.2 ∨ z.1 < detail.get_allocation_length n)) :
    ∃ buf3 P Q R S Lr, detail.reserve_resize buf 0 (D + msum Ma) n = .ok (D + msum M1, buf3) ∧
      Layout buf3 N D (P ++ (detail.get_allocation_length n, AtomID.vector) :: Q) ∧
      ValidM (P ++ (detail.get_allocation_length n, AtomID.vector) :: Q) ∧
      msum P = msum M1 ∧
      P ++ (detail.get_allocation_length n, AtomID.vector) :: Q = R ++ (Lr, AtomID.free) :: S ∧
      msum R ≤ msum Ma ∧ msum Ma + LV ≤ msum R + Lr ∧
      (∀ j, j < LV - 16 →
        byte buf3 (D + msum M1 + 16 + j) = byte buf (D + msum Ma + 16 + j)) ∧
      ∀ j, j < D → byte buf3 j = byte buf j := by
  have h16 := sixteen_le_of_tagged hvm.1
  have hV := hvm.1 _ (List.mem_append_right Ma (List.mem_cons_self _ _))
  have hLV := thirty_two_le_of_tagged hV (Or.inl rfl)
  have hA2 := get_allocation_length_mod n
  obtain ⟨fv, _, _⟩ := layout_follower buf N D Ma Mb _ hl h16
  dsimp only at fv
  rw [resize_relocates_eq buf N D Ma Mb LV n hl h16 hgrow hnf]
  have hl' := hl
  have hvm' := hvm
  have h16' := h16
  rw [hM] at hl' hvm' h16'
  have hF := hvm'.1 _ (List.mem_append_right M1 (List.mem_cons_self _ _))
  obtain ⟨buf1, r1, r2, r3, _⟩ := layout_reserve_new buf N D M1 M2 L _ AtomID.vector hl'
    (fun y hy => ⟨h16' y hy, (hvm'.1 y hy).2.2.1, tagged_ne_end (hvm'.1 y hy)⟩)
    (fun y hy => (hskip y hy).2) (by omega) hA2 hfit (by decide)
  have hvr := validM_reserve M1 M2 L _ AtomID.vector hvm' (Or.inl rfl) (by omega) hA2
  have h16r := sixteen_le_of_tagged hvr.1
  rw [r1, Outcome.ok_bind]
  dsimp only
  rcases split_cases Ma Mb M1 M2 _ _ hM with ⟨Mc, h1, h2⟩ | ⟨_, h2, _⟩ | ⟨Mc, h1, h2⟩
  · -- the vector lies before the free atom
    subst h1
    subst h2
    have ho : msum (Ma ++ (LV, AtomID.vector) :: Mc) = msum Ma + LV + msum Mc := by
      rw [msum_append, msum_cons]
      omega
    have eq1 : (Ma ++ (LV, AtomID.vector) :: Mc) ++
        (detail.get_allocation_length n, AtomID.vector) ::
          (remainder (detail.get_allocation_length n) L ++ M2) =
        Ma ++ (LV, AtomID.vector) :: (Mc ++
          (detail.get_allocation_length n, AtomID.vector) ::
            (remainder (detail.get_allocation_length n) L ++ M2)) := by simp
    have r2' := r2
    rw [eq1] at r2'
    obtain ⟨_, _, w3, _, _, _, _⟩ := layout_split buf1 N D Ma _ _ r2'
    obtain ⟨buf2, k1, k2, k3, k4, k5⟩ := copy_contents buf1 N D _ _ _ _ (D + msum Ma) LV r2 h16r
      w3 (by omega) (by omega) (by omega) (Or.inl (by omega))
    have k3' := k3
    rw [eq1] at k3' h16r hvr
    obtain ⟨buf3, q1, q2, q3, _⟩ := layout_free buf2 N D Ma _ LV AtomID.vector k3' h16r
    have hvf := validM_free Ma _ LV AtomID.vector hvr
    rw [free_after_append Mc _ _ vector_ne_free] at q2 q3 hvf
    dsimp only at q2 q3 hvf
    have hb := free_before_msum Ma
    have ha := free_after_msum Mc
    rw [k1, Outcome.ok_bind, k2, Outcome.ok_bind, q1, Outcome.ok_bind]
    refine ⟨buf3, (free_before Ma).2 ++
      ((free_before Ma).1 + (LV + (free_after Mc).1), AtomID.free) :: (free_after Mc).2,
      remainder (detail.get_allocation_length n) L ++ M2, (free_before Ma).2,
      (free_after Mc).2 ++ (detail.get_allocation_length n, AtomID.vector) ::
        (remainder (detail.get_allocation_length n) L ++ M2),
      (free_before Ma).1 + (LV + (free_after Mc).1), rfl, ?_, ?_, ?_, ?_, by omega, by omega,
      ?_, ?_⟩
    · rw [List.append_assoc]
      exact q2
    · rw [List.append_assoc]
      exact hvf
    · rw [msum_append, msum_cons, ho]
      dsimp only
      omega
    · rw [List.append_assoc]
      rfl
    · intro j hj
      rw [ho] at r3 k4 ⊢
      rw [q3 _ (by omega) (by omega) (by omega), k4 j hj]
      exact r3 _ (Or.inl (by omega))
    · intro j hj
      rw [q3 _ (by omega) (by omega) (by omega), k5 j (Or.inl (by omega))]
      exact r3 _ (Or.inl (by omega))
  · exact absurd (congrArg Prod.snd h2) vector_ne_free
  · -- the free atom lies before the vector
    subst h1
    subst h2
    have hr := msum_remainder _ L hfit
    have hv0 : msum (M1 ++ (L, AtomID.free) :: Mc) = msum M1 + L + msum Mc := by
      rw [msum_append, msum_cons]
      omega
    have eq3 : M1 ++ (detail.get_allocation_length n, AtomID.vector) ::
          (remainder (detail.get_allocation_length n) L ++ (Mc ++ (LV, AtomID.vector) :: Mb)) =
        (M1 ++ (detail.get_allocation_length n, AtomID.vector) ::
          (remainder (detail.get_allocation_length n) L ++ Mc)) ++
            (LV, AtomID.vector) :: Mb := by simp
    have hv1 : msum (M1 ++ (detail.get_allocation_length n, AtomID.vector) ::
        (remainder (detail.get_allocation_length n) L ++ Mc)) = msum M1 + L + msum Mc := by
      rw [msum_append, msum_cons, msum_append]
      dsimp only
      omega
    have r2' := r2
    rw [eq3] at r2'
    obtain ⟨_, _, w3, _, _, _, _⟩ := layout_split buf1 N D _ _ _ r2'
    rw [hv1, ← hv0] at w3
    obtain ⟨buf2, k1, k2, k3, k4, k5⟩ := copy_contents buf1 N D _ _ _ _
      (D + msum (M1 ++ (L, AtomID.free) :: Mc)) LV r2 h16r
      w3 (by omega) (by omega) (by omega) (Or.inr (by omega))
    have k3' := k3
    rw [eq3] at k3' h16r hvr
    obtain ⟨buf3, q1, q2, q3, _⟩ := layout_free buf2 N D _ Mb LV AtomID.vector k3' h16r
    have hvf := validM_free _ Mb LV AtomID.vector hvr
    rw [free_before_append M1 _ _ vector_ne_free] at q1 q2 q3 hvf
    dsimp only at q1 q2 q3 hvf
    have hb := free_before_msum (remainder (detail.get_allocation_length n) L ++ Mc)
    rw [msum_append] at hb
    rw [hv1, ← hv0] at q1 q3
    have hR : msum (M1 ++ (detail.get_allocation_length n, AtomID.vector) ::
        (free_before (remainder (detail.get_allocation_length n) L ++ Mc)).2) =
        msum M1 + detail.get_allocation_length n +
          msum (free_before (remainder (detail.get_allocation_length n) L ++ Mc)).2 := by
      rw [msum_append, msum_cons]
      dsimp only
      omega
    rw [k1, Outcome.ok_bind, k2, Outcome.ok_bind, q1, Outcome.ok_bind]
    refine ⟨buf3, M1, (free_before (remainder (detail.get_allocation_length n) L ++ Mc)).2 ++
      ((free_before (remainder (detail.get_allocation_length n) L ++ Mc)).1 +
        (LV + (free_after Mb).1), AtomID.free) :: (free_after Mb).2,
      M1 ++ (detail.get_allocation_length n, AtomID.vector) ::
        (free_before (remainder (detail.get_allocation_length n) L ++ Mc)).2,
      (free_after Mb).2,
      (free_before (remainder (detail.get_allocation_length n) L ++ Mc)).1 +
        (LV + (free_after Mb).1), rfl, ?_, ?_, rfl, ?_, ?_, ?_, ?_, ?_⟩
    · have e : M1 ++ (detail.get_allocation_length n, AtomID.vector) ::
          ((free_before (remainder (detail.get_allocation_length n) L ++ Mc)).2 ++
            ((free_before (remainder (detail.get_allocation_length n) L ++ Mc)).1 +
              (LV + (free_after Mb).1), AtomID.free) :: (free_after Mb).2) =
          (M1 ++ (detail.get_allocation_length n, AtomID.vector) ::
            (free_before (remainder (detail.get_allocation_length n) L ++ Mc)).2) ++
            ((free_before (remainder (detail.get_allocation_length n) L ++ Mc)).1 +
              (LV + (free_after Mb).1), AtomID.free) :: (free_after Mb).2 := by simp
      rw [e]
      exact q2
    · have e : M1 ++ (detail.get_allocation_length n, AtomID.vector) ::
          ((free_before (remainder (detail.get_allocation_length n) L ++ Mc)).2 ++
            ((free_before (remainder (detail.get_allocation_length n) L ++ Mc)).1 +
              (LV + (free_after Mb).1), AtomID.free) :: (free_after Mb).2) =
          (M1 ++ (detail.get_allocation_length n, AtomID.vector) ::
            (free_before (remainder (detail.get_allocation_length n) L ++ Mc)).2) ++
            ((free_before (remainder (detail.get_allocation_length n) L ++ Mc)).1 +
              (LV + (free_after Mb).1), AtomID.free) :: (free_after Mb).2 := by simp
      rw [e]
      exact hvf
    · simp
    · rw [hR, hv0]
      omega
    · rw [hR, hv0]
      omega
    · intro j hj
      rw [hR] at q3
      rw [hv0] at q3 k4 ⊢
      rw [q3 _ (by omega) (by omega) (by omega), k4 j hj]
      exact r3 _ (Or.inr (Or.inr (Or.inr (by omega))))
    · intro j hj
      rw [hR] at q3
      rw [q3 _ (by omega) (by omega) (by omega), k5 j (Or.inl (by omega))]
      exact r3 _ (Or.inl (by omega))

theorem fails_iff_of {α : Type} (r : Outcome α) (buf : Buffer) (nofit : Prop)
    (h1 : nofit → r = .thrown buf) (h2 : ¬ nofit → ∃ x, r = .ok x) :
    ((∃ b, r = .thrown b) ↔ nofit) ∧ (∀ b, r = .thrown b → b = buf) ∧
      (¬ nofit → ∃ x, r = .ok x) := by
  refine ⟨⟨?_, fun h => ⟨buf, h1 h⟩⟩, ?_, h2⟩
  · rintro ⟨b, hb⟩
    by_contra hn
    obtain ⟨x, hx⟩ := h2 hn
    rw [hx] at hb
    cases hb
  · intro b hb
    by_cases hn : nofit
    · rw [h1 hn] at hb
      cases hb
      rfl
    · obtain ⟨x, hx⟩ := h2 hn
      rw [hx] at hb
      cases hb

theorem reserve_new_cases (base N : Nat) (buf : Buffer) (A id : Nat)
    (hlen : buf.length = N) (hN : N < 2 ^ 32) (hv : validate_layout base buf N = .ok true) :
    ((∀ p ∈ atoms buf N, word buf (p + 4) = AtomID.free → word buf p < A) →
      detail.reserve_new buf 0 A id = .thrown buf) ∧
    (¬ (∀ p ∈ atoms buf N, word buf (p + 4) = AtomID.free → word buf p < A) →
      ∃ x, detail.reserve_new buf 0 A id = .ok x) := by
  obtain ⟨hbase, M, hl, hvm⟩ := layout_of_validate base N buf hlen hN hv
  have h16 := sixteen_le_of_tagged hvm.1
  rcases fit_cases M hvm A with hno | ⟨M1, L, M2, rfl, hfit, hskip⟩
  · refine ⟨fun _ => layout_reserve_new_none buf N _ M A id hl h16 hno, fun hn => ?_⟩
    exact absurd ((nofit_iff buf N _ M hl hvm A).mpr hno) hn
  · obtain ⟨buf2, r1⟩ := layout_reserve_new_total buf N _ M1 M2 L A id hl h16 hskip hfit
    refine ⟨fun hno => ?_, fun _ => ⟨_, r1⟩⟩
    obtain ⟨a1, a2, a3⟩ := atom_of_split buf N _ M1 M2 _ hl h16
    have := hno _ a1 a3
    rw [a2] at this
    dsimp only at this
    omega

theorem resize_relocates_cases (base N : Nat) (buf : Buffer) (v n : Nat)
    (hlen : buf.length = N) (hN : N < 2 ^ 32) (hv : validate_layout base buf N = .ok true)
    (hvat : v ∈ atoms buf N) (hid : word buf (v + 4) = AtomID.vector)
    (hgrow : word buf v < detail.get_allocation_length n)
    (hnf : ¬ (word buf (v + word buf v + 4) = AtomID.free ∧
      detail.get_allocation_length n - word buf v ≤ word buf (v + word buf v))) :
    ((∀ p ∈ atoms buf N, word buf (p + 4) = AtomID.free →
        word buf p < detail.get_allocation_length n) →
      detail.reserve_resize buf 0 v n = .thrown buf) ∧
    (¬ (∀ p ∈ atoms buf N, word buf (p + 4) = AtomID.free →
        word buf p < detail.get_allocation_length n) →
      ∃ x, detail.reserve_resize buf 0 v n = .ok x) := by
  obtain ⟨hbase, M, hl, hvm⟩ := layout_of_validate base N buf hlen hN hv
  have h16 := sixteen_le_of_tagged hvm.1
  obtain ⟨Ma, Mb, hMa, hv2⟩ := atom_split buf N _ M hl h16 v hvat (by rw [hid]; decide)
    (by rw [hid]; decide)
  rw [hid] at hMa
  subst hv2
  rcases fit_cases M hvm (detail.get_allocation_length n) with
    hno | ⟨M1, L, M2, hM1, hfit, hskip⟩
  · refine ⟨fun _ => ?_, fun hn => ?_⟩
    · have ht := layout_reserve_new_none buf N _ M (detail.get_allocation_length n)
        AtomID.vector hl h16 hno
      subst hMa
      rw [resize_relocates_eq buf N _ Ma Mb _ n hl h16 hgrow hnf, ht]
      rfl
    · exact absurd ((nofit_iff buf N _ M hl hvm _).mpr hno) hn
  · subst hMa
    obtain ⟨buf3, P, Q, R, S, Lr, t1, _⟩ :=
      layout_relocate buf N _ Ma Mb M1 M2 _ L n hl hvm hM1 hgrow hnf hfit hskip
    refine ⟨fun hno => ?_, fun _ => ⟨_, t1⟩⟩
    rw [hM1] at hl h16
    obtain ⟨a1, a2, a3⟩ := atom_of_split buf N _ M1 M2 _ hl h16
    have := hno _ a1 a3
    rw [a2] at this
    dsimp only at this
    omega

theorem byte_eq_of_word_eq (b1 b2 : Buffer) (p : Nat) (h : word b1 p = word b2 p) :
    ∀ j, p ≤ j → j < p + 4 → byte b1 j = byte b2 j := by
  unfold word at h
  have a0 := byte_lt b1 p
  have a1 := byte_lt b1 (p + 1)
  have a2 := byte_lt b1 (p + 2)
  have a3 := byte_lt b1 (p + 3)
  have c0 := byte_lt b2 p
  have c1 := byte_lt b2 (p + 1)
  have c2 := byte_lt b2 (p + 2)
  have c3 := byte_lt b2 (p + 3)
  intro j h1 h2
  have hj : j = p ∨ j = p + 1 ∨ j = p + 2 ∨ j = p + 3 := by omega
  rcases hj with rfl | rfl | rfl | rfl <;> omega

theorem linked_of_end (buf : Buffer) (N D : Nat) (M : List (Nat × Nat))
    (hl : Layout buf N D M) (h16 : ∀ y ∈ M, 16 ≤ y.1)
    (hend : ∀ p ∈ atoms buf N, p + word buf p = N - 16 → word buf (N - 16 + 8) = word buf p) :
    Linked buf N D M := by
  unfold Linked
  rcases nil_or_snoc M with rfl | ⟨M0, z, rfl⟩
  · have h0 : (0 : Nat) ∈ atoms buf N := by
      rw [atoms_of_layout buf N D [] hl h16]
      simp
    obtain ⟨l1, l2, l3, l4, l5, l6, l7, l8, l9, l10, l11, l12⟩ := hl
    rw [msum_nil] at l12
    have := hend 0 h0 (by rw [l6]; omega)
    rw [this, l6]
    rfl
  · obtain ⟨a1, a2, a3⟩ := atom_of_split buf N D M0 [] z hl h16
    obtain ⟨_, _, _, _, _, _, s7⟩ := layout_split buf N D M0 [] z hl
    rw [msum_nil] at s7
    have := hend _ a1 (by rw [a2]; omega)
    rw [this, a2, last_len_append_cons]
    rfl

theorem free_after_remainder (A L : Nat) (M2 : List (Nat × Nat)) (hA : A ≤ L)
    (h1 : (free_after M2).1 = 0) (h2 : (free_after M2).2 = M2) :
    (free_after (remainder A L ++ M2)).1 = L - A ∧
      (free_after (remainder A L ++ M2)).2 = M2 := by
  unfold remainder
  by_cases hlt : A < L
  · rw [if_pos hlt, List.singleton_append, free_after_cons, if_pos rfl]
    exact ⟨rfl, rfl⟩
  · rw [if_neg hlt, List.nil_append, h1, h2]
    exact ⟨by omega, rfl⟩

/-! ## The claims on the allocation functions -/

/-- C11: on a layout accepted by `validate_layout`, for an allocation length `A` that is a
multiple of 16 and at least 32 and a free atom of length at least `A` somewhere in the buffer,
`reserve_new` returns the free atom `o` of lowest offset among those of length at least `A`.
Afterwards the atom at `o` has the requested identifier and the length `A`; if the free atom
was longer than `A`, the atom after it, at `o + A`, is free, has the remaining length and
`previous = A`; no byte below `o` has changed and the atoms before `o` are the same; and
`validate_layout` accepts the buffer when the identifier is `vector` or `reference`, the two
identifiers that callers pass. -/
theorem reserve_new_first_fit (base N : Nat) (buf : Buffer) (A id : Nat)
    (hlen : buf.length = N) (hN : N < 2 ^ 32) (hv : validate_layout base buf N = .ok true)
    (hA1 : 32 ≤ A) (hA2 : A % 16 = 0) (hid : id < 2 ^ 32)
    (hex : ∃ p ∈ atoms buf N, word buf (p + 4) = AtomID.free ∧ A ≤ word buf p) :
    ∃ o buf2, detail.reserve_new buf 0 A id = .ok (o, buf2) ∧ buf2.length = N ∧
      o ∈ atoms buf N ∧ word buf (o + 4) = AtomID.free ∧ A ≤ word buf o ∧
      (∀ p ∈ atoms buf N, word buf (p + 4) = AtomID.free → A ≤ word buf p → o ≤ p) ∧
      o ∈ atoms buf2 N ∧ word buf2 (o + 4) = id ∧ word buf2 o = A ∧
      (A < word buf o → o + A ∈ atoms buf2 N ∧ word buf2 (o + A) = word buf o - A ∧
        word buf2 (o + A + 4) = AtomID.free ∧ word buf2 (o + A + 8) = A) ∧
      (∀ j, j < o → byte buf2 j = byte buf j) ∧
      (∃ pre post post2, atoms buf N = pre ++ o :: post ∧ atoms buf2 N = pre ++ o :: post2) ∧
      (id = AtomID.vector ∨ id = AtomID.reference → validate_layout base buf2 N = .ok true) := by
  obtain ⟨hbase, M, hl, hvm⟩ := layout_of_validate base N buf hlen hN hv
  have h16 := sixteen_le_of_tagged hvm.1
  rcases fit_cases M hvm A with hno | ⟨M1, L, M2, rfl, hfit, hskip⟩
  · exfalso
    obtain ⟨p, hp, hf, hA⟩ := hex
    have := (nofit_iff buf N _ M hl hvm A).mpr hno p hp hf
    omega
  · have hL := hvm.1 (L, AtomID.free) (by simp)
    obtain ⟨buf2, r1, r2, r3, _⟩ := layout_reserve_new buf N _ M1 M2 L A id hl
      (fun y hy => ⟨h16 y hy, (hvm.1 y hy).2.2.1, tagged_ne_end (hvm.1 y hy)⟩)
      (fun y hy => (hskip y hy).2) (by omega) hA2 hfit hid
    have h16b := sixteen_le_reserve M1 M2 L A id h16 (by omega) hA2 hL.2.2.1
    obtain ⟨a1, a2, a3⟩ := atom_of_split buf N _ M1 M2 _ hl h16
    obtain ⟨b1, b2, b3⟩ := atom_of_split buf2 N _ M1 _ _ r2 h16b
    refine ⟨_, buf2, r1, r2.1, a1, a3, by rw [a2]; exact hfit,
      lowest_of_split buf N _ M1 M2 _ A hl h16 hskip, b1, b3, b2, ?_,
      fun j hj => r3 j (Or.inl hj), ?_, ?_⟩
    · intro hlt
      rw [a2] at hlt ⊢
      dsimp only at hlt ⊢
      have hr : remainder A L = [(L - A, AtomID.free)] := by
        unfold remainder
        rw [if_pos hlt]
      rw [hr] at r2 h16b
      have e : M1 ++ (A, id) :: ([(L - A, AtomID.free)] ++ M2) =
          (M1 ++ [(A, id)]) ++ (L - A, AtomID.free) :: M2 := by simp
      rw [e] at r2 h16b
      obtain ⟨c1, c2, c3⟩ := atom_of_split buf2 N _ _ _ _ r2 h16b
      obtain ⟨_, _, _, _, c5, _, _⟩ := layout_split buf2 N _ _ _ _ r2
      have hm : msum (M1 ++ [(A, id)]) = msum M1 + A := by
        rw [msum_append, msum_cons, msum_nil]
        rfl
      rw [hm, ← Nat.add_assoc] at c1 c2 c3 c5
      rw [last_len_append_cons] at c5
      exact ⟨c1, c2, c3, c5⟩
    · refine ⟨0 :: offsets (word buf 0) M1,
        offsets (word buf 0 + msum M1 + L) M2 ++ [N - 16],
        offsets (word buf 0 + msum M1 + A) (remainder A L ++ M2) ++ [N - 16], ?_, ?_⟩
      · rw [atoms_of_layout buf N _ _ hl h16, offsets_append]
        simp only [offsets, List.cons_append, List.append_assoc]
      · rw [atoms_of_layout buf2 N _ _ r2 h16b, offsets_append]
        simp only [offsets, List.cons_append, List.append_assoc]
    · intro hidv
      exact validate_of_layout base N _ buf2 _ hbase r2
        (validM_reserve M1 M2 L A id hvm hidv hA1 hA2)

theorem reserve_new_first_fit_witness :
    sample_free_layout.length = 96 ∧ validate_layout 0 sample_free_layout 96 = .ok true ∧
    (∃ p ∈ atoms sample_free_layout 96,
      word sample_free_layout (p + 4) = AtomID.free ∧ 32 ≤ word sample_free_layout p) ∧
    ∃ o buf2, detail.reserve_new sample_free_layout 0 32 AtomID.vector = .ok (o, buf2) ∧
      o ∈ atoms sample_free_layout 96 ∧ word buf2 (o + 4) = AtomID.vector ∧ word buf2 o = 32 ∧
      validate_layout 0 buf2 96 = .ok true := by
  refine ⟨by decide, by decide, ⟨16, by decide, by decide, by decide⟩, ?_⟩
  obtain ⟨o, buf2, h1, _, h3, _, _, _, _, h8, h9, _, _, _, h13⟩ :=
    reserve_new_first_fit 0 96 sample_free_layout 32 AtomID.vector (by decide) (by decide)
      (by decide) (by decide) (by decide) (by decide) ⟨16, by decide, by decide, by decide⟩
  exact ⟨o, buf2, h1, h3, h8, h9, h13 (Or.inl rfl)⟩

/-- C12: on a layout accepted by `validate_layout`, `reserve_new` throws exactly when no free
atom has length at least the allocation length, the buffer it leaves is the buffer it was
given, and it returns an atom in the other case.  The same holds for `detail::reserve`
with the allocation length of the requested size, and for the resize of a vector atom `v`
that has to grow and cannot grow in place, the case in which the resize calls
`reserve_new`. -/
theorem reserve_new_fails_iff (base N : Nat) (buf : Buffer) (A id n v : Nat)
    (hlen : buf.length = N) (hN : N < 2 ^ 32) (hv : validate_layout base buf N = .ok true) :
    (((∃ b, detail.reserve_new buf 0 A id = .thrown b) ↔
        ∀ p ∈ atoms buf N, word buf (p + 4) = AtomID.free → word buf p < A) ∧
      (∀ b, detail.reserve_new buf 0 A id = .thrown b → b = buf) ∧
      (¬ (∀ p ∈ atoms buf N, word buf (p + 4) = AtomID.free → word buf p < A) →
        ∃ x, detail.reserve_new buf 0 A id = .ok x)) ∧
    (((∃ b, detail.reserve buf 0 n id = .thrown b) ↔
        ∀ p ∈ atoms buf N, word buf (p + 4) = AtomID.free →
          word buf p < detail.get_allocation_length n) ∧
      (∀ b, detail.reserve buf 0 n id = .thrown b → b = buf) ∧
      (¬ (∀ p ∈ atoms buf N, word buf (p + 4) = AtomID.free →
          word buf p < detail.get_allocation_length n) →
        ∃ x, detail.reserve buf 0 n id = .ok x)) ∧
    (v ∈ atoms buf N → word buf (v + 4) = AtomID.vector →
      word buf v < detail.get_allocation_length n →
      ¬ (word buf (v + word buf v + 4) = AtomID.free ∧
        detail.get_allocation_length n - word buf v ≤ word buf (v + word buf v)) →
      ((∃ b, detail.reserve_resize buf 0 v n = .thrown b) ↔
        ∀ p ∈ atoms buf N, word buf (p + 4) = AtomID.free →
          word buf p < detail.get_allocation_length n) ∧
      (∀ b, detail.reserve_resize buf 0 v n = .thrown b → b = buf) ∧
      (¬ (∀ p ∈ atoms buf N, word buf (p + 4) = AtomID.free →
          word buf p < detail.get_allocation_length n) →
        ∃ x, detail.reserve_resize buf 0 v n = .ok x)) := by
  refine ⟨?_, ?_, ?_⟩
  · obtain ⟨h1, h2⟩ := reserve_new_cases base N buf A id hlen hN hv
    exact fails_iff_of _ buf _ h1 h2
  · obtain ⟨h1, h2⟩ := reserve_new_cases base N buf (detail.get_allocation_length n) id
      hlen hN hv
    exact fails_iff_of _ buf _ h1 h2
  · intro hvat hid hgrow hnf
    obtain ⟨h1, h2⟩ := resize_relocates_cases base N buf v n hlen hN hv hvat hid hgrow hnf
    exact fails_iff_of _ buf _ h1 h2

theorem reserve_new_fails_iff_witness :
    sample_layout.length = 96 ∧ validate_layout 0 sample_layout 96 = .ok true ∧
    (∀ p ∈ atoms sample_layout 96, word sample_layout (p + 4) = AtomID.free →
      word sample_layout p < 32) ∧
    detail.reserve_new sample_layout 0 32 AtomID.vector = .thrown sample_layout ∧
    detail.reserve_resize sample_layout 0 16 32 = .thrown sample_layout := by
  have h := reserve_new_fails_iff 0 96 sample_layout 32 AtomID.vector 32 16 (by decide)
    (by decide) (by decide)
  have hno : ∀ p ∈ atoms sample_layout 96, word sample_layout (p + 4) = AtomID.free →
      word sample_layout p < 32 := by decide
  obtain ⟨b, hb⟩ := h.1.1.mpr hno
  have e := h.1.2.1 b hb
  have hno2 : ∀ p ∈ atoms sample_layout 96, word sample_layout (p + 4) = AtomID.free →
      word sample_layout p < detail.get_allocation_length 32 := by decide
  obtain ⟨b2, hb2⟩ := (h.2.2 (by decide) (by decide) (by decide) (by decide)).1.mpr hno2
  have e2 := (h.2.2 (by decide) (by decide) (by decide) (by decide)).2.1 b2 hb2
  rw [e] at hb
  rw [e2] at hb2
  exact ⟨by decide, by decide, hno, hb, hb2⟩

/-- C13 (as stated it does not hold): on the 96 byte buffer `sample_free_layout`, which
`validate_layout` accepts, `detail::reserve` with the requested size 0 returns the atom at
offset 16 with length 16, a vector without contents, and `validate_layout` rejects the buffer
afterwards. -/
theorem reserve_size_zero :
    ((do
      let v0 ← validate_layout 0 sample_free_layout 96
      let a ← detail.reserve sample_free_layout 0 0 AtomID.vector
      let len ← Atom.length a.2 a.1
      let id ← Atom.identifier a.2 a.1
      let v1 ← validate_layout 0 a.2 96
      pure [v0.toNat, a.1, len, id, v1.toNat]) : Outcome (List Nat)) =
      .ok [1, 16, 16, AtomID.vector, 0] := by
  decide

/-- C13 (amended): on a layout accepted by `validate_layout`, for an identifier `vector` or
`reference` and a requested size `n` with `1 ≤ n ≤ 0xFFFFFFE0`, `detail::reserve` throws with
the buffer untouched when no free atom has length at least `16 + aligned_size n`, and returns
an atom otherwise; an atom that it returns has the requested identifier, the length
`16 + aligned_size n`, so at least `n` bytes of contents, and `validate_layout` accepts the
buffer afterwards. -/
theorem reserve_returns (base N : Nat) (buf : Buffer) (n id : Nat)
    (hlen : buf.length = N) (hN : N < 2 ^ 32) (hv : validate_layout base buf N = .ok true)
    (hid : id = AtomID.vector ∨ id = AtomID.reference) (hn1 : 1 ≤ n) (hn2 : n ≤ 0xFFFFFFE0) :
    ((∀ p ∈ atoms buf N, word buf (p + 4) = AtomID.free → word buf p < 16 + aligned_size n) →
      detail.reserve buf 0 n id = .thrown buf) ∧
    ((∃ p ∈ atoms buf N, word buf (p + 4) = AtomID.free ∧ 16 + aligned_size n ≤ word buf p) →
      ∃ o buf2, detail.reserve buf 0 n id = .ok (o, buf2)) ∧
    ∀ o buf2, detail.reserve buf 0 n id = .ok (o, buf2) →
      buf2.length = N ∧ o ∈ atoms buf2 N ∧ word buf2 (o + 4) = id ∧
      word buf2 o = 16 + aligned_size n ∧ n ≤ word buf2 o - 16 ∧
      validate_layout base buf2 N = .ok true := by
  obtain ⟨g1, g2, g3, g4, g5⟩ := get_allocation_length_eq n hn1 hn2
  obtain ⟨hbase, M, hl, hvm⟩ := layout_of_validate base N buf hlen hN hv
  have h16 := sixteen_le_of_tagged hvm.1
  have hid32 : id < 2 ^ 32 := by
    rcases hid with rfl | rfl <;> decide
  unfold detail.reserve
  rw [← g1]
  rcases fit_cases M hvm (detail.get_allocation_length n) with hno | ⟨M1, L, M2, rfl, hfit, hskip⟩
  · have ht := layout_reserve_new_none buf N _ M (detail.get_allocation_length n) id hl h16 hno
    refine ⟨fun _ => ht, ?_, ?_⟩
    · rintro ⟨p, hp, hf, hA⟩
      have := (nofit_iff buf N _ M hl hvm _).mpr hno p hp hf
      omega
    · intro o buf2 hok
      rw [ht] at hok
      cases hok
  · have hL := hvm.1 (L, AtomID.free) (by simp)
    obtain ⟨buf2, r1, r2, r3, _⟩ := layout_reserve_new buf N _ M1 M2 L _ id hl
      (fun y hy => ⟨h16 y hy, (hvm.1 y hy).2.2.1, tagged_ne_end (hvm.1 y hy)⟩)
      (fun y hy => (hskip y hy).2) (by omega) g3 hfit hid32
    have h16b := sixteen_le_reserve M1 M2 L _ id h16 (by omega) g3 hL.2.2.1
    obtain ⟨b1, b2, b3⟩ := atom_of_split buf2 N _ M1 _ _ r2 h16b
    obtain ⟨a1, a2, a3⟩ := atom_of_split buf N _ M1 M2 _ hl h16
    refine ⟨?_, fun _ => ⟨_, buf2, r1⟩, ?_⟩
    · intro hno
      have := hno _ a1 a3
      rw [a2] at this
      dsimp only at this
      omega
    · intro o buf3 hok
      rw [r1] at hok
      cases hok
      refine ⟨r2.1, b1, b3, b2, ?_, validate_of_layout base N _ buf2 _ hbase r2
        (validM_reserve M1 M2 L _ id hvm hid g2 g3)⟩
      rw [b2]
      dsimp only
      omega

theorem reserve_returns_witness :
    sample_free_layout.length = 96 ∧ validate_layout 0 sample_free_layout 96 = .ok true ∧
    ∃ o buf2, detail.reserve sample_free_layout 0 20 AtomID.vector = .ok (o, buf2) ∧
      word buf2 o = 16 + aligned_size 20 ∧ validate_layout 0 buf2 96 = .ok true := by
  have h := reserve_returns 0 96 sample_free_layout 20 AtomID.vector (by decide) (by decide)
    (by decide) (Or.inl rfl) (by decide) (by decide)
  obtain ⟨o, buf2, hok⟩ := h.2.1 ⟨16, by decide, by decide, by decide⟩
  obtain ⟨_, _, _, h4, _, h6⟩ := h.2.2 o buf2 hok
  exact ⟨by decide, by decide, o, buf2, hok, h4, h6⟩

/-- C14 (as stated it does not hold): on the 96 byte buffer `sample_layout`, which
`validate_layout` accepts, the vector at offset 16 has length 32; the resize to the requested
size 0 has `16 + aligned_size 0 = 16 < 32`, returns the vector with length 16, a vector
without contents, and `validate_layout` rejects the buffer afterwards. -/
theorem resize_to_size_zero :
    ((do
      let v0 ← validate_layout 0 sample_layout 96
      let id ← Atom.identifier sample_layout 16
      let len ← Atom.length sample_layout 16
      let a ← detail.reserve_resize sample_layout 0 16 0
      let len2 ← Atom.length a.2 a.1
      let v1 ← validate_layout 0 a.2 96
      pure [v0.toNat, id, len, 16 + aligned_size 0, a.1, len2, v1.toNat]) :
        Outcome (List Nat)) =
      .ok [1, AtomID.vector, 32, 16, 16, 16, 0] := by
  decide

/-- C14 (amended): for a vector atom `v` of a layout accepted by `validate_layout` and a
requested size `n` with `1 ≤ n ≤ 0xFFFFFFF0` and `16 + aligned_size n` below the length of
`v`, the resize returns `v` itself with the length `16 + aligned_size n`; the first
`aligned_size n` content bytes of `v` are as before; the atom after `v` is free, its length
is the cut-off tail plus the length of the atom that followed `v` if that one was free, and
the atom after it is not free; `validate_layout` accepts the buffer afterwards. -/
theorem resize_shrinks (base N : Nat) (buf : Buffer) (v n : Nat)
    (hlen : buf.length = N) (hN : N < 2 ^ 32) (hv : validate_layout base buf N = .ok true)
    (hvat : v ∈ atoms buf N) (hid : word buf (v + 4) = AtomID.vector)
    (hn1 : 1 ≤ n) (hn2 : n ≤ 0xFFFFFFF0) (hlt : 16 + aligned_size n < word buf v) :
    ∃ buf2, detail.reserve_resize buf 0 v n = .ok (v, buf2) ∧ buf2.length = N ∧
      word buf2 v = 16 + aligned_size n ∧ word buf2 (v + 4) = AtomID.vector ∧
      (∀ j, v + 16 ≤ j → j < v + 16 + aligned_size n → byte buf2 j = byte buf j) ∧
      v + (16 + aligned_size n) ∈ atoms buf2 N ∧
      word buf2 (v + (16 + aligned_size n) + 4) = AtomID.free ∧
      word buf2 (v + (16 + aligned_size n)) = word buf v - (16 + aligned_size n) +
        (if word buf (v + word buf v + 4) = AtomID.free then word buf (v + word buf v)
          else 0) ∧
      word buf2 (v + (16 + aligned_size n) + word buf2 (v + (16 + aligned_size n)) + 4) ≠
        AtomID.free ∧
      validate_layout base buf2 N = .ok true := by
  obtain ⟨g1, g2, g3⟩ := aligned_size_ge n hn1 hn2
  have hw := word_lt buf v
  have hA : detail.get_allocation_length n = 16 + aligned_size n := by
    unfold detail.get_allocation_length atom_header_length
    exact add32_eq _ _ (by omega)
  obtain ⟨hbase, M, hl, hvm⟩ := layout_of_validate base N buf hlen hN hv
  have h16 := sixteen_le_of_tagged hvm.1
  obtain ⟨M1, M2, rfl, hv2⟩ := atom_split buf N _ M hl h16 v hvat (by rw [hid]; decide)
    (by rw [hid]; decide)
  subst hv2
  have hV := hvm.1 _ (List.mem_append_right M1 (List.mem_cons_self _ _))
  have hV2 : word buf (word buf 0 + msum M1) % 16 = 0 := hV.2.2.1
  obtain ⟨buf2, r1, r2, r3⟩ := layout_shrink buf N _ M1 M2 _ _ n _ hl h16 hA (by omega)
    (by omega)
  have ha := free_after_word buf N _ M1 M2 _ hl h16
  -- validity of the list after the call
  have hvm1 : ValidM (M1 ++ [(16 + aligned_size n, word buf (word buf 0 + msum M1 + 4))]) :=
    validM_snoc M1 _ _ M2 hvm
      ⟨hV.1, by dsimp only; omega, by dsimp only; omega, fun _ => by dsimp only; omega⟩
      (by dsimp only; rw [hid]; decide)
  have hvm0 := validM_coalesce _ M2
    (word buf (word buf 0 + msum M1) - (16 + aligned_size n)) hvm1
    ((validM_mid _ _ _).mp hvm).2.1 (by omega) (by omega)
  have hfb := free_before_concat M1 (16 + aligned_size n, word buf (word buf 0 + msum M1 + 4))
  rw [if_neg (by dsimp only; rw [hid]; decide)] at hfb
  rw [hfb] at hvm0
  dsimp only at hvm0
  rw [Nat.zero_add] at hvm0
  have r2' := r2
  have e : M1 ++ (16 + aligned_size n, word buf (word buf 0 + msum M1 + 4)) ::
        (word buf (word buf 0 + msum M1) - (16 + aligned_size n) + (free_after M2).1,
          AtomID.free) :: (free_after M2).2 =
      (M1 ++ [(16 + aligned_size n, word buf (word buf 0 + msum M1 + 4))]) ++
        (word buf (word buf 0 + msum M1) - (16 + aligned_size n) + (free_after M2).1,
          AtomID.free) :: (free_after M2).2 := by simp
  rw [e] at r2'
  have h16b := sixteen_le_of_tagged hvm0.1
  obtain ⟨c1, c2, c3⟩ := atom_of_split buf2 N _ _ _ _ r2' h16b
  have hnf := follower_not_free buf2 N _ _ _ _ r2' hvm0
  have em : word buf 0 + msum (M1 ++ [(16 + aligned_size n,
      word buf (word buf 0 + msum M1 + 4))]) = word buf 0 + msum M1 + (16 + aligned_size n) := by
    rw [msum_snoc]
    omega
  rw [em] at c1 c2 c3 hnf
  rw [← e] at h16b hvm0
  obtain ⟨b1, b2, b3⟩ := atom_of_split buf2 N _ M1 _ _ r2 h16b
  dsimp only at c2 c3 b2 b3 ha
  refine ⟨buf2, r1, r2.1, b2, by rw [b3, hid], fun j h1 h2 => r3 j (by omega), c1, c3, ?_, ?_,
    validate_of_layout base N _ buf2 _ hbase r2 hvm0⟩
  · rw [c2, ha]
  · rw [c2]
    exact hnf

theorem resize_shrinks_witness :
    sample_long_vector.length = 96 ∧ validate_layout 0 sample_long_vector 96 = .ok true ∧
    16 ∈ atoms sample_long_vector 96 ∧ word sample_long_vector (16 + 4) = AtomID.vector ∧
    16 + aligned_size 10 < word sample_long_vector 16 ∧
    ∃ buf2, detail.reserve_resize sample_long_vector 0 16 10 = .ok (16, buf2) ∧
      word buf2 16 = 16 + aligned_size 10 ∧ validate_layout 0 buf2 96 = .ok true := by
  obtain ⟨buf2, h1, _, h3, _, _, _, _, _, _, h10⟩ :=
    resize_shrinks 0 96 sample_long_vector 16 10 (by decide) (by decide) (by decide)
      (by decide) (by decide) (by decide) (by decide) (by decide)
  exact ⟨by decide, by decide, by decide, by decide, by decide, buf2, h1, h3, h10⟩

set_option maxRecDepth 100000 in
/-- C15 (the code departs from it): a 128 byte buffer is formatted and a vector with 32
content bytes is reserved, the atom at offset 16 with length 48, followed by a free atom of
length 48; `validate_layout` accepts the buffer.  The vector is resized to 80 content bytes:
the allocation length is 96 and the 48 bytes that are missing are exactly the length of the
free atom.  The resize returns the atom at offset 16 with length 96, and afterwards
`validate_layout` rejects the buffer: the header at offset 112, the end atom before the call,
is now `{length 0, free, previous 96}`. -/
theorem exact_fit_grow_in_place :
    ((do
      let f ← format 0 (List.replicate 128 0) 128 0
      let a ← detail.reserve f.2 0 32 AtomID.vector
      let v1 ← validate_layout 0 a.2 128
      let id ← Atom.identifier a.2 a.1
      let len ← Atom.length a.2 a.1
      let fid ← Atom.identifier a.2 (a.1 + len)
      let flen ← Atom.length a.2 (a.1 + len)
      let g ← detail.reserve_resize a.2 0 a.1 80
      let v2 ← validate_layout 0 g.2 128
      let len2 ← Atom.length g.2 g.1
      let elen ← Atom.length g.2 112
      let eid ← Atom.identifier g.2 112
      let eprev ← Atom.previous g.2 112
      pure [a.1, v1.toNat, id, len, fid, flen, detail.get_allocation_length 80, g.1,
        v2.toNat, len2, elen, eid, eprev]) : Outcome (List Nat)) =
      .ok [16, 1, AtomID.vector, 48, AtomID.free, 48, 96, 16, 0, 96, 0, AtomID.free, 96] := by
  decide

/-- C16: for a vector atom `v` of a layout accepted by `validate_layout` and a requested size
whose allocation length `A` exceeds the length of `v`, when the atom after `v` is not a free
atom of length at least `A - length v` and some free atom has length at least `A`, the resize
returns an atom `o` different from `v`, tagged vector, of length `A`, whose first
`length v - 16` content bytes are the content bytes that `v` had before the call; the bytes
that `v` occupied lie inside a free atom `r`; and `validate_layout` accepts the buffer
afterwards.  `A` is `16 + aligned_size n` for every `n ≤ 0xFFFFFFE0`. -/
theorem resize_relocates (base N : Nat) (buf : Buffer) (v n : Nat)
    (hlen : buf.length = N) (hN : N < 2 ^ 32) (hv : validate_layout base buf N = .ok true)
    (hvat : v ∈ atoms buf N) (hid : word buf (v + 4) = AtomID.vector)
    (hgrow : word buf v < detail.get_allocation_length n)
    (hnf : ¬ (word buf (v + word buf v + 4) = AtomID.free ∧
      detail.get_allocation_length n - word buf v ≤ word buf (v + word buf v)))
    (hex : ∃ p ∈ atoms buf N, word buf (p + 4) = AtomID.free ∧
      detail.get_allocation_length n ≤ word buf p) :
    ∃ o buf2, detail.reserve_resize buf 0 v n = .ok (o, buf2) ∧ buf2.length = N ∧ o ≠ v ∧
      o ∈ atoms buf2 N ∧ word buf2 (o + 4) = AtomID.vector ∧
      word buf2 o = detail.get_allocation_length n ∧
      (n ≤ 0xFFFFFFE0 → detail.get_allocation_length n = 16 + aligned_size n) ∧
      (∀ j, j < word buf v - 16 → byte buf2 (o + 16 + j) = byte buf (v + 16 + j)) ∧
      (∃ r ∈ atoms buf2 N, word buf2 (r + 4) = AtomID.free ∧ r ≤ v ∧
        v + word buf v ≤ r + word buf2 r) ∧
      validate_layout base buf2 N = .ok true := by
  obtain ⟨hbase, M, hl, hvm⟩ := layout_of_validate base N buf hlen hN hv
  have h16 := sixteen_le_of_tagged hvm.1
  obtain ⟨Ma, Mb, hMa, hv2⟩ := atom_split buf N _ M hl h16 v hvat (by rw [hid]; decide)
    (by rw [hid]; decide)
  rw [hid] at hMa
  subst hv2
  rcases fit_cases M hvm (detail.get_allocation_length n) with
    hno | ⟨M1, L, M2, hM1, hfit, hskip⟩
  · exfalso
    obtain ⟨p, hp, hf, hA⟩ := hex
    have := (nofit_iff buf N _ M hl hvm _).mpr hno p hp hf
    omega
  · subst hMa
    obtain ⟨buf3, P, Q, R, S, Lr, t1, t2, t3, t4, t5, t6, t7, t8, _⟩ :=
      layout_relocate buf N _ Ma Mb M1 M2 _ L n hl hvm hM1 hgrow hnf hfit hskip
    have h16b := sixteen_le_of_tagged t3.1
    obtain ⟨b1, b2, b3⟩ := atom_of_split buf3 N _ P Q _ t2 h16b
    have t2' := t2
    rw [t5] at t2' h16b
    obtain ⟨c1, c2, c3⟩ := atom_of_split buf3 N _ R S _ t2' h16b
    rw [hM1] at hl h16
    obtain ⟨a1, a2, a3⟩ := atom_of_split buf N _ M1 M2 _ hl h16
    rw [t4] at b1 b2 b3
    dsimp only at c2
    refine ⟨_, buf3, t1, t2.1, ?_, b1, b3, b2, ?_, t8, ⟨_, c1, c3, by omega, ?_⟩,
      validate_of_layout base N _ buf3 _ hbase t2 t3⟩
    · intro he
      rw [he, hid] at a3
      exact absurd a3 vector_ne_free
    · intro hn
      have e := aligned_size_eq n
      have hm : (n + 15) % 2 ^ 32 = n + 15 := Nat.mod_eq_of_lt (by omega)
      rw [hm] at e
      unfold detail.get_allocation_length atom_header_length
      exact add32_eq _ _ (by omega)
    · rw [c2]
      omega

set_option maxRecDepth 100000 in
theorem resize_relocates_witness :
    sample_relocate.length = 160 ∧ validate_layout 0 sample_relocate 160 = .ok true ∧
    16 ∈ atoms sample_relocate 160 ∧ word sample_relocate (16 + 4) = AtomID.vector ∧
    word sample_relocate 16 < detail.get_allocation_length 32 ∧
    ∃ o buf2, detail.reserve_resize sample_relocate 0 16 32 = .ok (o, buf2) ∧ o ≠ 16 ∧
      word buf2 o = detail.get_allocation_length 32 ∧
      validate_layout 0 buf2 160 = .ok true := by
  obtain ⟨o, buf2, h1, _, h3, _, _, h6, _, _, _, h10⟩ :=
    resize_relocates 0 160 sample_relocate 16 32 (by decide) (by decide) (by decide)
      (by decide) (by decide) (by decide) (by decide) ⟨80, by decide, by decide, by decide⟩
  exact ⟨by decide, by decide, by decide, by decide, by decide, o, buf2, h1, h3, h6, h10⟩

/-- C17: for a vector or reference atom `d` of a layout accepted by `validate_layout`,
`detail::free` returns an atom `r` tagged free whose bytes cover those of `d`; its length is
the length of `d`, plus the length of the atom after `d` if that was free, plus the length of
the atom before `d` if that was free; and `r` is the atom before `d` if that was free, and `d`
otherwise. -/
theorem free_coalesces (base N : Nat) (buf : Buffer) (d : Nat)
    (hlen : buf.length = N) (hN : N < 2 ^ 32) (hv : validate_layout base buf N = .ok true)
    (hd : d ∈ atoms buf N)
    (hid : word buf (d + 4) = AtomID.vector ∨ word buf (d + 4) = AtomID.reference) :
    ∃ r buf2, detail.free buf d = .ok (r, buf2) ∧ buf2.length = N ∧
      r ∈ atoms buf2 N ∧ word buf2 (r + 4) = AtomID.free ∧
      r ≤ d ∧ d + word buf d ≤ r + word buf2 r ∧
      word buf2 r = word buf d +
        (if word buf (d + word buf d + 4) = AtomID.free then word buf (d + word buf d) else 0) +
        (if word buf (d - word buf (d + 8) + 4) = AtomID.free
          then word buf (d - word buf (d + 8)) else 0) ∧
      r = (if word buf (d - word buf (d + 8) + 4) = AtomID.free
        then d - word buf (d + 8) else d) := by
  obtain ⟨hbase, M, hl, hvm⟩ := layout_of_validate base N buf hlen hN hv
  have h16 := sixteen_le_of_tagged hvm.1
  obtain ⟨M1, M2, rfl, hd2⟩ := atom_split buf N _ M hl h16 d hd
    (by rcases hid with h | h <;> rw [h] <;> decide)
    (by rcases hid with h | h <;> rw [h] <;> decide)
  obtain ⟨buf2, r1, r2, _, _⟩ := layout_free buf N _ M1 M2 _ _ hl h16
  have hvm2 := validM_free M1 M2 _ _ hvm
  have h16b := sixteen_le_of_tagged hvm2.1
  obtain ⟨b1, b2, b3⟩ := atom_of_split buf2 N _ _ _ _ r2 h16b
  have ha := free_after_word buf N _ M1 M2 _ hl h16
  have hb := free_before_word buf N _ M1 M2 _ hl
  have hm := free_before_msum M1
  obtain ⟨e1, e2⟩ := layout_leader buf N _ M1 M2 _ hl
  rw [← hd2] at ha hb r1
  dsimp only at ha b2 b3
  refine ⟨_, buf2, r1, r2.1, b1, b3, by omega, ?_, ?_, ?_⟩
  · rw [b2]; omega
  · rw [b2, ← ha, ← hb]; omega
  · rw [hd2] at hb ⊢
    rcases nil_or_snoc M1 with rfl | ⟨M0, p, rfl⟩
    · obtain ⟨g1, g2⟩ := e1 rfl
      rw [g1, g2, Nat.zero_add, hl.2.2.2.2.2.2.1, if_neg (by decide)]
      rfl
    · obtain ⟨g1, g2, g3, g4⟩ := e2 M0 p rfl
      rw [g1, g2, g4, free_before_concat]
      by_cases hp : p.2 = AtomID.free
      · rw [if_pos hp, if_pos hp]
      · rw [if_neg hp, if_neg hp]

theorem free_coalesces_witness :
    sample_layout.length = 96 ∧ validate_layout 0 sample_layout 96 = .ok true ∧
    16 ∈ atoms sample_layout 96 ∧ word sample_layout (16 + 4) = AtomID.vector ∧
    ∃ r buf2, detail.free sample_layout 16 = .ok (r, buf2) ∧ word buf2 (r + 4) = AtomID.free ∧
      r = 16 := by
  obtain ⟨r, buf2, h1, _, _, h4, _, _, _, h8⟩ :=
    free_coalesces 0 96 sample_layout 16 (by decide) (by decide) (by decide) (by decide)
      (Or.inl (by decide))
  exact ⟨by decide, by decide, by decide, by decide, r, buf2, h1, h4,
    by rw [h8]; decide⟩

/-- C18: for a vector or reference atom `d` of a layout accepted by `validate_layout`,
`detail::free` returns an atom `r`, and `validate_layout` accepts the buffer afterwards; the
atom `r` is free and neither the atom after it nor the atom before it is free. -/
theorem free_keeps_layout (base N : Nat) (buf : Buffer) (d : Nat)
    (hlen : buf.length = N) (hN : N < 2 ^ 32) (hv : validate_layout base buf N = .ok true)
    (hd : d ∈ atoms buf N)
    (hid : word buf (d + 4) = AtomID.vector ∨ word buf (d + 4) = AtomID.reference) :
    ∃ r buf2, detail.free buf d = .ok (r, buf2) ∧ buf2.length = N ∧
      validate_layout base buf2 N = .ok true ∧
      r ∈ atoms buf2 N ∧ word buf2 (r + 4) = AtomID.free ∧
      word buf2 (r + word buf2 r + 4) ≠ AtomID.free ∧
      word buf2 (r - word buf2 (r + 8) + 4) ≠ AtomID.free := by
  obtain ⟨hbase, M, hl, hvm⟩ := layout_of_validate base N buf hlen hN hv
  have h16 := sixteen_le_of_tagged hvm.1
  obtain ⟨M1, M2, rfl, hd2⟩ := atom_split buf N _ M hl h16 d hd
    (by rcases hid with h | h <;> rw [h] <;> decide)
    (by rcases hid with h | h <;> rw [h] <;> decide)
  obtain ⟨buf2, r1, r2, _, _⟩ := layout_free buf N _ M1 M2 _ _ hl h16
  have hvm2 := validM_free M1 M2 _ _ hvm
  have h16b := sixteen_le_of_tagged hvm2.1
  obtain ⟨b1, b2, b3⟩ := atom_of_split buf2 N _ _ _ _ r2 h16b
  have ha := free_after_word buf2 N _ _ _ _ r2 h16b
  have hb := free_before_word buf2 N _ _ _ _ r2
  obtain ⟨n1, n2, _, _⟩ := free_neighbours buf2 N _ _ _ _ r2 hvm2
  rw [n1] at ha
  rw [n2] at hb
  rw [← hd2] at r1
  have hx := h16b _ (List.mem_append_right _ (List.mem_cons_self _ _))
  refine ⟨_, buf2, r1, r2.1, validate_of_layout base N _ buf2 _ hbase r2 hvm2, b1, b3, ?_, ?_⟩
  · intro hf
    rw [b2] at hf
    rw [if_pos hf] at ha
    obtain ⟨f1, f2, f3⟩ := layout_follower buf2 N _ _ _ _ r2 h16b
    cases hM : (free_after M2).2 with
    | nil =>
      obtain ⟨_, g2, g3⟩ := f2 hM
      rw [g3] at hf
      exact absurd hf (by decide)
    | cons y rest =>
      obtain ⟨g1, g2, _⟩ := f3 y rest hM
      rw [g1] at ha
      have := h16b y (by rw [hM]; simp)
      omega
  · intro hf
    rw [if_pos hf] at hb
    obtain ⟨e1, e2⟩ := layout_leader buf2 N _ _ _ _ r2
    rcases nil_or_snoc (free_before M1).2 with hM | ⟨M0, p, hM⟩
    · obtain ⟨g1, g2⟩ := e1 hM
      rw [g1, g2, Nat.zero_add, r2.2.2.2.2.2.2.1] at hf
      exact absurd hf (by decide)
    · obtain ⟨g1, g2, g3, g4⟩ := e2 M0 p hM
      rw [g1, g2, g3] at hb
      have := h16b p (by rw [hM]; simp)
      omega

theorem free_keeps_layout_witness :
    sample_layout.length = 96 ∧ validate_layout 0 sample_layout 96 = .ok true ∧
    48 ∈ atoms sample_layout 96 ∧ word sample_layout (48 + 4) = AtomID.reference ∧
    ∃ r buf2, detail.free sample_layout 48 = .ok (r, buf2) ∧
      validate_layout 0 buf2 96 = .ok true ∧ word buf2 (r + 4) = AtomID.free := by
  obtain ⟨r, buf2, h1, _, h3, _, h5, _, _⟩ :=
    free_keeps_layout 0 96 sample_layout 48 (by decide) (by decide) (by decide) (by decide)
      (Or.inr (by decide))
  exact ⟨by decide, by decide, by decide, by decide, r, buf2, h1, h3, h5⟩

/-- C19: Scenario A, first part.  `format` of a buffer of 256 bytes (at an aligned address,
whatever its bytes) with data contents of size 0 leaves three atoms: the data atom of length
16 at offset 0, a free atom of length 224 at offset 16 and the end atom of length 16 at
offset 240.  `detail::reserve` of 32 content bytes for a vector then returns the atom at
offset 16, now a vector of length 48; the atom after it, at offset 64, is free with length
176 and `previous = 48`, and the `previous` field of the end atom is 176. -/
theorem scenario_a_reserve (base : Nat) (buf : Buffer) (hbase : base % 16 = 0)
    (hlen : buf.length = 256) :
    ∃ f a, format base buf 256 0 = .ok (0, f) ∧ atoms f 256 = [0, 16, 240] ∧
      word f 0 = 16 ∧ word f 4 = AtomID.data ∧ word f 16 = 224 ∧ word f 20 = AtomID.free ∧
      word f 240 = 16 ∧ word f 244 = AtomID.end_ ∧
      detail.reserve f 0 32 AtomID.vector = .ok (16, a) ∧
      word a 16 = 48 ∧ word a 20 = AtomID.vector ∧
      word a 64 = 176 ∧ word a 68 = AtomID.free ∧ word a 72 = 48 ∧ word a 248 = 176 ∧
      atoms a 256 = [0, 16, 64, 240] ∧ validate_layout base a 256 = .ok true := by
  have hS : aligned_size 0 = 0 := by decide
  obtain ⟨f, h1, h2, w0, w4, w8, _, _, e0, e4, e8, hfree⟩ :=
    format_spec base 256 0 buf hlen (by decide) hbase (by decide) (by rw [hS]; decide)
  rw [hS] at w0 e8 hfree
  obtain ⟨f0, f4, f8⟩ := hfree (by decide)
  have hat := atoms_of_format 256 16 f (by decide) (by decide) w0 (fun _ => f0)
  rw [if_pos (by decide)] at hat
  have hl : Layout f 256 16 ([] ++ (224, AtomID.free) :: []) :=
    ⟨h2, by decide, by decide, by decide, by decide, w0, w4, w8, e0, e4,
      ⟨by omega, f0, f4, f8, trivial⟩, by decide⟩
  have hk : Linked f 256 16 ([] ++ (224, AtomID.free) :: []) := e8
  have h16 : ∀ y ∈ ([] : List (Nat × Nat)) ++ (224, AtomID.free) :: [],
      16 ≤ y.1 ∧ y.1 % 16 = 0 ∧ y.2 ≠ AtomID.end_ := by
    intro y hy
    simp only [List.nil_append, List.mem_singleton] at hy
    rw [hy]
    decide
  obtain ⟨a, r1, r2, _, r4⟩ := layout_reserve_new f 256 16 [] [] 224 48 AtomID.vector hl h16
    (by simp) (by decide) (by decide) (by decide) (by decide)
  have hr : remainder 48 224 = [(176, AtomID.free)] := by
    unfold remainder
    rw [if_pos (by decide)]
  have hk2 := r4 hk
  rw [hr] at r2 hk2
  have hvm : ValidM ([] ++ (48, AtomID.vector) :: ([(176, AtomID.free)] ++ [])) := by
    have := validM_reserve [] [] 224 48 AtomID.vector
      ⟨by
        intro x hx
        simp only [List.nil_append, List.mem_singleton] at hx
        rw [hx]
        exact ⟨Or.inr (Or.inr rfl), by decide, by decide,
          fun h => absurd rfl (free_ne_vector_reference h)⟩,
        by simp⟩ (Or.inl rfl) (by decide) (by decide)
    rw [hr] at this
    exact this
  have hat2 := atoms_of_layout a 256 16 _ r2 (sixteen_le_of_tagged hvm.1)
  have hv2 := validate_of_layout base 256 16 a _ hbase r2 hvm
  obtain ⟨_, _, _, _, _, _, _, _, _, _, ⟨_, a0, a4, _, _, b0, b4, b8, _⟩, _⟩ := r2
  exact ⟨f, a, h1, hat, w0, w4, f0, f4, e0, e4, r1, a0, a4, b0, b4, b8, hk2, hat2, hv2⟩

theorem scenario_a_reserve_witness :
    (0 : Nat) % 16 = 0 ∧ (List.replicate 256 (0 : Fin 256)).length = 256 ∧
    ∃ f a, format 0 (List.replicate 256 0) 256 0 = .ok (0, f) ∧
      atoms f 256 = [0, 16, 240] ∧
      detail.reserve f 0 32 AtomID.vector = .ok (16, a) ∧ word a 16 = 48 ∧
      word a 64 = 176 := by
  obtain ⟨f, a, h1, h2, _, _, _, _, _, _, h9, h10, _, h12, _⟩ :=
    scenario_a_reserve 0 (List.replicate 256 0) (by decide) (List.length_replicate _ _)
  exact ⟨by decide, List.length_replicate _ _, f, a, h1, h2, h9, h10, h12⟩

/-- C20 (as stated it does not hold): on the 96 byte buffer `sample_free_layout`, which
`validate_layout` accepts, with the free atom `{length 64, previous 16}` at offset 16,
`detail::reserve` with the requested size `0xFFFFFFF0` has the allocation length 0 (the sum
`16 + 0xFFFFFFF0` wraps), returns the atom at offset 16 with length 0, and `detail::free` of
that atom returns normally and leaves the header at offset 16 as `{length 0, free,
previous 0}`: the header is not back to its bytes before the reserve. -/
theorem reserve_free_wraps :
    ((do
      let v0 ← validate_layout 0 sample_free_layout 96
      let a ← detail.reserve sample_free_layout 0 0xFFFFFFF0 AtomID.vector
      let r ← detail.free a.2 a.1
      pure [v0.toNat, word sample_free_layout 16, word sample_free_layout 20,
        word sample_free_layout 24, detail.get_allocation_length 0xFFFFFFF0, a.1, word a.2 16,
        word a.2 20, r.1, word r.2 16, word r.2 20, word r.2 24]) : Outcome (List Nat)) =
      .ok [1, 64, AtomID.free, 16, 0, 16, 0, AtomID.vector, 16, 0, AtomID.free, 0] := by
  decide

/-- C20 (amended): on a layout accepted by `validate_layout` in which the `previous` field of
the end atom holds the length of the atom before it, for an identifier `vector` or
`reference` and a requested size `n` with `1 ≤ n ≤ 0xFFFFFFE0`, when `detail::reserve`
returns the atom `x`, that atom was a free atom before the call, `detail::free` of `x` right
afterwards returns `x`, and every byte outside the contents of that free atom (the bytes from
`x + 16` up to its end) is then as it was before the reserve; the atoms are the same and
`validate_layout` accepts the buffer. -/
theorem reserve_free_round_trip (base N : Nat) (buf : Buffer) (n id x : Nat) (buf1 : Buffer)
    (hlen : buf.length = N) (hN : N < 2 ^ 32) (hv : validate_layout base buf N = .ok true)
    (hend : ∀ p ∈ atoms buf N, p + word buf p = N - 16 → word buf (N - 16 + 8) = word buf p)
    (hid : id = AtomID.vector ∨ id = AtomID.reference) (hn1 : 1 ≤ n) (hn2 : n ≤ 0xFFFFFFE0)
    (hok : detail.reserve buf 0 n id = .ok (x, buf1)) :
    x ∈ atoms buf N ∧ word buf (x + 4) = AtomID.free ∧
    ∃ buf2, detail.free buf1 x = .ok (x, buf2) ∧
      (∀ j, (j < x + 16 ∨ x + word buf x ≤ j) → byte buf2 j = byte buf j) ∧
      atoms buf2 N = atoms buf N ∧ validate_layout base buf2 N = .ok true := by
  obtain ⟨g1, g2, g3, g4, g5⟩ := get_allocation_length_eq n hn1 hn2
  obtain ⟨hbase, M, hl, hvm⟩ := layout_of_validate base N buf hlen hN hv
  have h16 := sixteen_le_of_tagged hvm.1
  have hk := linked_of_end buf N _ M hl h16 hend
  have hid32 : id < 2 ^ 32 := by
    rcases hid with rfl | rfl <;> decide
  unfold detail.reserve at hok
  rcases fit_cases M hvm (detail.get_allocation_length n) with hno | ⟨M1, L, M2, rfl, hfit, hskip⟩
  · rw [layout_reserve_new_none buf N _ M _ id hl h16 hno] at hok
    cases hok
  · have hL := hvm.1 (L, AtomID.free) (by simp)
    obtain ⟨b1, r1, r2, r3, r4⟩ := layout_reserve_new buf N _ M1 M2 L _ id hl
      (fun y hy => ⟨h16 y hy, (hvm.1 y hy).2.2.1, tagged_ne_end (hvm.1 y hy)⟩)
      (fun y hy => (hskip y hy).2) (by omega) g3 hfit hid32
    rw [r1] at hok
    cases hok
    have h16b := sixteen_le_reserve M1 M2 L _ id h16 (by omega) g3 hL.2.2.1
    obtain ⟨a1, a2, a3⟩ := atom_of_split buf N _ M1 M2 _ hl h16
    obtain ⟨buf2, q1, q2, q3, q4⟩ := layout_free buf1 N _ M1 _ _ id r2 h16b
    obtain ⟨n1, n2, n3, n4⟩ := free_neighbours buf N _ M1 M2 L hl hvm
    obtain ⟨m1, m2⟩ := free_after_remainder _ L M2 hfit n1 n3
    rw [n2, n4, m1, m2] at q2 q4
    rw [n4] at q1 q3
    rw [m1] at q3
    have e : 0 + (detail.get_allocation_length n + (L - detail.get_allocation_length n)) = L := by
      omega
    rw [e] at q2 q4
    have hk2 := q4 (r4 hk)
    obtain ⟨c1, c2, c3⟩ := atom_of_split buf2 N _ M1 M2 _ q2 h16
    obtain ⟨f1, f2, f3⟩ := layout_follower buf N _ M1 M2 _ hl h16
    obtain ⟨d1, d2, d3⟩ := layout_follower buf2 N _ M1 M2 _ q2 h16
    dsimp only at a2 a3 c2 c3 f1 f2 f3 d1 d2 d3
    have hlink : word buf2 (word buf 0 + msum M1 + L + 8) = word buf (word buf 0 + msum M1 + L + 8) := by
      cases hM2 : M2 with
      | nil =>
        obtain ⟨e1, _, _⟩ := f2 hM2
        have e2 : word buf 0 + msum M1 + L + 8 = N - 16 + 8 := by omega
        rw [e2]
        unfold Linked at hk hk2
        rw [hk, hk2]
      | cons y rest =>
        rw [(d3 y rest hM2).2.2, (f3 y rest hM2).2.2]
    refine ⟨a1, a3, buf2, q1, ?_, ?_, validate_of_layout base N _ buf2 _ hbase q2 hvm⟩
    · intro j hj
      rw [a2] at hj
      by_cases h1 : j < word buf 0 + msum M1
      · rw [q3 j (by omega) (by omega) (by omega)]
        exact r3 j (by omega)
      by_cases h2 : j < word buf 0 + msum M1 + 4
      · exact byte_eq_of_word_eq buf2 buf _ (by rw [c2, a2]) j (by omega) (by omega)
      by_cases h3 : j < word buf 0 + msum M1 + 8
      · exact byte_eq_of_word_eq buf2 buf _ (by rw [c3, a3]) j (by omega) (by omega)
      by_cases h4 : j < word buf 0 + msum M1 + L + 8
      · rw [q3 j (by omega) (by omega) (by omega)]
        exact r3 j (by omega)
      by_cases h5 : j < word buf 0 + msum M1 + L + 12
      · exact byte_eq_of_word_eq buf2 buf _ hlink j (by omega) (by omega)
      · rw [q3 j (by omega) (by omega) (by omega)]
        exact r3 j (by omega)
    · rw [atoms_of_layout buf2 N _ _ q2 h16, atoms_of_layout buf N _ _ hl h16]

theorem reserve_free_round_trip_witness :
    sample_free_layout.length = 96 ∧ validate_layout 0 sample_free_layout 96 = .ok true ∧
    (∀ p ∈ atoms sample_free_layout 96, p + word sample_free_layout p = 96 - 16 →
      word sample_free_layout (96 - 16 + 8) = word sample_free_layout p) ∧
    ∃ x buf1 buf2, detail.reserve sample_free_layout 0 20 AtomID.vector = .ok (x, buf1) ∧
      detail.free buf1 x = .ok (x, buf2) ∧
      (∀ j, (j < x + 16 ∨ x + word sample_free_layout x ≤ j) →
        byte buf2 j = byte sample_free_layout j) := by
  obtain ⟨⟨x, buf1⟩, hok⟩ := (reserve_new_cases 0 96 sample_free_layout
    (detail.get_allocation_length 20) AtomID.vector (by decide) (by decide) (by decide)).2
    (by decide)
  obtain ⟨_, _, buf2, h3, h4, _, _⟩ :=
    reserve_free_round_trip 0 96 sample_free_layout 20 AtomID.vector x buf1 (by decide)
      (by decide) (by decide) (by decide) (Or.inl rfl) (by decide) (by decide) hok
  exact ⟨by decide, by decide, by decide, x, buf1, buf2, hok, h3, h4⟩

/-! ## References and vectors: facts -/

theorem ends_mono {α : Type} {x : Outcome α} {P Q : α → Prop} {T U : Buffer → Prop}
    (h : Ends x P T) (hP : ∀ a, P a → Q a) (hT : ∀ b, T b → U b) : Ends x Q U :=
  ⟨fun a e => hP a (h.1 a e), fun b e => hT b (h.2 b e)⟩

theorem ends_bind {α β : Type} {x : Outcome α} {f : α → Outcome β} {P : α → Prop}
    {Q : β → Prop} {T : Buffer → Prop} (h : Ends x P T) (hf : ∀ a, P a → Ends (f a) Q T) :
    Ends (x >>= f) Q T := by
  cases x with
  | ok a => exact hf a (h.1 a rfl)
  | thrown b =>
    refine ⟨fun a e => ?_, fun c e => ?_⟩
    · cases e
    · cases e
      exact h.2 b rfl
  | fault => exact ⟨fun a e => (by cases e), fun c e => (by cases e)⟩
  | diverge => exact ⟨fun a e => (by cases e), fun c e => (by cases e)⟩

theorem ends_pure {α : Type} (a : α) {P : α → Prop} {T : Buffer → Prop} (h : P a) :
    Ends (pure a : Outcome α) P T := by
  refine ⟨fun c e => ?_, fun c e => ?_⟩
  · cases e
    exact h
  · cases e

theorem ends_fault {α : Type} {P : α → Prop} {T : Buffer → Prop} :
    Ends (Outcome.fault : Outcome α) P T :=
  ⟨fun a e => (by cases e), fun c e => (by cases e)⟩

theorem ends_diverge {α : Type} {P : α → Prop} {T : Buffer → Prop} :
    Ends (Outcome.diverge : Outcome α) P T :=
  ⟨fun a e => (by cases e), fun c e => (by cases e)⟩

theorem ends_throw {α : Type} (b : Buffer) {P : α → Prop} {T : Buffer → Prop} (h : T b) :
    Ends (Outcome.thrown b : Outcome α) P T := by
  refine ⟨fun c e => ?_, fun c e => ?_⟩
  · cases e
  · cases e
    exact h

theorem ends_load32 (buf : Buffer) (o : Nat) (T : Buffer → Prop) :
    Ends (load32 buf o) (fun v => v = word buf o ∧ o + 4 ≤ buf.length) T := by
  unfold load32
  by_cases h : o + 4 ≤ buf.length
  · rw [if_pos h]
    exact ends_pure _ ⟨rfl, h⟩
  · rw [if_neg h]
    exact ends_fault

theorem ends_store32 (buf : Buffer) (o v : Nat) (T : Buffer → Prop) :
    Ends (store32 buf o v) (fun b => b = put32 buf o v ∧ o + 4 ≤ buf.length) T := by
  unfold store32
  by_cases h : o + 4 ≤ buf.length
  · rw [if_pos h]
    exact ends_pure _ ⟨rfl, h⟩
  · rw [if_neg h]
    exact ends_fault

theorem sameBelow_refl (k : Nat) (buf : Buffer) : SameBelow k buf buf := ⟨rfl, fun _ _ => rfl⟩

theorem sameBelow_trans {k : Nat} {b1 b2 b3 : Buffer} (h1 : SameBelow k b1 b2)
    (h2 : SameBelow k b2 b3) : SameBelow k b1 b3 :=
  ⟨h2.1.trans h1.1, fun j hj => (h2.2 j hj).trans (h1.2 j hj)⟩

theorem sameBelow_mono {k m : Nat} {b1 b2 : Buffer} (h : SameBelow k b1 b2) (hm : m ≤ k) :
    SameBelow m b1 b2 := ⟨h.1, fun j hj => h.2 j (by omega)⟩

theorem sameBelow_put32 (k : Nat) (buf : Buffer) (o v : Nat) (h : k ≤ o) :
    SameBelow k buf (put32 buf o v) :=
  ⟨length_put32 buf o v, fun j hj => byte_put32_outside buf o v j (Or.inl (by omega))⟩

/-- What `detail::divide` returns: the tail, and a buffer that differs from the one before
only at or above the atom and holds the slice length in the `length` field of the atom. -/
theorem ends_divide (buf : Buffer) (atom s id : Nat) :
    Ends (detail.divide buf atom s id)
      (fun r => r.1 = atom + s ∧ SameBelow atom buf r.2 ∧ (s < 2 ^ 32 → word r.2 atom = s) ∧
        atom + 4 ≤ buf.length)
      (fun _ => False) := by
  unfold detail.divide Atom.set_identifier Atom.set_length Atom.set_previous Atom.set_reserved
    Atom.length
  dsimp only
  refine ends_bind (ends_store32 _ _ _ _) ?_
  rintro b1 ⟨hb1, h1⟩
  have s1 : SameBelow atom buf b1 := by
    rw [hb1]
    exact sameBelow_put32 _ _ _ _ (by omega)
  refine ends_bind (ends_load32 _ _ _) ?_
  rintro len ⟨-, h2⟩
  refine ends_bind (ends_store32 _ _ _ _) ?_
  rintro b2 ⟨hb2, h3⟩
  have s2 : SameBelow atom b1 b2 := by
    rw [hb2]
    exact sameBelow_put32 _ _ _ _ (by omega)
  refine ends_bind (ends_store32 _ _ _ _) ?_
  rintro b3 ⟨hb3, h4⟩
  have s3 : SameBelow atom b2 b3 := by
    rw [hb3]
    exact sameBelow_put32 _ _ _ _ (by omega)
  refine ends_bind (ends_store32 _ _ _ _) ?_
  rintro b4 ⟨hb4, h5⟩
  have s4 : SameBelow atom b3 b4 := by
    rw [hb4]
    exact sameBelow_put32 _ _ _ _ (by omega)
  refine ends_bind (ends_load32 _ _ _) ?_
  rintro tlen ⟨-, h6⟩
  refine ends_bind (ends_store32 _ _ _ _) ?_
  rintro b5 ⟨hb5, h7⟩
  have s5 : SameBelow atom b4 b5 := by
    rw [hb5]
    exact sameBelow_put32 _ _ _ _ (by omega)
  refine ends_bind (ends_store32 _ _ _ _) ?_
  rintro b6 ⟨hb6, h8⟩
  have s6 : SameBelow atom b5 b6 := by
    rw [hb6]
    exact sameBelow_put32 _ _ _ _ (by omega)
  refine ends_pure _ ⟨rfl, ?_, ?_, ?_⟩
  · exact sameBelow_trans (sameBelow_trans (sameBelow_trans (sameBelow_trans (sameBelow_trans
      s1 s2) s3) s4) s5) s6
  · intro hs
    rw [hb6, word_put32_same _ _ _ h8]
    exact Nat.mod_eq_of_lt hs
  · rw [s1.1] at h2
    exact h2

/-- What `detail::merge_next` returns: a buffer that differs from the one before only at or
above the atom. -/
theorem ends_merge_next (buf : Buffer) (atom : Nat) :
    Ends (detail.merge_next buf atom) (fun b => SameBelow atom buf b) (fun _ => False) := by
  unfold detail.merge_next Atom.set_length Atom.set_previous Atom.length
  refine ends_bind (ends_load32 _ _ _) ?_
  rintro len ⟨-, h1⟩
  refine ends_bind (ends_load32 _ _ _) ?_
  rintro nlen ⟨-, h2⟩
  refine ends_bind (ends_store32 _ _ _ _) ?_
  rintro b1 ⟨hb1, h3⟩
  have s1 : SameBelow atom buf b1 := by
    rw [hb1]
    exact sameBelow_put32 _ _ _ _ (by omega)
  refine ends_bind (ends_load32 _ _ _) ?_
  rintro len2 ⟨-, h4⟩
  refine ends_mono (ends_store32 _ _ _ _) ?_ (fun _ h => h)
  rintro b2 ⟨hb2, h5⟩
  rw [hb2]
  exact sameBelow_trans s1 (sameBelow_put32 _ _ _ _ (by omega))

/-- The loop of `detail::reserve_new` returns an atom at or above the one it starts from and
a buffer that differs from the one before only at or above that atom; when it throws the
buffer is as before. -/
theorem ends_reserve_new_loop (A id : Nat) : ∀ (fuel : Nat) (buf : Buffer) (atom : Nat),
    Ends (detail.reserve_new_loop A id fuel buf atom)
      (fun r => atom ≤ r.1 ∧ SameBelow atom buf r.2) (fun b => b = buf) := by
  intro fuel
  induction fuel with
  | zero =>
    intro buf atom
    exact ends_diverge
  | succ fuel ih =>
    intro buf atom
    unfold detail.reserve_new_loop Atom.identifier Atom.length Atom.set_identifier
    refine ends_bind (ends_load32 _ _ _) ?_
    rintro idv ⟨rfl, h1⟩
    by_cases he : word buf (atom + 4) = AtomID.end_
    · rw [if_pos he]
      exact ends_throw _ rfl
    · rw [if_neg he]
      refine ends_bind (ends_load32 _ _ _) ?_
      rintro len ⟨rfl, h2⟩
      by_cases hs : AtomID.free ≠ word buf (atom + 4) ∨ word buf atom < A
      · rw [if_pos hs]
        exact ends_mono (ih buf (atom + word buf atom))
          (fun r hr => ⟨by omega, sameBelow_mono hr.2 (by omega)⟩) (fun _ h => h)
      · rw [if_neg hs]
        dsimp only
        by_cases hlt : A < word buf atom
        · rw [if_pos hlt]
          refine ends_bind (ends_mono (ends_divide buf atom A AtomID.free)
            (fun r hr => hr) (fun _ h => h.elim)) ?_
          rintro r ⟨_, hr, _⟩
          rw [Outcome.pure_eq, Outcome.ok_bind]
          refine ends_bind (ends_store32 _ _ _ _) ?_
          rintro b2 ⟨hb2, h3⟩
          rw [hb2]
          exact ends_pure _ ⟨Nat.le_refl _,
            sameBelow_trans hr (sameBelow_put32 _ _ _ _ (by omega))⟩
        · rw [if_neg hlt, Outcome.pure_eq, Outcome.ok_bind]
          refine ends_bind (ends_store32 _ _ _ _) ?_
          rintro b2 ⟨hb2, h3⟩
          rw [hb2]
          exact ends_pure _ ⟨Nat.le_refl _, sameBelow_put32 _ _ _ _ (by omega)⟩

/-- What `detail::reserve_new` ends with, on every buffer: the data atom is as before. -/
theorem ends_reserve_new (buf : Buffer) (data A id : Nat) :
    Ends (detail.reserve_new buf data A id)
      (fun r => data + word buf data ≤ r.1 ∧ SameBelow (data + word buf data) buf r.2)
      (fun b => b = buf) := by
  unfold detail.reserve_new Atom.length
  refine ends_bind (ends_load32 _ _ _) ?_
  rintro len ⟨rfl, h1⟩
  exact ends_reserve_new_loop A id _ buf _

theorem land_mask64 (y : Nat) (hy : y < 2 ^ 64) : y &&& 0xfffffffffffffff0 = y / 16 * 16 := by
  have h1 : (y &&& 0xfffffffffffffff0) / 2 / 2 / 2 / 2 = y / 16 := by
    simp only [Nat.and_div_two]
    have h := Nat.and_pow_two_sub_one_eq_mod (y / 2 / 2 / 2 / 2) 60
    have e : (0xfffffffffffffff0 : Nat) / 2 / 2 / 2 / 2 = 2 ^ 60 - 1 := by decide
    rw [e, h]
    omega
  have h2 : (y &&& 0xfffffffffffffff0) % 16 = 0 := by
    have h := Nat.and_pow_two_sub_one_eq_mod (y &&& 0xfffffffffffffff0) 4
    norm_num at h
    rw [← h, Nat.and_assoc]
    have e : (0xfffffffffffffff0 : Nat) &&& 15 = 0 := by decide
    rw [e]
    simp
  omega

theorem land_mask4 (y : Nat) (hy : y < 2 ^ 32) : y &&& 0xfffffffc = y / 4 * 4 := by
  have h1 : (y &&& 0xfffffffc) / 2 / 2 = y / 4 := by
    simp only [Nat.and_div_two]
    have h := Nat.and_pow_two_sub_one_eq_mod (y / 2 / 2) 30
    have e : (0xfffffffc : Nat) / 2 / 2 = 2 ^ 30 - 1 := by decide
    rw [e, h]
    omega
  have h2 : (y &&& 0xfffffffc) % 4 = 0 := by
    have h := Nat.and_pow_two_sub_one_eq_mod (y &&& 0xfffffffc) 2
    norm_num at h
    rw [← h, Nat.and_assoc]
    have e : (0xfffffffc : Nat) &&& 3 = 0 := by decide
    rw [e]
    simp
  omega

/-- For a type of at most `0xFFFFFFF0` bytes `aligned_size<Type_>()` is the size rounded up to
a multiple of 16, the value of `aligned_size(sizeof(Type_))`. -/
theorem aligned_size_of_eq (size_of : Nat) (h : size_of ≤ 0xFFFFFFF0) :
    aligned_size_of size_of = (size_of + 15) / 16 * 16 ∧
      aligned_size_of size_of = aligned_size size_of := by
  have e1 : (size_of + 0x0f) % 2 ^ 64 = size_of + 15 := Nat.mod_eq_of_lt (by omega)
  have e2 : aligned_size_of size_of = (size_of + 15) / 16 * 16 := by
    unfold aligned_size_of
    rw [e1, land_mask64 _ (by omega)]
    exact Nat.mod_eq_of_lt (by omega)
  refine ⟨e2, ?_⟩
  rw [e2, aligned_size_eq, Nat.mod_eq_of_lt (by omega)]

theorem aligned_size_fixed (a : Nat) (h1 : a % 16 = 0) (h2 : a ≤ 0xFFFFFFF0) :
    aligned_size a = a := by
  rw [aligned_size_eq, Nat.mod_eq_of_lt (by omega)]
  omega

theorem msum_mod : ∀ (M : List (Nat × Nat)), (∀ x ∈ M, x.1 % 16 = 0) → msum M % 16 = 0
  | [], _ => rfl
  | x :: rest, h => by
    have h1 := h x (by simp)
    have h2 := msum_mod rest (fun y hy => h y (by simp [hy]))
    rw [msum_cons]
    omega

theorem offset_check_iff (x : Nat) :
    (!is_aligned x || decide (x < 2 * atom_header_length)) = true ↔ (x % 16 ≠ 0 ∨ x < 32) := by
  have h := is_aligned_iff x
  unfold atom_header_length
  by_cases ha : is_aligned x = true
  · have := h.mp ha
    simp [ha]
    omega
  · have hn : ¬ x % 16 = 0 := fun e => ha (h.mpr e)
    simp [ha]
    exact Or.inl hn

theorem contents_offset_eq (o : Nat) (h : o + 16 < 2 ^ 32) :
    detail.contents_offset 0 o = o + 16 := by
  unfold detail.contents_offset detail.distance atom_header_length
  rw [Nat.sub_zero, Nat.mod_eq_of_lt (by omega)]
  exact add32_eq _ _ h

/-- What `detail::allocation_header` does with an offset that passes the first test and
whose header lies in the buffer. -/
theorem allocation_header_eq (size_of : Nat) (buf : Buffer) (ref : Reference) (data : Nat)
    (h1 : ref.offset % 16 = 0) (h2 : 32 ≤ ref.offset) (h3 : ref.offset < 2 ^ 32)
    (h4 : data + ref.offset ≤ buf.length) :
    detail.allocation_header size_of buf ref data =
      if AtomID.reference ≠ word buf (data + (ref.offset - 16) + 4) then .thrown buf
      else if word buf (data + (ref.offset - 16)) < 16 + size_of then .thrown buf
      else .ok (data + (ref.offset - 16)) := by
  have hc : ¬ ((!is_aligned ref.offset || decide (ref.offset < 2 * atom_header_length)) = true) := by
    rw [offset_check_iff]
    omega
  unfold detail.allocation_header
  rw [if_neg hc]
  dsimp only
  unfold detail.offset_by Atom.identifier Atom.length atom_header_length
  rw [sub32_eq _ _ (by omega) h3, load32_ok _ _ (by omega), Outcome.ok_bind]
  by_cases hid : AtomID.reference ≠ word buf (data + (ref.offset - 16) + 4)
  · rw [if_pos hid, if_pos hid]
  · rw [if_neg hid, if_neg hid, load32_ok _ _ (by omega), Outcome.ok_bind]
    rfl

theorem allocation_header_thrown (size_of : Nat) (buf : Buffer) (ref : Reference) (data : Nat)
    (h : ref.offset % 16 ≠ 0 ∨ ref.offset < 32) :
    detail.allocation_header size_of buf ref data = .thrown buf := by
  unfold detail.allocation_header
  rw [if_pos ((offset_check_iff _).mpr h)]

/-- The function `detail::free` does not throw. -/
theorem ends_free (buf : Buffer) (d : Nat) :
    Ends (detail.free buf d) (fun _ => True) (fun _ => False) := by
  unfold detail.free Atom.set_identifier Atom.length Atom.identifier Atom.previous
  refine ends_bind (ends_store32 _ _ _ _) ?_
  rintro b1 ⟨-, -⟩
  refine ends_bind (ends_load32 _ _ _) ?_
  rintro len ⟨-, -⟩
  refine ends_bind (ends_load32 _ _ _) ?_
  rintro nid ⟨-, -⟩
  have hk : ∀ b2 : Buffer, Ends ((do
      let p ← load32 b2 (d + 8)
      if d < p then .fault else
      let prev := d - p
      let pid ← load32 b2 (prev + 4)
      if AtomID.free = pid then do
        let buf ← detail.merge_next b2 prev
        pure (prev, buf)
      else
        pure (d, b2)) : Outcome (Nat × Buffer)) (fun _ => True) (fun _ => False) := by
    intro b2
    refine ends_bind (ends_load32 _ _ _) ?_
    rintro p ⟨-, -⟩
    by_cases hp : d < p
    · rw [if_pos hp]
      exact ends_fault
    · rw [if_neg hp]
      dsimp only
      refine ends_bind (ends_load32 _ _ _) ?_
      rintro pid ⟨-, -⟩
      by_cases hc : AtomID.free = pid
      · rw [if_pos hc]
        refine ends_bind (ends_mono (ends_merge_next b2 (d - p)) (fun _ _ => trivial)
          (fun _ h => h)) ?_
        rintro b3 -
        exact ends_pure _ trivial
      · rw [if_neg hc]
        exact ends_pure _ trivial
  dsimp only
  by_cases hc : AtomID.free = nid
  · rw [if_pos hc]
    refine ends_bind (ends_mono (ends_merge_next b1 d) (fun _ _ => trivial) (fun _ h => h)) ?_
    rintro b2 -
    exact hk b2
  · rw [if_neg hc, Outcome.pure_eq, Outcome.ok_bind]
    exact hk b1

theorem is_null_false (ref : Reference) (h : ref.offset ≠ 0) : (!ref.is_null) = true := by
  unfold Reference.is_null
  simp
  omega

theorem free_null (size_of : Nat) (buf : Buffer) (ref : Reference) (data : Nat)
    (h : ref.offset = 0) : free size_of buf ref data = .ok (ref, buf) := by
  unfold free Reference.is_null
  rw [h]
  rfl

theorem free_eq (size_of : Nat) (buf : Buffer) (ref : Reference) (data : Nat)
    (h : ref.offset ≠ 0) :
    free size_of buf ref data = (do
      let refr ← detail.allocation_header size_of buf ref data
      let r ← detail.free buf refr
      pure ({ ref with offset := 0 }, r.2)) := by
  unfold free
  rw [if_pos (is_null_false ref h)]

/-- The offsets of the atoms between the data atom and the end atom are multiples of 16. -/
theorem split_offset_mod (buf : Buffer) (N D : Nat) (M1 M2 : List (Nat × Nat)) (x : Nat × Nat)
    (hl : Layout buf N D (M1 ++ x :: M2)) (hvm : ValidM (M1 ++ x :: M2)) :
    (D + msum M1) % 16 = 0 ∧ 16 ≤ D + msum M1 ∧ D + msum M1 + x.1 + 16 ≤ N := by
  have hm := msum_mod M1 (fun y hy => (hvm.1 y (by simp [hy])).2.2.1)
  obtain ⟨f1, _, _⟩ := layout_follower buf N D M1 M2 x hl (sixteen_le_of_tagged hvm.1)
  obtain ⟨l1, l2, l3, l4, l5, l6, l7, l8, l9, l10, l11, l12⟩ := hl
  omega

theorem ends_ite {α : Type} {c : Prop} [Decidable c] {x y : Outcome α} {P : α → Prop}
    {T : Buffer → Prop} (h1 : c → Ends x P T) (h2 : ¬ c → Ends y P T) :
    Ends (if c then x else y) P T := by
  by_cases h : c
  · rw [if_pos h]
    exact h1 h
  · rw [if_neg h]
    exact h2 h

/-- The resize of an allocation that does not take the relocation branch returns the
allocation itself and changes no byte below it, on every buffer. -/
theorem ends_resize_local (buf : Buffer) (data v n : Nat)
    (h : ¬ (word buf v < detail.get_allocation_length n ∧
      ¬ (word buf (v + word buf v + 4) = AtomID.free ∧
        detail.get_allocation_length n - word buf v ≤ word buf (v + word buf v)))) :
    Ends (detail.reserve_resize buf data v n) (fun r => r.1 = v ∧ SameBelow v buf r.2)
      (fun _ => False) := by
  have hA := get_allocation_length_lt n
  unfold detail.reserve_resize Atom.length Atom.identifier
  dsimp only
  refine ends_bind (ends_load32 _ _ _) ?_
  rintro clen ⟨hclen, h1⟩
  refine ends_ite (fun _ => ends_pure _ ⟨rfl, sameBelow_refl _ _⟩) (fun hne => ?_)
  refine ends_ite (fun hlt => ?_) (fun hge => ?_)
  · -- smaller allocation
    refine ends_bind (ends_divide _ _ _ _) ?_
    rintro r ⟨hr1, hr2, -, -⟩
    refine ends_bind (ends_load32 _ _ _) ?_
    rintro flen ⟨-, -⟩
    refine ends_bind (ends_load32 _ _ _) ?_
    rintro nid ⟨-, -⟩
    refine ends_ite (fun _ => ?_) (fun _ => ?_)
    · refine ends_bind (ends_merge_next _ _) ?_
      intro b hb
      exact ends_pure _ ⟨rfl, sameBelow_trans hr2 (sameBelow_mono hb (by omega))⟩
    · rw [Outcome.pure_eq, Outcome.ok_bind]
      exact ends_pure _ ⟨rfl, hr2⟩
  · -- larger allocation
    have hle : clen ≤ detail.get_allocation_length n := by omega
    rw [sub32_eq _ _ hle hA]
    refine ends_bind (ends_load32 _ _ _) ?_
    rintro eid ⟨heid, -⟩
    have hin : ∀ elen : Nat, elen = word buf (v + clen) →
        detail.get_allocation_length n - clen ≤ elen →
        Ends ((do
          let elen ← load32 buf (v + clen)
          let buf ← if detail.get_allocation_length n - clen ≤ elen then do
              let r ← detail.divide buf (v + clen) (detail.get_allocation_length n - clen)
                AtomID.free
              pure r.2
            else pure buf
          let buf ← detail.merge_next buf v
          pure (v, buf)) : Outcome (Nat × Buffer)) (fun r => r.1 = v ∧ SameBelow v buf r.2)
          (fun _ => False) := by
      intro elen0 _ _
      refine ends_bind (ends_load32 _ _ _) ?_
      rintro elen ⟨-, -⟩
      dsimp only
      refine ends_ite (fun _ => ?_) (fun _ => ?_)
      · refine ends_bind (ends_divide _ _ _ _) ?_
        rintro r ⟨-, hr2, -, -⟩
        rw [Outcome.pure_eq, Outcome.ok_bind]
        refine ends_bind (ends_merge_next _ _) ?_
        intro b hb
        exact ends_pure _ ⟨rfl, sameBelow_trans (sameBelow_mono hr2 (by omega)) hb⟩
      · rw [Outcome.pure_eq, Outcome.ok_bind]
        refine ends_bind (ends_merge_next _ _) ?_
        intro b hb
        exact ends_pure _ ⟨rfl, hb⟩
    refine ends_ite (fun hc => ?_) (fun hc => ?_)
    · refine ends_bind (ends_load32 _ _ _) ?_
      rintro elen ⟨helen, -⟩
      rw [Outcome.pure_eq, Outcome.ok_bind]
      by_cases hfit : detail.get_allocation_length n - clen ≤ elen
      · rw [if_pos (decide_eq_true hfit)]
        exact hin elen helen hfit
      · exfalso
        apply h
        refine ⟨by omega, ?_⟩
        rintro ⟨_, h2⟩
        rw [← hclen, ← helen] at h2
        exact hfit h2
    · exfalso
      apply h
      refine ⟨by omega, ?_⟩
      rintro ⟨h2, _⟩
      rw [← hclen, ← heid] at h2
      exact hc ⟨by rw [h2]; decide, h2.symm⟩

theorem offset_passes (o : Nat) (h1 : o % 16 = 0) (h2 : 16 ≤ o) (h3 : o + 16 < 2 ^ 32) :
    detail.contents_offset 0 o = o + 16 ∧ detail.contents_offset 0 o % 16 = 0 ∧
      32 ≤ detail.contents_offset 0 o ∧
      Reference.is_null { offset := detail.contents_offset 0 o } = false ∧
      (!is_aligned (detail.contents_offset 0 o) ||
        decide (detail.contents_offset 0 o < 2 * atom_header_length)) = false := by
  have e := contents_offset_eq o h3
  rw [e]
  refine ⟨rfl, by omega, by omega, ?_, ?_⟩
  · unfold Reference.is_null
    simp
  · have := offset_check_iff (o + 16)
    cases hb : (!is_aligned (o + 16) || decide (o + 16 < 2 * atom_header_length)) with
    | false => rfl
    | true =>
      have := this.mp hb
      omega

/-- What the two overloads of `detail::reserve` return on a layout: an atom between the data
atom and the end atom of the layout before the call. -/
theorem reserve_result (buf : Buffer) (N D : Nat) (M : List (Nat × Nat))
    (hl : Layout buf N D M) (hvm : ValidM M) :
    (∀ A id o buf2, detail.reserve_new buf 0 A id = .ok (o, buf2) →
      o % 16 = 0 ∧ 16 ≤ o ∧ o + 32 ≤ N) ∧
    (∀ v n o buf2, v ∈ atoms buf N → word buf (v + 4) = AtomID.vector →
      detail.reserve_resize buf 0 v n = .ok (o, buf2) → o % 16 = 0 ∧ 16 ≤ o ∧ o + 32 ≤ N) := by
  have h16 := sixteen_le_of_tagged hvm.1
  have hnew : ∀ A id o buf2, detail.reserve_new buf 0 A id = .ok (o, buf2) →
      o % 16 = 0 ∧ 16 ≤ o ∧ o + 32 ≤ N := by
    intro A id o buf2 hok
    rcases fit_cases M hvm A with hno | ⟨M1, L, M2, rfl, hfit, hskip⟩
    · rw [layout_reserve_new_none buf N D M A id hl h16 hno] at hok
      cases hok
    · obtain ⟨buf3, r1⟩ := layout_reserve_new_total buf N D M1 M2 L A id hl h16 hskip hfit
      rw [r1] at hok
      cases hok
      obtain ⟨m1, m2, m3⟩ := split_offset_mod buf N D M1 M2 _ hl hvm
      have := h16 (L, AtomID.free) (by simp)
      dsimp only at m3 this
      exact ⟨m1, m2, by omega⟩
  refine ⟨hnew, ?_⟩
  intro v n o buf2 hvat hid hok
  obtain ⟨Ma, Mb, hMa, hv2⟩ := atom_split buf N D M hl h16 v hvat (by rw [hid]; decide)
    (by rw [hid]; decide)
  rw [hid] at hMa
  subst hMa
  obtain ⟨m1, m2, m3⟩ := split_offset_mod buf N D Ma Mb _ hl hvm
  have hV := h16 (word buf v, AtomID.vector) (by simp)
  dsimp only at m3 hV
  by_cases hr : word buf v < detail.get_allocation_length n ∧
      ¬ (word buf (v + word buf v + 4) = AtomID.free ∧
        detail.get_allocation_length n - word buf v ≤ word buf (v + word buf v))
  · subst hv2
    rw [resize_relocates_eq buf N D Ma Mb _ n hl h16 hr.1 hr.2, bind_eq_ok] at hok
    obtain ⟨a, ha, hrest⟩ := hok
    have := hnew _ _ a.1 a.2 ha
    rw [bind_eq_ok] at hrest
    obtain ⟨c, _, hrest⟩ := hrest
    rw [bind_eq_ok] at hrest
    obtain ⟨b, _, hrest⟩ := hrest
    rw [bind_eq_ok] at hrest
    obtain ⟨r2, _, hrest⟩ := hrest
    cases hrest
    exact this
  · have := (ends_resize_local buf 0 v n hr).1 _ hok
    dsimp only at this
    rw [this.1, hv2]
    exact ⟨m1, m2, by omega⟩

theorem byte_eq_getElem (buf : Buffer) (j : Nat) (h : j < buf.length) :
    byte buf j = (buf[j]).val := by
  unfold byte
  rw [List.getD_eq_getElem?_getD, List.getElem?_eq_getElem h]
  rfl

/-- Two loads of `n` bytes inside their buffers give the same object when the bytes agree. -/
theorem load_bytes_congr (b1 b2 : Buffer) (o1 o2 n : Nat) (h1 : o1 + n ≤ b1.length)
    (h2 : o2 + n ≤ b2.length) (hb : ∀ j, j < n → byte b1 (o1 + j) = byte b2 (o2 + j)) :
    load_bytes b1 o1 n = load_bytes b2 o2 n := by
  unfold load_bytes
  rw [if_pos h1, if_pos h2]
  congr 1
  apply List.ext_getElem
  · simp only [List.length_take, List.length_drop]
    omega
  · intro j hj1 hj2
    simp only [List.length_take, List.length_drop] at hj1
    rw [List.getElem_take, List.getElem_take, List.getElem_drop, List.getElem_drop]
    have := hb j (by omega)
    rw [byte_eq_getElem b1 _ (by omega), byte_eq_getElem b2 _ (by omega)] at this
    exact Fin.ext this

theorem length_put_bytes (buf : Buffer) (o : Nat) (bs : List (Fin 256))
    (h : o + bs.length ≤ buf.length) : (put_bytes buf o bs).length = buf.length := by
  unfold put_bytes
  simp only [List.length_append, List.length_take, List.length_drop]
  omega

theorem byte_put_bytes_outside (buf : Buffer) (o : Nat) (bs : List (Fin 256)) (j : Nat)
    (h : o + bs.length ≤ buf.length) (hj : j < o ∨ o + bs.length ≤ j) :
    byte (put_bytes buf o bs) j = byte buf j := by
  unfold byte put_bytes
  rw [List.getD_eq_getElem?_getD, List.getD_eq_getElem?_getD]
  rcases hj with hj | hj
  · rw [List.append_assoc, List.getElem?_append_left (by simp; omega),
      List.getElem?_take_of_lt hj]
  · rw [List.getElem?_append_right (by simp; omega)]
    simp only [List.length_append, List.length_take, List.getElem?_drop]
    have e2 : min o buf.length = o := by omega
    rw [e2]
    have e4 : o + bs.length + (j - (o + bs.length)) = j := by omega
    rw [e4]

/-- A load of the bytes that were stored gives them back. -/
theorem load_put_bytes (buf : Buffer) (o : Nat) (bs : List (Fin 256))
    (h : o + bs.length ≤ buf.length) :
    load_bytes (put_bytes buf o bs) o bs.length = .ok bs := by
  unfold load_bytes
  rw [if_pos (by rw [length_put_bytes buf o bs h]; exact h)]
  congr 1
  unfold put_bytes
  have e : (buf.take o).length = o := by
    simp only [List.length_take]
    omega
  rw [List.append_assoc, List.drop_append_eq_append_drop, List.drop_of_length_le (by omega), e,
    Nat.sub_self, List.drop_zero, List.nil_append, List.take_left' rfl]

theorem store_bytes_ok (buf : Buffer) (o : Nat) (bs : List (Fin 256))
    (h : o + bs.length ≤ buf.length) : store_bytes buf o bs = .ok (put_bytes buf o bs) := by
  unfold store_bytes
  rw [if_pos h]

theorem data_some (vec : Vector) (v : Nat) (h : vec.m_vctr = some v) :
    vec.data = some (v + 16) := by
  unfold Vector.data detail.contents atom_header_length
  rw [h]
  rfl

theorem iter_some (size_of : Nat) (vec : Vector) (v k : Nat) (h : vec.m_vctr = some v) :
    vec.iter size_of (k : Int) = some (v + 16 + k * size_of) := by
  unfold Vector.iter
  rw [data_some vec v h]
  dsimp only
  have : ((v + 16 : Nat) : Int) + (k : Int) * (size_of : Int) =
      ((v + 16 + k * size_of : Nat) : Int) := by push_cast; ring
  rw [this, Int.toNat_natCast]

theorem iter_none (size_of : Nat) (vec : Vector) (k : Int) (h : vec.m_vctr = none) :
    vec.iter size_of k = none := by
  unfold Vector.iter Vector.data
  rw [h]
  rfl

theorem at_some (size_of : Nat) (buf : Buffer) (vec : Vector) (v i : Nat)
    (h : vec.m_vctr = some v) :
    vec.at_ size_of buf i = load_bytes buf (v + 16 + i * size_of) size_of := by
  unfold Vector.at_
  rw [data_some vec v h]

theorem capacity_some (size_of : Nat) (buf : Buffer) (vec : Vector) (v : Nat)
    (h : vec.m_vctr = some v) (h1 : v + 4 ≤ buf.length) (h2 : 16 ≤ word buf v) :
    vec.capacity size_of buf = .ok ((word buf v - 16) / size_of) := by
  unfold Vector.capacity
  rw [h]
  dsimp only
  unfold detail.contents_size Atom.length atom_header_length
  rw [load32_ok _ _ h1, Outcome.ok_bind, Outcome.pure_eq, Outcome.ok_bind,
    sub32_eq _ _ h2 (word_lt _ _)]
  rfl

theorem capacity_none (size_of : Nat) (buf : Buffer) (vec : Vector) (h : vec.m_vctr = none) :
    vec.capacity size_of buf = .ok 0 := by
  unfold Vector.capacity
  rw [h]
  rfl

/-- What the constructor has checked of a vector that it has made. -/
theorem make_cases (size_of : Nat) (buf : Buffer) (vec : Vector)
    (hoff : vec.m_ref.offset < 2 ^ 32)
    (h : Vector.make size_of buf vec.m_ref 0 = .ok vec) :
    (vec.m_vctr = none ∧ vec.m_ref.offset = 0 ∧ vec.m_ref.count = 0 ∧ vec.m_data = 0) ∨
    ∃ v, vec.m_vctr = some v ∧ vec.m_ref.offset = v + 16 ∧ vec.m_data = 0 ∧
      word buf (v + 4) = AtomID.vector ∧ 16 + vec.m_ref.count * size_of ≤ word buf v ∧
      v + 8 ≤ buf.length ∧ v % 16 = 0 ∧ 16 ≤ v := by
  unfold Vector.make at h
  by_cases hn : vec.m_ref.offset = 0
  · left
    have e : (!vec.m_ref.is_null) = false := by
      unfold VectorRef.is_null
      rw [hn]
      rfl
    rw [e] at h
    simp only [Bool.false_eq_true, if_false] at h
    by_cases hc : vec.m_ref.count = 0
    · have e2 : (!vec.m_ref.empty) = false := by
        unfold VectorRef.empty
        rw [hc]
        rfl
      rw [e2] at h
      simp only [Bool.false_eq_true, if_false] at h
      have e3 := Outcome.ok.inj h
      exact ⟨(congrArg Vector.m_vctr e3).symm, hn, hc, (congrArg Vector.m_data e3).symm⟩
    · have e2 : (!vec.m_ref.empty) = true := by
        unfold VectorRef.empty
        simp
        omega
      rw [e2] at h
      simp only [if_true] at h
      cases h
  · right
    have e : (!vec.m_ref.is_null) = true := by
      unfold VectorRef.is_null
      simp
      omega
    rw [e] at h
    simp only [if_true] at h
    unfold detail.allocation_header_vector at h
    by_cases hc : (!is_aligned vec.m_ref.offset ||
        decide (vec.m_ref.offset < 2 * atom_header_length)) = true
    · rw [if_pos hc] at h
      cases h
    · rw [if_neg hc] at h
      rw [offset_check_iff] at hc
      dsimp only at h
      unfold detail.offset_by Atom.identifier Atom.length atom_header_length at h
      rw [sub32_eq _ _ (by omega) hoff, Nat.zero_add, bind_eq_ok] at h
      obtain ⟨a, h1, h2⟩ := h
      rw [bind_eq_ok] at h1
      obtain ⟨id, h3, h4⟩ := h1
      rw [load32_eq_ok] at h3
      obtain ⟨h5, rfl⟩ := h3
      by_cases hid : AtomID.vector ≠ word buf (vec.m_ref.offset - 16 + 4)
      · rw [if_pos hid] at h4
        cases h4
      · rw [if_neg hid, bind_eq_ok] at h4
        obtain ⟨len, h6, h7⟩ := h4
        rw [load32_eq_ok] at h6
        obtain ⟨h8, rfl⟩ := h6
        by_cases hl : word buf (vec.m_ref.offset - 16) < 16 + vec.m_ref.count * size_of
        · rw [if_pos hl] at h7
          cases h7
        · rw [if_neg hl] at h7
          cases h7
          have e3 := Outcome.ok.inj h2
          refine ⟨vec.m_ref.offset - 16, (congrArg Vector.m_vctr e3).symm, by omega,
            (congrArg Vector.m_data e3).symm, (not_not.mp hid).symm, by omega, by omega,
            by omega, by omega⟩

/-- The resize of an allocation that has to grow and is followed by a free atom that is long
enough runs `divide` on the free atom and `merge_next` on the allocation. -/
theorem resize_in_place_eq (buf : Buffer) (N D : Nat) (Ma Mb : List (Nat × Nat))
    (LV t Lf n : Nat) (hl : Layout buf N D (Ma ++ (LV, t) :: (Lf, AtomID.free) :: Mb))
    (h16 : ∀ y ∈ Ma ++ (LV, t) :: (Lf, AtomID.free) :: Mb, 16 ≤ y.1)
    (hgrow : LV < detail.get_allocation_length n)
    (hfit : detail.get_allocation_length n - LV ≤ Lf) :
    detail.reserve_resize buf 0 (D + msum Ma) n = (do
      let r ← detail.divide buf (D + msum Ma + LV) (detail.get_allocation_length n - LV)
        AtomID.free
      let b ← detail.merge_next r.2 (D + msum Ma)
      pure (D + msum Ma, b)) := by
  obtain ⟨s1, s2, s3, s4, s5, s6, s7⟩ := layout_split buf N D Ma _ _ hl
  obtain ⟨f1, _, f3⟩ := layout_follower buf N D Ma _ _ hl h16
  obtain ⟨g1, g2, _⟩ := f3 _ _ rfl
  have hlen := hl.1
  have hA := get_allocation_length_lt n
  dsimp only at s3 s4 f1 g1 g2
  unfold detail.reserve_resize
  dsimp only
  unfold Atom.length
  rw [load32_ok _ _ (by omega)]
  simp only [Outcome.ok_bind]
  rw [s3, if_neg (by omega), if_neg (by omega)]
  have hid : Atom.identifier buf (D + msum Ma + LV) = .ok AtomID.free := by
    unfold Atom.identifier
    rw [load32_ok _ _ (by omega), g2]
  rw [hid]
  simp only [Outcome.ok_bind]
  rw [sub32_eq _ _ (by omega) hA]
  have hc : AtomID.free ≠ AtomID.end_ ∧ True := ⟨by decide, trivial⟩
  rw [if_pos hc, load32_ok _ _ (by omega)]
  simp only [Outcome.ok_bind, Outcome.pure_eq]
  rw [g1]
  have hd : decide (detail.get_allocation_length n - LV ≤ Lf) = true := decide_eq_true hfit
  rw [hd]
  simp only [if_true]
  rw [if_pos hfit]

/-- The resize in place, whether the free atom that follows is longer than what is missing or
exactly as long: the allocation has the new length, and its bytes from the identifier on are as
before. -/
theorem grow_in_place (buf : Buffer) (N D : Nat) (Ma Mb : List (Nat × Nat))
    (LV t Lf n : Nat) (hl : Layout buf N D (Ma ++ (LV, t) :: (Lf, AtomID.free) :: Mb))
    (h16 : ∀ y ∈ Ma ++ (LV, t) :: (Lf, AtomID.free) :: Mb, 16 ≤ y.1)
    (hgrow : LV < detail.get_allocation_length n)
    (hfit : detail.get_allocation_length n - LV ≤ Lf) :
    ∃ buf2, detail.reserve_resize buf 0 (D + msum Ma) n = .ok (D + msum Ma, buf2) ∧
      buf2.length = N ∧ word buf2 (D + msum Ma) = detail.get_allocation_length n ∧
      (∀ j, (j < D + msum Ma ∨ (D + msum Ma + 4 ≤ j ∧ j < D + msum Ma + LV)) →
        byte buf2 j = byte buf j) ∧
      D + msum Ma + detail.get_allocation_length n + 16 ≤ N := by
  obtain ⟨s1, s2, s3, s4, s5, s6, s7⟩ := layout_split buf N D Ma _ _ hl
  obtain ⟨f1, _, f3⟩ := layout_follower buf N D Ma _ _ hl h16
  obtain ⟨g1, g2, _⟩ := f3 _ _ rfl
  have hlen := hl.1
  have hN := hl.2.1
  have hA := get_allocation_length_lt n
  have hLV := h16 (LV, t) (by simp)
  rw [msum_cons] at s7
  dsimp only at s3 s4 s7 f1 g1 g2 hLV
  rw [resize_in_place_eq buf N D Ma Mb LV t Lf n hl h16 hgrow hfit]
  obtain ⟨buf1, d1, d2⟩ := divide_total buf (D + msum Ma + LV)
    (detail.get_allocation_length n - LV) AtomID.free Lf g1 hfit (by omega)
  obtain ⟨_, d3, d4, _⟩ := (ends_divide buf (D + msum Ma + LV)
    (detail.get_allocation_length n - LV) AtomID.free).1 _ d1
  dsimp only at d3 d4
  have d5 := d4 (by omega)
  have hw : word buf1 (D + msum Ma) = LV := by
    rw [word_eq_of_bytes buf buf1 _ (fun j _ _ => d3.2 j (by omega))]
    exact s3
  obtain ⟨buf2, m1, m2, m3, m4, m5⟩ := merge_next_spec buf1 (D + msum Ma) LV
    (detail.get_allocation_length n - LV) hw d5 (by omega) (by omega)
  rw [d1, Outcome.ok_bind, m1, Outcome.ok_bind]
  refine ⟨buf2, rfl, by omega, ?_, ?_, by omega⟩
  · rw [m3]
    omega
  · intro j hj
    rw [m5 j (by omega) (by omega)]
    exact d3.2 j (by omega)

/-- The resize in place into a free atom that is longer than what is missing: the layout
afterwards. -/
theorem layout_grow (buf : Buffer) (N D : Nat) (Ma Mb : List (Nat × Nat))
    (LV t Lf n : Nat) (hl : Layout buf N D (Ma ++ (LV, t) :: (Lf, AtomID.free) :: Mb))
    (h16 : ∀ y ∈ Ma ++ (LV, t) :: (Lf, AtomID.free) :: Mb, 16 ≤ y.1)
    (hgrow : LV + 16 ≤ detail.get_allocation_length n)
    (hfit : detail.get_allocation_length n - LV + 16 ≤ Lf) :
    ∃ buf2, detail.reserve_resize buf 0 (D + msum Ma) n = .ok (D + msum Ma, buf2) ∧
      Layout buf2 N D (Ma ++ (detail.get_allocation_length n, t) ::
        (Lf - (detail.get_allocation_length n - LV), AtomID.free) :: Mb) ∧
      (∀ j, (j < D + msum Ma ∨ (D + msum Ma + 4 ≤ j ∧ j < D + msum Ma + LV)) →
        byte buf2 j = byte buf j) := by
  have hLV := h16 (LV, t) (by simp)
  dsimp only at hLV
  rw [resize_in_place_eq buf N D Ma Mb LV t Lf n hl h16 (by omega) (by omega)]
  have e1 : Ma ++ (LV, t) :: (Lf, AtomID.free) :: Mb =
      (Ma ++ [(LV, t)]) ++ (Lf, AtomID.free) :: Mb := by simp
  have hl1 := hl
  have h16a := h16
  rw [e1] at hl1 h16a
  obtain ⟨buf1, d1, d2, d3, _⟩ := layout_divide buf N D _ Mb _ hl1 h16a
    (detail.get_allocation_length n - LV) AtomID.free (by omega) (by dsimp only; omega)
    (by decide)
  have em : D + msum (Ma ++ [(LV, t)]) = D + msum Ma + LV := by
    rw [msum_snoc]
    omega
  rw [em] at d1 d3
  have e2 : (Ma ++ [(LV, t)]) ++ (detail.get_allocation_length n - LV, (Lf, AtomID.free).2) ::
      ((Lf, AtomID.free).1 - (detail.get_allocation_length n - LV), AtomID.free) :: Mb =
      Ma ++ (LV, t) :: (detail.get_allocation_length n - LV, AtomID.free) ::
        (Lf - (detail.get_allocation_length n - LV), AtomID.free) :: Mb := by simp
  rw [e2] at d2
  have h16b : ∀ z ∈ Ma ++ (LV, t) :: (detail.get_allocation_length n - LV, AtomID.free) ::
      (Lf - (detail.get_allocation_length n - LV), AtomID.free) :: Mb, 16 ≤ z.1 := by
    intro z hz
    simp only [List.mem_append, List.mem_cons] at hz
    rcases hz with hz | rfl | rfl | rfl | hz
    · exact h16 z (by simp [hz])
    · exact hLV
    · dsimp only
      omega
    · dsimp only
      omega
    · exact h16 z (by simp [hz])
  obtain ⟨buf2, m1, m2, m3, _⟩ := layout_merge buf1 N D Ma _ _ _ d2 h16b
  rw [d1, Outcome.ok_bind, m1, Outcome.ok_bind]
  dsimp only at m2 m3 d3
  have e3 : LV + (detail.get_allocation_length n - LV) = detail.get_allocation_length n := by
    omega
  rw [e3] at m2
  refine ⟨buf2, rfl, m2, ?_⟩
  intro j hj
  rw [m3 j (by omega) (by omega)]
  exact d3 j (by omega) (by omega) (by omega)

theorem mem_offsets_ge (M : List (Nat × Nat)) (off o : Nat) (h : o ∈ offsets off M) :
    off ≤ o := by
  obtain ⟨M1, x, M2, _, e⟩ := mem_offsets M off o h
  omega

theorem mem_offsets_lt (M : List (Nat × Nat)) (off o : Nat) (h : o ∈ offsets off M) :
    o ≤ off + msum M := by
  obtain ⟨M1, x, M2, e1, e⟩ := mem_offsets M off o h
  rw [e1, msum_append]
  omega

/-- The header of an atom of the layout does not reach into the contents of another one. -/
theorem atom_header_apart (buf : Buffer) (N D : Nat) (M1 M2 : List (Nat × Nat)) (x : Nat × Nat)
    (hl : Layout buf N D (M1 ++ x :: M2)) (h16 : ∀ y ∈ M1 ++ x :: M2, 16 ≤ y.1) :
    ∀ a ∈ atoms buf N, a ≤ D + msum M1 ∨ D + msum M1 + x.1 ≤ a := by
  intro a ha
  obtain ⟨f1, _, _⟩ := layout_follower buf N D M1 M2 x hl h16
  rw [atoms_of_layout buf N D _ hl h16, offsets_append] at ha
  simp only [List.mem_cons, List.mem_append, List.mem_singleton, offsets, List.not_mem_nil,
    or_false] at ha
  rcases ha with rfl | (ha | rfl | ha) | rfl
  · exact Or.inl (by omega)
  · exact Or.inl (mem_offsets_lt M1 D a ha)
  · exact Or.inl (Nat.le_refl _)
  · exact Or.inr (mem_offsets_ge M2 _ a ha)
  · exact Or.inr (by omega)

theorem bound_of_make (size_of : Nat) (buf : Buffer) (N : Nat) (vec : Vector)
    (hoff : vec.m_ref.offset < 2 ^ 32)
    (hmake : Vector.make size_of buf vec.m_ref 0 = .ok vec)
    (hat : ∀ v, vec.m_vctr = some v → v ∈ atoms buf N) : Bound size_of buf N vec := by
  rcases make_cases size_of buf vec hoff hmake with ⟨h1, h2, h3, h4⟩ |
    ⟨v, h1, h2, h3, h4, h5, _⟩
  · exact ⟨h4, Or.inl ⟨h1, h2, h3⟩⟩
  · exact ⟨h3, Or.inr ⟨v, h1, h2, hat v h1, h4, h5⟩⟩

theorem reserve_noop (size_of : Nat) (buf : Buffer) (vec : Vector) (c cap : Nat)
    (hcap : vec.capacity size_of buf = .ok cap) (h : c ≤ cap) :
    vec.reserve size_of buf c = .ok (vec, buf) := by
  unfold Vector.reserve
  rw [hcap, Outcome.ok_bind, if_pos h]
  rfl

theorem reserve_of_none (size_of : Nat) (buf : Buffer) (vec : Vector) (c : Nat)
    (hv : vec.m_vctr = none) (hd : vec.m_data = 0) (hc : 0 < c) (hsz : size_of * c < 2 ^ 32) :
    vec.reserve size_of buf c = (do
      let r ← detail.reserve buf 0 (size_of * c) AtomID.vector
      pure ({ m_ref := { offset := detail.contents_offset 0 r.1, count := vec.m_ref.count },
              m_data := 0, m_vctr := some r.1 }, r.2)) := by
  unfold Vector.reserve
  rw [capacity_none size_of buf vec hv, Outcome.ok_bind, if_neg (by omega),
    Nat.mod_eq_of_lt hsz, hv, hd]

theorem reserve_of_some (size_of : Nat) (buf : Buffer) (vec : Vector) (c cap v : Nat)
    (hv : vec.m_vctr = some v) (hd : vec.m_data = 0)
    (hcap : vec.capacity size_of buf = .ok cap) (hc : cap < c) (hsz : size_of * c < 2 ^ 32) :
    vec.reserve size_of buf c = (do
      let r ← detail.reserve_resize buf 0 v (size_of * c)
      pure ({ m_ref := { offset := detail.contents_offset 0 r.1, count := vec.m_ref.count },
              m_data := 0, m_vctr := some r.1 }, r.2)) := by
  unfold Vector.reserve
  rw [hcap, Outcome.ok_bind, if_neg (by omega), Nat.mod_eq_of_lt hsz, hv, hd]

/-- What `Vector::reserve` does on a layout for a request of at most `0xFFFFFFE0` bytes: it
keeps the vector when the capacity is enough, and otherwise throws with the buffer as it was,
which it does only when no free atom is long enough, or binds the vector to a vector atom of
the requested size that holds the old contents. -/
theorem vector_reserve_spec (size_of : Nat) (buf : Buffer) (N D : Nat) (M : List (Nat × Nat))
    (vec : Vector) (c : Nat) (hl : Layout buf N D M) (hvm : ValidM M)
    (hb : Bound size_of buf N vec) (hT : 1 ≤ size_of) (hc : size_of * c ≤ 0xFFFFFFE0) :
    ∃ cap, vec.capacity size_of buf = .ok cap ∧ vec.m_ref.count ≤ cap ∧
      (c ≤ cap → vec.reserve size_of buf c = .ok (vec, buf)) ∧
      (cap < c →
        (vec.reserve size_of buf c = .thrown buf ∧
          ∀ p ∈ atoms buf N, word buf (p + 4) = AtomID.free →
            word buf p < 16 + aligned_size (size_of * c)) ∨
        ∃ o buf2, vec.reserve size_of buf c =
            .ok ({ m_ref := { offset := o + 16, count := vec.m_ref.count }, m_data := 0,
                   m_vctr := some o }, buf2) ∧
          buf2.length = N ∧ o % 16 = 0 ∧ 16 ≤ o ∧ word buf2 (o + 4) = AtomID.vector ∧
          word buf2 o = 16 + aligned_size (size_of * c) ∧
          size_of * c ≤ aligned_size (size_of * c) ∧ o + word buf2 o + 16 ≤ N ∧
          ∀ v, vec.m_vctr = some v → ∀ j, j < word buf v - 16 →
            byte buf2 (o + 16 + j) = byte buf (v + 16 + j)) := by
  have h16 := sixteen_le_of_tagged hvm.1
  have hlen := hl.1
  have hN := hl.2.1
  obtain ⟨hd, hsh⟩ := hb
  rcases hsh with ⟨h1, h2, h3⟩ | ⟨v, h1, h2, hvat, hid, hcnt⟩
  · -- a null vector
    refine ⟨0, capacity_none size_of buf vec h1, by omega, fun h0 =>
      reserve_noop size_of buf vec c 0 (capacity_none size_of buf vec h1) h0, fun hpos => ?_⟩
    have hn1 : 1 ≤ size_of * c := Nat.mul_pos (by omega) (by omega)
    obtain ⟨g1, g2, g3, g4, g5⟩ := get_allocation_length_eq (size_of * c) hn1 hc
    rw [reserve_of_none size_of buf vec c h1 hd (by omega) (by omega)]
    unfold detail.reserve
    rcases fit_cases M hvm (detail.get_allocation_length (size_of * c)) with
      hno | ⟨M1, L, M2, rfl, hfit, hskip⟩
    · left
      rw [layout_reserve_new_none buf N D M _ AtomID.vector hl h16 hno, Outcome.thrown_bind]
      refine ⟨rfl, ?_⟩
      rw [← g1]
      exact (nofit_iff buf N D M hl hvm _).mpr hno
    · right
      have hL := hvm.1 (L, AtomID.free) (by simp)
      obtain ⟨buf2, r1, r2, r3, _⟩ := layout_reserve_new buf N D M1 M2 L _ AtomID.vector hl
        (fun y hy => ⟨h16 y hy, (hvm.1 y hy).2.2.1, tagged_ne_end (hvm.1 y hy)⟩)
        (fun y hy => (hskip y hy).2) (by omega) g3 hfit (by decide)
      have hvr := validM_reserve M1 M2 L _ AtomID.vector hvm (Or.inl rfl) g2 g3
      have h16b := sixteen_le_of_tagged hvr.1
      obtain ⟨b1, b2, b3⟩ := atom_of_split buf2 N D M1 _ _ r2 h16b
      obtain ⟨m1, m2, m3⟩ := split_offset_mod buf2 N D M1 _ _ r2 hvr
      dsimp only at b2 b3 m3
      rw [r1, Outcome.ok_bind, Outcome.pure_eq]
      dsimp only
      rw [contents_offset_eq _ (by omega)]
      refine ⟨D + msum M1, buf2, rfl, r2.1, m1, m2, b3, by rw [b2, g1], g4, by rw [b2]; omega,
        fun v hv => ?_⟩
      rw [h1] at hv
      cases hv
  · -- a vector with an allocation
    obtain ⟨Ma, Mb, hMa, hv2⟩ := atom_split buf N D M hl h16 v hvat (by rw [hid]; decide)
      (by rw [hid]; decide)
    rw [hid] at hMa
    subst hMa
    obtain ⟨m1, m2, m3⟩ := split_offset_mod buf N D Ma Mb _ hl hvm
    have hV := hvm.1 _ (List.mem_append_right Ma (List.mem_cons_self _ _))
    have hLV := thirty_two_le_of_tagged hV (Or.inl rfl)
    dsimp only at m3 hLV
    rw [← hv2] at m1 m2 m3
    have hcap := capacity_some size_of buf vec v h1 (by omega) (by omega)
    have hcc : vec.m_ref.count ≤ (word buf v - 16) / size_of := by
      rw [Nat.le_div_iff_mul_le (by omega)]
      omega
    refine ⟨_, hcap, hcc, fun h0 => reserve_noop size_of buf vec c _ hcap h0, fun hpos => ?_⟩
    have hlt : word buf v - 16 < c * size_of := by
      rw [← Nat.div_lt_iff_lt_mul (by omega)]
      exact hpos
    have hcomm : c * size_of = size_of * c := Nat.mul_comm _ _
    have hn1 : 1 ≤ size_of * c := by omega
    obtain ⟨g1, g2, g3, g4, g5⟩ := get_allocation_length_eq (size_of * c) hn1 hc
    rw [reserve_of_some size_of buf vec c _ v h1 hd hcap hpos (by omega)]
    by_cases hin : word buf (v + word buf v + 4) = AtomID.free ∧
        detail.get_allocation_length (size_of * c) - word buf v ≤ word buf (v + word buf v)
    · -- in place
      right
      obtain ⟨_, fe, fc⟩ := layout_follower buf N D Ma Mb _ hl h16
      dsimp only at fe fc
      rw [← hv2] at fe fc
      obtain ⟨Lf, Mb2, rfl⟩ : ∃ Lf Mb2, Mb = (Lf, AtomID.free) :: Mb2 := by
        cases Mb with
        | nil =>
          have := (fe rfl).2.2
          rw [hin.1] at this
          exact absurd this (by decide)
        | cons y rest =>
          obtain ⟨q1, q2, _⟩ := fc y rest rfl
          refine ⟨y.1, rest, ?_⟩
          rw [hin.1] at q2
          rw [q2]
      obtain ⟨q1, _, _⟩ := fc _ _ rfl
      dsimp only at q1
      obtain ⟨buf2, r1, r2, r3, r4, r5⟩ := grow_in_place buf N D Ma Mb2 _ AtomID.vector Lf
        (size_of * c) hl h16 (by omega) (by rw [← q1]; exact hin.2)
      rw [← hv2] at r1 r3 r4 r5
      rw [r1, Outcome.ok_bind, Outcome.pure_eq]
      dsimp only
      rw [contents_offset_eq _ (by omega)]
      refine ⟨v, buf2, rfl, r2, m1, m2, ?_, by rw [r3, g1], g4, by rw [r3]; omega,
        fun v' hv' j hj => ?_⟩
      · rw [word_eq_of_bytes buf buf2 (v + 4) (fun j _ _ => r4 j (Or.inr (by omega)))]
        exact hid
      · rw [h1] at hv'
        cases hv'
        exact r4 _ (Or.inr (by omega))
    · -- relocation
      have hin' : ¬ (word buf (D + msum Ma + word buf v + 4) = AtomID.free ∧
          detail.get_allocation_length (size_of * c) - word buf v ≤
            word buf (D + msum Ma + word buf v)) := by
        rw [← hv2]
        exact hin
      rcases fit_cases _ hvm (detail.get_allocation_length (size_of * c)) with
        hno | ⟨M1, L, M2, hM1, hfit, hskip⟩
      · left
        rw [hv2, resize_relocates_eq buf N D Ma Mb _ _ hl h16 (by omega) hin',
          layout_reserve_new_none buf N D _ _ AtomID.vector hl h16 hno, Outcome.thrown_bind,
          Outcome.thrown_bind]
        refine ⟨rfl, ?_⟩
        rw [← g1]
        exact (nofit_iff buf N D _ hl hvm _).mpr hno
      · right
        obtain ⟨buf3, P, Q, R, S, Lr, t1, t2, t3, t4, t5, t6, t7, t8, t9⟩ :=
          layout_relocate buf N D Ma Mb M1 M2 _ L (size_of * c) hl hvm hM1 (by omega) hin'
            hfit hskip
        have h16b := sixteen_le_of_tagged t3.1
        obtain ⟨b1, b2, b3⟩ := atom_of_split buf3 N D P Q _ t2 h16b
        obtain ⟨n1, n2, n3⟩ := split_offset_mod buf3 N D P Q _ t2 t3
        rw [t4] at b1 b2 b3 n1 n2 n3
        dsimp only at b2 b3 n3
        rw [hv2, t1, Outcome.ok_bind, Outcome.pure_eq]
        dsimp only
        rw [contents_offset_eq _ (by omega)]
        refine ⟨D + msum M1, buf3, rfl, t2.1, n1, n2, b3, by rw [b2, g1], g4,
          by rw [b2]; omega, fun v' hv' j hj => ?_⟩
        rw [h1] at hv'
        cases hv'
        rw [hv2]
        exact t8 j hj

/-- Two vectors read the same element at index `i` when the bytes of the element agree. -/
theorem at_congr (size_of : Nat) (b1 b2 : Buffer) (vec1 vec2 : Vector) (v1 v2 i : Nat)
    (h1 : vec1.m_vctr = some v1) (h2 : vec2.m_vctr = some v2)
    (hb1 : v1 + 16 + (i * size_of + size_of) ≤ b1.length)
    (hb2 : v2 + 16 + (i * size_of + size_of) ≤ b2.length)
    (hbytes : ∀ j, j < i * size_of + size_of → byte b2 (v2 + 16 + j) = byte b1 (v1 + 16 + j)) :
    ∃ e, vec2.at_ size_of b2 i = .ok e ∧ vec1.at_ size_of b1 i = .ok e := by
  rw [at_some size_of b1 vec1 v1 i h1, at_some size_of b2 vec2 v2 i h2]
  have e := load_bytes_congr b2 b1 (v2 + 16 + i * size_of) (v1 + 16 + i * size_of) size_of
    (by omega) (by omega) (fun j hj => by
      have := hbytes (i * size_of + j) (by omega)
      rw [Nat.add_assoc, Nat.add_assoc (v1 + 16)]
      exact this)
  rw [e]
  unfold load_bytes
  rw [if_pos (by omega)]
  exact ⟨_, rfl, rfl⟩

theorem mul_succ_le (i n size_of : Nat) (h : i < n) : i * size_of + size_of ≤ n * size_of := by
  have := Nat.mul_le_mul_right size_of (Nat.succ_le_of_lt h)
  rw [Nat.succ_mul] at this
  exact this

theorem push_back_room (size_of : Nat) (buf : Buffer) (vec : Vector) (value : List (Fin 256))
    (cap v : Nat) (hcap : vec.capacity size_of buf = .ok cap) (h : vec.m_ref.count + 1 ≤ cap)
    (h32 : vec.m_ref.count + 1 < 2 ^ 32) (hv : vec.m_vctr = some v) :
    vec.push_back size_of buf value = (do
      let b ← store_bytes buf (v + 16 + vec.m_ref.count * size_of) value
      pure ({ m_ref := { offset := vec.m_ref.offset, count := vec.m_ref.count + 1 },
              m_data := vec.m_data, m_vctr := vec.m_vctr }, b)) := by
  unfold Vector.push_back Vector.size
  rw [hcap, Outcome.ok_bind, add32_eq _ _ h32, if_neg (by omega), Outcome.pure_eq,
    Outcome.ok_bind]
  dsimp only
  rw [data_some vec v hv, add32_eq _ _ h32]

theorem push_back_grow (size_of : Nat) (buf : Buffer) (vec : Vector) (value : List (Fin 256))
    (cap : Nat) (hcap : vec.capacity size_of buf = .ok cap) (h : cap < vec.m_ref.count + 1)
    (h32 : vec.m_ref.count + 4 < 2 ^ 32) :
    vec.push_back size_of buf value = (do
      let r ← vec.reserve size_of buf ((vec.m_ref.count + 4) &&& 0xfffffffc)
      match r.1.data with
      | some d => do
        let b ← store_bytes r.2 (d + r.1.m_ref.count * size_of) value
        pure ({ m_ref := { offset := r.1.m_ref.offset, count := add32 r.1.m_ref.count 1 },
                m_data := r.1.m_data, m_vctr := r.1.m_vctr }, b)
      | none => .fault) := by
  unfold Vector.push_back Vector.size
  rw [hcap, Outcome.ok_bind, add32_eq _ _ (by omega), add32_eq _ _ h32, if_pos (by omega)]
  try rfl

/-- The store of an element at index `n` of an allocation, and what is read afterwards. -/
theorem store_element (size_of : Nat) (buf : Buffer) (v n : Nat) (value : List (Fin 256))
    (hval : value.length = size_of) (hin : v + 16 + (n * size_of + size_of) ≤ buf.length) :
    store_bytes buf (v + 16 + n * size_of) value =
        .ok (put_bytes buf (v + 16 + n * size_of) value) ∧
      (put_bytes buf (v + 16 + n * size_of) value).length = buf.length ∧
      (∀ vec2 : Vector, vec2.m_vctr = some v →
        vec2.at_ size_of (put_bytes buf (v + 16 + n * size_of) value) n = .ok value) ∧
      ∀ j, (j < v + 16 + n * size_of ∨ v + 16 + n * size_of + size_of ≤ j) →
        byte (put_bytes buf (v + 16 + n * size_of) value) j = byte buf j := by
  have h1 : v + 16 + n * size_of + value.length ≤ buf.length := by omega
  refine ⟨store_bytes_ok _ _ _ h1, length_put_bytes _ _ _ h1, fun vec2 h2 => ?_, fun j hj => ?_⟩
  · rw [at_some size_of _ vec2 v n h2]
    have := load_put_bytes buf (v + 16 + n * size_of) value h1
    rw [hval] at this
    exact this
  · exact byte_put_bytes_outside _ _ _ _ h1 (by omega)

/-- Two vectors read the same element, at index `i1` of one and `i2` of the other, when the
bytes of the element agree. -/
theorem at_congr_index (size_of : Nat) (b1 b2 : Buffer) (vec1 vec2 : Vector)
    (v1 v2 i1 i2 : Nat) (h1 : vec1.m_vctr = some v1) (h2 : vec2.m_vctr = some v2)
    (hb1 : v1 + 16 + (i1 * size_of + size_of) ≤ b1.length)
    (hb2 : v2 + 16 + (i2 * size_of + size_of) ≤ b2.length)
    (hbytes : ∀ j, j < size_of →
      byte b2 (v2 + 16 + i2 * size_of + j) = byte b1 (v1 + 16 + i1 * size_of + j)) :
    ∃ e, vec2.at_ size_of b2 i2 = .ok e ∧ vec1.at_ size_of b1 i1 = .ok e := by
  rw [at_some size_of b1 vec1 v1 i1 h1, at_some size_of b2 vec2 v2 i2 h2]
  have e := load_bytes_congr b2 b1 (v2 + 16 + i2 * size_of) (v1 + 16 + i1 * size_of) size_of
    (by omega) (by omega) hbytes
  rw [e]
  unfold load_bytes
  rw [if_pos (by omega)]
  exact ⟨_, rfl, rfl⟩

/-- The call `std::move(first, last, d_first)` with the destination below the range. -/
theorem std_move_down (buf : Buffer) (first last d : Nat) (h1 : d < first) (h2 : first ≤ last)
    (h3 : last ≤ buf.length) :
    std_move buf first last d = .ok (copy_bytes buf d first (last - first)) ∧
      (copy_bytes buf d first (last - first)).length = buf.length ∧
      ∀ j, byte (copy_bytes buf d first (last - first)) j =
        if d ≤ j ∧ j < d + (last - first) then byte buf (first + (j - d)) else byte buf j := by
  refine ⟨?_, length_copy_bytes buf d first _ (by omega) (by omega),
    fun j => byte_copy_bytes buf d first _ j (by omega) (by omega)⟩
  unfold std_move
  rw [if_neg (by omega), if_pos ⟨h3, by omega⟩]

theorem erase_range_same (size_of : Nat) (buf : Buffer) (vec : Vector) (pos : Option Nat) :
    vec.erase_range size_of buf pos pos = .ok ((pos, vec), buf) := by
  unfold Vector.erase_range
  dsimp only
  rw [if_pos rfl]
  rfl

theorem erase_range_some (size_of : Nat) (buf : Buffer) (vec : Vector) (b e last : Nat)
    (hne : b ≠ e) (hl : vec.end_ size_of = some last) :
    vec.erase_range size_of buf (some b) (some e) =
      ((if e < last then std_move buf e last b else pure buf) >>= fun buf2 =>
        pure ((some b,
          { m_ref := { offset := vec.m_ref.offset
                       count := sub32 vec.m_ref.count (((e - b) / size_of) % 2 ^ 32) }
            m_data := vec.m_data
            m_vctr := vec.m_vctr }), buf2)) := by
  unfold Vector.erase_range
  dsimp only
  rw [if_neg (fun h => hne (Option.some.inj h)), hl]
  dsimp only
  by_cases hc : e < last
  · rw [if_pos hc, if_pos hc]
  · rw [if_neg hc, if_neg hc]

/-- The list of atoms after a vector has been cut to the length `A` is valid. -/
theorem validM_shrink (M1 M2 : List (Nat × Nat)) (LV A : Nat)
    (hvm : ValidM (M1 ++ (LV, AtomID.vector) :: M2)) (hA1 : 32 ≤ A) (hA2 : A % 16 = 0)
    (hA3 : A + 16 ≤ LV) :
    ValidM (M1 ++ (A, AtomID.vector) :: (LV - A + (free_after M2).1, AtomID.free) ::
      (free_after M2).2) := by
  have hV := hvm.1 _ (List.mem_append_right M1 (List.mem_cons_self _ _))
  have hV2 : LV % 16 = 0 := hV.2.2.1
  have hvm1 : ValidM (M1 ++ [(A, AtomID.vector)]) :=
    validM_snoc M1 _ _ M2 hvm
      ⟨Or.inl rfl, by dsimp only; omega, hA2, fun _ => by dsimp only; omega⟩
      vector_ne_free
  have hvm0 := validM_coalesce _ M2 (LV - A) hvm1 ((validM_mid _ _ _).mp hvm).2.1 (by omega)
    (by omega)
  have hfb := free_before_concat M1 (A, AtomID.vector)
  rw [if_neg vector_ne_free] at hfb
  rw [hfb] at hvm0
  dsimp only at hvm0
  rw [Nat.zero_add] at hvm0
  have e : M1 ++ (A, AtomID.vector) :: (LV - A + (free_after M2).1, AtomID.free) ::
        (free_after M2).2 =
      (M1 ++ [(A, AtomID.vector)]) ++ (LV - A + (free_after M2).1, AtomID.free) ::
        (free_after M2).2 := by simp
  rw [e]
  exact hvm0

/-- The resize to the length that the allocation has returns it as it is. -/
theorem resize_same (buf : Buffer) (data v n : Nat) (h1 : v + 4 ≤ buf.length)
    (h2 : detail.get_allocation_length n = word buf v) :
    detail.reserve_resize buf data v n = .ok (v, buf) := by
  unfold detail.reserve_resize
  dsimp only
  unfold Atom.length
  rw [load32_ok _ _ h1, Outcome.ok_bind, if_pos h2]
  rfl

theorem shrink_null (size_of : Nat) (buf : Buffer) (vec : Vector) (h : vec.m_vctr = none) :
    vec.shrink_to_fit size_of buf = .ok (vec, buf) := by
  have hc := capacity_none size_of buf vec h
  unfold Vector.shrink_to_fit
  rw [h]
  cases he : vec.empty
  · dsimp only
    rw [hc, Outcome.ok_bind, if_neg (Nat.not_lt_zero _)]
    rfl
  · dsimp only
    rw [hc, Outcome.ok_bind, if_neg (Nat.not_lt_zero _)]
    rfl

theorem shrink_empty (size_of : Nat) (buf : Buffer) (vec : Vector) (v : Nat)
    (h : vec.m_vctr = some v) (h0 : vec.m_ref.count = 0) :
    vec.shrink_to_fit size_of buf = (detail.free buf v >>= fun r =>
      pure ({ m_ref := { offset := 0, count := vec.m_ref.count }, m_data := vec.m_data,
              m_vctr := none }, r.2)) := by
  have e : vec.empty = true := by
    unfold Vector.empty VectorRef.empty
    rw [h0]
    rfl
  unfold Vector.shrink_to_fit
  rw [h, e]

theorem shrink_nonempty (size_of : Nat) (buf : Buffer) (vec : Vector) (v cap : Nat)
    (h : vec.m_vctr = some v) (h0 : 0 < vec.m_ref.count)
    (hcap : vec.capacity size_of buf = .ok cap) :
    vec.shrink_to_fit size_of buf =
      if vec.m_ref.count < cap then
        (detail.reserve_resize buf vec.m_data v ((size_of * vec.m_ref.count) % 2 ^ 32) >>=
          fun r => pure ({ m_ref := { offset := detail.contents_offset vec.m_data r.1,
                                      count := vec.m_ref.count },
                           m_data := vec.m_data, m_vctr := some r.1 }, r.2))
      else .ok (vec, buf) := by
  have e : vec.empty = false := by
    unfold Vector.empty VectorRef.empty
    cases hc : vec.m_ref.count with
    | zero => omega
    | succ k => rfl
  unfold Vector.shrink_to_fit
  rw [h, e]
  dsimp only
  rw [hcap, Outcome.ok_bind]
  unfold Vector.size
  by_cases hlt : vec.m_ref.count < cap
  · rw [if_pos hlt, if_pos hlt]
  · rw [if_neg hlt, if_neg hlt]
    rfl

/-- The first `push_back` of four bytes on the null vector: the vector gets an atom of length
32 cut from the first free atom that is long enough. -/
theorem push_back_first (buf : Buffer) (N D : Nat) (M1 M2 : List (Nat × Nat)) (L : Nat)
    (value : List (Fin 256)) (hl : Layout buf N D (M1 ++ (L, AtomID.free) :: M2))
    (hvm : ValidM (M1 ++ (L, AtomID.free) :: M2))
    (hskip : ∀ z ∈ M1, z.2 ≠ AtomID.end_ ∧ (AtomID.free ≠ z.2 ∨ z.1 < 32)) (hL : 48 ≤ L)
    (hval : value.length = 4) :
    ∃ buf1, null_vector.push_back 4 buf value =
        .ok ({ m_ref := { offset := D + msum M1 + 16, count := 1 }, m_data := 0,
               m_vctr := some (D + msum M1) }, buf1) ∧
      Layout buf1 N D (M1 ++ (32, AtomID.vector) :: (L - 32, AtomID.free) :: M2) := by
  have h16 := sixteen_le_of_tagged hvm.1
  have hN := hl.2.1
  have hg : detail.get_allocation_length 16 = 32 := by decide
  obtain ⟨buf2, r1, r2, r3, _⟩ := layout_reserve_new buf N D M1 M2 L 32 AtomID.vector hl
    (fun y hy => ⟨h16 y hy, (hvm.1 y hy).2.2.1, tagged_ne_end (hvm.1 y hy)⟩)
    (fun y hy => (hskip y hy).2) (by omega) (by omega) (by omega) (by decide)
  have hrem : remainder 32 L = [(L - 32, AtomID.free)] := by
    unfold remainder
    rw [if_pos (by omega)]
  rw [hrem, List.singleton_append] at r2
  have h16b : ∀ y ∈ M1 ++ (32, AtomID.vector) :: (L - 32, AtomID.free) :: M2, 16 ≤ y.1 := by
    intro y hy
    simp only [List.mem_append, List.mem_cons] at hy
    rcases hy with hy | rfl | rfl | hy
    · exact h16 y (by simp [hy])
    · dsimp only
      omega
    · dsimp only
      omega
    · exact h16 y (by simp [hy])
  obtain ⟨f1, _, _⟩ := layout_follower buf2 N D M1 _ _ r2 h16b
  dsimp only at f1
  have hlen2 := r2.1
  obtain ⟨e1, e2, e3, e4⟩ := store_element 4 buf2 (D + msum M1) 0 value hval (by omega)
  have hl3 := layout_content_frame buf2 _ N D M1 _ _ r2 h16b e2 (fun j hj => e4 j (by
    dsimp only at hj
    omega))
  refine ⟨_, ?_, hl3⟩
  rw [push_back_grow 4 buf null_vector value 0 (capacity_none 4 buf null_vector rfl)
    (by decide) (by decide)]
  have hc : (null_vector.m_ref.count + 4) &&& 0xfffffffc = 4 := by decide
  rw [hc, reserve_of_none 4 buf null_vector 4 rfl rfl (by omega) (by omega)]
  unfold detail.reserve
  have h44 : 4 * 4 = 16 := rfl
  rw [h44, hg, r1, Outcome.ok_bind, Outcome.pure_eq, Outcome.ok_bind]
  dsimp only
  rw [contents_offset_eq _ (by omega), data_some _ (D + msum M1) rfl]
  dsimp only
  have hz : null_vector.m_ref.count = 0 := rfl
  rw [hz, e1, Outcome.ok_bind]
  rfl

/-- One more `push_back` of four bytes on a vector of `k ≥ 1` elements whose atom has the
length `16 + 16 * ⌈k / 4⌉` and is followed by the rest of the free atom it was cut from: the
atom has the length `16 + 16 * ⌈(k + 1) / 4⌉` afterwards. -/
theorem push_back_next (buf : Buffer) (N D : Nat) (M1 M2 : List (Nat × Nat)) (L k : Nat)
    (value : List (Fin 256))
    (hl : Layout buf N D (M1 ++ (16 + 16 * ((k + 3) / 4), AtomID.vector) ::
      (L - (16 + 16 * ((k + 3) / 4)), AtomID.free) :: M2))
    (h16 : ∀ y ∈ M1 ++ M2, 16 ≤ y.1) (hk : 1 ≤ k)
    (hL : 16 + 16 * ((k + 1 + 3) / 4) + 16 ≤ L) (hval : value.length = 4) :
    ∃ buf1, Vector.push_back 4 buf
        { m_ref := { offset := D + msum M1 + 16, count := k }, m_data := 0,
          m_vctr := some (D + msum M1) } value =
        .ok ({ m_ref := { offset := D + msum M1 + 16, count := k + 1 }, m_data := 0,
               m_vctr := some (D + msum M1) }, buf1) ∧
      Layout buf1 N D (M1 ++ (16 + 16 * ((k + 1 + 3) / 4), AtomID.vector) ::
        (L - (16 + 16 * ((k + 1 + 3) / 4)), AtomID.free) :: M2) := by
  have hN := hl.2.1
  have hlen := hl.1
  have h16a : ∀ y ∈ M1 ++ (16 + 16 * ((k + 3) / 4), AtomID.vector) ::
      (L - (16 + 16 * ((k + 3) / 4)), AtomID.free) :: M2, 16 ≤ y.1 := by
    intro y hy
    simp only [List.mem_append, List.mem_cons] at hy
    rcases hy with hy | rfl | rfl | hy
    · exact h16 y (by simp [hy])
    · dsimp only
      omega
    · dsimp only
      omega
    · exact h16 y (by simp [hy])
  obtain ⟨s1, s2, s3, s4, s5, s6, s7⟩ := layout_split buf N D M1 _ _ hl
  obtain ⟨f1, _, _⟩ := layout_follower buf N D M1 _ _ hl h16a
  dsimp only at s3 s4 f1
  have hcap := capacity_some 4 buf
    { m_ref := { offset := D + msum M1 + 16, count := k }, m_data := 0,
      m_vctr := some (D + msum M1) } (D + msum M1) rfl (by omega) (by rw [s3]; omega)
  rw [s3] at hcap
  have hcv : (16 + 16 * ((k + 3) / 4) - 16) / 4 = 4 * ((k + 3) / 4) := by omega
  rw [hcv] at hcap
  by_cases hroom : k + 1 ≤ 4 * ((k + 3) / 4)
  · -- the capacity is enough
    have hsame : (k + 1 + 3) / 4 = (k + 3) / 4 := by omega
    rw [hsame]
    obtain ⟨e1, e2, e3, e4⟩ := store_element 4 buf (D + msum M1) k value hval (by omega)
    have hl3 := layout_content_frame buf _ N D M1 _ _ hl h16a e2 (fun j hj => e4 j (by
      dsimp only at hj
      omega))
    refine ⟨_, ?_, hl3⟩
    rw [push_back_room 4 buf _ value _ (D + msum M1) hcap hroom (by dsimp only; omega) rfl]
    dsimp only
    rw [e1, Outcome.ok_bind]
    rfl
  · -- the vector grows in place
    have hk4 : k = 4 * ((k + 3) / 4) := by omega
    have hnext : (k + 1 + 3) / 4 = (k + 3) / 4 + 1 := by omega
    have hc : (k + 4) &&& 0xfffffffc = k + 4 := by
      rw [land_mask4 _ (by omega)]
      omega
    have hfix : aligned_size (4 * (k + 4)) = 4 * (k + 4) :=
      aligned_size_fixed _ (by omega) (by omega)
    have hg : detail.get_allocation_length (4 * (k + 4)) = 16 + 16 * ((k + 3) / 4) + 16 := by
      rw [(get_allocation_length_eq (4 * (k + 4)) (by omega) (by omega)).1, hfix]
      omega
    obtain ⟨buf2, r1, r2, r3⟩ := layout_grow buf N D M1 M2 _ AtomID.vector _ (4 * (k + 4)) hl
      h16a (by rw [hg]) (by rw [hg]; omega)
    rw [hg] at r2
    have e5 : L - (16 + 16 * ((k + 3) / 4)) - (16 + 16 * ((k + 3) / 4) + 16 -
        (16 + 16 * ((k + 3) / 4))) = L - (16 + 16 * ((k + 1 + 3) / 4)) := by omega
    have e6 : 16 + 16 * ((k + 3) / 4) + 16 = 16 + 16 * ((k + 1 + 3) / 4) := by omega
    rw [e5, e6] at r2
    have h16b : ∀ y ∈ M1 ++ (16 + 16 * ((k + 1 + 3) / 4), AtomID.vector) ::
        (L - (16 + 16 * ((k + 1 + 3) / 4)), AtomID.free) :: M2, 16 ≤ y.1 := by
      intro y hy
      simp only [List.mem_append, List.mem_cons] at hy
      rcases hy with hy | rfl | rfl | hy
      · exact h16 y (by simp [hy])
      · dsimp only
        omega
      · dsimp only
        omega
      · exact h16 y (by simp [hy])
    obtain ⟨f2, _, _⟩ := layout_follower buf2 N D M1 _ _ r2 h16b
    dsimp only at f2
    have hlen2 := r2.1
    obtain ⟨e1, e2, e3, e4⟩ := store_element 4 buf2 (D + msum M1) k value hval (by omega)
    have hl3 := layout_content_frame buf2 _ N D M1 _ _ r2 h16b e2 (fun j hj => e4 j (by
      dsimp only at hj
      omega))
    refine ⟨_, ?_, hl3⟩
    rw [push_back_grow 4 buf _ value _ hcap (by dsimp only; omega) (by dsimp only; omega)]
    dsimp only
    rw [hc, reserve_of_some 4 buf _ (k + 4) _ (D + msum M1) rfl rfl hcap (by omega) (by omega),
      r1, Outcome.ok_bind, Outcome.pure_eq, Outcome.ok_bind]
    dsimp only
    rw [contents_offset_eq _ (by omega), data_some _ (D + msum M1) rfl]
    dsimp only
    rw [e1, Outcome.ok_bind, add32_eq _ _ (by omega)]
    rfl

/-- More calls of `push_back` of four bytes each, as long as the free atom has room. -/
theorem push_back_each_next (N D : Nat) (M1 M2 : List (Nat × Nat)) (L : Nat)
    (h16 : ∀ y ∈ M1 ++ M2, 16 ≤ y.1) :
    ∀ (vals : List (List (Fin 256))) (k : Nat) (buf : Buffer),
      Layout buf N D (M1 ++ (16 + 16 * ((k + 3) / 4), AtomID.vector) ::
        (L - (16 + 16 * ((k + 3) / 4)), AtomID.free) :: M2) →
      1 ≤ k → 16 + 16 * ((k + vals.length + 3) / 4) + 16 ≤ L →
      (∀ x ∈ vals, x.length = 4) →
      ∃ buf2, Vector.push_back_each 4 vals
          { m_ref := { offset := D + msum M1 + 16, count := k }, m_data := 0,
            m_vctr := some (D + msum M1) } buf =
          .ok ({ m_ref := { offset := D + msum M1 + 16, count := k + vals.length },
                 m_data := 0, m_vctr := some (D + msum M1) }, buf2) ∧
        Layout buf2 N D (M1 ++ (16 + 16 * ((k + vals.length + 3) / 4), AtomID.vector) ::
          (L - (16 + 16 * ((k + vals.length + 3) / 4)), AtomID.free) :: M2) := by
  intro vals
  induction vals with
  | nil =>
    intro k buf hl _ _ _
    exact ⟨buf, rfl, hl⟩
  | cons x rest ih =>
    intro k buf hl hk hL hval
    rw [List.length_cons] at hL
    obtain ⟨buf1, p1, p2⟩ := push_back_next buf N D M1 M2 L k x hl h16 hk (by omega)
      (hval x (List.mem_cons_self _ _))
    obtain ⟨buf2, q1, q2⟩ := ih (k + 1) buf1 p2 (by omega) (by
      have e : k + 1 + rest.length = k + (rest.length + 1) := by omega
      rw [e]
      exact hL) (fun y hy => hval y (List.mem_cons_of_mem _ hy))
    have e : k + 1 + rest.length = k + (x :: rest).length := by
      rw [List.length_cons]
      omega
    rw [e] at q1 q2
    refine ⟨buf2, ?_, q2⟩
    unfold Vector.push_back_each
    rw [p1, Outcome.ok_bind]
    exact q1

/-! ## The claims on references and vectors -/

/-- C21: on a layout accepted by `validate_layout` that has a free atom of length at least
`16 + aligned_size<Type_>()`, for a type of at least 1 and at most `0xFFFFFFF0` bytes,
`allocate(ref, data)` returns the contents of an atom `o` of the layout tagged `reference`
whose contents size is exactly `aligned_size<Type_>()`, at least `sizeof(Type_)`; the offset of
the reference is then `o + 16`, `detail::allocation_header` returns `o` for it, and
`validate_layout` accepts the buffer afterwards. -/
theorem allocate_reserves (base N : Nat) (buf : Buffer) (size_of : Nat) (ref : Reference)
    (hlen : buf.length = N) (hN : N < 2 ^ 32) (hv : validate_layout base buf N = .ok true)
    (hT1 : 1 ≤ size_of) (hT2 : size_of ≤ 0xFFFFFFF0)
    (hex : ∃ p ∈ atoms buf N, word buf (p + 4) = AtomID.free ∧
      16 + aligned_size_of size_of ≤ word buf p) :
    ∃ o ref2 buf2, allocate size_of buf ref 0 = .ok ((o + 16, ref2), buf2) ∧ buf2.length = N ∧
      o ∈ atoms buf2 N ∧ word buf2 (o + 4) = AtomID.reference ∧
      detail.contents_size buf2 o = .ok (aligned_size_of size_of) ∧
      size_of ≤ aligned_size_of size_of ∧ ref2.offset = o + 16 ∧
      detail.allocation_header size_of buf2 ref2 0 = .ok o ∧
      validate_layout base buf2 N = .ok true := by
  obtain ⟨e1, e2⟩ := aligned_size_of_eq size_of hT2
  obtain ⟨p, hp, hpf, hpl⟩ := hex
  have hw := word_lt buf p
  have hn1 : 1 ≤ aligned_size_of size_of := by omega
  have hn2 : aligned_size_of size_of ≤ 0xFFFFFFE0 := by omega
  have hfix : aligned_size (aligned_size_of size_of) = aligned_size_of size_of :=
    aligned_size_fixed _ (by omega) (by omega)
  obtain ⟨g1, g2, g3, g4, g5⟩ := get_allocation_length_eq _ hn1 hn2
  rw [hfix] at g1
  obtain ⟨hbase, M, hl, hvm⟩ := layout_of_validate base N buf hlen hN hv
  have h16 := sixteen_le_of_tagged hvm.1
  rcases fit_cases M hvm (detail.get_allocation_length (aligned_size_of size_of)) with
    hno | ⟨M1, L, M2, rfl, hfit, hskip⟩
  · exfalso
    have := (nofit_iff buf N _ M hl hvm _).mpr hno p hp hpf
    omega
  · have hL := hvm.1 (L, AtomID.free) (by simp)
    obtain ⟨buf2, r1, r2, r3, _⟩ := layout_reserve_new buf N _ M1 M2 L _ AtomID.reference hl
      (fun y hy => ⟨h16 y hy, (hvm.1 y hy).2.2.1, tagged_ne_end (hvm.1 y hy)⟩)
      (fun y hy => (hskip y hy).2) (by omega) g3 hfit (by decide)
    have hvr := validM_reserve M1 M2 L _ AtomID.reference hvm (Or.inr rfl) g2 g3
    have h16b := sixteen_le_of_tagged hvr.1
    obtain ⟨b1, b2, b3⟩ := atom_of_split buf2 N _ M1 _ _ r2 h16b
    obtain ⟨m1, m2, m3⟩ := split_offset_mod buf2 N _ M1 _ _ r2 hvr
    dsimp only at b2 b3 m3
    have hlen2 := r2.1
    have hal : allocate size_of buf ref 0 =
        .ok ((word buf 0 + msum M1 + 16, { offset := word buf 0 + msum M1 + 16 }), buf2) := by
      unfold allocate detail.reserve
      rw [r1, Outcome.ok_bind]
      dsimp only
      unfold detail.contents detail.distance atom_header_length
      rw [Nat.sub_zero, Nat.mod_eq_of_lt (by omega)]
      rfl
    refine ⟨_, _, buf2, hal, hlen2, b1, b3, ?_, by omega, rfl, ?_,
      validate_of_layout base N _ buf2 _ hbase r2 hvr⟩
    · unfold detail.contents_size Atom.length atom_header_length
      rw [load32_ok _ _ (by omega), Outcome.ok_bind, Outcome.pure_eq, b2,
        sub32_eq _ _ (by omega) g5, g1]
      congr 1
      omega
    · rw [allocation_header_eq _ _ _ _ (by dsimp only; omega) (by dsimp only; omega)
        (by dsimp only; omega) (by dsimp only; omega)]
      dsimp only
      have ho : 0 + (word buf 0 + msum M1 + 16 - 16) = word buf 0 + msum M1 := by omega
      rw [ho, b3, b2, if_neg (fun h => h rfl), if_neg (by omega)]

theorem allocate_reserves_witness :
    sample_free_layout.length = 96 ∧ validate_layout 0 sample_free_layout 96 = .ok true ∧
    ∃ o ref2 buf2, allocate 20 sample_free_layout { offset := 0 } 0 =
        .ok ((o + 16, ref2), buf2) ∧ word buf2 (o + 4) = AtomID.reference ∧
      detail.contents_size buf2 o = .ok (aligned_size_of 20) ∧
      detail.allocation_header 20 buf2 ref2 0 = .ok o := by
  obtain ⟨o, ref2, buf2, h1, _, _, h4, h5, _, _, h8, _⟩ :=
    allocate_reserves 0 96 sample_free_layout 20 { offset := 0 } (by decide) (by decide)
      (by decide) (by decide) (by decide) ⟨16, by decide, by decide, by decide⟩
  exact ⟨by decide, by decide, o, ref2, buf2, h1, h4, h5, h8⟩

/-- The function `free(ref, data)` on a `Reference` whose offset, when it is a multiple of 16
and at least 32, lies in the buffer, so that `allocation_header` reads inside it.  With the offset 0
the call returns with the reference and the buffer as they were.  Otherwise it throws exactly
when the offset is not a multiple of 16, or is below 32, or the header 16 bytes before the
offset is not tagged `reference`, or that header has a length below `16 + sizeof(Type_)`, and
then the buffer is as before; and when it returns, the offset is 0 and the buffer is the one
that `detail::free` of the atom at `offset - 16` returns.  On a layout accepted by
`validate_layout`, for an atom at `offset - 16` that passes the four tests, the call does
return, and `validate_layout` accepts the buffer afterwards. -/
theorem free_reference (size_of : Nat) (buf : Buffer) (ref : Reference) (data : Nat)
    (hoff : ref.offset < 2 ^ 32)
    (hin : ref.offset % 16 = 0 → 32 ≤ ref.offset → data + ref.offset ≤ buf.length) :
    (ref.offset = 0 → free size_of buf ref data = .ok (ref, buf)) ∧
    (ref.offset ≠ 0 →
      ((∃ b, free size_of buf ref data = .thrown b) ↔
        (ref.offset % 16 ≠ 0 ∨ ref.offset < 32 ∨
          word buf (data + (ref.offset - 16) + 4) ≠ AtomID.reference ∨
          word buf (data + (ref.offset - 16)) < 16 + size_of)) ∧
      (∀ b, free size_of buf ref data = .thrown b → b = buf) ∧
      ∀ ref2 buf2, free size_of buf ref data = .ok (ref2, buf2) →
        ref2.offset = 0 ∧ ∃ r, detail.free buf (data + (ref.offset - 16)) = .ok (r, buf2)) ∧
    (∀ base N, buf.length = N → N < 2 ^ 32 → validate_layout base buf N = .ok true →
      data = 0 → 32 ≤ ref.offset → ref.offset - 16 ∈ atoms buf N →
      word buf (ref.offset - 16 + 4) = AtomID.reference →
      16 + size_of ≤ word buf (ref.offset - 16) →
      ∃ ref2 buf2, free size_of buf ref data = .ok (ref2, buf2) ∧ ref2.offset = 0 ∧
        validate_layout base buf2 N = .ok true) := by
  refine ⟨free_null size_of buf ref data, fun hne => ?_, ?_⟩
  · rw [free_eq size_of buf ref data hne]
    by_cases hc : ref.offset % 16 ≠ 0 ∨ ref.offset < 32
    · rw [allocation_header_thrown _ _ _ _ hc, Outcome.thrown_bind]
      refine ⟨⟨fun _ => ?_, fun _ => ⟨buf, rfl⟩⟩, fun b e => ?_, fun r b e => ?_⟩
      · rcases hc with hc | hc
        · exact Or.inl hc
        · exact Or.inr (Or.inl hc)
      · cases e
        rfl
      · cases e
    · rw [allocation_header_eq _ _ _ _ (by omega) (by omega) hoff
        (hin (by omega) (by omega))]
      by_cases hid : AtomID.reference ≠ word buf (data + (ref.offset - 16) + 4)
      · rw [if_pos hid, Outcome.thrown_bind]
        refine ⟨⟨fun _ => Or.inr (Or.inr (Or.inl (fun e => hid e.symm))), fun _ => ⟨buf, rfl⟩⟩,
          fun b e => ?_, fun r b e => ?_⟩
        · cases e
          rfl
        · cases e
      · rw [if_neg hid]
        by_cases hl : word buf (data + (ref.offset - 16)) < 16 + size_of
        · rw [if_pos hl, Outcome.thrown_bind]
          refine ⟨⟨fun _ => Or.inr (Or.inr (Or.inr hl)), fun _ => ⟨buf, rfl⟩⟩,
            fun b e => ?_, fun r b e => ?_⟩
          · cases e
            rfl
          · cases e
        · rw [if_neg hl, Outcome.ok_bind]
          have hq := ends_free buf (data + (ref.offset - 16))
          have hx : Ends (detail.free buf (data + (ref.offset - 16)) >>= fun r =>
              (pure ({ ref with offset := 0 }, r.2) : Outcome (Reference × Buffer)))
              (fun _ => True) (fun _ => False) :=
            ends_bind hq (fun a _ => ends_pure _ trivial)
          have hnt : ∀ b, (detail.free buf (data + (ref.offset - 16)) >>= fun r =>
              (pure ({ ref with offset := 0 }, r.2) : Outcome (Reference × Buffer))) ≠
              .thrown b := fun b e => hx.2 b e
          refine ⟨⟨fun ⟨b, e⟩ => absurd e (hnt b), fun h => ?_⟩, fun b e => absurd e (hnt b),
            fun r b e => ?_⟩
          · exfalso
            rcases h with h | h | h | h
            · exact hc (Or.inl h)
            · exact hc (Or.inr h)
            · exact hid (fun e => h e.symm)
            · exact hl h
          · rw [bind_eq_ok] at e
            obtain ⟨a, e1, e2⟩ := e
            cases e2
            exact ⟨rfl, a.1, e1⟩
  · rintro base N hlen hN hv rfl h32 hat hid hl
    obtain ⟨hbase, M, hlay, hvm⟩ := layout_of_validate base N buf hlen hN hv
    have h16 := sixteen_le_of_tagged hvm.1
    obtain ⟨M1, M2, rfl, ho⟩ := atom_split buf N _ M hlay h16 _ hat (by rw [hid]; decide)
      (by rw [hid]; decide)
    obtain ⟨m1, m2, m3⟩ := split_offset_mod buf N _ M1 M2 _ hlay hvm
    rw [← ho] at m1
    obtain ⟨buf2, q1, q2, _, _⟩ := layout_free buf N _ M1 M2 _ _ hlay h16
    rw [← ho] at q1
    have hvf := validM_free M1 M2 _ _ hvm
    rw [free_eq size_of buf ref 0 (by omega),
      allocation_header_eq _ _ _ _ (by omega) h32 hoff (hin (by omega) h32), Nat.zero_add,
      if_neg (by
        rw [hid]; exact fun h => h rfl), if_neg (by omega), Outcome.ok_bind, q1, Outcome.ok_bind]
    exact ⟨_, buf2, rfl, rfl, validate_of_layout base N _ buf2 _ hbase q2 hvf⟩

theorem free_reference_witness :
    (64 : Nat) < 2 ^ 32 ∧ 0 + 64 ≤ sample_layout.length ∧
    validate_layout 0 sample_layout 96 = .ok true ∧
    ∃ ref2 buf2, free 4 sample_layout { offset := 64 } 0 = .ok (ref2, buf2) ∧ ref2.offset = 0 ∧
      validate_layout 0 buf2 96 = .ok true := by
  have h := (free_reference 4 sample_layout { offset := 64 } 0 (by decide)
    (fun _ _ => by decide)).2.2
    0 96 (by decide) (by decide) (by decide) rfl (by decide) (by decide) (by decide) (by decide)
  exact ⟨by decide, by decide, by decide, h⟩

/-- On a layout accepted by `validate_layout`, a `Vector<uint32_t>` made of a null
`VectorRef` without elements gets `k ≥ 1` values by consecutive calls of `push_back`.  When
the lowest free atom of length at least 32, the one that the first call takes, has at least
`32 + 16 * ⌈k / 4⌉` bytes, all the calls return, the size is `k` afterwards, the capacity is
`4 * ⌈k / 4⌉`, the least multiple of 4 that is at least `k`, and `validate_layout` accepts the
buffer. -/
theorem push_back_capacity (base N : Nat) (buf : Buffer) (vals : List (List (Fin 256)))
    (hlen : buf.length = N) (hN : N < 2 ^ 32) (hv : validate_layout base buf N = .ok true)
    (hvals : ∀ x ∈ vals, x.length = 4) (hk : 1 ≤ vals.length)
    (hroom : ∃ p ∈ atoms buf N, word buf (p + 4) = AtomID.free ∧
      32 + 16 * ((vals.length + 3) / 4) ≤ word buf p ∧
      ∀ q ∈ atoms buf N, word buf (q + 4) = AtomID.free → 32 ≤ word buf q → p ≤ q) :
    Vector.make 4 buf { offset := 0, count := 0 } 0 = .ok null_vector ∧
    ∃ vec2 buf2, Vector.push_back_each 4 vals null_vector buf = .ok (vec2, buf2) ∧
      vec2.size = vals.length ∧
      vec2.capacity 4 buf2 = .ok (4 * ((vals.length + 3) / 4)) ∧
      validate_layout base buf2 N = .ok true := by
  refine ⟨rfl, ?_⟩
  obtain ⟨hbase, M, hl, hvm⟩ := layout_of_validate base N buf hlen hN hv
  have h16 := sixteen_le_of_tagged hvm.1
  obtain ⟨p, hp, hpf, hpl, hlow⟩ := hroom
  rcases fit_cases M hvm 32 with hno | ⟨M1, L, M2, rfl, hfit, hskip⟩
  · exfalso
    have := (nofit_iff buf N _ M hl hvm 32).mpr hno p hp hpf
    omega
  · obtain ⟨a1, a2, a3⟩ := atom_of_split buf N _ M1 M2 _ hl h16
    dsimp only at a2 a3
    have hle1 := hlow _ a1 a3 (by rw [a2]; exact hfit)
    have hle2 := lowest_of_split buf N _ M1 M2 _ 32 hl h16 hskip p hp hpf (by omega)
    have hpe : p = word buf 0 + msum M1 := by omega
    rw [hpe, a2] at hpl
    cases vals with
    | nil => simp at hk
    | cons x rest =>
      rw [List.length_cons] at hpl
      obtain ⟨buf1, p1, p2⟩ := push_back_first buf N _ M1 M2 L x hl hvm hskip (by omega)
        (hvals x (List.mem_cons_self _ _))
      have h16c : ∀ y ∈ M1 ++ M2, 16 ≤ y.1 := by
        intro y hy
        simp only [List.mem_append] at hy
        rcases hy with hy | hy
        · exact h16 y (by simp [hy])
        · exact h16 y (by simp [hy])
      have e32 : 16 + 16 * ((1 + 3) / 4) = 32 := rfl
      rw [← e32] at p2
      obtain ⟨buf2, q1, q2⟩ := push_back_each_next N _ M1 M2 L h16c rest 1 buf1 p2
        (Nat.le_refl _) (by
          have e : 1 + rest.length + 3 = rest.length + 1 + 3 := by omega
          rw [e]
          omega) (fun y hy => hvals y (List.mem_cons_of_mem _ hy))
      have e1 : 1 + rest.length = (x :: rest).length := by
        rw [List.length_cons]
        omega
      rw [e1] at q1 q2
      have hvr := validM_reserve M1 M2 L (16 + 16 * (((x :: rest).length + 3) / 4))
        AtomID.vector hvm (Or.inl rfl) (by omega) (by omega)
      have hrem : remainder (16 + 16 * (((x :: rest).length + 3) / 4)) L =
          [(L - (16 + 16 * (((x :: rest).length + 3) / 4)), AtomID.free)] := by
        unfold remainder
        rw [if_pos (by rw [List.length_cons]; omega)]
      rw [hrem, List.singleton_append] at hvr
      obtain ⟨s1, s2, s3, _⟩ := layout_split buf2 N _ M1 _ _ q2
      dsimp only at s3
      have hcap := capacity_some 4 buf2
        { m_ref := { offset := word buf 0 + msum M1 + 16, count := (x :: rest).length },
          m_data := 0, m_vctr := some (word buf 0 + msum M1) } (word buf 0 + msum M1) rfl
        (by omega) (by rw [s3]; omega)
      rw [s3] at hcap
      have hcv : (16 + 16 * (((x :: rest).length + 3) / 4) - 16) / 4 =
          4 * (((x :: rest).length + 3) / 4) := by omega
      rw [hcv] at hcap
      refine ⟨{ m_ref := { offset := word buf 0 + msum M1 + 16, count := (x :: rest).length },
                m_data := 0, m_vctr := some (word buf 0 + msum M1) }, buf2, ?_, rfl, hcap,
        validate_of_layout base N _ buf2 _ hbase q2 hvr⟩
      unfold Vector.push_back_each
      rw [p1, Outcome.ok_bind]
      exact q1

theorem push_back_capacity_witness :
    sample_free_layout.length = 96 ∧ validate_layout 0 sample_free_layout 96 = .ok true ∧
    (∃ vec2 buf2, Vector.push_back_each 4 [bytes32 1, bytes32 2, bytes32 3, bytes32 4, bytes32 5]
      null_vector sample_free_layout = .ok (vec2, buf2) ∧ vec2.size = 5 ∧
      vec2.capacity 4 buf2 = .ok 8 ∧ validate_layout 0 buf2 96 = .ok true) ∧
    ((do
      let r1 ← null_vector.push_back 4 sample_free_layout (bytes32 1)
      let c1 ← r1.1.capacity 4 r1.2
      let r2 ← r1.1.push_back 4 r1.2 (bytes32 2)
      let c2 ← r2.1.capacity 4 r2.2
      let r3 ← r2.1.push_back 4 r2.2 (bytes32 3)
      let c3 ← r3.1.capacity 4 r3.2
      let r4 ← r3.1.push_back 4 r3.2 (bytes32 4)
      let c4 ← r4.1.capacity 4 r4.2
      let r5 ← r4.1.push_back 4 r4.2 (bytes32 5)
      let c5 ← r5.1.capacity 4 r5.2
      pure [c1, c2, c3, c4, c5]) : Outcome (List Nat)) = .ok [4, 4, 4, 4, 8] := by
  have hq : ∀ q ∈ atoms sample_free_layout 96, word sample_free_layout (q + 4) = AtomID.free →
      32 ≤ word sample_free_layout q → 16 ≤ q := by decide
  obtain ⟨_, v5, b5, m1, m2, m3, m4⟩ := push_back_capacity 0 96 sample_free_layout
    [bytes32 1, bytes32 2, bytes32 3, bytes32 4, bytes32 5]
    (by decide) (by decide) (by decide) (by decide) (by decide)
    ⟨16, by decide, by decide, by decide, hq⟩
  exact ⟨by decide, by decide, ⟨v5, b5, m1, m2, m3, m4⟩, by decide⟩

/-- C25 (as stated it does not hold): on the 96 byte buffer `sample_free_layout`, which
`validate_layout` accepts, the null vector of `uint32_t` is asked to reserve the capacity
`0x40000000`.  The size in bytes, `4 * 0x40000000`, is cast to `uint32_t` and becomes 0: the
call returns, the vector is bound to an atom of length 16 at offset 16, and its capacity is 0,
not `0x40000000`. -/
theorem reserve_capacity_wraps :
    ((do
      let v0 ← validate_layout 0 sample_free_layout 96
      let vec ← Vector.make 4 sample_free_layout { offset := 0, count := 0 } 0
      let r ← vec.reserve 4 sample_free_layout 0x40000000
      let cap ← r.1.capacity 4 r.2
      let len ← Atom.length r.2 16
      pure [v0.toNat, r.1.m_ref.offset, len, cap]) : Outcome (List Nat)) =
      .ok [1, 32, 16, 0] := by
  decide

/-- C25 (amended): for a vector that its constructor has made on a layout accepted by
`validate_layout`, with its allocation an atom of the layout, and a requested capacity `c` of
at most `0xFFFFFFE0` bytes, `sizeof(Type_) * c ≤ 0xFFFFFFE0`: `Vector::reserve(c)` returns
when a free atom of length `16 + aligned_size(sizeof(Type_) * c)` exists, and when it throws
the buffer is as before.  When it returns, the size is as before, every element below the size
reads back as it did before the call, the capacity is at least `c`, and the offset of the
reference is the contents offset of the allocation in use, its offset plus 16. -/
theorem vector_reserve_keeps (base N : Nat) (buf : Buffer) (size_of : Nat) (vec : Vector)
    (c : Nat) (hlen : buf.length = N) (hN : N < 2 ^ 32)
    (hv : validate_layout base buf N = .ok true) (hT : 1 ≤ size_of)
    (hoff : vec.m_ref.offset < 2 ^ 32)
    (hmake : Vector.make size_of buf vec.m_ref 0 = .ok vec)
    (hat : ∀ v, vec.m_vctr = some v → v ∈ atoms buf N) (hc : size_of * c ≤ 0xFFFFFFE0) :
    ((∃ p ∈ atoms buf N, word buf (p + 4) = AtomID.free ∧
        16 + aligned_size (size_of * c) ≤ word buf p) →
      ∃ vec2 buf2, vec.reserve size_of buf c = .ok (vec2, buf2)) ∧
    (∀ b, vec.reserve size_of buf c = .thrown b → b = buf) ∧
    ∀ vec2 buf2, vec.reserve size_of buf c = .ok (vec2, buf2) →
      vec2.size = vec.size ∧
      (∀ i, i < vec.size →
        ∃ e, vec2.at_ size_of buf2 i = .ok e ∧ vec.at_ size_of buf i = .ok e) ∧
      (∃ cap2, vec2.capacity size_of buf2 = .ok cap2 ∧ c ≤ cap2) ∧
      (∀ o, vec2.m_vctr = some o →
        vec2.m_ref.offset = detail.contents_offset vec2.m_data o ∧
        vec2.m_ref.offset = o + 16) ∧
      (0 < c → ∃ o, vec2.m_vctr = some o) := by
  obtain ⟨hbase, M, hl, hvm⟩ := layout_of_validate base N buf hlen hN hv
  have h16 := sixteen_le_of_tagged hvm.1
  have hb := bound_of_make size_of buf N vec hoff hmake hat
  obtain ⟨cap, k1, k2, k3, k4⟩ := vector_reserve_spec size_of buf N _ M vec c hl hvm hb hT hc
  -- the case in which nothing is reserved
  have hsame : ∀ vec2 buf2, Outcome.ok (vec, buf) = Outcome.ok (vec2, buf2) → c ≤ cap →
      vec2.size = vec.size ∧
      (∀ i, i < vec.size →
        ∃ e, vec2.at_ size_of buf2 i = .ok e ∧ vec.at_ size_of buf i = .ok e) ∧
      (∃ cap2, vec2.capacity size_of buf2 = .ok cap2 ∧ c ≤ cap2) ∧
      (∀ o, vec2.m_vctr = some o →
        vec2.m_ref.offset = detail.contents_offset vec2.m_data o ∧
        vec2.m_ref.offset = o + 16) ∧
      (0 < c → ∃ o, vec2.m_vctr = some o) := by
    intro vec2 buf2 hok hle
    cases hok
    obtain ⟨hd, hsh⟩ := hb
    rcases hsh with ⟨h1, h2, h3⟩ | ⟨v, h1, h2, hvat, hid, hcnt⟩
    · have hc0 := capacity_none size_of buf vec h1
      rw [hc0] at k1
      cases k1
      refine ⟨rfl, fun i hi => ?_, ⟨0, hc0, hle⟩, fun o ho => ?_, fun hpos => ?_⟩
      · unfold Vector.size at hi
        omega
      · rw [h1] at ho
        cases ho
      · omega
    · obtain ⟨Ma, Mb, hMa, hv2⟩ := atom_split buf N _ M hl h16 v hvat (by rw [hid]; decide)
        (by rw [hid]; decide)
      subst hMa
      obtain ⟨m1, m2, m3⟩ := split_offset_mod buf N _ Ma Mb _ hl hvm
      dsimp only at m3
      rw [← hv2] at m3
      refine ⟨rfl, fun i hi => ?_, ⟨cap, k1, hle⟩, fun o ho => ?_, fun _ => ⟨v, h1⟩⟩
      · have := mul_succ_le i _ size_of hi
        unfold Vector.size at this
        exact at_congr size_of buf buf vec vec v v i h1 h1 (by omega) (by omega)
          (fun _ _ => rfl)
      · rw [h1] at ho
        cases ho
        rw [hd, contents_offset_eq _ (by omega)]
        exact ⟨h2, h2⟩
  refine ⟨?_, ?_, ?_⟩
  · rintro ⟨p, hp, hpf, hpl⟩
    by_cases hle : c ≤ cap
    · exact ⟨vec, buf, k3 hle⟩
    · rcases k4 (by omega) with ⟨_, hno⟩ | ⟨o, buf2, hok, _⟩
      · have := hno p hp hpf
        omega
      · exact ⟨_, buf2, hok⟩
  · intro b hthrow
    by_cases hle : c ≤ cap
    · rw [k3 hle] at hthrow
      cases hthrow
    · rcases k4 (by omega) with ⟨ht, _⟩ | ⟨o, buf2, hok, _⟩
      · rw [ht] at hthrow
        cases hthrow
        rfl
      · rw [hok] at hthrow
        cases hthrow
  · intro vec2 buf2 hok
    by_cases hle : c ≤ cap
    · rw [k3 hle] at hok
      exact hsame vec2 buf2 hok hle
    · rcases k4 (by omega) with ⟨ht, _⟩ | ⟨o, buf3, hok2, q1, q2, q3, q4, q5, q6, q7, q8⟩
      · rw [ht] at hok
        cases hok
      · rw [hok2] at hok
        cases hok
        refine ⟨rfl, fun i hi => ?_, ?_, fun o' ho' => ?_, fun _ => ⟨o, rfl⟩⟩
        · obtain ⟨hd, hsh⟩ := hb
          rcases hsh with ⟨h1, h2, h3⟩ | ⟨v, h1, h2, hvat, hid, hcnt⟩
          · unfold Vector.size at hi
            omega
          · obtain ⟨Ma, Mb, hMa, hv2⟩ := atom_split buf N _ M hl h16 v hvat
              (by rw [hid]; decide) (by rw [hid]; decide)
            subst hMa
            obtain ⟨m1, m2, m3⟩ := split_offset_mod buf N _ Ma Mb _ hl hvm
            dsimp only at m3
            rw [← hv2] at m3
            have := mul_succ_le i _ size_of hi
            unfold Vector.size at this
            have hcap := capacity_some size_of buf vec v h1 (by omega) (by omega)
            rw [hcap] at k1
            cases k1
            have hlt : word buf v - 16 < c * size_of := by
              rw [← Nat.div_lt_iff_lt_mul (by omega)]
              omega
            have hcomm : c * size_of = size_of * c := Nat.mul_comm _ _
            exact at_congr size_of buf buf2 vec _ v o i h1 rfl (by omega) (by omega)
              (fun j hj => q8 v h1 j (by omega))
        · have hcap2 := capacity_some size_of buf2
            { m_ref := { offset := o + 16, count := vec.m_ref.count }, m_data := 0,
              m_vctr := some o } o rfl (by omega) (by omega)
          refine ⟨_, hcap2, ?_⟩
          rw [Nat.le_div_iff_mul_le (by omega), q5]
          have hcomm : c * size_of = size_of * c := Nat.mul_comm _ _
          omega
        · cases ho'
          dsimp only
          rw [contents_offset_eq _ (by omega)]
          exact ⟨rfl, rfl⟩

theorem vector_reserve_keeps_witness :
    sample_vector3.length = 96 ∧ validate_layout 0 sample_vector3 96 = .ok true ∧
    Vector.make 4 sample_vector3 sample_vec3.m_ref 0 = .ok sample_vec3 ∧
    ∃ vec2 buf2, sample_vec3.reserve 4 sample_vector3 8 = .ok (vec2, buf2) ∧
      vec2.size = sample_vec3.size ∧
      (∃ cap2, vec2.capacity 4 buf2 = .ok cap2 ∧ 8 ≤ cap2) ∧
      ∃ e, vec2.at_ 4 buf2 2 = .ok e ∧ sample_vec3.at_ 4 sample_vector3 2 = .ok e := by
  have h := vector_reserve_keeps 0 96 sample_vector3 4 sample_vec3 8 (by decide) (by decide)
    (by decide) (by decide) (by decide) (by decide)
    (fun v hv => by
      have e : v = 16 := (Option.some.inj hv).symm
      rw [e]
      decide) (by decide)
  obtain ⟨a, hok, _⟩ := (bind_eq_ok _ _ _).mp
    (by decide : (sample_vec3.reserve 4 sample_vector3 8 >>= fun a =>
      (pure a.1.m_ref.offset : Outcome Nat)) = .ok 32)
  obtain ⟨h1, h2, h3, _, _⟩ := h.2.2 a.1 a.2 hok
  exact ⟨by decide, by decide, by decide, a.1, a.2, hok, h1, h3, h2 2 (by decide)⟩

/-- C26 (as stated it does not hold): on the 96 byte buffer `sample_long_vector`, which
`validate_layout` accepts, a `Vector<uint32_t>` with 1 element is bound to the vector atom of
length 64, so its capacity is 12.  `shrink_to_fit()` resizes the atom to the length 32, the
smallest length that the allocation engine gives to 4 bytes of contents: afterwards the size is
1 and the capacity is 4, not 1. -/
theorem shrink_to_fit_granularity :
    ((do
      let v0 ← validate_layout 0 sample_long_vector 96
      let vec ← Vector.make 4 sample_long_vector { offset := 32, count := 1 } 0
      let cap ← vec.capacity 4 sample_long_vector
      let r ← vec.shrink_to_fit 4 sample_long_vector
      let len ← Atom.length r.2 16
      let cap2 ← r.1.capacity 4 r.2
      pure [v0.toNat, cap, len, r.1.size, cap2]) : Outcome (List Nat)) =
      .ok [1, 12, 32, 1, 4] := by
  decide

/-- C26 (amended): for a vector that its constructor has made on a layout accepted by
`validate_layout`, with its allocation `v` an atom of the layout, `shrink_to_fit()` (the two
`assert(false)` left out) returns, and `validate_layout` accepts the buffer afterwards.  A
vector without allocation is left as it is.  For an empty vector the allocation is freed by
`detail::free`: it lies in a free atom afterwards, the vector has no allocation and the offset
of the reference is 0.  For a vector with elements the allocation, the offset and the size
stay, every element reads as before, and the capacity is at least the size and at most what it
was; when the size was below the capacity the allocation has the length
`16 + aligned_size(sizeof(Type_) * size)` afterwards, and when it was the capacity the buffer
is as before. -/
theorem shrink_to_fit_resizes (base N : Nat) (buf : Buffer) (size_of : Nat) (vec : Vector)
    (hlen : buf.length = N) (hN : N < 2 ^ 32)
    (hv : validate_layout base buf N = .ok true) (hT : 1 ≤ size_of)
    (hoff : vec.m_ref.offset < 2 ^ 32)
    (hmake : Vector.make size_of buf vec.m_ref 0 = .ok vec)
    (hat : ∀ v, vec.m_vctr = some v → v ∈ atoms buf N) :
    (vec.m_vctr = none → vec.shrink_to_fit size_of buf = .ok (vec, buf)) ∧
    ∀ v, vec.m_vctr = some v →
      (vec.size = 0 → ∃ r vec2 buf2, vec.shrink_to_fit size_of buf = .ok (vec2, buf2) ∧
        detail.free buf v = .ok (r, buf2) ∧ vec2.m_vctr = none ∧ vec2.m_ref.offset = 0 ∧
        vec2.size = 0 ∧ word buf2 (r + 4) = AtomID.free ∧ r ≤ v ∧
        v + word buf v ≤ r + word buf2 r ∧ validate_layout base buf2 N = .ok true) ∧
      (0 < vec.size → ∃ cap vec2 buf2, vec.capacity size_of buf = .ok cap ∧
        vec.shrink_to_fit size_of buf = .ok (vec2, buf2) ∧ vec2.m_vctr = some v ∧
        vec2.m_ref.offset = vec.m_ref.offset ∧ vec2.size = vec.size ∧ vec.size ≤ cap ∧
        (vec.size < cap → word buf2 v = 16 + aligned_size (size_of * vec.size)) ∧
        (vec.size = cap → buf2 = buf) ∧
        (∃ cap2, vec2.capacity size_of buf2 = .ok cap2 ∧ vec.size ≤ cap2 ∧ cap2 ≤ cap) ∧
        (∀ i, i < vec.size →
          ∃ e, vec2.at_ size_of buf2 i = .ok e ∧ vec.at_ size_of buf i = .ok e) ∧
        validate_layout base buf2 N = .ok true) := by
  refine ⟨shrink_null size_of buf vec, fun v h1 => ?_⟩
  obtain ⟨hbase, M, hl, hvm⟩ := layout_of_validate base N buf hlen hN hv
  have h16 := sixteen_le_of_tagged hvm.1
  obtain ⟨hd, hsh⟩ := bound_of_make size_of buf N vec hoff hmake hat
  rcases hsh with ⟨h1', _, _⟩ | ⟨v', h1', h2, hvat, hid, hcnt⟩
  · rw [h1] at h1'
    cases h1'
  rw [h1] at h1'
  cases h1'
  obtain ⟨Ma, Mb, hMa, hv2⟩ := atom_split buf N _ M hl h16 v hvat (by rw [hid]; decide)
    (by rw [hid]; decide)
  rw [hid] at hMa
  subst hMa
  obtain ⟨m1, m2, m3⟩ := split_offset_mod buf N _ Ma Mb _ hl hvm
  have hV := hvm.1 _ (List.mem_append_right Ma (List.mem_cons_self _ _))
  have hLV := thirty_two_le_of_tagged hV (Or.inl rfl)
  have hLV2 : word buf v % 16 = 0 := hV.2.2.1
  dsimp only at m3 hLV
  rw [← hv2] at m1 m2 m3
  unfold Vector.size
  refine ⟨fun h0 => ?_, fun hpos => ?_⟩
  · -- the empty vector
    obtain ⟨buf2, q1, q2, _, _⟩ := layout_free buf N _ Ma Mb _ _ hl h16
    rw [← hv2] at q1
    have hvf := validM_free Ma Mb _ _ hvm
    obtain ⟨b1, b2, b3⟩ := atom_of_split buf2 N _ _ _ _ q2 (sixteen_le_of_tagged hvf.1)
    have hb := free_before_msum Ma
    dsimp only at b2 b3
    rw [shrink_empty size_of buf vec v h1 h0, q1, Outcome.ok_bind]
    refine ⟨_, _, buf2, rfl, rfl, rfl, rfl, h0, b3, by omega, ?_,
      validate_of_layout base N _ buf2 _ hbase q2 hvf⟩
    rw [b2]
    omega
  · -- the vector with elements
    have hcap := capacity_some size_of buf vec v h1 (by omega) (by omega)
    have hcc : vec.m_ref.count ≤ (word buf v - 16) / size_of := by
      rw [Nat.le_div_iff_mul_le (by omega)]
      omega
    have hcomm : vec.m_ref.count * size_of = size_of * vec.m_ref.count := Nat.mul_comm _ _
    have hn1 : 1 ≤ size_of * vec.m_ref.count := Nat.mul_pos (by omega) hpos
    obtain ⟨g1, g2, g3, g4, g5⟩ := get_allocation_length_eq (size_of * vec.m_ref.count) hn1
      (by omega)
    have hae := aligned_size_eq (size_of * vec.m_ref.count)
    rw [Nat.mod_eq_of_lt (by omega)] at hae
    have hall : ∀ i, i < vec.m_ref.count →
        ∃ e, vec.at_ size_of buf i = .ok e ∧ vec.at_ size_of buf i = .ok e := by
      intro i hi
      have := mul_succ_le i _ size_of hi
      exact at_congr size_of buf buf vec vec v v i h1 h1 (by omega) (by omega) (fun _ _ => rfl)
    rw [shrink_nonempty size_of buf vec v _ h1 hpos hcap]
    by_cases hlt : vec.m_ref.count < (word buf v - 16) / size_of
    · rw [if_pos hlt, Nat.mod_eq_of_lt (by omega), hd]
      by_cases hsame : detail.get_allocation_length (size_of * vec.m_ref.count) = word buf v
      · -- the allocation has the length already
        rw [resize_same buf 0 v _ (by omega) hsame, Outcome.ok_bind, Outcome.pure_eq]
        dsimp only
        rw [contents_offset_eq _ (by omega)]
        refine ⟨_, _, buf, hcap, rfl, rfl, h2.symm, rfl, hcc, fun _ => by omega, fun _ => rfl,
          ⟨_, capacity_some size_of buf _ v rfl (by omega) (by omega), hcc, Nat.le_refl _⟩,
          fun i hi => ?_, hv⟩
        have := mul_succ_le i _ size_of hi
        exact at_congr size_of buf buf vec _ v v i h1 rfl (by omega) (by omega)
          (fun _ _ => rfl)
      · -- the allocation is cut
        obtain ⟨buf2, r1, r2, r3⟩ := layout_shrink buf N _ Ma Mb _ _
          (size_of * vec.m_ref.count) _ hl h16 rfl (by omega) (by omega)
        rw [← hv2] at r1 r3
        have hvs := validM_shrink Ma Mb _ _ hvm g2 g3 (by omega)
        obtain ⟨b1, b2, b3⟩ := atom_of_split buf2 N _ Ma _ _ r2 (sixteen_le_of_tagged hvs.1)
        dsimp only at b2
        rw [← hv2] at b2
        rw [r1, Outcome.ok_bind, Outcome.pure_eq]
        dsimp only
        rw [contents_offset_eq _ (by omega)]
        have hcap2 := capacity_some size_of buf2
          { m_ref := { offset := v + 16, count := vec.m_ref.count }, m_data := 0,
            m_vctr := some v } v rfl (by rw [r2.1]; omega) (by rw [b2]; omega)
        refine ⟨_, _, buf2, hcap, rfl, rfl, h2.symm, rfl, hcc, fun _ => by rw [b2, g1],
          fun h => by omega, ⟨_, hcap2, ?_, ?_⟩, fun i hi => ?_,
          validate_of_layout base N _ buf2 _ hbase r2 hvs⟩
        · rw [b2, Nat.le_div_iff_mul_le (by omega)]
          omega
        · rw [b2]
          exact Nat.div_le_div_right (by omega)
        · have := mul_succ_le i _ size_of hi
          exact at_congr size_of buf buf2 vec _ v v i h1 rfl (by omega) (by rw [r2.1]; omega)
            (fun j hj => r3 _ (Or.inr (by omega)))
    · rw [if_neg hlt]
      refine ⟨_, vec, buf, hcap, rfl, h1, rfl, rfl, hcc, fun h => absurd h hlt, fun _ => rfl,
        ⟨_, hcap, hcc, Nat.le_refl _⟩, hall, hv⟩

theorem shrink_to_fit_resizes_witness :
    sample_long_vector.length = 96 ∧ validate_layout 0 sample_long_vector 96 = .ok true ∧
    Vector.make 4 sample_long_vector sample_vec1.m_ref 0 = .ok sample_vec1 ∧
    ∃ cap vec2 buf2, sample_vec1.capacity 4 sample_long_vector = .ok cap ∧
      sample_vec1.shrink_to_fit 4 sample_long_vector = .ok (vec2, buf2) ∧
      vec2.size = sample_vec1.size ∧
      (sample_vec1.size < cap → word buf2 16 = 16 + aligned_size (4 * sample_vec1.size)) ∧
      validate_layout 0 buf2 96 = .ok true := by
  obtain ⟨cap, vec2, buf2, h1, h2, _, _, h5, _, h7, _, _, _, h11⟩ :=
    ((shrink_to_fit_resizes 0 96 sample_long_vector 4 sample_vec1 (by decide) (by decide)
      (by decide) (by decide) (by decide) (by decide)
      (fun v hv => by
        have e : v = 16 := (Option.some.inj hv).symm
        rw [e]
        decide)).2 16 rfl).2 (by decide)
  exact ⟨by decide, by decide, by decide, cap, vec2, buf2, h1, h2, h5, h7, h11⟩

/-- C28: for a vector that its constructor has made on a layout accepted by `validate_layout`,
with its allocation an atom of the layout, of size `n`, and `b ≤ e_ ≤ n`:
`erase(begin() + b, begin() + e_)` returns the iterator `begin() + b`; afterwards the size is
`n - (e_ - b)`, the elements below `b` read as before and the element at an index `i` from `b`
on reads as the one at `i + (e_ - b)` did; the capacity, the offset of the reference and the
allocation are as before, the atoms of the buffer are the same and every byte of their headers
is as before, and `validate_layout` accepts the buffer.  `erase(end())` returns `end()` and
changes nothing. -/
theorem erase_closes_gap (base N : Nat) (buf : Buffer) (size_of : Nat) (vec : Vector)
    (b e_ : Nat) (hlen : buf.length = N) (hN : N < 2 ^ 32)
    (hv : validate_layout base buf N = .ok true) (hT : 1 ≤ size_of)
    (hoff : vec.m_ref.offset < 2 ^ 32)
    (hmake : Vector.make size_of buf vec.m_ref 0 = .ok vec)
    (hat : ∀ v, vec.m_vctr = some v → v ∈ atoms buf N) (hbe : b ≤ e_) (hen : e_ ≤ vec.size) :
    (∃ vec2 buf2, vec.erase_range size_of buf (vec.iter size_of b) (vec.iter size_of e_) =
        .ok ((vec.iter size_of b, vec2), buf2) ∧
      vec2.iter size_of b = vec.iter size_of b ∧ vec2.size = vec.size - (e_ - b) ∧
      (∀ i, i < b → ∃ e, vec2.at_ size_of buf2 i = .ok e ∧ vec.at_ size_of buf i = .ok e) ∧
      (∀ i, b ≤ i → i < vec.size - (e_ - b) →
        ∃ e, vec2.at_ size_of buf2 i = .ok e ∧ vec.at_ size_of buf (i + (e_ - b)) = .ok e) ∧
      vec2.capacity size_of buf2 = vec.capacity size_of buf ∧
      vec2.m_ref.offset = vec.m_ref.offset ∧ vec2.m_vctr = vec.m_vctr ∧
      buf2.length = N ∧ atoms buf2 N = atoms buf N ∧
      (∀ a ∈ atoms buf N, ∀ j, j < 16 → byte buf2 (a + j) = byte buf (a + j)) ∧
      validate_layout base buf2 N = .ok true) ∧
    vec.erase size_of buf (vec.end_ size_of) = .ok ((vec.end_ size_of, vec), buf) := by
  have hend : vec.erase size_of buf (vec.end_ size_of) =
      .ok ((vec.end_ size_of, vec), buf) := by
    unfold Vector.erase
    rw [if_pos rfl]
    rfl
  refine ⟨?_, hend⟩
  obtain ⟨hbase, M, hl, hvm⟩ := layout_of_validate base N buf hlen hN hv
  have h16 := sixteen_le_of_tagged hvm.1
  obtain ⟨hd, hsh⟩ := bound_of_make size_of buf N vec hoff hmake hat
  unfold Vector.size at hen ⊢
  -- what holds when the buffer and the vector stay as they are
  have hsame : e_ - b = 0 →
      ∃ vec2 buf2, Outcome.ok ((vec.iter size_of (b : Int), vec), buf) =
        Outcome.ok ((vec.iter size_of (b : Int), vec2), buf2) ∧
      vec2.iter size_of b = vec.iter size_of b ∧
      vec2.m_ref.count = vec.m_ref.count - (e_ - b) ∧
      (∀ i, i < b → ∃ e, vec2.at_ size_of buf2 i = .ok e ∧ vec.at_ size_of buf i = .ok e) ∧
      (∀ i, b ≤ i → i < vec.m_ref.count - (e_ - b) →
        ∃ e, vec2.at_ size_of buf2 i = .ok e ∧ vec.at_ size_of buf (i + (e_ - b)) = .ok e) ∧
      vec2.capacity size_of buf2 = vec.capacity size_of buf ∧
      vec2.m_ref.offset = vec.m_ref.offset ∧ vec2.m_vctr = vec.m_vctr ∧
      buf2.length = N ∧ atoms buf2 N = atoms buf N ∧
      (∀ a ∈ atoms buf N, ∀ j, j < 16 → byte buf2 (a + j) = byte buf (a + j)) ∧
      validate_layout base buf2 N = .ok true := by
    intro h0
    have hall : ∀ i, i < vec.m_ref.count →
        ∃ e, vec.at_ size_of buf i = .ok e ∧ vec.at_ size_of buf i = .ok e := by
      intro i hi
      rcases hsh with ⟨h1, h2, h3⟩ | ⟨v, h1, h2, hvat, hid, hcnt⟩
      · omega
      · obtain ⟨Ma, Mb, hMa, hv2⟩ := atom_split buf N _ M hl h16 v hvat (by rw [hid]; decide)
          (by rw [hid]; decide)
        subst hMa
        obtain ⟨m1, m2, m3⟩ := split_offset_mod buf N _ Ma Mb _ hl hvm
        dsimp only at m3
        rw [← hv2] at m3
        have := mul_succ_le i _ size_of hi
        exact at_congr size_of buf buf vec vec v v i h1 h1 (by omega) (by omega)
          (fun _ _ => rfl)
    refine ⟨vec, buf, rfl, rfl, by omega, fun i hi => hall i (by omega), fun i h1 h2 => ?_,
      rfl, rfl, rfl, hlen, rfl, fun _ _ _ _ => rfl, hv⟩
    rw [h0, Nat.add_zero]
    exact hall i (by omega)
  rcases hsh with ⟨h1, h2, h3⟩ | ⟨v, h1, h2, hvat, hid, hcnt⟩
  · -- the null vector
    rw [iter_none size_of vec _ h1, iter_none size_of vec _ h1, erase_range_same]
    have := hsame (by omega)
    rw [iter_none size_of vec _ h1] at this
    exact this
  · rw [iter_some size_of vec v b h1, iter_some size_of vec v e_ h1]
    by_cases heq : b = e_
    · subst heq
      rw [erase_range_same]
      have := hsame (by omega)
      rw [iter_some size_of vec v b h1] at this
      exact this
    · have hlt : b < e_ := by omega
      obtain ⟨Ma, Mb, hMa, hv2⟩ := atom_split buf N _ M hl h16 v hvat (by rw [hid]; decide)
        (by rw [hid]; decide)
      subst hMa
      obtain ⟨m1, m2, m3⟩ := split_offset_mod buf N _ Ma Mb _ hl hvm
      have hap := atom_header_apart buf N _ Ma Mb _ hl h16
      have hV := h16 (word buf v, word buf (v + 4)) (by simp)
      dsimp only at m3 hap hV
      rw [← hv2] at m3 hap
      have hBE : b * size_of + size_of ≤ e_ * size_of := mul_succ_le b e_ size_of hlt
      have hEN : e_ * size_of ≤ vec.m_ref.count * size_of := Nat.mul_le_mul_right _ hen
      have hnT : vec.m_ref.count ≤ vec.m_ref.count * size_of := Nat.le_mul_of_pos_right _ hT
      have hdiff : (e_ - b) * size_of = e_ * size_of - b * size_of := Nat.sub_mul _ _ _
      have hcnt2 : (vec.m_ref.count - (e_ - b)) * size_of =
          vec.m_ref.count * size_of - (e_ * size_of - b * size_of) := by
        rw [Nat.sub_mul, hdiff]
      have hec : (v + 16 + e_ * size_of - (v + 16 + b * size_of)) / size_of % 2 ^ 32 =
          e_ - b := by
        have e1 : v + 16 + e_ * size_of - (v + 16 + b * size_of) = (e_ - b) * size_of := by
          omega
        rw [e1, Nat.mul_div_cancel _ (by omega)]
        exact Nat.mod_eq_of_lt (by omega)
      rw [erase_range_some size_of buf vec _ _ (v + 16 + vec.m_ref.count * size_of)
        (by omega) (by unfold Vector.end_ Vector.size; exact iter_some size_of vec v _ h1),
        hec, sub32_eq _ _ (by omega) (by omega)]
      -- the buffer after the call
      obtain ⟨buf2, hb1, hb2, hb3⟩ : ∃ buf2,
          (if v + 16 + e_ * size_of < v + 16 + vec.m_ref.count * size_of then
            std_move buf (v + 16 + e_ * size_of) (v + 16 + vec.m_ref.count * size_of)
              (v + 16 + b * size_of) else pure buf) = .ok buf2 ∧ buf2.length = buf.length ∧
          ∀ j, byte buf2 j = if v + 16 + b * size_of ≤ j ∧ j < v + 16 + b * size_of +
              (vec.m_ref.count * size_of - e_ * size_of)
            then byte buf (v + 16 + e_ * size_of + (j - (v + 16 + b * size_of)))
            else byte buf j := by
        by_cases hc : v + 16 + e_ * size_of < v + 16 + vec.m_ref.count * size_of
        · rw [if_pos hc]
          obtain ⟨s1, s2, s3⟩ := std_move_down buf (v + 16 + e_ * size_of)
            (v + 16 + vec.m_ref.count * size_of) (v + 16 + b * size_of) (by omega) (by omega)
            (by omega)
          have e2 : v + 16 + vec.m_ref.count * size_of - (v + 16 + e_ * size_of) =
              vec.m_ref.count * size_of - e_ * size_of := by omega
          rw [e2] at s1 s2 s3
          exact ⟨_, s1, s2, s3⟩
        · rw [if_neg hc]
          refine ⟨buf, rfl, rfl, fun j => ?_⟩
          rw [if_neg (by omega)]
      have hout : ∀ j, (j < v + 16 ∨ v + word buf v ≤ j) → byte buf2 j = byte buf j := by
        intro j hj
        rw [hb3 j, if_neg (by omega)]
      have hl2 := layout_content_frame buf buf2 N _ Ma Mb _ hl h16 hb2 (fun j hj => by
        rw [← hv2] at hj
        exact hout j hj)
      have hw : word buf2 v = word buf v :=
        word_eq_of_bytes _ _ _ (fun j _ _ => hout j (Or.inl (by omega)))
      rw [hb1, Outcome.ok_bind]
      refine ⟨_, buf2, rfl, ?_, rfl, fun i hi => ?_, fun i hi1 hi2 => ?_, ?_, rfl, rfl,
        by omega, ?_, fun a ha j hj => ?_, validate_of_layout base N _ buf2 _ hbase hl2 hvm⟩
      · exact iter_some size_of _ v b h1
      · have := mul_succ_le i b size_of hi
        exact at_congr_index size_of buf buf2 vec _ v v i i h1 h1 (by omega) (by omega)
          (fun j hj => by rw [hb3, if_neg (by omega)])
      · have h3 := mul_succ_le i _ size_of hi2
        rw [hcnt2] at h3
        have h4 : b * size_of ≤ i * size_of := Nat.mul_le_mul_right _ hi1
        have h5 : (i + (e_ - b)) * size_of = i * size_of + (e_ * size_of - b * size_of) := by
          rw [Nat.add_mul, hdiff]
        refine at_congr_index size_of buf buf2 vec _ v v (i + (e_ - b)) i h1 h1 (by omega)
          (by omega) (fun j hj => ?_)
        rw [hb3, if_pos (by omega), h5]
        congr 1
        omega
      · show Vector.capacity size_of buf2 vec = Vector.capacity size_of buf vec
        rw [capacity_some size_of buf2 vec v h1 (by omega) (by rw [hw]; exact hV),
          capacity_some size_of buf vec v h1 (by omega) hV, hw]
      · rw [atoms_of_layout buf2 N _ _ hl2 h16, atoms_of_layout buf N _ _ hl h16]
      · rcases hap a ha with h | h
        · exact hout _ (Or.inl (by omega))
        · exact hout _ (Or.inr (by omega))

theorem erase_closes_gap_witness :
    sample_vector3.length = 96 ∧ validate_layout 0 sample_vector3 96 = .ok true ∧
    Vector.make 4 sample_vector3 sample_vec3.m_ref 0 = .ok sample_vec3 ∧
    ∃ vec2 buf2, sample_vec3.erase_range 4 sample_vector3 (sample_vec3.iter 4 (0 : Nat))
        (sample_vec3.iter 4 (1 : Nat)) = .ok ((sample_vec3.iter 4 (0 : Nat), vec2), buf2) ∧
      vec2.size = sample_vec3.size - (1 - 0) ∧
      (∃ e, vec2.at_ 4 buf2 0 = .ok e ∧ sample_vec3.at_ 4 sample_vector3 (0 + (1 - 0)) = .ok e) ∧
      validate_layout 0 buf2 96 = .ok true := by
  obtain ⟨⟨vec2, buf2, h1, _, h3, _, h5, _, _, _, _, _, _, h12⟩, _⟩ :=
    erase_closes_gap 0 96 sample_vector3 4 sample_vec3 0 1 (by decide) (by decide)
      (by decide) (by decide) (by decide) (by decide)
      (fun v hv => by
        have e : v = 16 := (Option.some.inj hv).symm
        rw [e]
        decide) (by decide) (by decide)
  exact ⟨by decide, by decide, by decide, vec2, buf2, h1, h3, h5 0 (by decide) (by decide), h12⟩

/-- C29: on a layout accepted by `validate_layout` the data atom has a length `D` of at least
16, its header and contents are the bytes below `D`, and none of them is changed by
`detail::reserve(data, size, identifier)`, by the resize `detail::reserve(data, curr_alloc,
size)` of a vector atom of the layout, or by `detail::free` of a vector or reference atom of the
layout; a call that throws leaves the whole buffer as it was, and `detail::free` returns. -/
theorem data_atom_untouched (base N : Nat) (buf : Buffer)
    (hlen : buf.length = N) (hN : N < 2 ^ 32) (hv : validate_layout base buf N = .ok true) :
    16 ≤ word buf 0 ∧
    (∀ n id o buf2, detail.reserve buf 0 n id = .ok (o, buf2) →
      ∀ j, j < word buf 0 → byte buf2 j = byte buf j) ∧
    (∀ n id b, detail.reserve buf 0 n id = .thrown b → b = buf) ∧
    (∀ v n o buf2, v ∈ atoms buf N → word buf (v + 4) = AtomID.vector →
      detail.reserve_resize buf 0 v n = .ok (o, buf2) →
      ∀ j, j < word buf 0 → byte buf2 j = byte buf j) ∧
    (∀ v n b, v ∈ atoms buf N → word buf (v + 4) = AtomID.vector →
      detail.reserve_resize buf 0 v n = .thrown b → b = buf) ∧
    (∀ d, d ∈ atoms buf N →
      word buf (d + 4) = AtomID.vector ∨ word buf (d + 4) = AtomID.reference →
      ∃ r buf2, detail.free buf d = .ok (r, buf2) ∧
        ∀ j, j < word buf 0 → byte buf2 j = byte buf j) := by
  obtain ⟨hbase, M, hl, hvm⟩ := layout_of_validate base N buf hlen hN hv
  have h16 := sixteen_le_of_tagged hvm.1
  have hD := hl.2.2.2.1
  have hnew := fun n id => ends_reserve_new buf 0 (detail.get_allocation_length n) id
  refine ⟨hD, fun n id o buf2 hok j hj => ?_, fun n id b hb => ?_,
    fun v n o buf2 hvat hid hok j hj => ?_, fun v n b hvat hid hb => ?_, fun d hd hid => ?_⟩
  · have := (hnew n id).1 _ hok
    exact this.2.2 j (by omega)
  · exact (hnew n id).2 _ hb
  · by_cases hr : word buf v < detail.get_allocation_length n ∧
        ¬ (word buf (v + word buf v + 4) = AtomID.free ∧
          detail.get_allocation_length n - word buf v ≤ word buf (v + word buf v))
    · obtain ⟨Ma, Mb, hMa, hv2⟩ := atom_split buf N _ M hl h16 v hvat (by rw [hid]; decide)
        (by rw [hid]; decide)
      rw [hid] at hMa
      subst hv2
      rcases fit_cases M hvm (detail.get_allocation_length n) with
        hno | ⟨M1, L, M2, hM1, hfit, hskip⟩
      · subst hMa
        rw [resize_relocates_eq buf N _ Ma Mb _ n hl h16 hr.1 hr.2,
          layout_reserve_new_none buf N _ _ _ AtomID.vector hl h16 hno] at hok
        cases hok
      · subst hMa
        obtain ⟨buf3, P, Q, R, S, Lr, t1, _, _, _, _, _, _, _, t9⟩ :=
          layout_relocate buf N _ Ma Mb M1 M2 _ L n hl hvm hM1 hr.1 hr.2 hfit hskip
        rw [t1] at hok
        cases hok
        exact t9 j hj
    · have := (ends_resize_local buf 0 v n hr).1 _ hok
      obtain ⟨Ma, Mb, hMa, hv2⟩ := atom_split buf N _ M hl h16 v hvat (by rw [hid]; decide)
        (by rw [hid]; decide)
      exact this.2.2 j (by omega)
  · by_cases hr : word buf v < detail.get_allocation_length n ∧
        ¬ (word buf (v + word buf v + 4) = AtomID.free ∧
          detail.get_allocation_length n - word buf v ≤ word buf (v + word buf v))
    · obtain ⟨Ma, Mb, hMa, hv2⟩ := atom_split buf N _ M hl h16 v hvat (by rw [hid]; decide)
        (by rw [hid]; decide)
      rw [hid] at hMa
      subst hv2
      rcases fit_cases M hvm (detail.get_allocation_length n) with
        hno | ⟨M1, L, M2, hM1, hfit, hskip⟩
      · subst hMa
        rw [resize_relocates_eq buf N _ Ma Mb _ n hl h16 hr.1 hr.2,
          layout_reserve_new_none buf N _ _ _ AtomID.vector hl h16 hno] at hb
        cases hb
        rfl
      · subst hMa
        obtain ⟨buf3, P, Q, R, S, Lr, t1, _⟩ :=
          layout_relocate buf N _ Ma Mb M1 M2 _ L n hl hvm hM1 hr.1 hr.2 hfit hskip
        rw [t1] at hb
        cases hb
    · exact ((ends_resize_local buf 0 v n hr).2 _ hb).elim
  · obtain ⟨M1, M2, rfl, hd2⟩ := atom_split buf N _ M hl h16 d hd
      (by rcases hid with h | h <;> rw [h] <;> decide)
      (by rcases hid with h | h <;> rw [h] <;> decide)
    obtain ⟨buf2, q1, q2, q3, _⟩ := layout_free buf N _ M1 M2 _ _ hl h16
    rw [← hd2] at q1
    refine ⟨_, buf2, q1, fun j hj => q3 j (Or.inl (by omega)) (Or.inl (by omega))
      (Or.inl (by omega))⟩

theorem data_atom_untouched_witness :
    sample_layout.length = 96 ∧ validate_layout 0 sample_layout 96 = .ok true ∧
    16 ∈ atoms sample_layout 96 ∧
    ∃ r buf2, detail.free sample_layout 16 = .ok (r, buf2) ∧
      ∀ j, j < word sample_layout 0 → byte buf2 j = byte sample_layout j :=
  ⟨by decide, by decide, by decide,
    (data_atom_untouched 0 96 sample_layout (by decide) (by decide) (by decide)).2.2.2.2.2 16
      (by decide) (Or.inl (by decide))⟩

/-- C30: on a layout accepted by `validate_layout`, for every atom `o` that
`detail::reserve(data, size, identifier)` or the resize `detail::reserve(data, curr_alloc,
size)` of a vector atom returns, `contents_offset(data, o)` is `o + 16`, a multiple of 16 and
at least 32: it is not the null offset 0, and the first test of `allocation_header`, on the
alignment and the minimum of the offset, does not reject it. -/
theorem contents_offset_passes (base N : Nat) (buf : Buffer)
    (hlen : buf.length = N) (hN : N < 2 ^ 32) (hv : validate_layout base buf N = .ok true) :
    (∀ n id o buf2, detail.reserve buf 0 n id = .ok (o, buf2) →
      detail.contents_offset 0 o = o + 16 ∧ detail.contents_offset 0 o % 16 = 0 ∧
      32 ≤ detail.contents_offset 0 o ∧
      Reference.is_null { offset := detail.contents_offset 0 o } = false ∧
      (!is_aligned (detail.contents_offset 0 o) ||
        decide (detail.contents_offset 0 o < 2 * atom_header_length)) = false) ∧
    (∀ v n o buf2, v ∈ atoms buf N → word buf (v + 4) = AtomID.vector →
      detail.reserve_resize buf 0 v n = .ok (o, buf2) →
      detail.contents_offset 0 o = o + 16 ∧ detail.contents_offset 0 o % 16 = 0 ∧
      32 ≤ detail.contents_offset 0 o ∧
      Reference.is_null { offset := detail.contents_offset 0 o } = false ∧
      (!is_aligned (detail.contents_offset 0 o) ||
        decide (detail.contents_offset 0 o < 2 * atom_header_length)) = false) := by
  obtain ⟨hbase, M, hl, hvm⟩ := layout_of_validate base N buf hlen hN hv
  obtain ⟨r1, r2⟩ := reserve_result buf N _ M hl hvm
  refine ⟨fun n id o buf2 hok => ?_, fun v n o buf2 hvat hid hok => ?_⟩
  · obtain ⟨a, b, c⟩ := r1 _ id o buf2 hok
    exact offset_passes o a b (by omega)
  · obtain ⟨a, b, c⟩ := r2 v n o buf2 hvat hid hok
    exact offset_passes o a b (by omega)

theorem contents_offset_passes_witness :
    sample_free_layout.length = 96 ∧ validate_layout 0 sample_free_layout 96 = .ok true ∧
    ∃ o buf2, detail.reserve sample_free_layout 0 20 AtomID.vector = .ok (o, buf2) ∧
      detail.contents_offset 0 o = o + 16 ∧ 32 ≤ detail.contents_offset 0 o := by
  obtain ⟨x, hx⟩ := (reserve_new_cases 0 96 sample_free_layout
    (detail.get_allocation_length 20) AtomID.vector (by decide) (by decide) (by decide)).2
    (fun h => absurd (h 16 (by decide) (by decide)) (by decide))
  obtain ⟨h1, _, h3, _⟩ := (contents_offset_passes 0 96 sample_free_layout (by decide)
    (by decide) (by decide)).1 20 AtomID.vector x.1 x.2 hx
  exact ⟨by decide, by decide, x.1, x.2, hx, h1, h3⟩

/-! ## Alignment, constructor and validator: further claims -/

/-- C39: for `n ≤ 0xFFFFFFF0`, `aligned_size(n)` is a multiple of 16 that is at least `n`, and
no smaller multiple of 16 is at least `n`; so `is_aligned` holds of it, it exceeds `n` by less
than 16, and it is `n` exactly when `is_aligned(n)`.  For `n ≤ 0xFFFFFFE0`,
`get_allocation_length(n)` is `16 + aligned_size(n)`, a multiple of 16 that is at least
`n + 16`. -/
theorem aligned_size_least (n : Nat) (hn : n ≤ 0xFFFFFFF0) :
    aligned_size n % 16 = 0 ∧ n ≤ aligned_size n ∧
    (∀ m, m % 16 = 0 → n ≤ m → aligned_size n ≤ m) ∧
    is_aligned (aligned_size n) = true ∧ aligned_size n - n < 16 ∧
    (aligned_size n = n ↔ is_aligned n = true) ∧
    (n ≤ 0xFFFFFFE0 → detail.get_allocation_length n = 16 + aligned_size n ∧
      detail.get_allocation_length n % 16 = 0 ∧ n + 16 ≤ detail.get_allocation_length n) := by
  have e : aligned_size n = (n + 15) / 16 * 16 := by
    rw [aligned_size_eq, Nat.mod_eq_of_lt (by omega)]
  refine ⟨by omega, by omega, fun m h1 h2 => by omega, ?_, by omega, ?_, fun h => ?_⟩
  · rw [is_aligned_iff]
    omega
  · rw [is_aligned_iff]
    omega
  · have g : detail.get_allocation_length n = 16 + aligned_size n := by
      unfold detail.get_allocation_length add32 atom_header_length
      rw [Nat.mod_eq_of_lt (by omega)]
    rw [g]
    omega

theorem aligned_size_least_witness :
    aligned_size 20 = 32 ∧ (∀ m, m % 16 = 0 → 20 ≤ m → aligned_size 20 ≤ m) ∧
      detail.get_allocation_length 20 = 48 := by
  obtain ⟨_, _, h3, _, _, _, h7⟩ := aligned_size_least 20 (by decide)
  exact ⟨by decide, h3, by decide⟩

/-- The function `allocation_header` of a `VectorRef` whose offset passes the first test reads
the identifier and the length of the header 16 bytes before the offset. -/
theorem allocation_header_vector_eq (size_of : Nat) (buf : Buffer) (ref : VectorRef) (data : Nat)
    (h1 : ref.offset % 16 = 0) (h2 : 32 ≤ ref.offset) (h3 : ref.offset < 2 ^ 32)
    (h4 : data + ref.offset ≤ buf.length) :
    detail.allocation_header_vector size_of buf ref data =
      if AtomID.vector ≠ word buf (data + (ref.offset - 16) + 4) then .thrown buf
      else if word buf (data + (ref.offset - 16)) < 16 + ref.count * size_of then .thrown buf
      else .ok (data + (ref.offset - 16)) := by
  have hc : ¬ ((!is_aligned ref.offset || decide (ref.offset < 2 * atom_header_length)) = true) := by
    rw [offset_check_iff]
    omega
  unfold detail.allocation_header_vector
  rw [if_neg hc]
  dsimp only
  unfold detail.offset_by Atom.identifier Atom.length atom_header_length
  rw [sub32_eq _ _ (by omega) h3, load32_ok _ _ (by omega), Outcome.ok_bind]
  by_cases hid : AtomID.vector ≠ word buf (data + (ref.offset - 16) + 4)
  · rw [if_pos hid, if_pos hid]
  · rw [if_neg hid, if_neg hid, load32_ok _ _ (by omega), Outcome.ok_bind]
    rfl

/-- The constructor of `Vector` on a null `VectorRef`. -/
theorem make_null (size_of : Nat) (buf : Buffer) (ref : VectorRef) (data : Nat)
    (h : ref.offset = 0) :
    Vector.make size_of buf ref data =
      if ref.count = 0 then .ok { m_ref := ref, m_data := data, m_vctr := none }
      else .thrown buf := by
  unfold Vector.make VectorRef.is_null VectorRef.empty
  rw [h]
  by_cases hc : ref.count = 0
  · rw [hc, if_pos rfl]
    rfl
  · rw [if_neg hc]
    have e : (!(0 == ref.count)) = true := by
      simp
      omega
    rw [e]
    rfl

/-- The constructor of `Vector` on a `VectorRef` that is not null. -/
theorem make_bound (size_of : Nat) (buf : Buffer) (ref : VectorRef) (data : Nat)
    (h : ref.offset ≠ 0) :
    Vector.make size_of buf ref data =
      (detail.allocation_header_vector size_of buf ref data >>= fun vctr =>
        pure { m_ref := ref, m_data := data, m_vctr := some vctr }) := by
  unfold Vector.make VectorRef.is_null
  have e : (!(0 == ref.offset)) = true := by
    simp
    omega
  rw [e, if_pos rfl]

/-- The constructor `Vector(ref, data)`, for a `VectorRef` whose offset, when it is a
multiple of 16 and at least 32, lies in the buffer.  The constructor returns exactly when the
offset and the count are both 0, or the offset is not 0, is a multiple of 16 and at least 32,
the header 16 bytes before it is tagged `vector` and has a length of at least
`16 + ref.count * sizeof(Type_)`, the sum taken in the natural numbers.  In every other case it
throws, with the buffer as it was.  The vector that it returns holds the `VectorRef` as it
was given. -/
theorem make_returns_iff (size_of : Nat) (buf : Buffer) (ref : VectorRef) (data : Nat)
    (hoff : ref.offset < 2 ^ 32)
    (hin : ref.offset % 16 = 0 → 32 ≤ ref.offset → data + ref.offset ≤ buf.length) :
    ((∃ vec, Vector.make size_of buf ref data = .ok vec) ↔
      ((ref.offset = 0 ∧ ref.count = 0) ∨
        (ref.offset ≠ 0 ∧ ref.offset % 16 = 0 ∧ 32 ≤ ref.offset ∧
          word buf (data + (ref.offset - 16) + 4) = AtomID.vector ∧
          16 + ref.count * size_of ≤ word buf (data + (ref.offset - 16))))) ∧
    ((¬ ∃ vec, Vector.make size_of buf ref data = .ok vec) →
      Vector.make size_of buf ref data = .thrown buf) ∧
    ∀ vec, Vector.make size_of buf ref data = .ok vec →
      vec.m_ref = ref ∧ vec.m_data = data ∧
      vec.m_vctr = if ref.offset = 0 then none else some (data + (ref.offset - 16)) := by
  by_cases h0 : ref.offset = 0
  · rw [make_null size_of buf ref data h0]
    by_cases hc : ref.count = 0
    · rw [if_pos hc]
      refine ⟨⟨fun _ => Or.inl ⟨h0, hc⟩, fun _ => ⟨_, rfl⟩⟩, fun h => absurd ⟨_, rfl⟩ h,
        fun vec e => ?_⟩
      cases e
      exact ⟨rfl, rfl, (if_pos h0).symm⟩
    · rw [if_neg hc]
      refine ⟨⟨fun h => ?_, fun h => ?_⟩, fun _ => rfl, fun vec e => ?_⟩
      · obtain ⟨vec, e⟩ := h
        cases e
      · rcases h with h | h
        · exact absurd h.2 hc
        · exact absurd h0 h.1
      · cases e
  · rw [make_bound size_of buf ref data h0]
    by_cases hc : ref.offset % 16 ≠ 0 ∨ ref.offset < 32
    · have e : detail.allocation_header_vector size_of buf ref data = .thrown buf := by
        unfold detail.allocation_header_vector
        rw [if_pos ((offset_check_iff _).mpr hc)]
      rw [e, Outcome.thrown_bind]
      refine ⟨⟨fun h => ?_, fun h => ?_⟩, fun _ => rfl, fun vec e => ?_⟩
      · obtain ⟨vec, e⟩ := h
        cases e
      · rcases h with h | h
        · exact absurd h.1 h0
        · omega
      · cases e
    · rw [allocation_header_vector_eq size_of buf ref data (by omega) (by omega) hoff
        (hin (by omega) (by omega))]
      by_cases hid : AtomID.vector ≠ word buf (data + (ref.offset - 16) + 4)
      · rw [if_pos hid, Outcome.thrown_bind]
        refine ⟨⟨fun h => ?_, fun h => ?_⟩, fun _ => rfl, fun vec e => ?_⟩
        · obtain ⟨vec, e⟩ := h
          cases e
        · rcases h with h | h
          · exact absurd h.1 h0
          · exact absurd h.2.2.2.1.symm hid
        · cases e
      · rw [if_neg hid]
        by_cases hl : word buf (data + (ref.offset - 16)) < 16 + ref.count * size_of
        · rw [if_pos hl, Outcome.thrown_bind]
          refine ⟨⟨fun h => ?_, fun h => ?_⟩, fun _ => rfl, fun vec e => ?_⟩
          · obtain ⟨vec, e⟩ := h
            cases e
          · rcases h with h | h
            · exact absurd h.1 h0
            · omega
          · cases e
        · rw [if_neg hl, Outcome.ok_bind]
          refine ⟨⟨fun _ => Or.inr ⟨h0, by omega, by omega, (not_not.mp hid).symm, by omega⟩,
            fun _ => ⟨_, rfl⟩⟩, fun h => absurd ⟨_, rfl⟩ h, fun vec e => ?_⟩
          cases e
          exact ⟨rfl, rfl, (if_neg h0).symm⟩

theorem make_returns_iff_witness :
    ((∃ vec, Vector.make 4 sample_vector3 { offset := 32, count := 3 } 0 = .ok vec) ↔
      (((32 : Nat) = 0 ∧ (3 : Nat) = 0) ∨
        ((32 : Nat) ≠ 0 ∧ 32 % 16 = 0 ∧ 32 ≤ 32 ∧
          word sample_vector3 (0 + (32 - 16) + 4) = AtomID.vector ∧
          16 + 3 * 4 ≤ word sample_vector3 (0 + (32 - 16))))) ∧
    Vector.make 4 sample_vector3 { offset := 32, count := 3 } 0 = .ok sample_vec3 ∧
    Vector.make 4 sample_vector3 { offset := 32, count := 5 } 0 = .thrown sample_vector3 := by
  have h := make_returns_iff 4 sample_vector3 { offset := 32, count := 3 } 0 (by decide)
    (fun _ _ => by decide)
  have h5 := make_returns_iff 4 sample_vector3 { offset := 32, count := 5 } 0 (by decide)
    (fun _ _ => by decide)
  refine ⟨h.1, by decide, h5.2.1 (fun hx => ?_)⟩
  have := h5.1.mp hx
  revert this
  decide

/-- C38: a buffer of `N` bytes at an address that is a multiple of 16 that holds a data atom of
length `D` (tagged `data`, `previous` 0, `D` a multiple of 16 and at least 16), then atoms `M`
that are tagged `vector`, `reference` or `free`, have lengths that are multiples of 16 and at
least 16, are not of length 16 when tagged `vector` or `reference`, are not free next to a
free one, and each hold the length of the atom before them in `previous`, and then, at
`N - 16`, an atom of length 16 tagged `end`: `validate_layout` returns `true`.  The length `N`
is then a multiple of 16 and at least 32, and the atoms that `detail::next` visits from the
first byte on are the data atom, the atoms `M` and the end atom. -/
theorem validate_layout_complete (base N D : Nat) (buf : Buffer) (M : List (Nat × Nat))
    (hbase : base % 16 = 0) (hl : Layout buf N D M) (hv : ValidM M) :
    validate_layout base buf N = .ok true ∧ N % 16 = 0 ∧ 32 ≤ N ∧
      atoms buf N = 0 :: (offsets D M ++ [N - 16]) := by
  refine ⟨validate_of_layout base N D buf M hbase hl hv, hl.2.2.1, ?_,
    atoms_of_layout buf N D M hl (sixteen_le_of_tagged hv.1)⟩
  have := hl.2.2.2.1
  have := hl.2.2.2.2.2.2.2.2.2.2.2
  omega

theorem validate_layout_complete_witness :
    Layout sample_layout 96 16 [(32, AtomID.vector), (32, AtomID.reference)] ∧
    ValidM [(32, AtomID.vector), (32, AtomID.reference)] ∧
    validate_layout 0 sample_layout 96 = .ok true ∧
    atoms sample_layout 96 = [0, 16, 48, 80] := by
  have hl : Layout sample_layout 96 16 [(32, AtomID.vector), (32, AtomID.reference)] := by
    unfold Layout
    simp only [Tiled]
    decide
  have hv : ValidM [(32, AtomID.vector), (32, AtomID.reference)] := by
    unfold ValidM
    refine ⟨fun x hx => ?_, ?_⟩
    · simp only [List.mem_cons, List.mem_singleton, List.not_mem_nil, or_false] at hx
      rcases hx with rfl | rfl
      · unfold tagged
        decide
      · unfold tagged
        decide
    · simp only [List.chain'_cons, List.chain'_singleton, and_true]
      unfold apart
      decide
  have h := validate_layout_complete 0 96 16 sample_layout _ (by decide) hl hv
  exact ⟨hl, hv, h.1, h.2.2.2⟩

/-- One iteration of the loop of `validate_layout` on headers that lie in the buffer: the walk
and the loop of the embedding go on together, or end together. -/
theorem validate_walk_step (buf : Buffer) (e fuel d curr prev : Nat) (hd : 0 < d)
    (hc : curr + 12 ≤ buf.length) (hp : prev + 8 ≤ buf.length) :
    (passes buf d curr prev →
      validate_walk buf (fuel + 1) d curr prev =
        (validate_walk buf fuel (sub32 d (word buf curr)) (curr + word buf curr) curr >>=
          fun r => pure (curr :: r.1, r.2)) ∧
      validate_loop buf e (fuel + 1) d curr prev =
        validate_loop buf e fuel (sub32 d (word buf curr)) (curr + word buf curr) curr) ∧
    (¬ passes buf d curr prev →
      validate_walk buf (fuel + 1) d curr prev = .ok ([curr], none) ∧
      validate_loop buf e (fuel + 1) d curr prev = .ok false) := by
  rw [validate_loop, validate_walk, if_pos hd, if_pos hd]
  simp only [Atom.length, Atom.identifier, Atom.previous]
  rw [load32_ok buf curr (by omega), load32_ok buf (curr + 4) (by omega),
    load32_ok buf (curr + 8) (by omega), load32_ok buf prev (by omega),
    load32_ok buf (prev + 4) (by omega)]
  simp only [Outcome.ok_bind]
  unfold passes
  by_cases c1 : (!is_aligned (word buf curr) || decide (d < word buf curr)) = true
  · rw [if_pos c1, if_pos c1]
    refine ⟨fun h => ?_, fun _ => ⟨rfl, rfl⟩⟩
    exfalso
    obtain ⟨h1, h2, _⟩ := h
    rw [← is_aligned_iff] at h1
    rw [h1] at c1
    simp only [Bool.not_true, Bool.false_or, decide_eq_true_eq] at c1
    omega
  rw [if_neg c1, if_neg c1]
  have c1a : word buf curr % 16 = 0 := by
    rw [← is_aligned_iff]
    cases hh : is_aligned (word buf curr)
    · simp [hh] at c1
    · rfl
  have c1b : word buf curr ≤ d := by
    by_contra hh
    apply c1
    simp only [Bool.or_eq_true, decide_eq_true_eq]
    right
    omega
  by_cases c2 : word buf (curr + 4) = AtomID.vector ∨ word buf (curr + 4) = AtomID.reference
  · rw [if_pos c2, if_pos c2]
    by_cases c3 : atom_header_length = word buf curr
    · rw [if_pos c3, if_pos c3]
      refine ⟨fun h => ?_, fun _ => ⟨rfl, rfl⟩⟩
      exfalso
      rcases h.2.2.1 with h | h
      · exact h.2 c3.symm
      · exact free_ne_vector_reference c2 h.1
    rw [if_neg c3, if_neg c3]
    by_cases c4 : word buf prev ≠ word buf (curr + 8)
    · rw [if_pos c4, if_pos c4]
      refine ⟨fun h => ?_, fun _ => ⟨rfl, rfl⟩⟩
      exact absurd h.2.2.2.symm c4
    rw [if_neg c4, if_neg c4]
    refine ⟨fun _ => ⟨rfl, rfl⟩, fun h => ?_⟩
    exact absurd ⟨c1a, c1b, Or.inl ⟨c2, fun hh => c3 hh.symm⟩, (not_not.1 c4).symm⟩ h
  · rw [if_neg c2, if_neg c2]
    by_cases c5 : word buf (curr + 4) = AtomID.free
    · rw [if_pos c5, if_pos c5]
      by_cases c6 : AtomID.free = word buf (prev + 4)
      · rw [if_pos c6, if_pos c6]
        refine ⟨fun h => ?_, fun _ => ⟨rfl, rfl⟩⟩
        exfalso
        rcases h.2.2.1 with h | h
        · exact c2 h.1
        · exact h.2 c6.symm
      rw [if_neg c6, if_neg c6]
      by_cases c4 : word buf prev ≠ word buf (curr + 8)
      · rw [if_pos c4, if_pos c4]
        refine ⟨fun h => ?_, fun _ => ⟨rfl, rfl⟩⟩
        exact absurd h.2.2.2.symm c4
      rw [if_neg c4, if_neg c4]
      refine ⟨fun _ => ⟨rfl, rfl⟩, fun h => ?_⟩
      exact absurd ⟨c1a, c1b, Or.inr ⟨c5, fun hh => c6 hh.symm⟩, (not_not.1 c4).symm⟩ h
    · rw [if_neg c5, if_neg c5]
      refine ⟨fun h => ?_, fun _ => ⟨rfl, rfl⟩⟩
      exfalso
      rcases h.2.2.1 with h | h
      · exact c2 h.1
      · exact c5 h.1

/-- The walk from an atom `curr` that lies `d` bytes before the end atom: every atom that it
visits lies before the end atom, the loop is left at the end atom or by `return false`, and the
iteration budget is not used up. -/
theorem validate_walk_bounds (buf : Buffer) (N : Nat) (hlen : buf.length = N)
    (hN : N < 2 ^ 32) :
    ∀ fuel d curr prev, d + 1 < fuel → curr + d + 16 = N → prev < curr → word buf prev ≠ 0 →
      ∃ visited exit, validate_walk buf fuel d curr prev = .ok (visited, exit) ∧
        (∀ o ∈ visited, curr ≤ o ∧ o + 16 < N) ∧ (∀ c, exit = some c → c = N - 16) ∧
        validate_loop buf (N - 16) fuel d curr prev = .ok exit.isSome := by
  intro fuel
  induction fuel with
  | zero => intro d curr prev h; omega
  | succ fuel ih =>
    intro d curr prev hf hinv hpc hp
    by_cases h0 : 0 < d
    · obtain ⟨s1, s2⟩ := validate_walk_step buf (N - 16) fuel d curr prev h0 (by omega) (by omega)
      by_cases hC : passes buf d curr prev
      · obtain ⟨w1, w2⟩ := s1 hC
        rw [w1, w2]
        by_cases hz : word buf curr = 0
        · rw [hz, Nat.add_zero, sub32_eq _ _ (Nat.zero_le _) (by omega), Nat.sub_zero]
          cases fuel with
          | zero => omega
          | succ f =>
            obtain ⟨_, t2⟩ := validate_walk_step buf (N - 16) f d curr curr h0 (by omega)
              (by omega)
            have hn : ¬ passes buf d curr curr := by
              intro hh
              rcases hh.2.2.1 with h | h
              · have := hh.2.2.2
                rw [hC.2.2.2, hz] at this
                exact hp this
              · exact h.2 h.1
            obtain ⟨u1, u2⟩ := t2 hn
            rw [u1, u2]
            refine ⟨[curr, curr], none, rfl, fun o ho => ?_, fun c hc => ?_, rfl⟩
            · simp only [List.mem_cons, List.mem_singleton, List.not_mem_nil, or_false,
                or_self] at ho
              omega
            · cases hc
        · have hle := hC.2.1
          obtain ⟨visited, exit, v1, v2, v3, v4⟩ := ih (d - word buf curr) (curr + word buf curr)
            curr (by omega) (by omega) (by omega) hz
          rw [sub32_eq _ _ hle (by omega), v1, v4, Outcome.ok_bind]
          refine ⟨curr :: visited, exit, rfl, fun o ho => ?_, v3, rfl⟩
          rcases List.mem_cons.mp ho with rfl | ho
          · omega
          · have := v2 o ho
            omega
      · obtain ⟨w1, w2⟩ := s2 hC
        rw [w1, w2]
        refine ⟨[curr], none, rfl, fun o ho => ?_, fun c hc => ?_, rfl⟩
        · rw [List.mem_singleton] at ho
          omega
        · cases hc
    · have hd0 : d = 0 := by omega
      subst hd0
      rw [validate_loop_zero_distance, validate_walk, if_neg (by omega)]
      refine ⟨[], some curr, rfl, fun o ho => ?_, fun c hc => ?_, ?_⟩
      · cases ho
      · cases hc
        omega
      · have e : curr = N - 16 := by omega
        rw [e]
        simp

/-- The function `valid_data` on a header that lies in the buffer returns. -/
theorem valid_data_returns (base : Nat) (buf : Buffer) (a : Nat) (h : a + 12 ≤ buf.length) :
    ∃ b, valid_data base buf a = .ok b := by
  unfold valid_data Atom.identifier Atom.length Atom.previous
  rw [load32_ok buf (a + 4) (by omega), load32_ok buf a (by omega),
    load32_ok buf (a + 8) (by omega)]
  simp only [Outcome.ok_bind]
  split_ifs <;> exact ⟨_, rfl⟩

/-- C37: a buffer of `contents_length = N` bytes whose first word, the length of the data atom,
is at most `N - 16`.  The function `validate_layout` returns: no load of it lies outside the
`N` bytes.  When the data atom has a length of at least 16, which `valid_data` tests before the
loop is entered, the loop of `validate_layout` visits only atoms `o` with `o + 16 < N`, from
the end of the data atom on, and is left by `return false` or with `curr` at the end atom
`N - 16`: the result of the loop with the test `curr != end` after it is `true` exactly when
the loop is not left by `return false`. -/
theorem validate_layout_in_bounds (base N : Nat) (buf : Buffer) (hlen : buf.length = N)
    (hN : N < 2 ^ 32) (hD : word buf 0 + 16 ≤ N) :
    (∃ b, validate_layout base buf N = .ok b) ∧
    (16 ≤ word buf 0 → ∃ visited exit,
      validate_walk buf (N - word buf 0 - 16 + 2) (N - word buf 0 - 16) (word buf 0) 0 =
        .ok (visited, exit) ∧
      (∀ o ∈ visited, word buf 0 ≤ o ∧ o + 16 < N) ∧ (∀ c, exit = some c → c = N - 16) ∧
      validate_loop buf (N - 16) (N - word buf 0 - 16 + 2) (N - word buf 0 - 16) (word buf 0) 0 =
        .ok exit.isSome) := by
  have hw : 16 ≤ word buf 0 → ∃ visited exit,
      validate_walk buf (N - word buf 0 - 16 + 2) (N - word buf 0 - 16) (word buf 0) 0 =
        .ok (visited, exit) ∧
      (∀ o ∈ visited, word buf 0 ≤ o ∧ o + 16 < N) ∧ (∀ c, exit = some c → c = N - 16) ∧
      validate_loop buf (N - 16) (N - word buf 0 - 16 + 2) (N - word buf 0 - 16) (word buf 0) 0 =
        .ok exit.isSome := fun h16 =>
    validate_walk_bounds buf N hlen hN _ _ _ _ (by omega) (by omega) (by omega) (by omega)
  refine ⟨?_, hw⟩
  unfold validate_layout
  by_cases c0 : (!valid_alignment_and_length base N) = true
  · exact ⟨false, by rw [if_pos c0]; rfl⟩
  rw [if_neg c0]
  dsimp only
  have h32 : 32 ≤ N := by
    have : valid_alignment_and_length base N = true := by
      cases hh : valid_alignment_and_length base N
      · rw [hh] at c0
        exact absurd rfl c0
      · rfl
    exact ((valid_alignment_and_length_iff base N).mp this).2.2
  obtain ⟨vd, hv⟩ := valid_data_returns base buf 0 (by omega)
  cases vd with
  | false => exact ⟨false, by rw [hv]; rfl⟩
  | true =>
    obtain ⟨_, _, _, _, d4, _⟩ := valid_data_eq_ok_true base buf 0 hv
    rw [hv]
    simp only [Outcome.ok_bind, Bool.not_true, Bool.false_eq_true, if_false, Atom.identifier,
      Atom.length]
    unfold atom_header_length
    rw [sub32_eq N 16 (by omega) hN, Nat.zero_add, load32_ok buf (N - 16 + 4) (by omega),
      load32_ok buf (N - 16) (by omega), load32_ok buf 0 (by omega)]
    simp only [Outcome.ok_bind]
    by_cases c1 : AtomID.end_ ≠ word buf (N - 16 + 4)
    · exact ⟨false, by rw [if_pos c1]; rfl⟩
    rw [if_neg c1]
    by_cases c2 : (!((16 : Nat) == word buf (N - 16))) = true
    · exact ⟨false, by rw [if_pos c2]; rfl⟩
    rw [if_neg c2]
    have e16 : word buf (N - 16) = 16 := by
      cases hh : ((16 : Nat) == word buf (N - 16))
      · rw [hh] at c2
        exact absurd rfl c2
      · exact (beq_iff_eq.mp hh).symm
    obtain ⟨visited, exit, _, _, _, v4⟩ := hw d4
    rw [e16, sub32_eq N _ (by omega) hN, sub32_eq _ 16 (by omega) (by omega), Nat.zero_add, v4]
    exact ⟨_, rfl⟩

theorem validate_layout_in_bounds_witness :
    sample_layout.length = 96 ∧ word sample_layout 0 + 16 ≤ 96 ∧
    validate_layout 0 sample_layout 96 = .ok true ∧
    validate_walk sample_layout (96 - 16 - 16 + 2) (96 - 16 - 16) 16 0 =
      .ok ([16, 48], some 80) ∧
    ∃ visited exit,
      validate_walk sample_layout (96 - word sample_layout 0 - 16 + 2)
        (96 - word sample_layout 0 - 16) (word sample_layout 0) 0 = .ok (visited, exit) ∧
      (∀ o ∈ visited, word sample_layout 0 ≤ o ∧ o + 16 < 96) ∧
      (∀ c, exit = some c → c = 96 - 16) := by
  obtain ⟨_, h⟩ := validate_layout_in_bounds 0 96 sample_layout (by decide) (by decide)
    (by decide)
  obtain ⟨visited, exit, h1, h2, h3, _⟩ := h (by decide)
  exact ⟨by decide, by decide, by decide, by decide, visited, exit, h1, h2, h3⟩

/-! ## A grow into a free atom of the exact length -/

set_option maxRecDepth 100000 in
/-- C32 (the code departs from it): on the 128 byte buffer `sample_exact_fit`, which
`validate_layout` accepts, the vector atom `V` at offset 16 has the length 32, the free atom
`F` at offset 48 has the length 32, and the atom after `F`, at offset 80, is a reference atom
with the header `{32, 'refr', 32, 0}`.  The resize of `V` to 48 bytes of contents needs the
length 64, an extension of 32 bytes, the whole of `F`: the call returns `V` with the length
64, and the header at offset 80 is `{0, 'free', 64, 0}` afterwards, its length and its
identifier lost; `validate_layout` rejects the buffer.  The resize of `V` to 32 bytes of
contents needs an extension of 16 bytes, less than `F`: the call returns `V` with the length
48, a free atom of length 16 follows at offset 64, and the header at offset 80 is
`{32, 'refr', 16, 0}`, only `previous` changed; `validate_layout` accepts the buffer. -/
theorem exact_fit_grow_clobbers_follower :
    ((do
      let v0 ← validate_layout 0 sample_exact_fit 128
      let r ← detail.reserve_resize sample_exact_fit 0 16 48
      let v1 ← validate_layout 0 r.2 128
      let c ← detail.reserve_resize sample_exact_fit 0 16 32
      let v2 ← validate_layout 0 c.2 128
      pure [v0.toNat, word sample_exact_fit 16, word sample_exact_fit 48,
        word sample_exact_fit 52, word sample_exact_fit 80, word sample_exact_fit 84,
        word sample_exact_fit 88, word sample_exact_fit 92, detail.get_allocation_length 48,
        r.1, word r.2 16, word r.2 80, word r.2 84, word r.2 88, word r.2 92, v1.toNat,
        detail.get_allocation_length 32, c.1, word c.2 16, word c.2 64, word c.2 68,
        word c.2 80, word c.2 84, word c.2 88, word c.2 92, v2.toNat]) : Outcome (List Nat)) =
      .ok [1, 32, 32, AtomID.free, 32, AtomID.reference, 32, 0, 64,
        16, 64, 0, AtomID.free, 64, 0, 0,
        48, 16, 48, 16, AtomID.free, 32, AtomID.reference, 16, 0, 1] := by
  decide

/-! ## Sequences of reserve and free calls -/

theorem allocated_append (M2 : List (Nat × Nat)) :
    ∀ (M1 : List (Nat × Nat)) (off : Nat),
      allocated off (M1 ++ M2) = allocated off M1 ++ allocated (off + msum M1) M2 := by
  intro M1
  induction M1 with
  | nil =>
    intro off
    rw [List.nil_append, msum_nil, Nat.add_zero]
    rfl
  | cons x rest ih =>
    intro off
    rw [List.cons_append, allocated, allocated, ih, msum_cons, Nat.add_assoc]
    by_cases h : x.2 = AtomID.free
    · rw [if_pos h, if_pos h]
    · rw [if_neg h, if_neg h, List.cons_append]

theorem allocated_free_after (M : List (Nat × Nat)) (off : Nat) :
    allocated (off + (free_after M).1) (free_after M).2 = allocated off M := by
  cases M with
  | nil => rfl
  | cons x rest =>
    rw [free_after_cons, allocated]
    by_cases h : x.2 = AtomID.free
    · rw [if_pos h, if_pos h]
    · rw [if_neg h, if_neg h]
      show allocated (off + 0) (x :: rest) = _
      rw [Nat.add_zero, allocated, if_neg h]

theorem allocated_free_before (M : List (Nat × Nat)) (off : Nat) :
    allocated off (free_before M).2 = allocated off M := by
  rcases nil_or_snoc M with rfl | ⟨M0, p, rfl⟩
  · rfl
  · rw [free_before_concat, allocated_append]
    by_cases h : p.2 = AtomID.free
    · rw [if_pos h, allocated, if_pos h]
      exact (List.append_nil _).symm
    · rw [if_neg h, allocated_append]

theorem allocated_remainder (A L off : Nat) (M : List (Nat × Nat)) (h : A ≤ L) :
    allocated (off + A) (remainder A L ++ M) = allocated (off + L) M := by
  unfold remainder
  by_cases hA : A < L
  · rw [if_pos hA, List.singleton_append, allocated, if_pos rfl]
    have e : off + A + (L - A, AtomID.free).1 = off + L := by
      dsimp only
      omega
    rw [e]
  · rw [if_neg hA, List.nil_append]
    have e : A = L := by omega
    rw [e]

theorem mem_allocated (M : List (Nat × Nat)) :
    ∀ (off d : Nat), d ∈ allocated off M →
      ∃ M1 x M2, M = M1 ++ x :: M2 ∧ d = off + msum M1 ∧ x.2 ≠ AtomID.free := by
  induction M with
  | nil =>
    intro off d h
    cases h
  | cons x rest ih =>
    intro off d h
    rw [allocated] at h
    by_cases hx : x.2 = AtomID.free
    · rw [if_pos hx] at h
      obtain ⟨M1, y, M2, e1, e2, e3⟩ := ih _ _ h
      refine ⟨x :: M1, y, M2, by rw [e1]; rfl, ?_, e3⟩
      rw [e2, msum_cons, Nat.add_assoc]
    · rw [if_neg hx] at h
      rcases List.mem_cons.mp h with rfl | h
      · exact ⟨[], x, rest, rfl, rfl, hx⟩
      · obtain ⟨M1, y, M2, e1, e2, e3⟩ := ih _ _ h
        refine ⟨x :: M1, y, M2, by rw [e1]; rfl, ?_, e3⟩
        rw [e2, msum_cons, Nat.add_assoc]

theorem allocated_eq_nil (M : List (Nat × Nat)) :
    ∀ (off : Nat), allocated off M = [] → ∀ x ∈ M, x.2 = AtomID.free := by
  induction M with
  | nil =>
    intro off _ x hx
    cases hx
  | cons y rest ih =>
    intro off h x hx
    rw [allocated] at h
    by_cases hy : y.2 = AtomID.free
    · rw [if_pos hy] at h
      rcases List.mem_cons.mp hx with rfl | hx
      · exact hy
      · exact ih _ h x hx
    · rw [if_neg hy] at h
      cases h

/-- Atoms that are all free and of which no two lie next to each other are at most one. -/
theorem all_free_short (M : List (Nat × Nat)) (hf : ∀ x ∈ M, x.2 = AtomID.free)
    (hc : List.Chain' apart M) : M = [] ∨ ∃ L, M = [(L, AtomID.free)] := by
  cases M with
  | nil => exact Or.inl rfl
  | cons x rest =>
    right
    cases rest with
    | nil =>
      refine ⟨x.1, ?_⟩
      have := hf x (List.mem_cons_self _ _)
      rw [← this]
    | cons y rest2 =>
      exfalso
      have h1 := hf x (List.mem_cons_self _ _)
      have h2 := hf y (List.mem_cons_of_mem _ (List.mem_cons_self _ _))
      exact (List.chain'_cons.mp hc).1 ⟨h1, h2⟩

/-- What a call of `detail::reserve` that returns does to a layout. -/
theorem reserve_step (buf : Buffer) (N D : Nat) (M : List (Nat × Nat)) (n id o : Nat)
    (buf2 : Buffer) (hl : Layout buf N D M) (hvm : ValidM M) (hn1 : 1 ≤ n)
    (hn2 : n ≤ 0xFFFFFFE0) (hid : id = AtomID.vector ∨ id = AtomID.reference)
    (hok : detail.reserve buf 0 n id = .ok (o, buf2)) :
    ∃ M1 L M2, M = M1 ++ (L, AtomID.free) :: M2 ∧ o = D + msum M1 ∧
      detail.get_allocation_length n ≤ L ∧
      Layout buf2 N D (M1 ++ (detail.get_allocation_length n, id) ::
        (remainder (detail.get_allocation_length n) L ++ M2)) ∧
      ValidM (M1 ++ (detail.get_allocation_length n, id) ::
        (remainder (detail.get_allocation_length n) L ++ M2)) ∧
      (Linked buf N D M → Linked buf2 N D (M1 ++ (detail.get_allocation_length n, id) ::
        (remainder (detail.get_allocation_length n) L ++ M2))) := by
  obtain ⟨g1, g2, g3, g4, g5⟩ := get_allocation_length_eq n hn1 hn2
  have h16 := sixteen_le_of_tagged hvm.1
  have hid32 : id < 2 ^ 32 := by
    rcases hid with rfl | rfl <;> decide
  unfold detail.reserve at hok
  rcases fit_cases M hvm (detail.get_allocation_length n) with hno | ⟨M1, L, M2, rfl, hfit, hskip⟩
  · rw [layout_reserve_new_none buf N _ M _ id hl h16 hno] at hok
    cases hok
  · obtain ⟨b1, r1, r2, _, r4⟩ := layout_reserve_new buf N _ M1 M2 L _ id hl
      (fun y hy => ⟨h16 y hy, (hvm.1 y hy).2.2.1, tagged_ne_end (hvm.1 y hy)⟩)
      (fun y hy => (hskip y hy).2) (by omega) g3 hfit hid32
    rw [r1] at hok
    cases hok
    exact ⟨M1, L, M2, rfl, rfl, hfit, r2, validM_reserve M1 M2 L _ id hvm hid g2 g3, r4⟩

/-- The layout that `format` leaves. -/
theorem layout_of_format (base N S : Nat) (buf : Buffer) (hlen : buf.length = N)
    (hN : N < 2 ^ 32) (hbase : base % 16 = 0) (hal : N % 16 = 0)
    (hsz : aligned_size S + 32 ≤ N) :
    ∃ buf2, format base buf N S = .ok (0, buf2) ∧
      Layout buf2 N (16 + aligned_size S) (remainder 0 (N - (16 + aligned_size S) - 16)) ∧
      ValidM (remainder 0 (N - (16 + aligned_size S) - 16)) ∧
      Linked buf2 N (16 + aligned_size S) (remainder 0 (N - (16 + aligned_size S) - 16)) := by
  obtain ⟨buf2, f1, f2, f3, f4, f5, _, _, f8, f9, f10, f11⟩ :=
    format_spec base N S buf hlen hN hbase hal hsz
  have hm := aligned_size_mod S
  refine ⟨buf2, f1, ?_⟩
  unfold remainder
  by_cases h : 0 < N - (16 + aligned_size S) - 16
  · rw [if_pos h]
    obtain ⟨g1, g2, g3⟩ := f11 (by omega)
    refine ⟨⟨f2, hN, hal, by omega, by omega, f3, f4, f5, f8, f9,
      ⟨by omega, by rw [g1]; dsimp only; omega, g2, g3, trivial⟩, ?_⟩, ⟨fun x hx => ?_, ?_⟩, ?_⟩
    · rw [msum_cons, msum_nil]
      dsimp only
      omega
    · rw [List.mem_singleton] at hx
      rw [hx]
      refine ⟨Or.inr (Or.inr rfl), ?_, ?_, fun hh => ?_⟩
      · dsimp only
        omega
      · dsimp only
        omega
      · rcases hh with hh | hh
        · have h2 : AtomID.free = AtomID.vector := hh
          exact absurd h2 (by decide)
        · have h2 : AtomID.free = AtomID.reference := hh
          exact absurd h2 (by decide)
    · exact List.chain'_singleton _
    · unfold Linked last_len last_len
      rw [f10, if_neg (by omega)]
      dsimp only
      omega
  · rw [if_neg h]
    refine ⟨⟨f2, hN, hal, by omega, by omega, f3, f4, f5, f8, f9, trivial, ?_⟩,
      ⟨fun x hx => (by cases hx), List.chain'_nil⟩, ?_⟩
    · rw [msum_nil]
      omega
    · unfold Linked last_len
      rw [f10, if_pos (by omega)]
      omega

/-- Two buffers that hold the same atoms and the same `previous` in the end atom have the same
chain of atoms, with the same lengths, identifiers and `previous` fields. -/
theorem chain_eq_of_layout (b1 b2 : Buffer) (N D : Nat) (M : List (Nat × Nat))
    (h1 : Layout b1 N D M) (h2 : Layout b2 N D M) (h16 : ∀ y ∈ M, 16 ≤ y.1)
    (he : word b1 (N - 16 + 8) = word b2 (N - 16 + 8)) :
    atoms b1 N = atoms b2 N ∧ ∀ a ∈ atoms b1 N, word b1 a = word b2 a ∧
      word b1 (a + 4) = word b2 (a + 4) ∧ word b1 (a + 8) = word b2 (a + 8) := by
  rw [atoms_of_layout b1 N D M h1 h16, atoms_of_layout b2 N D M h2 h16]
  refine ⟨rfl, fun a ha => ?_⟩
  rcases List.mem_cons.mp ha with rfl | ha
  · obtain ⟨_, _, _, _, _, a1, a2, a3, _⟩ := h1
    obtain ⟨_, _, _, _, _, c1, c2, c3, _⟩ := h2
    exact ⟨by rw [a1, c1], by rw [a2, c2], by rw [a3, c3]⟩
  rcases List.mem_append.mp ha with ha | ha
  · obtain ⟨M1, x, M2, rfl, rfl⟩ := mem_offsets M D a ha
    obtain ⟨_, _, a1, a2, a3, _⟩ := layout_split b1 N D M1 M2 x h1
    obtain ⟨_, _, c1, c2, c3, _⟩ := layout_split b2 N D M1 M2 x h2
    exact ⟨by rw [a1, c1], by rw [a2, c2], by rw [a3, c3]⟩
  · rw [List.mem_singleton] at ha
    subst ha
    obtain ⟨_, _, _, _, _, _, _, _, a1, a2, _⟩ := h1
    obtain ⟨_, _, _, _, _, _, _, _, c1, c2, _⟩ := h2
    exact ⟨by rw [a1, c1], by rw [a2, c2], he⟩

/-- The calls of `reserve_each` on a layout with the end atom linked: what they leave is such
a layout again, and its atoms that are not free are the ones before and the returned ones. -/
theorem reserve_each_layout (N D : Nat) :
    ∀ (reqs : List (Nat × Nat)) (buf : Buffer) (M : List (Nat × Nat)) (os : List Nat)
      (buf1 : Buffer), Layout buf N D M → ValidM M → Linked buf N D M →
      (∀ q ∈ reqs, 1 ≤ q.1 ∧ q.1 ≤ 0xFFFFFFE0 ∧
        (q.2 = AtomID.vector ∨ q.2 = AtomID.reference)) →
      reserve_each reqs buf = .ok (os, buf1) →
      ∃ M1, Layout buf1 N D M1 ∧ ValidM M1 ∧ Linked buf1 N D M1 ∧
        (allocated D M1).Perm (os ++ allocated D M) := by
  intro reqs
  induction reqs with
  | nil =>
    intro buf M os buf1 hl hvm hk _ hok
    cases hok
    exact ⟨M, hl, hvm, hk, List.Perm.refl _⟩
  | cons q rest ih =>
    intro buf M os buf1 hl hvm hk hq hok
    rw [reserve_each, bind_eq_ok] at hok
    obtain ⟨r, h1, h2⟩ := hok
    rw [bind_eq_ok] at h2
    obtain ⟨rs, h3, h4⟩ := h2
    cases h4
    obtain ⟨q1, q2, q3⟩ := hq q (List.mem_cons_self _ _)
    obtain ⟨M1, L, M2, rfl, e2, e3, s1, s2, s3⟩ :=
      reserve_step buf N D M q.1 q.2 r.1 r.2 hl hvm q1 q2 q3 h1
    obtain ⟨M3, t1, t2, t3, t4⟩ := ih r.2 _ rs.1 rs.2 s1 s2 (s3 hk)
      (fun x hx => hq x (List.mem_cons_of_mem _ hx)) h3
    have eA : allocated D (M1 ++ (detail.get_allocation_length q.1, q.2) ::
        (remainder (detail.get_allocation_length q.1) L ++ M2)) =
        allocated D M1 ++ (D + msum M1) :: allocated (D + msum M1 + L) M2 := by
      rw [allocated_append, allocated]
      dsimp only
      rw [if_neg (free_ne_vector_reference q3), allocated_remainder _ _ _ _ e3]
    have eB : allocated D (M1 ++ (L, AtomID.free) :: M2) =
        allocated D M1 ++ allocated (D + msum M1 + L) M2 := by
      rw [allocated_append, allocated]
      dsimp only
      rw [if_pos rfl]
    rw [eA] at t4
    rw [eB, e2]
    refine ⟨M3, t1, t2, t3, t4.trans ?_⟩
    rw [← List.append_assoc, ← List.append_assoc]
    exact List.perm_middle

/-- The atoms that are not free after `detail::free` of one of them. -/
theorem allocated_free (D : Nat) (M1 M2 : List (Nat × Nat)) (L t : Nat)
    (ht : t ≠ AtomID.free) :
    allocated D (M1 ++ (L, t) :: M2) =
      allocated D M1 ++ (D + msum M1) :: allocated (D + msum M1 + L) M2 ∧
    allocated D ((free_before M1).2 ++
      ((free_before M1).1 + (L + (free_after M2).1), AtomID.free) :: (free_after M2).2) =
      allocated D M1 ++ allocated (D + msum M1 + L) M2 := by
  constructor
  · rw [allocated_append, allocated]
    dsimp only
    rw [if_neg ht]
  · rw [allocated_append, allocated]
    dsimp only
    rw [if_pos rfl, allocated_free_before]
    have e : D + msum (free_before M1).2 + ((free_before M1).1 + (L + (free_after M2).1)) =
        D + msum M1 + L + (free_after M2).1 := by
      have := free_before_msum M1
      omega
    rw [e, allocated_free_after]

/-- The calls of `free_each` on the atoms that are not free, in any order, leave a layout in
which every atom is free. -/
theorem free_each_layout (N D : Nat) :
    ∀ (ds : List Nat) (buf : Buffer) (M : List (Nat × Nat)),
      Layout buf N D M → ValidM M → Linked buf N D M → (allocated D M).Perm ds →
      ∃ buf2 M2, free_each ds buf = .ok buf2 ∧ Layout buf2 N D M2 ∧ ValidM M2 ∧
        Linked buf2 N D M2 ∧ allocated D M2 = [] := by
  intro ds
  induction ds with
  | nil =>
    intro buf M hl hvm hk hp
    exact ⟨buf, M, rfl, hl, hvm, hk, List.Perm.eq_nil hp⟩
  | cons d rest ih =>
    intro buf M hl hvm hk hp
    have hd : d ∈ allocated D M := hp.symm.subset (List.mem_cons_self _ _)
    obtain ⟨M1, x, M2, rfl, rfl, hx⟩ := mem_allocated M D d hd
    have h16 := sixteen_le_of_tagged hvm.1
    obtain ⟨buf2, q1, q2, _, q4⟩ := layout_free buf N D M1 M2 x.1 x.2 hl h16
    obtain ⟨a1, a2⟩ := allocated_free D M1 M2 x.1 x.2 hx
    have hp2 : (allocated D ((free_before M1).2 ++
        ((free_before M1).1 + (x.1 + (free_after M2).1), AtomID.free) ::
          (free_after M2).2)).Perm rest := by
      rw [a2]
      have : (allocated D (M1 ++ (x.1, x.2) :: M2)).Perm ((D + msum M1) :: rest) := hp
      rw [a1] at this
      exact (List.perm_middle.symm.trans this).cons_inv
    obtain ⟨buf3, M3, r1, r2, r3, r4, r5⟩ := ih buf2 _ q2 (validM_free M1 M2 x.1 x.2 hvm)
      (q4 hk) hp2
    refine ⟨buf3, M3, ?_, r2, r3, r4, r5⟩
    rw [free_each, q1, Outcome.ok_bind]
    exact r1

/-- C36 (as stated it does not hold): `format` of a buffer of 96 bytes with data contents of
size 0 leaves a data atom of length 16, a free atom of length 64 at offset 16 and the end atom
at offset 80.  The call `detail::reserve(data, 0xFFFFFFF0, vector)` computes the allocation
length `16 + 0xFFFFFFF0` in `uint32_t`, which is 0, and returns the atom at offset 16; after
`detail::free` of that atom the header at offset 16 reads `{0, 'free', 0}` and the walk from
the data atom does not get past it: the chain is not the one that `format` left. -/
theorem full_coalescing_wraps :
    ((do
      let f ← format 0 (List.replicate 96 0) 96 0
      let r ← reserve_each [(0xFFFFFFF0, AtomID.vector)] f.2
      let b ← free_each r.1 r.2
      pure [[word f.2 16, word f.2 20, word f.2 24, word f.2 88], atoms f.2 96,
        [detail.get_allocation_length 0xFFFFFFF0], r.1,
        [word b 16, word b 20, word b 24, word b 88], (atoms b 96).take 4]) :
        Outcome (List (List Nat))) =
      .ok [[64, AtomID.free, 16, 64], [0, 16, 80], [0], [16],
        [0, AtomID.free, 0, 64], [0, 16, 16, 16]] := by
  decide

/-- C36 (amended): `format` of a buffer of `N` bytes returns when the address and `N` are
multiples of 16 and `N` is at least `aligned_size(data_contents_size) + 32`.  After any calls
of `detail::reserve(data, n, identifier)` that return, each with `1 ≤ n ≤ 0xFFFFFFE0` and the
identifier `vector` or `reference`, the calls of `detail::free` on the atoms that they have
returned, in any order, return, and the buffer then has the atoms that `format` left, each
with the length, the identifier and the `previous` that `format` gave it: when `format` left
a free atom, the data atom, one free atom of length `N - data.length - 16` with
`previous = data.length`, and the end atom with that length as `previous`.
`validate_layout` accepts the buffer. -/
theorem full_coalescing (base N S : Nat) (buf0 : Buffer) (hlen : buf0.length = N)
    (hN : N < 2 ^ 32) (hbase : base % 16 = 0) (hal : N % 16 = 0)
    (hsz : aligned_size S + 32 ≤ N) :
    ∃ buf, format base buf0 N S = .ok (0, buf) ∧ word buf 0 = 16 + aligned_size S ∧
      ∀ (reqs : List (Nat × Nat)) (os ds : List Nat) (buf1 : Buffer),
        (∀ q ∈ reqs, 1 ≤ q.1 ∧ q.1 ≤ 0xFFFFFFE0 ∧
          (q.2 = AtomID.vector ∨ q.2 = AtomID.reference)) →
        reserve_each reqs buf = .ok (os, buf1) → ds.Perm os →
        ∃ buf2, free_each ds buf1 = .ok buf2 ∧ atoms buf2 N = atoms buf N ∧
          (∀ a ∈ atoms buf N, word buf2 a = word buf a ∧
            word buf2 (a + 4) = word buf (a + 4) ∧ word buf2 (a + 8) = word buf (a + 8)) ∧
          (word buf 0 + 16 < N →
            atoms buf2 N = [0, word buf 0, N - 16] ∧ word buf2 0 = word buf 0 ∧
            word buf2 (word buf 0) = N - word buf 0 - 16 ∧
            word buf2 (word buf 0 + 4) = AtomID.free ∧
            word buf2 (word buf 0 + 8) = word buf 0 ∧
            word buf2 (N - 16 + 8) = N - word buf 0 - 16) ∧
          validate_layout base buf2 N = .ok true := by
  obtain ⟨buf, f1, f2, f3, f4⟩ := layout_of_format base N S buf0 hlen hN hbase hal hsz
  have hw0 : word buf 0 = 16 + aligned_size S := f2.2.2.2.2.2.1
  refine ⟨buf, f1, hw0, fun reqs os ds buf1 hq hres hperm => ?_⟩
  rw [hw0]
  have ha0 : allocated (16 + aligned_size S) (remainder 0 (N - (16 + aligned_size S) - 16)) =
      [] := by
    unfold remainder
    by_cases h : 0 < N - (16 + aligned_size S) - 16
    · rw [if_pos h, allocated, if_pos rfl]
      rfl
    · rw [if_neg h]
      rfl
  obtain ⟨M1, s1, s2, s3, s4⟩ := reserve_each_layout N _ reqs buf _ os buf1 f2 f3 f4 hq hres
  rw [ha0, List.append_nil] at s4
  obtain ⟨buf2, M2, r1, r2, r3, r4, r5⟩ := free_each_layout N _ ds buf1 M1 s1 s2 s3
    (s4.trans hperm.symm)
  have hM : M2 = remainder 0 (N - (16 + aligned_size S) - 16) := by
    have hsum := r2.2.2.2.2.2.2.2.2.2.2.2
    unfold remainder
    rcases all_free_short M2 (allocated_eq_nil M2 _ r5) r3.2 with rfl | ⟨L, rfl⟩
    · rw [msum_nil] at hsum
      rw [if_neg (by omega)]
    · rw [msum_cons, msum_nil] at hsum
      have := (r3.1 _ (List.mem_singleton_self _)).2.1
      dsimp only at hsum this
      rw [if_pos (by omega)]
      have e : N - (16 + aligned_size S) - 16 - 0 = L := by omega
      rw [e]
  rw [hM] at r2 r3 r4
  have h16 := sixteen_le_of_tagged f3.1
  have he : word buf2 (N - 16 + 8) = word buf (N - 16 + 8) := by
    unfold Linked at r4 f4
    rw [r4, f4]
  obtain ⟨c1, c2⟩ := chain_eq_of_layout buf2 buf N _ _ r2 f2 h16 he
  refine ⟨buf2, r1, c1, fun a ha => c2 a (by rw [c1]; exact ha), fun hfree => ?_,
    validate_of_layout base N _ buf2 _ hbase r2 r3⟩
  have hr : remainder 0 (N - (16 + aligned_size S) - 16) =
      [(N - (16 + aligned_size S) - 16, AtomID.free)] := by
    unfold remainder
    rw [if_pos (by omega), Nat.sub_zero]
  rw [hr] at r2 h16 r4
  have hat := atoms_of_layout buf2 N _ _ r2 h16
  obtain ⟨_, _, t1, t2, t3, _⟩ := layout_split buf2 N _ [] [] _ r2
  rw [msum_nil, Nat.add_zero] at t1 t2 t3
  unfold Linked last_len last_len at r4
  exact ⟨hat, r2.2.2.2.2.2.1, t1, t2, t3, r4⟩

theorem full_coalescing_witness :
    format 0 (List.replicate 96 0) 96 0 = .ok (0, sample_free_layout) ∧
    ∃ a buf2, reserve_each [(1, AtomID.vector), (1, AtomID.reference)] sample_free_layout =
        .ok a ∧ a.1 = [16, 48] ∧ free_each [48, 16] a.2 = .ok buf2 ∧
      atoms buf2 96 = [0, 16, 80] ∧ word buf2 16 = 64 ∧ word buf2 (16 + 4) = AtomID.free ∧
      word buf2 (96 - 16 + 8) = 64 := by
  have hf : format 0 (List.replicate 96 0) 96 0 = .ok (0, sample_free_layout) := by decide
  obtain ⟨buf, h1, h2, h3⟩ := full_coalescing 0 96 0 (List.replicate 96 0) (by decide)
    (by decide) (by decide) (by decide) (by decide)
  rw [hf] at h1
  cases h1
  obtain ⟨a, ha, hb⟩ := (bind_eq_ok _ _ _).mp
    (by decide : (reserve_each [(1, AtomID.vector), (1, AtomID.reference)]
      sample_free_layout >>= fun a => (pure a.1 : Outcome (List Nat))) = .ok [16, 48])
  have ea : a.1 = [16, 48] := Outcome.ok.inj hb
  obtain ⟨buf2, k1, k2, _, k4, _⟩ := h3 [(1, AtomID.vector), (1, AtomID.reference)] a.1
    [48, 16] a.2
    (by decide) ha (by rw [ea]; exact List.Perm.swap 16 48 [])
  obtain ⟨m1, _, m3, m4, _, m6⟩ := k4 (by decide)
  exact ⟨hf, a, buf2, ha, ea, k1, m1, m3, m4, m6⟩

/-! ## Sequences of allowed calls -/

theorem validM_grow (Ma Mb : List (Nat × Nat)) (LV Lf A Lr : Nat)
    (hv : ValidM (Ma ++ (LV, AtomID.vector) :: (Lf, AtomID.free) :: Mb)) (hA1 : 32 ≤ A)
    (hA2 : A % 16 = 0) (hL1 : 16 ≤ Lr) (hL2 : Lr % 16 = 0) :
    ValidM (Ma ++ (A, AtomID.vector) :: (Lr, AtomID.free) :: Mb) := by
  rw [validM_mid] at hv ⊢
  obtain ⟨h1, h2, _, _, _⟩ := hv
  have e : ∀ (x : Nat), (x, AtomID.free) :: Mb = [] ++ (x, AtomID.free) :: Mb := fun _ => rfl
  rw [e, validM_mid] at h2 ⊢
  obtain ⟨k1, k2, _, k4, k5⟩ := h2
  refine ⟨h1, ⟨k1, k2, ⟨Or.inr (Or.inr rfl), hL1, hL2, fun hh => ?_⟩, k4, k5⟩,
    ⟨Or.inl rfl, by dsimp only; omega, hA2, fun _ => by dsimp only; omega⟩,
    fun a _ => apart_of_ne_right vector_ne_free, fun b _ => apart_of_ne_left vector_ne_free⟩
  rcases hh with hh | hh
  · have h2 : AtomID.free = AtomID.vector := hh
    exact absurd h2 (by decide)
  · have h2 : AtomID.free = AtomID.reference := hh
    exact absurd h2 (by decide)

/-- What a resize that returns does to a layout, the resize that grows the atom by exactly the
length of the free atom after it apart. -/
theorem resize_step (buf : Buffer) (N D : Nat) (Ma Mb : List (Nat × Nat)) (LV n o : Nat)
    (buf2 : Buffer) (hl : Layout buf N D (Ma ++ (LV, AtomID.vector) :: Mb))
    (hvm : ValidM (Ma ++ (LV, AtomID.vector) :: Mb)) (hn1 : 1 ≤ n) (hn2 : n ≤ 0xFFFFFFE0)
    (hex : ¬ (word buf (D + msum Ma + LV + 4) = AtomID.free ∧
      LV < detail.get_allocation_length n ∧
      detail.get_allocation_length n - LV = word buf (D + msum Ma + LV)))
    (hok : detail.reserve_resize buf 0 (D + msum Ma) n = .ok (o, buf2)) :
    ∃ M2, Layout buf2 N D M2 ∧ ValidM M2 := by
  obtain ⟨g1, g2, g3, g4, g5⟩ := get_allocation_length_eq n hn1 hn2
  have h16 := sixteen_le_of_tagged hvm.1
  have hV := hvm.1 _ (List.mem_append_right Ma (List.mem_cons_self _ _))
  have hLV2 : LV % 16 = 0 := hV.2.2.1
  obtain ⟨a1, a2, a3⟩ := atom_of_split buf N D Ma Mb _ hl h16
  obtain ⟨s1, s2, s3, _⟩ := layout_split buf N D Ma Mb _ hl
  dsimp only at a2 s3
  by_cases hsame : detail.get_allocation_length n = LV
  · rw [resize_same buf 0 _ n (by omega) (by rw [a2]; exact hsame)] at hok
    cases hok
    exact ⟨_, hl, hvm⟩
  by_cases hless : detail.get_allocation_length n < LV
  · obtain ⟨b, r1, r2, _⟩ := layout_shrink buf N D Ma Mb LV AtomID.vector n _ hl h16 rfl
      (by omega) (by omega)
    rw [r1] at hok
    cases hok
    exact ⟨_, r2, validM_shrink Ma Mb LV _ hvm g2 g3 (by omega)⟩
  have hgrow : LV < detail.get_allocation_length n := by omega
  by_cases hin : word buf (D + msum Ma + LV + 4) = AtomID.free ∧
      detail.get_allocation_length n - LV ≤ word buf (D + msum Ma + LV)
  · obtain ⟨_, fe, fc⟩ := layout_follower buf N D Ma Mb _ hl h16
    dsimp only at fe fc
    obtain ⟨Lf, Mb2, rfl⟩ : ∃ Lf Mb2, Mb = (Lf, AtomID.free) :: Mb2 := by
      cases Mb with
      | nil =>
        have := (fe rfl).2.2
        rw [hin.1] at this
        exact absurd this (by decide)
      | cons y rest =>
        obtain ⟨q1, q2, _⟩ := fc y rest rfl
        refine ⟨y.1, rest, ?_⟩
        rw [hin.1] at q2
        rw [q2]
    obtain ⟨q1, _, _⟩ := fc _ _ rfl
    dsimp only at q1
    have hF := hvm.1 (Lf, AtomID.free)
      (List.mem_append_right Ma (List.mem_cons_of_mem _ (List.mem_cons_self _ _)))
    have hLf2 : Lf % 16 = 0 := hF.2.2.1
    have hne : detail.get_allocation_length n - LV ≠ Lf := by
      intro hh
      exact hex ⟨hin.1, hgrow, by rw [q1]; exact hh⟩
    have hle : detail.get_allocation_length n - LV ≤ Lf := by
      rw [← q1]
      exact hin.2
    obtain ⟨b, r1, r2, _⟩ := layout_grow buf N D Ma Mb2 LV AtomID.vector Lf n hl h16
      (by omega) (by omega)
    rw [r1] at hok
    cases hok
    exact ⟨_, r2, validM_grow Ma Mb2 LV Lf _ _ hvm g2 g3 (by omega) (by omega)⟩
  · rcases fit_cases _ hvm (detail.get_allocation_length n) with
      hno | ⟨M1, L, M2, hM, hfit, hskip⟩
    · rw [resize_relocates_eq buf N D Ma Mb LV n hl h16 hgrow hin,
        layout_reserve_new_none buf N D _ _ AtomID.vector hl h16 hno] at hok
      cases hok
    · obtain ⟨buf3, P, Q, _, _, _, t1, t2, t3, _⟩ :=
        layout_relocate buf N D Ma Mb M1 M2 LV L n hl hvm hM hgrow hin hfit hskip
      rw [t1] at hok
      cases hok
      exact ⟨_, t2, t3⟩

/-- A call that is allowed and returns leaves a layout that `validate_layout` accepts. -/
theorem call_step (base N : Nat) (buf b : Buffer) (c : Call) (hlen : buf.length = N)
    (hN : N < 2 ^ 32) (hv : validate_layout base buf N = .ok true) (ha : c.allowed buf N)
    (hr : c.run buf = .ok b) : b.length = N ∧ validate_layout base b N = .ok true := by
  obtain ⟨hbase, M, hl, hvm⟩ := layout_of_validate base N buf hlen hN hv
  have h16 := sixteen_le_of_tagged hvm.1
  cases c with
  | reserve n id =>
    obtain ⟨h1, h2, h3⟩ := ha
    obtain ⟨r, hr1, hr2⟩ := (bind_eq_ok _ _ _).mp hr
    cases hr2
    obtain ⟨M1, L, M2, _, _, _, s1, s2, _⟩ :=
      reserve_step buf N _ M n id r.1 r.2 hl hvm h1 h2 h3 hr1
    exact ⟨s1.1, validate_of_layout base N _ _ _ hbase s1 s2⟩
  | resize v n =>
    obtain ⟨h1, h2, h3, h4, h5⟩ := ha
    obtain ⟨r, hr1, hr2⟩ := (bind_eq_ok _ _ _).mp hr
    cases hr2
    obtain ⟨Ma, Mb, hM, hv2⟩ := atom_split buf N _ M hl h16 v h1 (by rw [h2]; decide)
      (by rw [h2]; decide)
    rw [h2] at hM
    subst hM
    subst hv2
    obtain ⟨M2, s1, s2⟩ := resize_step buf N _ Ma Mb _ n r.1 r.2 hl hvm h3 h4 h5 hr1
    exact ⟨s1.1, validate_of_layout base N _ _ _ hbase s1 s2⟩
  | free d =>
    obtain ⟨h1, h2⟩ := ha
    obtain ⟨r, hr1, hr2⟩ := (bind_eq_ok _ _ _).mp hr
    cases hr2
    obtain ⟨Ma, Mb, hM, hv2⟩ := atom_split buf N _ M hl h16 d h1
      (by rcases h2 with h2 | h2 <;> rw [h2] <;> decide)
      (by rcases h2 with h2 | h2 <;> rw [h2] <;> decide)
    subst hM
    subst hv2
    obtain ⟨buf2, q1, q2, _, _⟩ := layout_free buf N _ Ma Mb _ _ hl h16
    rw [q1] at hr1
    cases hr1
    exact ⟨q2.1, validate_of_layout base N _ _ _ hbase q2 (validM_free Ma Mb _ _ hvm)⟩

/-- Calls that are allowed and return leave a layout that `validate_layout` accepts. -/
theorem calls_valid (base N : Nat) (hN : N < 2 ^ 32) :
    ∀ (calls : List Call) (buf buf2 : Buffer), buf.length = N →
      validate_layout base buf N = .ok true → Calls N calls buf buf2 →
      buf2.length = N ∧ validate_layout base buf2 N = .ok true := by
  intro calls
  induction calls with
  | nil =>
    intro buf buf2 hlen hv hc
    cases hc
    exact ⟨hlen, hv⟩
  | cons c rest ih =>
    intro buf buf2 hlen hv hc
    obtain ⟨ha, b, hr, hrest⟩ := hc
    obtain ⟨h1, h2⟩ := call_step base N buf b c hlen hN hv ha hr
    exact ih b buf2 h1 h2 hrest

/-- C31 (as stated it does not hold): `format` of a buffer of 48 bytes with data contents of
size 0 leaves a data atom of length 16 and a free atom of length 16 before the end atom, and
`validate_layout` accepts the buffer.  On the buffer that `format` leaves in 96 bytes, the
call `detail::reserve(data, 32, vector)` returns an atom of length 48 and leaves a free atom of
length 16 after it; `validate_layout` accepts that buffer too. -/
theorem zero_content_atoms :
    ((do
      let f ← format 0 (List.replicate 48 0) 48 0
      let v ← validate_layout 0 f.2 48
      let g ← format 0 (List.replicate 96 0) 96 0
      let r ← detail.reserve g.2 0 32 AtomID.vector
      let v2 ← validate_layout 0 r.2 96
      pure [atoms f.2 48, [word f.2 0, word f.2 4, word f.2 16, word f.2 20, v.toNat],
        atoms r.2 96, [r.1, word r.2 16, word r.2 20, word r.2 64, word r.2 68, v2.toNat]]) :
        Outcome (List (List Nat))) =
      .ok [[0, 16, 32], [16, AtomID.data, 16, AtomID.free, 1],
        [0, 16, 64, 80], [16, 48, AtomID.vector, 16, AtomID.free, 1]] := by
  decide

/-- C31 (amended): `format` of a buffer of `N` bytes returns when the address and `N` are
multiples of 16 and `N` is at least `aligned_size(data_contents_size) + 32`.  After any calls
of the two `detail::reserve` and of `detail::free` that return, each allowed where it is made
(requested sizes between 1 and `0xFFFFFFE0`, no resize that grows an atom by exactly the
length of the free atom after it), `validate_layout` accepts the buffer, the end atom has the
length 16, and every atom tagged `vector` or `reference` has a length of at least 32. -/
theorem no_empty_allocation (base N S : Nat) (buf0 : Buffer) (hlen : buf0.length = N)
    (hN : N < 2 ^ 32) (hbase : base % 16 = 0) (hal : N % 16 = 0)
    (hsz : aligned_size S + 32 ≤ N) :
    ∃ buf, format base buf0 N S = .ok (0, buf) ∧
      ∀ (calls : List Call) (buf2 : Buffer), Calls N calls buf buf2 →
        validate_layout base buf2 N = .ok true ∧ word buf2 (N - 16) = 16 ∧
        ∀ a ∈ atoms buf2 N,
          word buf2 (a + 4) = AtomID.vector ∨ word buf2 (a + 4) = AtomID.reference →
          32 ≤ word buf2 a := by
  obtain ⟨buf, f1, f2, f3, _⟩ := layout_of_format base N S buf0 hlen hN hbase hal hsz
  refine ⟨buf, f1, fun calls buf2 hc => ?_⟩
  obtain ⟨h1, h2⟩ := calls_valid base N hN calls buf buf2 f2.1
    (validate_of_layout base N _ buf _ hbase f2 f3) hc
  obtain ⟨_, M, hl, hvm⟩ := layout_of_validate base N buf2 h1 hN h2
  have h16 := sixteen_le_of_tagged hvm.1
  refine ⟨h2, hl.2.2.2.2.2.2.2.2.1, fun a ha hid => ?_⟩
  obtain ⟨Ma, Mb, hM, _⟩ := atom_split buf2 N _ M hl h16 a ha
    (by rcases hid with h | h <;> rw [h] <;> decide)
    (by rcases hid with h | h <;> rw [h] <;> decide)
  have ht := hvm.1 (word buf2 a, word buf2 (a + 4)) (by rw [hM]; simp)
  exact thirty_two_le_of_tagged ht hid

theorem no_empty_allocation_witness :
    format 0 (List.replicate 96 0) 96 0 = .ok (0, sample_free_layout) ∧
    ∃ buf2, Calls 96 [Call.reserve 20 AtomID.vector, Call.free 16] sample_free_layout buf2 ∧
      validate_layout 0 buf2 96 = .ok true := by
  have hf : format 0 (List.replicate 96 0) 96 0 = .ok (0, sample_free_layout) := by decide
  obtain ⟨buf, h1, h2⟩ := no_empty_allocation 0 96 0 (List.replicate 96 0) (by decide)
    (by decide) (by decide) (by decide) (by decide)
  rw [hf] at h1
  cases h1
  obtain ⟨b1, hb1, hb2⟩ := (bind_eq_ok _ _ _).mp
    (by decide : (Call.run sample_free_layout (Call.reserve 20 AtomID.vector) >>= fun b =>
      Call.run b (Call.free 16) >>= fun _ =>
        (pure (decide (16 ∈ atoms b 96 ∧ word b (16 + 4) = AtomID.vector)) : Outcome Bool)) =
      .ok true)
  obtain ⟨b2, hb3, hb4⟩ := (bind_eq_ok _ _ _).mp hb2
  have hp : 16 ∈ atoms b1 96 ∧ word b1 (16 + 4) = AtomID.vector :=
    of_decide_eq_true (Outcome.ok.inj hb4)
  have hc : Calls 96 [Call.reserve 20 AtomID.vector, Call.free 16] sample_free_layout b2 :=
    ⟨⟨by decide, by decide, Or.inl rfl⟩, b1, hb1, ⟨hp.1, Or.inl hp.2⟩, b2, hb3, rfl⟩
  exact ⟨hf, b2, hc, (h2 _ b2 hc).1⟩

/-! ## The order of two free calls -/

/-- The length that `merge_next` writes into `previous` of the atom after the merged one. -/
theorem merge_next_link (buf : Buffer) (N D : Nat) (M1 M2 : List (Nat × Nat)) (x y : Nat × Nat)
    (hl : Layout buf N D (M1 ++ x :: y :: M2)) :
    ∀ buf2, detail.merge_next buf (D + msum M1) = .ok buf2 →
      word buf2 (D + msum M1 + x.1 + y.1 + 8) = x.1 + y.1 := by
  obtain ⟨s1, s2, s3, s4, s5, s6, s7⟩ := layout_split buf N D M1 (y :: M2) x hl
  obtain ⟨l1, l2, _⟩ := hl
  obtain ⟨t1, t2, _⟩ := s6
  rw [msum_cons] at s7
  obtain ⟨b, h, _, _, w2, _⟩ :=
    merge_next_spec buf (D + msum M1) x.1 y.1 s3 t2 (by omega) (by omega)
  intro buf2 hm
  rw [h] at hm
  cases hm
  exact w2

/-- The first half of `detail::free`, with what it does for the atom after the merged one. -/
theorem coalesce_next_link (buf : Buffer) (N D : Nat) (M1 M2 : List (Nat × Nat)) (L t : Nat)
    (hl : Layout buf N D (M1 ++ (L, t) :: M2)) (h16 : ∀ y ∈ M1 ++ (L, t) :: M2, 16 ≤ y.1) :
    ∀ buf2, (if AtomID.free = word buf (D + msum M1 + L + 4)
        then detail.merge_next buf (D + msum M1) else pure buf) = .ok buf2 →
      ((free_after M2).1 = 0 → buf2 = buf) ∧
      ((free_after M2).1 ≠ 0 →
        word buf2 (D + msum M1 + L + (free_after M2).1 + 8) = L + (free_after M2).1) := by
  obtain ⟨f1, f2, f3⟩ := layout_follower buf N D M1 M2 _ hl h16
  intro buf2 hm
  cases M2 with
  | nil =>
    obtain ⟨g1, g2, g3⟩ := f2 rfl
    dsimp only at g3
    rw [g3, if_neg (by decide)] at hm
    cases hm
    exact ⟨fun _ => rfl, fun h => absurd rfl h⟩
  | cons y rest =>
    obtain ⟨g1, g2, g3⟩ := f3 y rest rfl
    dsimp only at g2
    rw [g2] at hm
    rw [free_after_cons]
    by_cases hy : y.2 = AtomID.free
    · rw [if_pos hy.symm] at hm
      rw [if_pos hy]
      have h1 := h16 y (by simp)
      refine ⟨fun h => ?_, fun _ => merge_next_link buf N D M1 rest _ y hl buf2 hm⟩
      have h0 : y.1 = 0 := h
      omega
    · rw [if_neg (fun h => hy h.symm)] at hm
      rw [if_neg hy]
      cases hm
      exact ⟨fun _ => rfl, fun h => absurd rfl h⟩

/-- The second half of `detail::free`, with what it does for the atom after the merged
one. -/
theorem coalesce_previous_link (buf : Buffer) (N D : Nat) (M1 M2 : List (Nat × Nat)) (L : Nat)
    (hl : Layout buf N D (M1 ++ (L, AtomID.free) :: M2))
    (h16 : ∀ y ∈ M1 ++ (L, AtomID.free) :: M2, 16 ≤ y.1) :
    ∀ r buf2, (do
        let p ← Atom.previous buf (D + msum M1)
        if D + msum M1 < p then .fault else do
          let pid ← Atom.identifier buf (D + msum M1 - p)
          if AtomID.free = pid then do
            let b ← detail.merge_next buf (D + msum M1 - p)
            pure (D + msum M1 - p, b)
          else
            pure (D + msum M1, buf)) = Outcome.ok (r, buf2) →
      ((free_before M1).1 = 0 → buf2 = buf) ∧
      ((free_before M1).1 ≠ 0 →
        word buf2 (D + msum M1 + L + 8) = (free_before M1).1 + L) := by
  obtain ⟨s1, s2, s3, s4, s5, s6, s7⟩ := layout_split buf N D M1 M2 _ hl
  obtain ⟨e1, e2⟩ := layout_leader buf N D M1 M2 _ hl
  have hl' := hl
  obtain ⟨l1, l2, l3, l4, l5, l6, l7, l8, l9, l10, l11, l12⟩ := hl
  intro r buf2 hm
  unfold Atom.previous Atom.identifier at hm
  rw [load32_ok _ _ (by omega)] at hm
  simp only [Outcome.ok_bind] at hm
  rcases nil_or_snoc M1 with rfl | ⟨M0, p, rfl⟩
  · obtain ⟨g1, g2⟩ := e1 rfl
    rw [g1, if_neg (by rw [msum_nil]; omega), g2, load32_ok _ _ (by omega)] at hm
    simp only [Outcome.ok_bind] at hm
    rw [Nat.zero_add, l7, if_neg (by decide)] at hm
    cases hm
    rw [free_before_nil]
    exact ⟨fun _ => rfl, fun h => absurd rfl h⟩
  · obtain ⟨g1, g2, g3, g4⟩ := e2 M0 p rfl
    have hp := h16 p (by simp)
    have hmm : msum (M0 ++ [p]) = msum M0 + p.1 := by
      rw [msum_append, msum_cons, msum_nil]; omega
    rw [g1, if_neg (by omega), g2, load32_ok _ _ (by omega)] at hm
    simp only [Outcome.ok_bind] at hm
    rw [g4] at hm
    rw [free_before_concat]
    by_cases hpf : p.2 = AtomID.free
    · rw [if_pos hpf.symm] at hm
      rw [if_pos hpf]
      rw [List.append_assoc] at hl' h16
      obtain ⟨b, hb1, hb2⟩ := (bind_eq_ok _ _ _).mp hm
      cases hb2
      have := merge_next_link buf N D M0 M2 p (L, AtomID.free) hl' buf2 hb1
      refine ⟨fun h => ?_, fun _ => ?_⟩
      · have h0 : p.1 = 0 := h
        omega
      · dsimp only at this ⊢
        rw [hmm, ← Nat.add_assoc]
        exact this
    · rw [if_neg (fun h => hpf h.symm)] at hm
      rw [if_neg hpf]
      cases hm
      exact ⟨fun _ => rfl, fun h => absurd rfl h⟩

theorem last_len_of_ne_nil (a b : Nat) (Z : List (Nat × Nat)) (h : Z ≠ []) :
    last_len a Z = last_len b Z := by
  cases Z with
  | nil => exact absurd rfl h
  | cons x rest => rfl

theorem endLink_trans (b1 b2 b3 : Buffer) (N D : Nat) (Ma Mb Mc : List (Nat × Nat))
    (h1 : EndLink b1 b2 N D Ma Mb) (h2 : EndLink b2 b3 N D Mb Mc) :
    EndLink b1 b3 N D Ma Mc := by
  unfold EndLink at h1 h2 ⊢
  rcases h1 with ⟨a1, a2⟩ | ⟨a1, a2⟩ <;> rcases h2 with ⟨c1, c2⟩ | ⟨c1, c2⟩
  · exact Or.inl ⟨c1, by omega⟩
  · exact Or.inl ⟨by rw [c1, a1, c2], by omega⟩
  · exact Or.inl ⟨c1, by omega⟩
  · exact Or.inr ⟨by rw [c1, a1], by omega⟩

/-- Two ways from one layout to the same atoms leave the same `previous` in the end atom. -/
theorem endLink_unique (b b1 b2 : Buffer) (N D : Nat) (M M2 : List (Nat × Nat))
    (h1 : EndLink b b1 N D M M2) (h2 : EndLink b b2 N D M M2) :
    word b1 (N - 16 + 8) = word b2 (N - 16 + 8) := by
  unfold EndLink at h1 h2
  rcases h1 with ⟨a1, a2⟩ | ⟨a1, a2⟩ <;> rcases h2 with ⟨c1, c2⟩ | ⟨c1, c2⟩
  · rw [a1, c1]
  · omega
  · omega
  · rw [a1, c1]

/-- The function `detail::free` on an atom of a layout, with what it does to the end atom. -/
theorem free_link (buf : Buffer) (N D : Nat) (M1 M2 : List (Nat × Nat)) (L t : Nat)
    (hl : Layout buf N D (M1 ++ (L, t) :: M2)) (h16 : ∀ y ∈ M1 ++ (L, t) :: M2, 16 ≤ y.1) :
    ∃ buf2, detail.free buf (D + msum M1) = .ok (D + msum (free_before M1).2, buf2) ∧
      Layout buf2 N D ((free_before M1).2 ++
        ((free_before M1).1 + (L + (free_after M2).1), AtomID.free) :: (free_after M2).2) ∧
      EndLink buf buf2 N D (M1 ++ (L, t) :: M2) ((free_before M1).2 ++
        ((free_before M1).1 + (L + (free_after M2).1), AtomID.free) :: (free_after M2).2) := by
  obtain ⟨s1, s2, s3, s4, s5, s6, s7⟩ := layout_split buf N D M1 M2 _ hl
  have hl0 := layout_retag buf N D M1 M2 _ hl h16 AtomID.free (by decide)
  dsimp only at hl0
  have h16a : ∀ y ∈ M1 ++ (L, AtomID.free) :: M2, 16 ≤ y.1 := by
    intro y hy
    simp only [List.mem_append, List.mem_cons] at hy
    rcases hy with hy | rfl | hy
    · exact h16 y (by simp [hy])
    · exact h16 (L, t) (by simp)
    · exact h16 y (by simp [hy])
  obtain ⟨t1, t2, t3, t4, t5, t6, t7⟩ := layout_split _ N D M1 M2 _ hl0
  obtain ⟨f1, f2, f3⟩ := layout_follower _ N D M1 M2 _ hl0 h16a
  obtain ⟨buf1, c1, c2, c3, c4⟩ := coalesce_next _ N D M1 M2 L AtomID.free hl0 h16a
  obtain ⟨n1, n2⟩ := coalesce_next_link _ N D M1 M2 L AtomID.free hl0 h16a buf1 c1
  have h16b : ∀ y ∈ M1 ++ (L + (free_after M2).1, AtomID.free) :: (free_after M2).2,
      16 ≤ y.1 := by
    intro y hy
    simp only [List.mem_append, List.mem_cons] at hy
    rcases hy with hy | rfl | hy
    · exact h16 y (by simp [hy])
    · have := h16 (L, t) (by simp)
      dsimp only at this ⊢
      omega
    · cases M2 with
      | nil => simp [free_after] at hy
      | cons z rest =>
        rw [free_after_cons] at hy
        by_cases hz : z.2 = AtomID.free
        · rw [if_pos hz] at hy
          exact h16 y (by simp [hy])
        · rw [if_neg hz] at hy
          exact h16 y (by simp only [List.mem_append, List.mem_cons]; right; right; simpa using hy)
  obtain ⟨buf2, p1, p2, p3, p4, _⟩ := coalesce_previous buf1 N D M1 _ _ c2 h16b
  obtain ⟨m1, m2⟩ := coalesce_previous_link buf1 N D M1 _ _ c2 h16b _ buf2 p1
  have hlen0 : (put32 buf (D + msum M1 + 4) AtomID.free).length = buf.length := length_put32 _ _ _
  have hN := hl.1
  have hsum := hl.2.2.2.2.2.2.2.2.2.2.2
  rw [msum_append, msum_cons] at hsum
  dsimp only at hsum
  have hfa := free_after_msum M2
  have hL := h16 (L, t) (by simp)
  dsimp only at hL
  refine ⟨buf2, ?_, p2, ?_⟩
  · unfold detail.free Atom.set_identifier
    rw [store32_ok _ _ _ (by omega)]
    simp only [Outcome.ok_bind]
    unfold Atom.length
    rw [load32_ok _ _ (by rw [hlen0]; omega)]
    simp only [Outcome.ok_bind]
    dsimp only at t3
    rw [t3]
    have hid : Atom.identifier (put32 buf (D + msum M1 + 4) AtomID.free) (D + msum M1 + L) =
        .ok (word (put32 buf (D + msum M1 + 4) AtomID.free) (D + msum M1 + L + 4)) := by
      unfold Atom.identifier
      exact load32_ok _ _ (by rw [hlen0]; dsimp only at f1; omega)
    rw [hid]
    simp only [Outcome.ok_bind]
    by_cases hc : AtomID.free = word (put32 buf (D + msum M1 + 4) AtomID.free)
        (D + msum M1 + L + 4)
    · rw [if_pos hc] at c1 ⊢
      rw [c1]
      simp only [Outcome.ok_bind, Outcome.pure_eq]
      exact p1
    · rw [if_neg hc] at c1 ⊢
      cases c1
      simp only [Outcome.ok_bind, Outcome.pure_eq]
      exact p1
  · unfold EndLink
    rw [last_len_append_cons, last_len_append_cons]
    dsimp only
    by_cases hr : (free_after M2).2 = []
    · -- the merged atom is the last one
      rw [hr, msum_nil] at hfa
      rw [hr]
      have hq : D + msum M1 + (L + (free_after M2).1) + 8 = N - 16 + 8 := by omega
      have hM2 : last_len L M2 = if (free_after M2).1 = 0 then L else (free_after M2).1 := by
        cases M2 with
        | nil => rfl
        | cons y rest =>
          rw [free_after_cons] at hr ⊢
          by_cases hy : y.2 = AtomID.free
          · rw [if_pos hy] at hr ⊢
            have h1 := h16 y (by simp)
            dsimp only at hr ⊢
            rw [hr, if_neg (by omega)]
            rfl
          · rw [if_neg hy] at hr
            cases hr
      rw [hM2]
      unfold last_len
      by_cases hb : (free_before M1).1 = 0
      · have e2 := m1 hb
        by_cases ha : (free_after M2).1 = 0
        · right
          have e1 := n1 ha
          rw [e2, e1, if_pos ha, hb, ha]
          exact ⟨word_put32_disjoint _ _ _ _ (by omega), by omega⟩
        · left
          have w := n2 ha
          rw [e2, if_neg ha, hb, ← hq, Nat.zero_add, ← Nat.add_assoc, w]
          exact ⟨rfl, by omega⟩
      · left
        have w := m2 hb
        rw [← hq, w]
        refine ⟨rfl, ?_⟩
        by_cases ha : (free_after M2).1 = 0
        · rw [if_pos ha]
          omega
        · rw [if_neg ha]
          omega
    · -- atoms follow the merged one
      right
      obtain ⟨z, rest, hz⟩ : ∃ z rest, (free_after M2).2 = z :: rest := by
        cases hh : (free_after M2).2 with
        | nil => exact absurd hh hr
        | cons z rest => exact ⟨z, rest, rfl⟩
      have h1 : 16 ≤ msum (free_after M2).2 := by
        rw [hz, msum_cons]
        have := h16b z (by rw [hz]; simp)
        omega
      have hw : word buf2 (N - 16 + 8) = word buf (N - 16 + 8) := by
        apply word_eq_of_bytes
        intro j hj1 hj2
        rw [p3 j (Or.inr (by have := free_before_msum M1; omega)) (by omega),
          c3 j (Or.inr (by omega)) (by omega)]
        exact byte_put32_outside _ _ _ _ (by omega)
      refine ⟨hw, ?_⟩
      cases M2 with
      | nil => exact absurd rfl hr
      | cons y rest2 =>
        rw [free_after_cons] at hr ⊢
        by_cases hy : y.2 = AtomID.free
        · rw [if_pos hy] at hr ⊢
          dsimp only at hr ⊢
          show last_len _ rest2 = last_len y.1 rest2
          exact last_len_of_ne_nil _ _ _ hr
        · rw [if_neg hy]
          rfl

theorem free_before_append_ne_nil (X U : List (Nat × Nat)) (h : U ≠ []) :
    free_before (X ++ U) = ((free_before U).1, X ++ (free_before U).2) := by
  rcases nil_or_snoc U with rfl | ⟨U0, p, rfl⟩
  · exact absurd rfl h
  · rw [← List.append_assoc, free_before_concat, free_before_concat]
    by_cases hp : p.2 = AtomID.free
    · rw [if_pos hp, if_pos hp]
    · rw [if_neg hp, if_neg hp]
      dsimp only
      rw [List.append_assoc]

theorem free_after_append_ne_nil (V Y : List (Nat × Nat)) (h : V ≠ []) :
    free_after (V ++ Y) = ((free_after V).1, (free_after V).2 ++ Y) := by
  cases V with
  | nil => exact absurd rfl h
  | cons x rest =>
    rw [List.cons_append, free_after_cons, free_after_cons]
    by_cases hx : x.2 = AtomID.free
    · rw [if_pos hx, if_pos hx]
    · rw [if_neg hx, if_neg hx]
      rfl

/-- Atoms of which nothing is left when a free atom is taken from their front are no atoms or
one free atom. -/
theorem free_sides_nil (Mc : List (Nat × Nat)) (h : (free_after Mc).2 = []) :
    free_before Mc = ((free_after Mc).1, []) := by
  cases Mc with
  | nil => rfl
  | cons x rest =>
    rw [free_after_cons] at h ⊢
    by_cases hx : x.2 = AtomID.free
    · rw [if_pos hx] at h ⊢
      dsimp only at h ⊢
      rw [h]
      have e : [x] = [] ++ [x] := rfl
      rw [e, free_before_concat, if_pos hx]
    · rw [if_neg hx] at h
      cases h

/-- Taking a free atom from the front and taking one from the back can be done in either
order when more than one free atom is there. -/
theorem free_sides (Mc : List (Nat × Nat)) (h : (free_after Mc).2 ≠ []) :
    (free_before Mc).2 ≠ [] ∧ (free_after (free_before Mc).2).1 = (free_after Mc).1 ∧
      (free_before (free_after Mc).2).1 = (free_before Mc).1 ∧
      (free_before (free_after Mc).2).2 = (free_after (free_before Mc).2).2 := by
  cases Mc with
  | nil => exact absurd rfl h
  | cons x rest =>
    rcases nil_or_snoc rest with rfl | ⟨rest0, p, rfl⟩
    · have a1 : free_after [x] = if x.2 = AtomID.free then (x.1, []) else (0, [x]) :=
        free_after_cons x []
      have a2 : free_before [x] = if x.2 = AtomID.free then (x.1, []) else (0, [] ++ [x]) :=
        free_before_concat [] x
      by_cases hx : x.2 = AtomID.free
      · rw [a1, if_pos hx] at h
        exact absurd rfl h
      · rw [if_neg hx] at a1 a2
        rw [a1, a2]
        dsimp only
        rw [List.nil_append, a1]
        exact ⟨by simp, rfl, rfl, rfl⟩
    · have a1 : free_after (x :: (rest0 ++ [p])) =
          if x.2 = AtomID.free then (x.1, rest0 ++ [p]) else (0, x :: (rest0 ++ [p])) :=
        free_after_cons x _
      have a2 : free_before (x :: (rest0 ++ [p])) =
          if p.2 = AtomID.free then (p.1, x :: rest0) else (0, x :: (rest0 ++ [p])) :=
        free_before_concat (x :: rest0) p
      have a3 := free_before_concat rest0 p
      have a4 := free_after_cons x rest0
      by_cases hx : x.2 = AtomID.free <;> by_cases hp : p.2 = AtomID.free
      · rw [if_pos hx] at a1 a4
        rw [if_pos hp] at a2 a3
        rw [a1, a2]
        dsimp only
        rw [a3, a4]
        exact ⟨by simp, rfl, rfl, rfl⟩
      · rw [if_pos hx] at a1 a4
        rw [if_neg hp] at a2 a3
        rw [a1, a2]
        dsimp only
        rw [a3, a1]
        exact ⟨by simp, rfl, rfl, rfl⟩
      · rw [if_neg hx] at a1 a4
        rw [if_pos hp] at a2 a3
        rw [a1, a2]
        dsimp only
        rw [a4]
        exact ⟨by simp, rfl, rfl, rfl⟩
      · rw [if_neg hx] at a1 a4
        rw [if_neg hp] at a2 a3
        rw [a1, a2]
        dsimp only
        rw [a1]
        exact ⟨by simp, rfl, rfl, rfl⟩

/-- The atoms after `detail::free` of two atoms do not depend on the order of the calls. -/
theorem merged_comm (M1 Mc M2 : List (Nat × Nat)) (LA LB : Nat) :
    merged ((free_before M1).2 ++
        ((free_before M1).1 + (LA + (free_after Mc).1), AtomID.free) :: (free_after Mc).2) LB M2 =
      merged M1 LA ((free_before Mc).2 ++
        ((free_before Mc).1 + (LB + (free_after M2).1), AtomID.free) :: (free_after M2).2) := by
  unfold merged
  by_cases h : (free_after Mc).2 = []
  · have e := free_sides_nil Mc h
    rw [h, e]
    dsimp only
    have e1 : ∀ (x : Nat × Nat), (free_before M1).2 ++ [x] = (free_before M1).2 ++ [x] :=
      fun _ => rfl
    rw [free_before_concat, if_pos rfl, List.nil_append, free_after_cons, if_pos rfl]
    dsimp only
    have e2 : (free_before M1).1 + (LA + (free_after Mc).1) + (LB + (free_after M2).1) =
        (free_before M1).1 + (LA + ((free_after Mc).1 + (LB + (free_after M2).1))) := by omega
    rw [e2]
  · obtain ⟨k1, k2, k3, k4⟩ := free_sides Mc h
    have e1 : (free_before M1).2 ++
        ((free_before M1).1 + (LA + (free_after Mc).1), AtomID.free) :: (free_after Mc).2 =
        ((free_before M1).2 ++ [((free_before M1).1 + (LA + (free_after Mc).1), AtomID.free)]) ++
          (free_after Mc).2 := by
      rw [List.append_assoc]
      rfl
    rw [e1, free_before_append_ne_nil _ _ h, free_after_append_ne_nil _ _ k1]
    dsimp only
    rw [k2, k3, k4, List.append_assoc, List.append_assoc]
    rfl

/-- The two orders of `detail::free` on two atoms of a layout, the atom `a` before the atom
`b`: all four calls return, and the two orders leave the same atoms and the same `previous`
in the end atom. -/
theorem free_commutes_split (buf : Buffer) (N D : Nat) (M1 Mc M2 : List (Nat × Nat))
    (a b : Nat × Nat) (hl : Layout buf N D (M1 ++ a :: (Mc ++ b :: M2)))
    (hvm : ValidM (M1 ++ a :: (Mc ++ b :: M2))) (ha : a.2 ≠ AtomID.free)
    (hb : b.2 ≠ AtomID.free) :
    ∃ r1 b1 r2 b12 r3 b2 r4 b21 MF,
      detail.free buf (D + msum M1) = .ok (r1, b1) ∧
      detail.free b1 (D + msum M1 + a.1 + msum Mc) = .ok (r2, b12) ∧
      detail.free buf (D + msum M1 + a.1 + msum Mc) = .ok (r3, b2) ∧
      detail.free b2 (D + msum M1) = .ok (r4, b21) ∧
      Layout b12 N D MF ∧ Layout b21 N D MF ∧ ValidM MF ∧
      word b12 (N - 16 + 8) = word b21 (N - 16 + 8) ∧
      (D + msum M1 + a.1 + msum Mc ∈ atoms b1 N ∧
        word b1 (D + msum M1 + a.1 + msum Mc + 4) = b.2) ∧
      (D + msum M1 ∈ atoms b2 N ∧ word b2 (D + msum M1 + 4) = a.2) := by
  have h16 := sixteen_le_of_tagged hvm.1
  have eM : M1 ++ a :: (Mc ++ b :: M2) = (M1 ++ a :: Mc) ++ b :: M2 := by
    rw [List.append_assoc]
    rfl
  -- the atom `a` first
  obtain ⟨b1, e1, l1, k1⟩ := free_link buf N D M1 (Mc ++ b :: M2) a.1 a.2 hl h16
  have v1 := validM_free M1 (Mc ++ b :: M2) a.1 a.2 hvm
  rw [free_after_append Mc M2 b hb] at l1 k1 v1
  dsimp only at l1 k1 v1
  have eP : (free_before M1).2 ++
      ((free_before M1).1 + (a.1 + (free_after Mc).1), AtomID.free) ::
        ((free_after Mc).2 ++ b :: M2) =
      ((free_before M1).2 ++
        ((free_before M1).1 + (a.1 + (free_after Mc).1), AtomID.free) :: (free_after Mc).2) ++
        b :: M2 := by
    rw [List.append_assoc]
    rfl
  rw [eP] at l1 k1 v1
  have hP : msum ((free_before M1).2 ++
      ((free_before M1).1 + (a.1 + (free_after Mc).1), AtomID.free) :: (free_after Mc).2) =
      msum M1 + a.1 + msum Mc := by
    rw [msum_append, msum_cons]
    have := free_before_msum M1
    have := free_after_msum Mc
    dsimp only
    omega
  have h16a := sixteen_le_of_tagged v1.1
  obtain ⟨b12, e2, l12, k2⟩ := free_link b1 N D _ M2 b.1 b.2 l1 h16a
  have v12 := validM_free _ M2 b.1 b.2 v1
  obtain ⟨t1, t2, t3⟩ := atom_of_split b1 N D _ M2 b l1 h16a
  rw [hP, ← Nat.add_assoc, ← Nat.add_assoc] at e2 t1 t2 t3
  -- the atom `b` first
  rw [eM] at hl hvm h16
  obtain ⟨b2, e3, l2, k3⟩ := free_link buf N D (M1 ++ a :: Mc) M2 b.1 b.2 hl h16
  have v2 := validM_free (M1 ++ a :: Mc) M2 b.1 b.2 hvm
  rw [free_before_append M1 Mc a ha] at l2 k3 v2
  dsimp only at l2 k3 v2
  have eQ : (M1 ++ a :: (free_before Mc).2) ++
      ((free_before Mc).1 + (b.1 + (free_after M2).1), AtomID.free) :: (free_after M2).2 =
      M1 ++ a :: ((free_before Mc).2 ++
        ((free_before Mc).1 + (b.1 + (free_after M2).1), AtomID.free) :: (free_after M2).2) := by
    rw [List.append_assoc]
    rfl
  rw [eQ] at l2 k3 v2
  have hQ : msum (M1 ++ a :: Mc) = msum M1 + a.1 + msum Mc := by
    rw [msum_append, msum_cons]
    omega
  rw [hQ, ← Nat.add_assoc, ← Nat.add_assoc] at e3
  have h16b := sixteen_le_of_tagged v2.1
  obtain ⟨b21, e4, l21, k4⟩ := free_link b2 N D M1 _ a.1 a.2 l2 h16b
  have v21 := validM_free M1 _ a.1 a.2 v2
  obtain ⟨u1, u2, u3⟩ := atom_of_split b2 N D M1 _ a l2 h16b
  -- the two lists are the same
  have hc := merged_comm M1 Mc M2 a.1 b.1
  unfold merged at hc
  rw [hc] at l12 k2 v12
  have q1 := endLink_trans buf b1 b12 N D _ _ _ k1 k2
  have q2 := endLink_trans buf b2 b21 N D _ _ _ k3 k4
  rw [← eM] at q2
  exact ⟨_, b1, _, b12, _, b2, _, b21, _, e1, e2, e3, e4, l12, l21, v21,
    endLink_unique buf b12 b21 N D _ _ q1 q2, ⟨t1, t3⟩, ⟨u1, u3⟩⟩

/-- C35: on a layout accepted by `validate_layout`, for two atoms `A ≠ B` of the layout that
are tagged `vector` or `reference`: `detail::free(A)` returns and leaves `B` an atom with its
identifier, `detail::free(B)` returns after it, and the same holds with `A` and `B`
exchanged.  The buffers after the two orders hold the same atoms at the same offsets, with the
same lengths, identifiers and `previous` fields, the end atom included, and `validate_layout`
accepts both. -/
theorem free_commutes (base N : Nat) (buf : Buffer) (A B : Nat) (hlen : buf.length = N)
    (hN : N < 2 ^ 32) (hv : validate_layout base buf N = .ok true)
    (hA : A ∈ atoms buf N) (hB : B ∈ atoms buf N)
    (hAid : word buf (A + 4) = AtomID.vector ∨ word buf (A + 4) = AtomID.reference)
    (hBid : word buf (B + 4) = AtomID.vector ∨ word buf (B + 4) = AtomID.reference)
    (hne : A ≠ B) :
    ∃ r1 b1 r2 b12 r3 b2 r4 b21,
      detail.free buf A = .ok (r1, b1) ∧ detail.free b1 B = .ok (r2, b12) ∧
      detail.free buf B = .ok (r3, b2) ∧ detail.free b2 A = .ok (r4, b21) ∧
      (B ∈ atoms b1 N ∧ word b1 (B + 4) = word buf (B + 4)) ∧
      (A ∈ atoms b2 N ∧ word b2 (A + 4) = word buf (A + 4)) ∧
      atoms b12 N = atoms b21 N ∧
      (∀ a ∈ atoms b12 N, word b12 a = word b21 a ∧ word b12 (a + 4) = word b21 (a + 4) ∧
        word b12 (a + 8) = word b21 (a + 8)) ∧
      validate_layout base b12 N = .ok true ∧ validate_layout base b21 N = .ok true := by
  obtain ⟨hbase, M, hl, hvm⟩ := layout_of_validate base N buf hlen hN hv
  have h16 := sixteen_le_of_tagged hvm.1
  have hfA := free_ne_vector_reference hAid
  have hfB := free_ne_vector_reference hBid
  obtain ⟨Ma, Mb, hMa, eA⟩ := atom_split buf N _ M hl h16 A hA
    (by rcases hAid with h | h <;> rw [h] <;> decide)
    (by rcases hAid with h | h <;> rw [h] <;> decide)
  obtain ⟨Na, Nb, hNa, eB⟩ := atom_split buf N _ M hl h16 B hB
    (by rcases hBid with h | h <;> rw [h] <;> decide)
    (by rcases hBid with h | h <;> rw [h] <;> decide)
  rcases split_cases Ma Mb Na Nb _ _ (hMa.symm.trans hNa) with
    ⟨Mc, h1, h2⟩ | ⟨h1, _, _⟩ | ⟨Mc, h1, h2⟩
  · -- the atom `A` lies before the atom `B`
    rw [hMa, h2] at hl hvm
    have eB2 : B = word buf 0 + msum Ma + word buf A + msum Mc := by
      rw [eB, h1, msum_append, msum_cons]
      dsimp only
      omega
    obtain ⟨r1, b1, r2, b12, r3, b2, r4, b21, MF, e1, e2, e3, e4, l1, l2, vF, hE, ⟨p1, p2⟩,
      ⟨p3, p4⟩⟩ := free_commutes_split buf N _ Ma Mc Nb _ _ hl hvm hfA hfB
    dsimp only at e2 e3 p1 p2 p4
    rw [← eA] at e1 e4 p3 p4
    rw [← eB2] at e2 e3 p1 p2
    obtain ⟨c1, c2⟩ := chain_eq_of_layout b12 b21 N _ MF l1 l2 (sixteen_le_of_tagged vF.1) hE
    exact ⟨r1, b1, r2, b12, r3, b2, r4, b21, e1, e2, e3, e4, ⟨p1, p2⟩, ⟨p3, p4⟩, c1, c2,
      validate_of_layout base N _ b12 MF hbase l1 vF,
      validate_of_layout base N _ b21 MF hbase l2 vF⟩
  · exfalso
    apply hne
    rw [eA, eB, h1]
  · -- the atom `B` lies before the atom `A`
    rw [hNa, h2] at hl hvm
    have eA2 : A = word buf 0 + msum Na + word buf B + msum Mc := by
      rw [eA, h1, msum_append, msum_cons]
      dsimp only
      omega
    obtain ⟨r1, b1, r2, b12, r3, b2, r4, b21, MF, e1, e2, e3, e4, l1, l2, vF, hE, ⟨p1, p2⟩,
      ⟨p3, p4⟩⟩ := free_commutes_split buf N _ Na Mc Mb _ _ hl hvm hfB hfA
    dsimp only at e2 e3 p1 p2 p4
    rw [← eB] at e1 e4 p3 p4
    rw [← eA2] at e2 e3 p1 p2
    obtain ⟨c1, c2⟩ := chain_eq_of_layout b21 b12 N _ MF l2 l1 (sixteen_le_of_tagged vF.1)
      hE.symm
    exact ⟨r3, b2, r4, b21, r1, b1, r2, b12, e3, e4, e1, e2, ⟨p3, p4⟩, ⟨p1, p2⟩, c1, c2,
      validate_of_layout base N _ b21 MF hbase l2 vF,
      validate_of_layout base N _ b12 MF hbase l1 vF⟩

theorem free_commutes_witness :
    validate_layout 0 sample_layout 96 = .ok true ∧
    ∃ r1 b1 r2 b12 r3 b2 r4 b21,
      detail.free sample_layout 16 = .ok (r1, b1) ∧ detail.free b1 48 = .ok (r2, b12) ∧
      detail.free sample_layout 48 = .ok (r3, b2) ∧ detail.free b2 16 = .ok (r4, b21) ∧
      atoms b12 96 = atoms b21 96 ∧
      ∀ a ∈ atoms b12 96, word b12 a = word b21 a ∧ word b12 (a + 4) = word b21 (a + 4) ∧
        word b12 (a + 8) = word b21 (a + 8) := by
  obtain ⟨r1, b1, r2, b12, r3, b2, r4, b21, e1, e2, e3, e4, _, _, c1, c2, _⟩ :=
    free_commutes 0 96 sample_layout 16 48 (by decide) (by decide) (by decide) (by decide)
      (by decide) (by decide) (by decide) (by decide)
  exact ⟨by decide, r1, b1, r2, b12, r3, b2, r4, b21, e1, e2, e3, e4, c1, c2⟩

/-! ## The invariant of a vector handle -/

theorem backed_consistent (size_of : Nat) (buf : Buffer) (vec : Vector) (v n : Nat)
    (hT : 1 ≤ size_of) (h : Backed size_of buf vec v n) (hn : vec.m_ref.count ≤ n) :
    vec.consistent size_of buf := by
  obtain ⟨h1, h2, h3, h4, h5, h6, h7, h8, h9⟩ := h
  have hcnt : vec.m_ref.count * size_of ≤ n * size_of := Nat.mul_le_mul_right _ hn
  refine ⟨⟨_, capacity_some size_of buf vec v h2 (by omega) (by omega), ?_⟩, ?_, ?_⟩
  · unfold Vector.size
    rw [Nat.le_div_iff_mul_le (by omega)]
    omega
  · rw [h2, h1]
    dsimp only
    rw [contents_offset_eq _ (by omega)]
    exact h3
  · rw [h1, make_bound size_of buf vec.m_ref 0 (by omega),
      allocation_header_vector_eq size_of buf vec.m_ref 0 (by omega) (by omega) (by omega)
        (by omega)]
    have e : 0 + (vec.m_ref.offset - 16) = v := by omega
    rw [e, if_neg (by rw [h8]; exact fun hh => hh rfl), if_neg (by omega), Outcome.ok_bind]
    cases vec with
    | mk r d c =>
      dsimp only at h1 h2 ⊢
      rw [h1, h2]
      rfl

theorem null_consistent (size_of : Nat) (buf : Buffer) (vec : Vector)
    (h1 : vec.m_vctr = none) (h2 : vec.m_ref.offset = 0) (h3 : vec.m_ref.count = 0) :
    vec.consistent size_of buf := by
  refine ⟨⟨0, capacity_none size_of buf vec h1, ?_⟩, ?_, ?_⟩
  · unfold Vector.size
    omega
  · rw [h1]
    exact h2
  · rw [make_null size_of buf vec.m_ref vec.m_data h2, if_pos h3]
    cases vec with
    | mk r d c =>
      dsimp only at h1 ⊢
      rw [h1]

theorem backed_frame (size_of : Nat) (buf buf2 : Buffer) (vec : Vector) (v n : Nat)
    (h : Backed size_of buf vec v n) (hlen : buf2.length = buf.length)
    (hb : ∀ j, j < v + 16 → byte buf2 j = byte buf j) : Backed size_of buf2 vec v n := by
  obtain ⟨h1, h2, h3, h4, h5, h6, h7, h8, h9⟩ := h
  have e1 : word buf2 v = word buf v :=
    word_eq_of_bytes buf buf2 v (fun j _ _ => hb j (by omega))
  have e2 : word buf2 (v + 4) = word buf (v + 4) :=
    word_eq_of_bytes buf buf2 (v + 4) (fun j _ _ => hb j (by omega))
  rw [← e1, ← hlen] at h6
  rw [← hlen] at h7
  rw [← e2] at h8
  rw [← e1] at h9
  exact ⟨h1, h2, h3, h4, h5, h6, h7, h8, h9⟩

theorem ends_of_ok {α β : Type} {x : Outcome α} {f : α → Outcome β} {Q : β → Prop}
    {T : Buffer → Prop} (hT : ∀ b, x = .thrown b → T b) (hf : ∀ a, x = .ok a → Ends (f a) Q T) :
    Ends (x >>= f) Q T := by
  cases x with
  | ok a => exact hf a rfl
  | thrown b =>
    refine ⟨fun a e => ?_, fun c e => ?_⟩
    · cases e
    · cases e
      exact hT b rfl
  | fault => exact ⟨fun a e => (by cases e), fun c e => (by cases e)⟩
  | diverge => exact ⟨fun a e => (by cases e), fun c e => (by cases e)⟩

theorem ends_store_bytes (buf : Buffer) (o : Nat) (bs : List (Fin 256)) (T : Buffer → Prop) :
    Ends (store_bytes buf o bs)
      (fun b => b.length = buf.length ∧ ∀ j, j < o → byte b j = byte buf j) T := by
  unfold store_bytes
  by_cases h : o + bs.length ≤ buf.length
  · rw [if_pos h]
    refine ⟨fun a e => ?_, fun c e => (by cases e)⟩
    cases e
    exact ⟨length_put_bytes buf o bs h, fun j hj =>
      byte_put_bytes_outside buf o bs j h (Or.inl hj)⟩
  · rw [if_neg h]
    exact ends_fault

theorem ends_std_move (buf : Buffer) (first last d : Nat) (T : Buffer → Prop) :
    Ends (std_move buf first last d)
      (fun b => b.length = buf.length ∧ ∀ j, j < d → byte b j = byte buf j) T := by
  unfold std_move
  by_cases h : last < first
  · rw [if_pos h]
    exact ends_fault
  · rw [if_neg h]
    by_cases h2 : last ≤ buf.length ∧ d + (last - first) ≤ buf.length
    · rw [if_pos h2]
      refine ⟨fun a e => ?_, fun c e => (by cases e)⟩
      cases e
      refine ⟨length_copy_bytes buf d first _ h2.2 (by omega), fun j hj => ?_⟩
      rw [byte_copy_bytes buf d first _ j h2.2 (by omega), if_neg (by omega)]
    · rw [if_neg h2]
      exact ends_fault

/-- A vector that its constructor has made on a layout is null and empty, or backed by a
vector atom with room for as many elements as its capacity. -/
theorem backed_of_bound (size_of : Nat) (buf : Buffer) (N D : Nat) (M : List (Nat × Nat))
    (vec : Vector) (hl : Layout buf N D M) (hvm : ValidM M) (hb : Bound size_of buf N vec)
    (hT : 1 ≤ size_of) :
    (vec.m_vctr = none ∧ vec.m_ref.offset = 0 ∧ vec.m_ref.count = 0 ∧
      vec.capacity size_of buf = .ok 0) ∨
    ∃ v, Backed size_of buf vec v ((word buf v - 16) / size_of) ∧
      vec.m_ref.count ≤ (word buf v - 16) / size_of ∧
      vec.capacity size_of buf = .ok ((word buf v - 16) / size_of) := by
  obtain ⟨hd, hsh⟩ := hb
  have h16 := sixteen_le_of_tagged hvm.1
  rcases hsh with ⟨h1, h2, h3⟩ | ⟨v, h1, h2, hvat, hid, hcnt⟩
  · exact Or.inl ⟨h1, h2, h3, capacity_none size_of buf vec h1⟩
  · right
    obtain ⟨Ma, Mb, hMa, hv2⟩ := atom_split buf N _ M hl h16 v hvat (by rw [hid]; decide)
      (by rw [hid]; decide)
    subst hMa
    obtain ⟨m1, m2, m3⟩ := split_offset_mod buf N D Ma Mb _ hl hvm
    dsimp only at m3
    rw [← hv2] at m1 m2 m3
    have hlen := hl.1
    have hN := hl.2.1
    have hdiv : (word buf v - 16) / size_of * size_of ≤ word buf v - 16 :=
      Nat.div_mul_le_self _ _
    refine ⟨v, ⟨hd, h1, h2, m1, m2, by omega, by omega, hid, by omega⟩, ?_,
      capacity_some size_of buf vec v h1 (by omega) (by omega)⟩
    rw [Nat.le_div_iff_mul_le (by omega)]
    omega

/-- The call `reserve(c)` of a vector on a layout, for a byte size that is at most
`0xFFFFFFE0`: what it returns is the vector as it was, when the capacity was at least `c`, or
a vector with room for `c` elements. -/
theorem ends_vector_reserve (size_of : Nat) (buf : Buffer) (N D : Nat) (M : List (Nat × Nat))
    (vec : Vector) (c cap : Nat) (hl : Layout buf N D M) (hvm : ValidM M)
    (hb : Bound size_of buf N vec) (hT : 1 ≤ size_of) (hc : size_of * c ≤ 0xFFFFFFE0)
    (hcap : vec.capacity size_of buf = .ok cap) :
    Ends (vec.reserve size_of buf c)
      (fun r => (c ≤ cap ∧ r = (vec, buf)) ∨
        (cap < c ∧ r.1.m_ref.count = vec.m_ref.count ∧ ∃ v, Backed size_of r.2 r.1 v c))
      (fun _ => True) := by
  obtain ⟨cap2, k1, k2, k3, k4⟩ := vector_reserve_spec size_of buf N D M vec c hl hvm hb hT hc
  rw [hcap] at k1
  cases k1
  have hN := hl.2.1
  by_cases h : c ≤ cap
  · rw [k3 h]
    exact ⟨fun a e => (by cases e; exact Or.inl ⟨h, rfl⟩), fun b e => (by cases e)⟩
  · rcases k4 (by omega) with ⟨e, _⟩ | ⟨o, buf2, e, r1, r2, r3, r4, r5, r6, r7, _⟩
    · rw [e]
      exact ends_throw _ trivial
    · rw [e]
      refine ⟨fun a e2 => ?_, fun b e2 => (by cases e2)⟩
      cases e2
      have hmul : c * size_of = size_of * c := Nat.mul_comm _ _
      refine Or.inr ⟨by omega, rfl, o, rfl, rfl, rfl, r2, r3, ?_, ?_, r4, ?_⟩
      · dsimp only
        omega
      · dsimp only
        omega
      · dsimp only
        omega

/-- The step `if (capacity() < c0) reserve(c);` of a member function, for `1 ≤ c0 ≤ c` and a
byte size of at most `0xFFFFFFE0`: the vector after it has room for at least `c0` elements and
for the elements that it holds. -/
theorem ends_ensure (size_of : Nat) (buf : Buffer) (N D : Nat) (M : List (Nat × Nat))
    (vec : Vector) (c0 c cap : Nat) (hl : Layout buf N D M) (hvm : ValidM M)
    (hb : Bound size_of buf N vec) (hT : 1 ≤ size_of) (hc0 : 1 ≤ c0) (hcc : c0 ≤ c)
    (hc : size_of * c ≤ 0xFFFFFFE0) (hcap : vec.capacity size_of buf = .ok cap) :
    Ends (if cap < c0 then vec.reserve size_of buf c else pure (vec, buf))
      (fun r => r.1.m_ref.count = vec.m_ref.count ∧
        ∃ v n, Backed size_of r.2 r.1 v n ∧ c0 ≤ n ∧ vec.m_ref.count ≤ n)
      (fun _ => True) := by
  rcases backed_of_bound size_of buf N D M vec hl hvm hb hT with ⟨_, _, h3, h4⟩ | ⟨v, h1, h2, h3⟩
  · rw [hcap] at h4
    cases h4
    rw [if_pos (by omega)]
    refine ends_mono (ends_vector_reserve size_of buf N D M vec c 0 hl hvm hb hT hc hcap)
      (fun r hr => ?_) (fun _ _ => trivial)
    rcases hr with ⟨hr, _⟩ | ⟨_, hr1, v, hr2⟩
    · omega
    · exact ⟨hr1, v, c, hr2, hcc, by omega⟩
  · rw [hcap] at h3
    cases h3
    by_cases h : (word buf v - 16) / size_of < c0
    · rw [if_pos h]
      refine ends_mono (ends_vector_reserve size_of buf N D M vec c _ hl hvm hb hT hc hcap)
        (fun r hr => ?_) (fun _ _ => trivial)
      rcases hr with ⟨hr, _⟩ | ⟨_, hr1, v2, hr2⟩
      · omega
      · exact ⟨hr1, v2, c, hr2, hcc, by omega⟩
    · rw [if_neg h]
      exact ends_pure _ ⟨rfl, v, _, h1, by omega, h2⟩

/-- A vector with another count is backed as the vector is. -/
theorem backed_count (size_of : Nat) (buf : Buffer) (vec : Vector) (v n c : Nat)
    (h : Backed size_of buf vec v n) :
    Backed size_of buf { vec with m_ref := { vec.m_ref with count := c } } v n := h

/-- The two branches of a conditional that go on with the same computation. -/
theorem ends_ite_bind {α β : Type} (c : Prop) [Decidable c] (x y : Outcome α)
    (f : α → Outcome β) (P : α → Prop) (Q : β → Prop) (T : Buffer → Prop)
    (h : Ends (if c then x else y) P T) (hf : ∀ a, P a → Ends (f a) Q T) :
    Ends (if c then x >>= f else y >>= f) Q T := by
  by_cases hc : c
  · rw [if_pos hc] at h ⊢
    exact ends_bind h hf
  · rw [if_neg hc] at h ⊢
    exact ends_bind h hf

theorem ends_push_back (size_of : Nat) (buf : Buffer) (N D : Nat) (M : List (Nat × Nat))
    (vec : Vector) (value : List (Fin 256)) (hl : Layout buf N D M) (hvm : ValidM M)
    (hb : Bound size_of buf N vec) (hT : 1 ≤ size_of)
    (hsz : size_of * (vec.m_ref.count + 4) ≤ 0xFFFFFFE0) :
    Ends (vec.push_back size_of buf value) (fun r => r.1.consistent size_of r.2)
      (fun _ => True) := by
  have hn4 : vec.m_ref.count + 4 ≤ size_of * (vec.m_ref.count + 4) :=
    Nat.le_mul_of_pos_left _ (by omega)
  obtain ⟨cap, hcap⟩ : ∃ cap, vec.capacity size_of buf = .ok cap := by
    rcases backed_of_bound size_of buf N D M vec hl hvm hb hT with ⟨_, _, _, h⟩ | ⟨v, _, _, h⟩
    · exact ⟨_, h⟩
    · exact ⟨_, h⟩
  have hmask : (vec.m_ref.count + 4) &&& 0xfffffffc = (vec.m_ref.count + 4) / 4 * 4 :=
    land_mask4 _ (by omega)
  have hle : size_of * ((vec.m_ref.count + 4) / 4 * 4) ≤ size_of * (vec.m_ref.count + 4) :=
    Nat.mul_le_mul_left _ (by omega)
  unfold Vector.push_back Vector.size
  rw [hcap, Outcome.ok_bind, add32_eq _ _ (by omega), add32_eq _ _ (by omega), hmask]
  have he := ends_ensure size_of buf N D M vec (vec.m_ref.count + 1)
    ((vec.m_ref.count + 4) / 4 * 4) cap hl hvm hb hT
    (by omega) (by omega) (Nat.le_trans hle hsz) hcap
  dsimp only
  refine ends_ite_bind _ _ _ _ _ _ _ he (fun r hr => ?_)
  obtain ⟨hcount, v, n, hB, hn1, hn2⟩ := hr
  rw [data_some r.1 v hB.2.1]
  dsimp only
  refine ends_bind (ends_store_bytes _ _ _ _) (fun b hb2 => ends_pure _ ?_)
  dsimp only
  refine backed_consistent size_of b _ v n hT
    (backed_frame size_of r.2 b _ v n (backed_count size_of r.2 r.1 v n _ hB) hb2.1
      (fun j hj => hb2.2 j (by omega))) ?_
  dsimp only
  rw [hcount, add32_eq _ _ (by omega)]
  exact hn1

/-- A bound vector with at most as many elements as `c` is consistent after its count is set
to `c`. -/
theorem consistent_of_bound (size_of : Nat) (buf : Buffer) (N D : Nat) (M : List (Nat × Nat))
    (vec : Vector) (c : Nat) (hl : Layout buf N D M) (hvm : ValidM M)
    (hb : Bound size_of buf N vec) (hT : 1 ≤ size_of) (hc : c ≤ vec.m_ref.count) :
    Vector.consistent size_of buf { vec with m_ref := { vec.m_ref with count := c } } := by
  rcases backed_of_bound size_of buf N D M vec hl hvm hb hT with ⟨h1, h2, h3, _⟩ | ⟨v, h1, h2, _⟩
  · exact null_consistent size_of buf _ h1 h2 (by dsimp only; omega)
  · exact backed_consistent size_of buf _ v _ hT (backed_count size_of buf vec v _ c h1)
      (by dsimp only; omega)

theorem bound_consistent (size_of : Nat) (buf : Buffer) (N D : Nat) (M : List (Nat × Nat))
    (vec : Vector) (hl : Layout buf N D M) (hvm : ValidM M)
    (hb : Bound size_of buf N vec) (hT : 1 ≤ size_of) : vec.consistent size_of buf :=
  consistent_of_bound size_of buf N D M vec vec.m_ref.count hl hvm hb hT (Nat.le_refl _)

theorem capacity_of_bound (size_of : Nat) (buf : Buffer) (N D : Nat) (M : List (Nat × Nat))
    (vec : Vector) (hl : Layout buf N D M) (hvm : ValidM M)
    (hb : Bound size_of buf N vec) (hT : 1 ≤ size_of) :
    ∃ cap, vec.capacity size_of buf = .ok cap ∧ vec.m_ref.count ≤ cap := by
  rcases backed_of_bound size_of buf N D M vec hl hvm hb hT with ⟨_, _, h3, h⟩ | ⟨v, _, h2, h⟩
  · exact ⟨_, h, by omega⟩
  · exact ⟨_, h, h2⟩

theorem ends_reserve_consistent (size_of : Nat) (buf : Buffer) (N D : Nat)
    (M : List (Nat × Nat)) (vec : Vector) (c : Nat) (hl : Layout buf N D M) (hvm : ValidM M)
    (hb : Bound size_of buf N vec) (hT : 1 ≤ size_of) (hc : size_of * c ≤ 0xFFFFFFE0) :
    Ends (vec.reserve size_of buf c) (fun r => r.1.consistent size_of r.2)
      (fun _ => True) := by
  obtain ⟨cap, hcap, hle⟩ := capacity_of_bound size_of buf N D M vec hl hvm hb hT
  refine ends_mono (ends_vector_reserve size_of buf N D M vec c cap hl hvm hb hT hc hcap)
    (fun r hr => ?_) (fun _ _ => trivial)
  rcases hr with ⟨_, hr⟩ | ⟨h1, h2, v, h3⟩
  · rw [hr]
    exact bound_consistent size_of buf N D M vec hl hvm hb hT
  · exact backed_consistent size_of r.2 r.1 v c hT h3 (by omega)

theorem ends_assign (size_of : Nat) (buf : Buffer) (N D : Nat) (M : List (Nat × Nat))
    (vec : Vector) (values : List (List (Fin 256))) (hl : Layout buf N D M) (hvm : ValidM M)
    (hb : Bound size_of buf N vec) (hT : 1 ≤ size_of)
    (hsz : size_of * values.length ≤ 0xFFFFFFE0) :
    Ends (vec.assign size_of buf values) (fun r => r.1.consistent size_of r.2)
      (fun _ => True) := by
  have hn : values.length ≤ size_of * values.length := Nat.le_mul_of_pos_left _ (by omega)
  obtain ⟨cap, hcap, _⟩ := capacity_of_bound size_of buf N D M vec hl hvm hb hT
  unfold Vector.assign
  by_cases h0 : 0 < values.length
  · rw [if_pos h0, Nat.mod_eq_of_lt (by omega), hcap, Outcome.ok_bind]
    have he := ends_ensure size_of buf N D M vec values.length values.length cap hl hvm hb hT
      (by omega) (Nat.le_refl _) hsz hcap
    dsimp only
    refine ends_ite_bind _ _ _ _ _ _ _ he (fun r hr => ?_)
    obtain ⟨hcount, v, n, hB, hn1, hn2⟩ := hr
    rw [data_some r.1 v hB.2.1]
    dsimp only
    refine ends_bind (ends_store_bytes _ _ _ _) (fun b hb2 => ends_pure _ ?_)
    dsimp only
    exact backed_consistent size_of b _ v n hT
      (backed_frame size_of r.2 b _ v n (backed_count size_of r.2 r.1 v n _ hB) hb2.1
        (fun j hj => hb2.2 j (by omega))) hn1
  · rw [if_neg h0]
    exact ends_pure _ (consistent_of_bound size_of buf N D M vec 0 hl hvm hb hT (Nat.zero_le _))

theorem clear_consistent (size_of : Nat) (buf : Buffer) (N D : Nat) (M : List (Nat × Nat))
    (vec : Vector) (hl : Layout buf N D M) (hvm : ValidM M)
    (hb : Bound size_of buf N vec) (hT : 1 ≤ size_of) :
    vec.clear.consistent size_of buf :=
  consistent_of_bound size_of buf N D M vec 0 hl hvm hb hT (Nat.zero_le _)

theorem pop_back_consistent (size_of : Nat) (buf : Buffer) (N D : Nat) (M : List (Nat × Nat))
    (vec : Vector) (hl : Layout buf N D M) (hvm : ValidM M)
    (hb : Bound size_of buf N vec) (hT : 1 ≤ size_of) :
    vec.pop_back.consistent size_of buf ∨ vec.m_ref.count = 0 := by
  by_cases h0 : vec.m_ref.count = 0
  · exact Or.inr h0
  · left
    obtain ⟨cap, hcap, hle⟩ := capacity_of_bound size_of buf N D M vec hl hvm hb hT
    unfold Vector.pop_back
    exact consistent_of_bound size_of buf N D M vec _ hl hvm hb hT (by unfold sub32; omega)

theorem ends_fill_n (buf : Buffer) (first count : Nat) (value : List (Fin 256))
    (T : Buffer → Prop) :
    Ends (fill_n buf first count value)
      (fun b => b.length = buf.length ∧ ∀ j, j < first → byte b j = byte buf j) T := by
  unfold fill_n
  exact ends_store_bytes _ _ _ _

/-- The offset that `prepare_insert` computes for the position `begin() + i`. -/
theorem ends_insert_offset (size_of : Nat) (vec : Vector) (i : Nat) (T : Buffer → Prop) :
    Ends (match vec.data, vec.iter size_of (i : Int) with
      | some b, some p => (pure (((p : Int) - (b : Int)) / (size_of : Int)) : Outcome Int)
      | none, none => pure 0
      | _, _ => .fault) (fun io => 0 ≤ io) T := by
  cases h : vec.m_vctr with
  | none =>
    have e : vec.data = none := by
      unfold Vector.data
      rw [h]
      rfl
    rw [iter_none size_of vec _ h, e]
    exact ends_pure _ (Int.le_refl _)
  | some v =>
    rw [iter_some size_of vec v i h, data_some vec v h]
    refine ends_pure _ (Int.ediv_nonneg ?_ (Int.ofNat_nonneg _))
    have : v + 16 ≤ v + 16 + i * size_of := Nat.le_add_right _ _
    omega

theorem iter_ge (size_of : Nat) (vec : Vector) (v d : Nat) (io : Int)
    (h : vec.m_vctr = some v) (hio : 0 ≤ io) (hd : vec.iter size_of io = some d) :
    v + 16 ≤ d := by
  unfold Vector.iter at hd
  rw [data_some vec v h] at hd
  dsimp only at hd
  cases hd
  have : 0 ≤ io * (size_of : Int) := Int.mul_nonneg hio (Int.ofNat_nonneg _)
  omega

/-- The offset of `prepare_insert` and what the function goes on with. -/
theorem ends_offset_bind {β : Type} (size_of : Nat) (a p : Option Nat) (F : Int → Outcome β)
    (P : Int → Prop) (Q : β → Prop) (T : Buffer → Prop)
    (h : Ends (match a, p with
      | some b, some p => (pure (((p : Int) - (b : Int)) / (size_of : Int)) : Outcome Int)
      | none, none => pure 0
      | _, _ => .fault) P T)
    (hf : ∀ io, P io → Ends (F io) Q T) :
    Ends (match a, p with
      | some b, some p => (pure (((p : Int) - (b : Int)) / (size_of : Int)) : Outcome Int) >>= F
      | none, none => pure 0 >>= F
      | _, _ => Outcome.fault >>= F) Q T := by
  cases a <;> cases p <;> exact ends_bind h hf

theorem ends_prepare_insert (size_of : Nat) (buf : Buffer) (N D : Nat) (M : List (Nat × Nat))
    (vec : Vector) (i k : Nat) (hl : Layout buf N D M) (hvm : ValidM M)
    (hb : Bound size_of buf N vec) (hT : 1 ≤ size_of) (hk : 1 ≤ k)
    (hsz : size_of * (vec.m_ref.count + k) ≤ 0xFFFFFFE0) :
    Ends (vec.prepare_insert size_of buf (vec.iter size_of (i : Int)) k)
      (fun r => ∃ v n, Backed size_of r.2 r.1.2 v n ∧ r.1.2.m_ref.count ≤ n ∧
        ∀ d, r.1.1 = some d → v + 16 ≤ d)
      (fun _ => True) := by
  have hn : vec.m_ref.count + k ≤ size_of * (vec.m_ref.count + k) :=
    Nat.le_mul_of_pos_left _ (by omega)
  obtain ⟨cap, hcap, _⟩ := capacity_of_bound size_of buf N D M vec hl hvm hb hT
  unfold Vector.prepare_insert Vector.size
  rw [add32_eq _ _ (by omega), hcap]
  dsimp only
  refine ends_offset_bind size_of _ _ _ _ _ _ (ends_insert_offset size_of vec i _)
    (fun io hio => ?_)
  rw [Outcome.ok_bind]
  have he := ends_ensure size_of buf N D M vec (vec.m_ref.count + k) (vec.m_ref.count + k)
    cap hl hvm hb hT (by omega) (Nat.le_refl _) hsz hcap
  refine ends_ite_bind _ _ _ _ _ _ _ he (fun r hr => ?_)
  obtain ⟨hcount, v, n, hB, hn1, hn2⟩ := hr
  have hge0 : ∀ d, r.1.iter size_of io = some d → v + 16 ≤ d :=
    fun d hd => iter_ge size_of r.1 v d io hB.2.1 hio hd
  have hfin : ∀ b : Buffer, b.length = r.2.length → (∀ j, j < v + 16 → byte b j = byte r.2 j) →
      ∃ v n, Backed size_of b { r.1 with m_ref := { r.1.m_ref with
          count := vec.m_ref.count + k } } v n ∧ vec.m_ref.count + k ≤ n ∧
        ∀ d, r.1.iter size_of io = some d → v + 16 ≤ d := fun b h1 h2 =>
    ⟨v, n, backed_frame size_of r.2 b _ v n (backed_count size_of r.2 r.1 v n _ hB) h1 h2, hn1,
      hge0⟩
  revert hge0 hfin
  generalize r.1.iter size_of io = it
  intro hge0 hfin
  by_cases hlt : io < r.1.ssize
  · rw [if_pos hlt]
    cases it with
    | none => exact ends_fault
    | some d =>
      have hge := hge0 d rfl
      cases he2 : r.1.end_ size_of with
      | none => exact ends_fault
      | some last =>
        dsimp only
        refine ends_bind (ends_std_move _ _ _ _ _) (fun b hb2 => ends_pure _ ?_)
        exact hfin b hb2.1 (fun j hj => hb2.2 j (by omega))
  · rw [if_neg hlt]
    exact ends_bind (ends_pure r.2 rfl) (fun b hb2 => ends_pure _ (by
      subst hb2
      exact hfin _ rfl (fun _ _ => rfl)))

theorem ends_insert (size_of : Nat) (buf : Buffer) (N D : Nat) (M : List (Nat × Nat))
    (vec : Vector) (i k : Nat) (value : List (Fin 256)) (hl : Layout buf N D M)
    (hvm : ValidM M) (hb : Bound size_of buf N vec) (hT : 1 ≤ size_of)
    (hsz : size_of * (vec.m_ref.count + k) ≤ 0xFFFFFFE0) :
    Ends (vec.insert size_of buf (vec.iter size_of (i : Int)) k value)
      (fun r => r.1.2.consistent size_of r.2) (fun _ => True) := by
  unfold Vector.insert
  by_cases h0 : 0 = k
  · rw [if_pos h0]
    exact ends_pure _ (bound_consistent size_of buf N D M vec hl hvm hb hT)
  · rw [if_neg h0]
    refine ends_bind (ends_prepare_insert size_of buf N D M vec i k hl hvm hb hT (by omega) hsz)
      (fun r hr => ?_)
    obtain ⟨v, n, hB, hn, hd⟩ := hr
    dsimp only
    cases hi : r.1.1 with
    | none => exact ends_fault
    | some d =>
      dsimp only
      have hge := hd d hi
      refine ends_bind (ends_fill_n _ _ _ _ _) (fun b hb2 => ends_pure _ ?_)
      exact backed_consistent size_of b _ v n hT
        (backed_frame size_of r.2 b _ v n hB hb2.1 (fun j hj => hb2.2 j (by omega))) hn

theorem ends_ok {α : Type} (a : α) {P : α → Prop} {T : Buffer → Prop} (h : P a) :
    Ends (Outcome.ok a) P T := ends_pure a h

theorem ends_erase_range (size_of : Nat) (buf : Buffer) (N D : Nat) (M : List (Nat × Nat))
    (vec : Vector) (b e : Nat) (hl : Layout buf N D M) (hvm : ValidM M)
    (hb : Bound size_of buf N vec) (hT : 1 ≤ size_of) (hbe : b ≤ e)
    (he : e ≤ vec.m_ref.count) :
    Ends (vec.erase_range size_of buf (vec.iter size_of (b : Int)) (vec.iter size_of (e : Int)))
      (fun r => r.1.2.consistent size_of r.2) (fun _ => True) := by
  have hcons := bound_consistent size_of buf N D M vec hl hvm hb hT
  rcases backed_of_bound size_of buf N D M vec hl hvm hb hT with ⟨h1, _, _, _⟩ | ⟨v, hB, hle, _⟩
  · rw [iter_none size_of vec _ h1, iter_none size_of vec _ h1, erase_range_same]
    exact ends_ok _ hcons
  · rw [iter_some size_of vec v b hB.2.1, iter_some size_of vec v e hB.2.1]
    by_cases heq : b = e
    · rw [heq, erase_range_same]
      exact ends_ok _ hcons
    · have hlt : b * size_of < e * size_of := Nat.mul_lt_mul_of_pos_right (by omega) (by omega)
      have hlast : vec.end_ size_of = some (v + 16 + vec.m_ref.count * size_of) := by
        unfold Vector.end_ Vector.size
        exact iter_some size_of vec v _ hB.2.1
      rw [erase_range_some size_of buf vec _ _ _ (by omega) hlast]
      have hdiff : v + 16 + e * size_of - (v + 16 + b * size_of) = (e - b) * size_of := by
        rw [Nat.sub_mul]
        omega
      have hec : ((v + 16 + e * size_of - (v + 16 + b * size_of)) / size_of) % 2 ^ 32 ≤
          vec.m_ref.count := by
        rw [hdiff, Nat.mul_div_cancel _ (by omega)]
        exact Nat.le_trans (Nat.mod_le _ _) (by omega)
      refine ends_bind (P := fun b2 => b2.length = buf.length ∧
        ∀ j, j < v + 16 → byte b2 j = byte buf j) (ends_ite (fun _ => ?_) (fun _ => ?_))
        (fun b2 hb2 => ends_pure _ ?_)
      · exact ends_mono (ends_std_move _ _ _ _ _) (fun a ha => ⟨ha.1, fun j hj =>
          ha.2 j (by omega)⟩) (fun _ h => h)
      · exact ends_pure _ ⟨rfl, fun _ _ => rfl⟩
      · refine backed_consistent size_of b2 _ v _ hT
          (backed_frame size_of buf b2 _ v _ (backed_count size_of buf vec v _ _ hB) hb2.1
            hb2.2) ?_
        dsimp only
        unfold sub32
        omega

theorem ends_erase (size_of : Nat) (buf : Buffer) (N D : Nat) (M : List (Nat × Nat))
    (vec : Vector) (i : Nat) (hl : Layout buf N D M) (hvm : ValidM M)
    (hb : Bound size_of buf N vec) (hT : 1 ≤ size_of) (hi : i ≤ vec.m_ref.count) :
    Ends (vec.erase size_of buf (vec.iter size_of (i : Int)))
      (fun r => r.1.2.consistent size_of r.2) (fun _ => True) := by
  have hcons := bound_consistent size_of buf N D M vec hl hvm hb hT
  unfold Vector.erase
  by_cases hend : vec.iter size_of (i : Int) = vec.end_ size_of
  · rw [if_pos hend]
    exact ends_pure _ hcons
  · rw [if_neg hend]
    have hne : i ≠ vec.m_ref.count := by
      intro h
      apply hend
      unfold Vector.end_ Vector.size
      rw [h]
    have hnext : (vec.iter size_of (i : Int)).map (fun p => p + size_of) =
        vec.iter size_of ((i + 1 : Nat) : Int) := by
      cases h1 : vec.m_vctr with
      | none => rw [iter_none size_of vec _ h1, iter_none size_of vec _ h1]; rfl
      | some v =>
        rw [iter_some size_of vec v i h1, iter_some size_of vec v (i + 1) h1, Nat.succ_mul,
          ← Nat.add_assoc]
        rfl
    rw [hnext]
    exact ends_erase_range size_of buf N D M vec i (i + 1) hl hvm hb hT (by omega) (by omega)

theorem ends_shrink_to_fit (size_of : Nat) (buf : Buffer) (N D : Nat) (M : List (Nat × Nat))
    (vec : Vector) (hl : Layout buf N D M) (hvm : ValidM M)
    (hb : Bound size_of buf N vec) (hT : 1 ≤ size_of) :
    Ends (vec.shrink_to_fit size_of buf) (fun r => r.1.consistent size_of r.2)
      (fun _ => True) := by
  have hcons := bound_consistent size_of buf N D M vec hl hvm hb hT
  have h16 := sixteen_le_of_tagged hvm.1
  have hN := hl.2.1
  have hlen := hl.1
  obtain ⟨hd, hsh⟩ := hb
  rcases hsh with ⟨h1, _, _⟩ | ⟨v, h1, h2, hvat, hid, hcnt⟩
  · rw [shrink_null size_of buf vec h1]
    exact ends_ok _ hcons
  by_cases h0 : vec.m_ref.count = 0
  · rw [shrink_empty size_of buf vec v h1 h0]
    exact ends_bind (P := fun _ => True) ⟨fun _ _ => trivial, fun _ _ => trivial⟩
      (fun r _ => ends_pure _ (null_consistent size_of r.2 _ rfl rfl h0))
  have hpos : 0 < vec.m_ref.count := Nat.pos_of_ne_zero h0
  obtain ⟨Ma, Mb, hMa, hv2⟩ := atom_split buf N _ M hl h16 v hvat (by rw [hid]; decide)
    (by rw [hid]; decide)
  rw [hid] at hMa
  subst hMa
  obtain ⟨m1, m2, m3⟩ := split_offset_mod buf N _ Ma Mb _ hl hvm
  have hV := hvm.1 _ (List.mem_append_right Ma (List.mem_cons_self _ _))
  have hLV2 : word buf v % 16 = 0 := hV.2.2.1
  dsimp only at m3
  rw [← hv2] at m1 m2 m3
  have hcap := capacity_some size_of buf vec v h1 (by omega) (by omega)
  have hcomm : vec.m_ref.count * size_of = size_of * vec.m_ref.count := Nat.mul_comm _ _
  have hn1 : 1 ≤ size_of * vec.m_ref.count := Nat.mul_pos (by omega) hpos
  obtain ⟨g1, g2, g3, g4, g5⟩ := get_allocation_length_eq (size_of * vec.m_ref.count) hn1
    (by omega)
  have hae := aligned_size_eq (size_of * vec.m_ref.count)
  rw [Nat.mod_eq_of_lt (by omega)] at hae
  rw [shrink_nonempty size_of buf vec v _ h1 hpos hcap]
  by_cases hlt : vec.m_ref.count < (word buf v - 16) / size_of
  · rw [if_pos hlt, Nat.mod_eq_of_lt (by omega), hd]
    by_cases hsame : detail.get_allocation_length (size_of * vec.m_ref.count) = word buf v
    · rw [resize_same buf 0 v _ (by omega) hsame, Outcome.ok_bind]
      dsimp only
      rw [contents_offset_eq _ (by omega)]
      exact ends_pure _ (backed_consistent size_of buf _ v vec.m_ref.count hT
        ⟨rfl, rfl, rfl, m1, m2, by omega, by omega, hid, by omega⟩ (Nat.le_refl _))
    · obtain ⟨buf2, r1, r2, r3⟩ := layout_shrink buf N _ Ma Mb _ _
        (size_of * vec.m_ref.count) _ hl h16 rfl (by omega) (by omega)
      rw [← hv2] at r1 r3
      have hvs := validM_shrink Ma Mb _ _ hvm g2 g3 (by omega)
      obtain ⟨b1, b2, b3⟩ := atom_of_split buf2 N _ Ma _ _ r2 (sixteen_le_of_tagged hvs.1)
      dsimp only at b2 b3
      rw [← hv2] at b2 b3
      have hlen2 := r2.1
      rw [r1, Outcome.ok_bind]
      dsimp only
      rw [contents_offset_eq _ (by omega)]
      exact ends_pure _ (backed_consistent size_of buf2 _ v vec.m_ref.count hT
        ⟨rfl, rfl, rfl, m1, m2, by omega, by omega, b3, by omega⟩ (Nat.le_refl _))
  · rw [if_neg hlt]
    exact ends_ok _ hcons

/-- C34 (as stated it does not hold): on the 96 byte buffer `sample_vector3`, which
`validate_layout` accepts, the constructor returns the `Vector<uint32_t>` of 4 elements and
capacity 4 on the atom at offset 16, and the vector is asked to reserve the capacity
`0x40000000`.  The size in bytes, `4 * 0x40000000`, is cast to `uint32_t` and becomes 0: the
call returns, the atom is cut to the length 16, and the vector has the size 4 and the
capacity 0.  The constructor on the same `VectorRef` and data atom throws, and
`validate_layout` returns false. -/
theorem reserve_breaks_invariant :
    ((do
      let v0 ← validate_layout 0 sample_vector3 96
      let vec ← Vector.make 4 sample_vector3 sample_vec4.m_ref 0
      let cap0 ← vec.capacity 4 sample_vector3
      let r ← vec.reserve 4 sample_vector3 0x40000000
      let cap ← r.1.capacity 4 r.2
      let len ← Atom.length r.2 16
      let v1 ← validate_layout 0 r.2 96
      pure [v0.toNat, vec.size, cap0, r.1.size, cap, r.1.m_ref.offset, len,
        (decide (Vector.make 4 r.2 r.1.m_ref r.1.m_data = .thrown r.2)).toNat, v1.toNat]) :
        Outcome (List Nat)) = .ok [1, 4, 4, 4, 0, 32, 16, 1, 0] := by
  decide

/-- C34 (amended): on a layout accepted by `validate_layout`, for a type of at least 1 byte,
let `vec` be a vector that the constructor returns on the data atom at offset 0, its backing
allocation, if it has one, an atom of the layout.  Then the vector is consistent: its size is
at most its capacity, the offset of its reference is the contents offset of the backing atom,
or 0 without one, and the constructor on the same `VectorRef` and data atom returns a handle
equal to the vector, which has the same size, capacity and elements.  The vector that results
is consistent with the buffer that results after each of these calls on `vec`, when the call
returns: `push_back` with `sizeof(T) * (size + 4) ≤ 0xFFFFFFE0`; `insert(begin() + i, k,
value)` with `sizeof(T) * (size + k) ≤ 0xFFFFFFE0`; `assign` of a range of `len` elements
with `sizeof(T) * len ≤ 0xFFFFFFE0`; `erase(begin() + i)` with `i ≤ size`;
`erase(begin() + i, begin() + j)` with `i ≤ j ≤ size`; `pop_back` on a vector that is not
empty; `clear`; `reserve(c)` with `sizeof(T) * c ≤ 0xFFFFFFE0`; and `shrink_to_fit`. -/
theorem vector_invariant (base N : Nat) (buf : Buffer) (size_of : Nat) (vec : Vector)
    (hlen : buf.length = N) (hN : N < 2 ^ 32)
    (hv : validate_layout base buf N = .ok true) (hT : 1 ≤ size_of)
    (hoff : vec.m_ref.offset < 2 ^ 32)
    (hmake : Vector.make size_of buf vec.m_ref 0 = .ok vec)
    (hat : ∀ v, vec.m_vctr = some v → v ∈ atoms buf N) :
    vec.consistent size_of buf ∧
    (∀ value vec2 buf2, size_of * (vec.size + 4) ≤ 0xFFFFFFE0 →
      vec.push_back size_of buf value = .ok (vec2, buf2) → vec2.consistent size_of buf2) ∧
    (∀ (i k : Nat) value it vec2 buf2, size_of * (vec.size + k) ≤ 0xFFFFFFE0 →
      vec.insert size_of buf (vec.iter size_of (i : Int)) k value = .ok ((it, vec2), buf2) →
      vec2.consistent size_of buf2) ∧
    (∀ values vec2 buf2, size_of * values.length ≤ 0xFFFFFFE0 →
      vec.assign size_of buf values = .ok (vec2, buf2) → vec2.consistent size_of buf2) ∧
    (∀ (i : Nat) it vec2 buf2, i ≤ vec.size →
      vec.erase size_of buf (vec.iter size_of (i : Int)) = .ok ((it, vec2), buf2) →
      vec2.consistent size_of buf2) ∧
    (∀ (i j : Nat) it vec2 buf2, i ≤ j → j ≤ vec.size →
      vec.erase_range size_of buf (vec.iter size_of (i : Int)) (vec.iter size_of (j : Int)) =
        .ok ((it, vec2), buf2) → vec2.consistent size_of buf2) ∧
    (1 ≤ vec.size → vec.pop_back.consistent size_of buf) ∧
    vec.clear.consistent size_of buf ∧
    (∀ c vec2 buf2, size_of * c ≤ 0xFFFFFFE0 →
      vec.reserve size_of buf c = .ok (vec2, buf2) → vec2.consistent size_of buf2) ∧
    (∀ vec2 buf2, vec.shrink_to_fit size_of buf = .ok (vec2, buf2) →
      vec2.consistent size_of buf2) := by
  obtain ⟨_, M, hl, hvm⟩ := layout_of_validate base N buf hlen hN hv
  have hb := bound_of_make size_of buf N vec hoff hmake hat
  unfold Vector.size
  refine ⟨bound_consistent size_of buf N _ M vec hl hvm hb hT,
    fun value vec2 buf2 hsz h => (ends_push_back size_of buf N _ M vec value hl hvm hb hT hsz).1
      (vec2, buf2) h,
    fun i k value it vec2 buf2 hsz h => (ends_insert size_of buf N _ M vec i k value hl hvm hb hT
      hsz).1 ((it, vec2), buf2) h,
    fun values vec2 buf2 hsz h => (ends_assign size_of buf N _ M vec values hl hvm hb hT hsz).1
      (vec2, buf2) h,
    fun i it vec2 buf2 hi h => (ends_erase size_of buf N _ M vec i hl hvm hb hT hi).1
      ((it, vec2), buf2) h,
    fun i j it vec2 buf2 hij hj h => (ends_erase_range size_of buf N _ M vec i j hl hvm hb hT
      hij hj).1 ((it, vec2), buf2) h,
    fun h1 => ?_,
    clear_consistent size_of buf N _ M vec hl hvm hb hT,
    fun c vec2 buf2 hsz h => (ends_reserve_consistent size_of buf N _ M vec c hl hvm hb hT hsz).1
      (vec2, buf2) h,
    fun vec2 buf2 h => (ends_shrink_to_fit size_of buf N _ M vec hl hvm hb hT).1 (vec2, buf2) h⟩
  rcases pop_back_consistent size_of buf N _ M vec hl hvm hb hT with h | h
  · exact h
  · omega

set_option maxRecDepth 100000 in
theorem vector_invariant_witness :
    sample_vector3.length = 96 ∧ validate_layout 0 sample_vector3 96 = .ok true ∧
    Vector.make 4 sample_vector3 sample_vec4.m_ref 0 = .ok sample_vec4 ∧
    sample_vec4.consistent 4 sample_vector3 ∧
    (∃ vec2 buf2, sample_vec4.push_back 4 sample_vector3 (bytes32 9) = .ok (vec2, buf2) ∧
      vec2.size = 5 ∧ vec2.consistent 4 buf2) ∧
    (∃ it vec2 buf2, sample_vec4.insert 4 sample_vector3 (sample_vec4.iter 4 1) 1 (bytes32 9) =
      .ok ((it, vec2), buf2) ∧ vec2.size = 5 ∧ vec2.consistent 4 buf2) ∧
    (∃ vec2 buf2, sample_vec4.assign 4 sample_vector3 [bytes32 7, bytes32 8] = .ok (vec2, buf2) ∧
      vec2.size = 2 ∧ vec2.consistent 4 buf2) ∧
    (∃ it vec2 buf2, sample_vec4.erase 4 sample_vector3 (sample_vec4.iter 4 1) =
      .ok ((it, vec2), buf2) ∧ vec2.size = 3 ∧ vec2.consistent 4 buf2) ∧
    (∃ it vec2 buf2, sample_vec4.erase_range 4 sample_vector3 (sample_vec4.iter 4 0)
        (sample_vec4.iter 4 3) = .ok ((it, vec2), buf2) ∧ vec2.size = 1 ∧
      vec2.consistent 4 buf2) ∧
    sample_vec4.pop_back.size = 3 ∧ sample_vec4.pop_back.consistent 4 sample_vector3 ∧
    sample_vec4.clear.size = 0 ∧ sample_vec4.clear.consistent 4 sample_vector3 ∧
    (∃ vec2 buf2, sample_vec4.reserve 4 sample_vector3 8 = .ok (vec2, buf2) ∧
      vec2.size = 4 ∧ vec2.consistent 4 buf2) ∧
    (∃ vec2 buf2, sample_vec4.shrink_to_fit 4 sample_vector3 = .ok (vec2, buf2) ∧
      vec2.size = 4 ∧ vec2.consistent 4 buf2) := by
  have h := vector_invariant 0 96 sample_vector3 4 sample_vec4 (by decide) (by decide)
    (by decide) (by decide) (by decide) (by decide)
    (fun v hv => by
      have e : v = 16 := (Option.some.inj hv).symm
      rw [e]
      decide)
  obtain ⟨a, hok, ha⟩ := (bind_eq_ok _ _ _).mp
    (by decide : (sample_vec4.push_back 4 sample_vector3 (bytes32 9) >>= fun a =>
      (pure (decide (a.1.size = 5)) : Outcome Bool)) = .ok true)
  obtain ⟨b, hbok, hb⟩ := (bind_eq_ok _ _ _).mp
    (by decide : (sample_vec4.insert 4 sample_vector3 (sample_vec4.iter 4 1) 1 (bytes32 9) >>=
      fun a => (pure (decide (a.1.2.size = 5)) : Outcome Bool)) = .ok true)
  obtain ⟨c, hcok, hc⟩ := (bind_eq_ok _ _ _).mp
    (by decide : (sample_vec4.erase 4 sample_vector3 (sample_vec4.iter 4 1) >>=
      fun a => (pure (decide (a.1.2.size = 3)) : Outcome Bool)) = .ok true)
  obtain ⟨d, hdok, hd⟩ := (bind_eq_ok _ _ _).mp
    (by decide : (sample_vec4.assign 4 sample_vector3 [bytes32 7, bytes32 8] >>=
      fun a => (pure (decide (a.1.size = 2)) : Outcome Bool)) = .ok true)
  obtain ⟨e, heok, he⟩ := (bind_eq_ok _ _ _).mp
    (by decide : (sample_vec4.erase_range 4 sample_vector3 (sample_vec4.iter 4 0)
      (sample_vec4.iter 4 3) >>=
      fun a => (pure (decide (a.1.2.size = 1)) : Outcome Bool)) = .ok true)
  obtain ⟨f, hfok, hf⟩ := (bind_eq_ok _ _ _).mp
    (by decide : (sample_vec4.reserve 4 sample_vector3 8 >>=
      fun a => (pure (decide (a.1.size = 4)) : Outcome Bool)) = .ok true)
  obtain ⟨g, hgok, hg⟩ := (bind_eq_ok _ _ _).mp
    (by decide : (sample_vec4.shrink_to_fit 4 sample_vector3 >>=
      fun a => (pure (decide (a.1.size = 4)) : Outcome Bool)) = .ok true)
  exact ⟨by decide, by decide, by decide, h.1,
    ⟨a.1, a.2, hok, of_decide_eq_true (Outcome.ok.inj ha), h.2.1 _ a.1 a.2 (by decide) hok⟩,
    ⟨b.1.1, b.1.2, b.2, hbok, of_decide_eq_true (Outcome.ok.inj hb),
      h.2.2.1 1 1 _ b.1.1 b.1.2 b.2 (by decide) hbok⟩,
    ⟨d.1, d.2, hdok, of_decide_eq_true (Outcome.ok.inj hd),
      h.2.2.2.1 _ d.1 d.2 (by decide) hdok⟩,
    ⟨c.1.1, c.1.2, c.2, hcok, of_decide_eq_true (Outcome.ok.inj hc),
      h.2.2.2.2.1 1 c.1.1 c.1.2 c.2 (by decide) hcok⟩,
    ⟨e.1.1, e.1.2, e.2, heok, of_decide_eq_true (Outcome.ok.inj he),
      h.2.2.2.2.2.1 0 3 e.1.1 e.1.2 e.2 (by decide) (by decide) heok⟩,
    by decide, h.2.2.2.2.2.2.1 (by decide), by decide, h.2.2.2.2.2.2.2.1,
    ⟨f.1, f.2, hfok, of_decide_eq_true (Outcome.ok.inj hf),
      h.2.2.2.2.2.2.2.2.1 8 f.1 f.2 (by decide) hfok⟩,
    ⟨g.1, g.2, hgok, of_decide_eq_true (Outcome.ok.inj hg),
      h.2.2.2.2.2.2.2.2.2 g.1 g.2 hgok⟩⟩

/-! ## Insertion into a vector -/

/-- C22 (the code departs from it): on the 96 byte buffer `sample_layout`, which
`validate_layout` accepts, `free(ref, data)` is called on a `Reference<uint32_t>` with the
offset 112, a multiple of 16 that is at least 32.  `allocation_header` passes its first test
and reads `allocation->identifier` of the header at offset 96, which is the first byte after
the buffer: the read is outside the buffer, and the call neither fails with the buffer
unchanged nor succeeds.  With the offset 100, beyond the buffer and not a multiple of 16, the
call fails before any read; with the offset 32, the contents of the vector atom, it fails on
the identifier; with the offset 64, the contents of the reference atom, it succeeds. -/
theorem free_reads_outside :
    sample_layout.length = 96 ∧ validate_layout 0 sample_layout 96 = .ok true ∧
    is_aligned 112 = true ∧ (32 : Nat) ≤ 112 ∧
    detail.allocation_header 4 sample_layout { offset := 112 } 0 = .fault ∧
    free 4 sample_layout { offset := 112 } 0 = .fault ∧
    free 4 sample_layout { offset := 100 } 0 = .thrown sample_layout ∧
    free 4 sample_layout { offset := 32 } 0 = .thrown sample_layout ∧
    ((free 4 sample_layout { offset := 64 } 0 >>= fun r =>
      pure [r.1.offset, word r.2 48, word r.2 52]) : Outcome (List Nat)) =
      .ok [0, 32, AtomID.free] := by
  decide

/-- C33 (the code departs from it): on the 96 byte buffer `sample_vector3`, which
`validate_layout` accepts, the constructor `Vector<uint32_t>(ref, data)` is called with a
`VectorRef` of offset 112, a multiple of 16 that is at least 32, and count 0.
`allocation_header` passes its first test and reads `allocation->identifier` of the header at
offset 96, which is the first byte after the buffer: the read is outside the buffer, and the
constructor neither succeeds nor fails.  With the offset 100, beyond the buffer and not a
multiple of 16, it fails before any read; with the offset 64, the contents of the free atom,
it fails on the identifier; with the offset 32 and the count 5 it fails on the length, and
with the count 3 it succeeds. -/
theorem make_reads_outside :
    sample_vector3.length = 96 ∧ validate_layout 0 sample_vector3 96 = .ok true ∧
    is_aligned 112 = true ∧ (32 : Nat) ≤ 112 ∧
    detail.allocation_header_vector 4 sample_vector3 { offset := 112, count := 0 } 0 = .fault ∧
    Vector.make 4 sample_vector3 { offset := 112, count := 0 } 0 = .fault ∧
    Vector.make 4 sample_vector3 { offset := 100, count := 0 } 0 = .thrown sample_vector3 ∧
    Vector.make 4 sample_vector3 { offset := 64, count := 0 } 0 = .thrown sample_vector3 ∧
    Vector.make 4 sample_vector3 { offset := 32, count := 5 } 0 = .thrown sample_vector3 ∧
    Vector.make 4 sample_vector3 { offset := 32, count := 3 } 0 = .ok sample_vec3 := by
  decide

/-! ## A vector that grows by the exact length of a free atom -/

set_option maxRecDepth 1000000 in
/-- C24 (the code departs from it): the 240 byte buffer `sample_two_free`, which
`validate_layout` accepts, has a free atom of length 48 at offset 16, a reference atom at offset
64 and a free atom of length 128 at offset 96: room for a vector of 12 elements and more.  A
`Vector<uint32_t>` made of a null `VectorRef` without elements gets its values by `push_back`.
After the first four calls the capacity is 4, the vector atom at offset 16 has the length 32
and a free atom of length 16 follows it.  The fifth call grows the vector by 16 bytes, exactly
the length of that free atom: the capacity is 8, but the header of the reference atom at
offset 64 is `{0, 'free', 48}` afterwards and `validate_layout` rejects the buffer.  The
calls up to the eighth return with the capacity 8.  The ninth call asks for a new atom, and the
loop of `reserve_new` does not get past the header at offset 64, whose length is 0: the call
does not return, and there is no capacity 12 after it. -/
theorem push_back_exact_fit :
    ((do
      let v0 ← validate_layout 0 sample_two_free 240
      let r4 ← Vector.push_back_each 4 [bytes32 1, bytes32 2, bytes32 3, bytes32 4]
        null_vector sample_two_free
      let c4 ← r4.1.capacity 4 r4.2
      let r5 ← r4.1.push_back 4 r4.2 (bytes32 5)
      let c5 ← r5.1.capacity 4 r5.2
      let v5 ← validate_layout 0 r5.2 240
      let r8 ← Vector.push_back_each 4 [bytes32 6, bytes32 7, bytes32 8] r5.1 r5.2
      let c8 ← r8.1.capacity 4 r8.2
      pure [v0.toNat, word sample_two_free 16, word sample_two_free 64,
        word sample_two_free 68, word sample_two_free 96, word sample_two_free 100,
        r4.1.size, c4, word r4.2 16, word r4.2 48, word r4.2 52, word r4.2 64, word r4.2 68,
        r5.1.size, c5, word r5.2 16, word r5.2 64, word r5.2 68, word r5.2 72, v5.toNat,
        r8.1.size, c8]) : Outcome (List Nat)) =
      .ok [1, 48, 32, AtomID.reference, 128, AtomID.free,
        4, 4, 32, 16, AtomID.free, 32, AtomID.reference,
        5, 8, 48, 0, AtomID.free, 48, 0,
        8, 8] ∧
    ((do
      let r8 ← Vector.push_back_each 4 [bytes32 1, bytes32 2, bytes32 3, bytes32 4, bytes32 5,
        bytes32 6, bytes32 7, bytes32 8] null_vector sample_two_free
      r8.1.push_back 4 r8.2 (bytes32 9)) : Outcome (Vector × Buffer)) = .diverge := by
  decide

end data
